import Mathlib

/-!
# SynthaCorpus: a shallow embedding of the corpus generator core

Arrays are lists of natural numbers; an out-of-range store leaves the list
unchanged and an out-of-range load yields 0.  Machine words are naturals, with
the masks and shifts of the C source written out.  Calls of `exit(1)` are the
`none` result of an `Option`.  The uniform random generator `rand_val` is a
stream `rnd : Nat → Nat` together with the number `c` of draws consumed so far.
-/

namespace SynthaCorpus

/-! ## Definitions -/

/-! ### Machine integers -/

/-- Largest value of an `int`. -/
def INT_MAX : Nat := 2147483647

/-- The value of a `long long` after an arithmetic operation: the result
modulo `2^64`, taken in the range from `-2^63` to `2^63 - 1`. -/
def wrap64 (x : Int) : Int := (x + 2 ^ 63) % 2 ^ 64 - 2 ^ 63

/-! ### corpusGenerator.h -/

/-- Most significant bit of a posting: end of document. -/
def FINAL_POSTING_IN_DOC : Nat := 0x80000000

/-- Complement of the end-of-document bit within 32 bits. -/
def MASK_ALL_BUT_FINAL_POSTING_FLAG : Nat := 0x7FFFFFFF

/-- Start-of-n-gram flag. -/
def SON_FLAG : Nat := 0x40000000

/-- Continuation-of-n-gram flag. -/
def CON_FLAG : Nat := 0x20000000

/-- Either n-gram flag. -/
def NGRAM_FLAGS : Nat := 0x60000000

/-- The low 29 bits of a posting hold the term rank. -/
def TERM_RANK_MASK : Nat := 0x1FFFFFFF

/-- High five bytes of a doctable entry: offset into the occurrence array. -/
def doctable_pointer_mask : Nat := 0xFFFFFFFFFF000000

/-- Five bytes of ones, applied to a pointer before it is shifted into place. -/
def doctable_pointer_mask2 : Nat := 0xFFFFFFFFFF

/-- Low three bytes of a doctable entry: slots still available. -/
def doctable_slots_avail_mask : Nat := 0xFFFFFF

/-- Position of the pointer field in a doctable entry. -/
def doctable_pointer_shift : Nat := 24

/-- Bound of the retry loop of the placement functions. -/
def MAX_RANDOM_RETRIES : Nat := 5000

/-- The enum `term_type_t` of corpusGenerator.c. -/
inductive term_type_t where
  | TT_WORD
  | TT_NGRAM
  | TT_COOC
  | TT_BURST
  deriving DecidableEq, Repr

/-! ### shuffling.c -/

/-- The function `random_long_long(min, max)`: it exits when `max < min` or
`max - min < 1`, and otherwise returns `min + floor(r * (range + 1))` for a
uniform `r` in `[0,1)`.  The draw is the natural `raw`, and
`floor(r * (range + 1))` is `raw % (range + 1)`, which takes exactly the values
`0..range`. -/
def random_long_long (min max raw : Nat) : Option Nat :=
  if max < min ∨ max - min < 1 then none else some (min + raw % (max - min + 1))

/-- The three-assignment exchange `t = a[i]; a[i] = a[j]; a[j] = t`. -/
def swap_elts (a : List Nat) (i j : Nat) : List Nat :=
  let t := a.getD i 0
  (a.set i (a.getD j 0)).set j t

/-- The loop `for (i = 0; i < l; i++)` of `knuth_shuffle_uint`; the first
argument counts the iterations still to run, `l - i`. -/
def knuth_shuffle_uint_loop (m : Nat) (rnd : Nat → Nat) :
    Nat → Nat → Nat → List Nat → Option (List Nat × Nat)
  | 0, _, c, a => some (a, c)
  | n + 1, i, c, a =>
    match random_long_long (i + 1) m (rnd c) with
    | none => none
    | some j => knuth_shuffle_uint_loop m rnd n (i + 1) (c + 1) (swap_elts a i j)

/-- The function `knuth_shuffle_uint(array, num_elts)`; returns the shuffled
array and the new count of draws consumed. -/
def knuth_shuffle_uint (a : List Nat) (num_elts : Nat) (rnd : Nat → Nat) (c : Nat) :
    Option (List Nat × Nat) :=
  if num_elts < 2 then some (a, c)
  else
    let l := num_elts - 2
    let m := l + 1
    knuth_shuffle_uint_loop m rnd l 0 c a

/-! ### corpusGenerator.c: placement -/

/-- The mutable data of the placement engine: the doctable, the count of
non-full documents, the term occurrence array and the number of random draws
consumed.  The field `written` is a ghost trace: the indices of the occurrence
array stored to by the loop over `k`, in order. -/
structure PlaceState where
  doctable : List Nat
  nonfulls : Nat
  toa : List Nat
  written : List Nat
  c : Nat
  deriving Repr, DecidableEq

/-- The pointer field of a doctable entry, as read by the placement code. -/
def dt_pointer (e : Nat) : Nat := (e &&& doctable_pointer_mask) >>> doctable_pointer_shift

/-- The slots-available field of a doctable entry. -/
def dt_count (e : Nat) : Nat := e &&& doctable_slots_avail_mask

/-- The store `doctable[j] = ((pointer & mask2) << shift) | count`. -/
def dt_pack (pointer count : Nat) : Nat :=
  ((pointer &&& doctable_pointer_mask2) <<< doctable_pointer_shift) ||| count

/-- The loop `for (k = 0; k < term_len; k++)` of the placement functions; the
first argument counts the iterations still to run.  Returns pointer, count,
occurrence array and write trace, or `none` for the out-of-range exit. -/
def write_term (termids : List Nat) (term_type : term_type_t) (num_postings : Nat) :
    Nat → Nat → Nat → Nat → List Nat → List Nat → Option (Nat × Nat × List Nat × List Nat)
  | 0, _, pointer, count, toa, written => some (pointer, count, toa, written)
  | n + 1, k, pointer, count, toa, written =>
    if pointer ≥ num_postings then none
    else
      let v := termids.getD k 0
      let v := if term_type = term_type_t.TT_NGRAM then
          (if k = 0 then v ||| SON_FLAG else v ||| CON_FLAG) else v
      write_term termids term_type num_postings n (k + 1) (pointer + 1) (count - 1)
        (toa.set pointer v) (written ++ [pointer])

/-- The block run when a document has just become full: exchange with the last
non-full entry, decrement `nonfulls`, flag the last posting written. -/
def mark_full (s : PlaceState) (j pointer : Nat) : PlaceState :=
  let toa := s.toa.set (pointer - 1) (s.toa.getD (pointer - 1) 0 ||| FINAL_POSTING_IN_DOC)
  if s.nonfulls > 1 then
    let t := s.doctable.getD j 0
    let dt := s.doctable.set j (s.doctable.getD (s.nonfulls - 1) 0)
    { s with doctable := dt.set (s.nonfulls - 1) t, nonfulls := s.nonfulls - 1, toa := toa }
  else
    { s with nonfulls := s.nonfulls - 1, toa := toa }

/-- The retry loop `for (i = 0; i < MAX_RANDOM_RETRIES; i++)` shared by the two
placement functions; the first argument counts the retries left.  The result
is the outcome (0 placed, 1 all documents full, 2 retry limit exceeded) and the
new state, or `none` for an exit. -/
def place_retry (termids : List Nat) (term_len : Nat) (term_type : term_type_t)
    (num_postings : Nat) (rnd : Nat → Nat) : Nat → PlaceState → Option (Nat × PlaceState)
  | 0, s => some (2, s)
  | n + 1, s =>
    if s.nonfulls < 1 then some (1, s)
    else
      let pick : Option (Nat × Nat) :=
        if s.nonfulls = 1 then some (0, s.c)
        else (random_long_long 0 (s.nonfulls - 1) (rnd s.c)).map (fun j => (j, s.c + 1))
      match pick with
      | none => none
      | some (j, c1) =>
        let pointer := dt_pointer (s.doctable.getD j 0)
        let count := dt_count (s.doctable.getD j 0)
        if count ≥ term_len then
          match write_term termids term_type num_postings term_len 0 pointer count
              s.toa s.written with
          | none => none
          | some (pointer1, count1, toa1, written1) =>
            let s1 : PlaceState :=
              { doctable := s.doctable.set j (dt_pack pointer1 count1), nonfulls := s.nonfulls,
                toa := toa1, written := written1, c := c1 }
            if count1 = 0 then some (0, mark_full s1 j pointer1) else some (0, s1)
        else place_retry termids term_len term_type num_postings rnd n { s with c := c1 }

/-- The function `place_one_word_instance_in_a_random_document`. -/
def place_one_word_instance_in_a_random_document (termids : List Nat) (term_len : Nat)
    (term_type : term_type_t) (num_postings : Nat) (rnd : Nat → Nat) (s : PlaceState) :
    Option (Nat × PlaceState) :=
  place_retry termids term_len term_type num_postings rnd MAX_RANDOM_RETRIES s

/-- The loop `for (h = 0; h < num2generate; h++)` of
`place_postings_in_random_documents`; its body is the retry loop, and `outcome`
keeps the last non-zero value assigned. -/
def place_postings_loop (termids : List Nat) (term_len : Nat) (term_type : term_type_t)
    (num_postings : Nat) (rnd : Nat → Nat) : Nat → Nat → PlaceState → Option (Nat × PlaceState)
  | 0, outcome, s => some (outcome, s)
  | n + 1, outcome, s =>
    match place_retry termids term_len term_type num_postings rnd MAX_RANDOM_RETRIES s with
    | none => none
    | some (o, s1) =>
      place_postings_loop termids term_len term_type num_postings rnd n
        (if o = 0 then outcome else o) s1

/-- The function `place_postings_in_random_documents`. -/
def place_postings_in_random_documents (termids : List Nat) (term_len : Nat)
    (term_type : term_type_t) (num2generate num_postings : Nat) (rnd : Nat → Nat)
    (s : PlaceState) : Option (Nat × PlaceState) :=
  place_postings_loop termids term_len term_type num_postings rnd num2generate 0 s

/-- The loop of `plug_in_dt_pointers`: each entry keeps its length and receives
the running index as pointer. -/
def plug_in_dt_pointers_loop : List Nat → Nat → List Nat
  | [], _ => []
  | e :: rest, index =>
    let len3b := e &&& doctable_slots_avail_mask
    let pointer := index &&& doctable_pointer_mask2
    ((pointer <<< doctable_pointer_shift) ||| len3b) :: plug_in_dt_pointers_loop rest (index + len3b)

/-- The function `plug_in_dt_pointers`. -/
def plug_in_dt_pointers (doctable : List Nat) : List Nat :=
  plug_in_dt_pointers_loop doctable 0

/-! ### corpusGenerator.c: the term occurrence array -/

/-- The loop `for (i = 0; i < TOFS[trank - 1]; i++)` storing `trank` into the
intermediate array; the first argument counts the iterations still to run.
The sanity check that exits is the `none` result. -/
def fill_rank (trank postings_still_to_generate : Nat) :
    Nat → Nat → List Nat → Option (Nat × List Nat)
  | 0, occno, intermediate => some (occno, intermediate)
  | n + 1, occno, intermediate =>
    if occno ≥ postings_still_to_generate then none
    else fill_rank trank postings_still_to_generate n (occno + 1) (intermediate.set occno trank)

/-- The loop `for (trank = 1; trank <= vocab_size; trank++)` filling the
intermediate array; the first argument counts the ranks still to visit. -/
def fill_intermediate (TOFS : List Nat) (postings_still_to_generate : Nat) :
    Nat → Nat → Nat → List Nat → Option (Nat × List Nat)
  | 0, _, occno, intermediate => some (occno, intermediate)
  | n + 1, trank, occno, intermediate =>
    match fill_rank trank postings_still_to_generate (TOFS.getD (trank - 1) 0) occno
        intermediate with
    | none => none
    | some (occno1, intermediate1) =>
      fill_intermediate TOFS postings_still_to_generate n (trank + 1) occno1 intermediate1

/-- The loop `for (t = 0; t < postings_still_to_generate; t++)` placing one
posting per iteration; a non-zero outcome exits. -/
def place_intermediate (intermediate : List Nat) (num_postings : Nat) (rnd : Nat → Nat) :
    Nat → Nat → PlaceState → Option PlaceState
  | 0, _, s => some s
  | n + 1, t, s =>
    match place_one_word_instance_in_a_random_document (intermediate.drop t) 1
        term_type_t.TT_WORD num_postings rnd s with
    | none => none
    | some (outcome, s1) =>
      if outcome ≠ 0 then none
      else place_intermediate intermediate num_postings rnd n (t + 1) s1

/-- The function `create_and_fill_term_occurrence_array` when no n-grams file is
given (`synth_input_ngrams == NULL`).  Both arrays come zeroed from `cmalloc`. -/
def create_and_fill_term_occurrence_array (TOFS doctable : List Nat) (num_docs vocab_size
    num_postings : Nat) (rnd : Nat → Nat) : Option (List Nat) :=
  let rezo := List.replicate num_postings 0
  let postings_still_to_generate := num_postings
  let intermediate := List.replicate postings_still_to_generate 0
  match fill_intermediate TOFS postings_still_to_generate vocab_size 1 0 intermediate with
  | none => none
  | some (_, intermediate1) =>
    match knuth_shuffle_uint intermediate1 postings_still_to_generate rnd 0 with
    | none => none
    | some (intermediate2, c) =>
      match place_intermediate intermediate2 num_postings rnd postings_still_to_generate 0
          { doctable := doctable, nonfulls := num_docs, toa := rezo, written := [], c := c } with
      | none => none
      | some s =>
        let last := s.toa.getD (num_postings - 1) 0
        if last &&& FINAL_POSTING_IN_DOC = 0 then
          some (s.toa.set (num_postings - 1) (last ||| FINAL_POSTING_IN_DOC))
        else some s.toa

/-- Number of postings of an occurrence array whose rank field is `r`. -/
def count_rank (toa : List Nat) (r : Nat) : Nat :=
  toa.countP (fun p => p &&& TERM_RANK_MASK = r)

/-- The partition of the doctable by `nonfulls`: entries below it have slots
left, entries from it on have none. -/
def Partition (s : PlaceState) : Prop :=
  s.nonfulls ≤ s.doctable.length ∧
  ∀ j, j < s.doctable.length →
    (j < s.nonfulls → 0 < dt_count (s.doctable.getD j 0)) ∧
    (s.nonfulls ≤ j → dt_count (s.doctable.getD j 0) = 0)

/-- One call of a placement function with its arguments: either
`place_one_word_instance_in_a_random_document` or
`place_postings_in_random_documents`. -/
inductive PlacementCall where
  | one_instance (termids : List Nat) (term_len : Nat) (term_type : term_type_t)
  | postings (termids : List Nat) (term_len : Nat) (term_type : term_type_t) (num2generate : Nat)

/-- A sequence of placement calls run one after the other on the same doctable
and occurrence array.  Outcomes are not acted upon; an exit inside a call ends
the run with `none`. -/
def run_calls (num_postings : Nat) (rnd : Nat → Nat) :
    List PlacementCall → PlaceState → Option PlaceState
  | [], s => some s
  | PlacementCall.one_instance termids term_len term_type :: rest, s =>
    match place_one_word_instance_in_a_random_document termids term_len term_type
        num_postings rnd s with
    | none => none
    | some (_, s1) => run_calls num_postings rnd rest s1
  | PlacementCall.postings termids term_len term_type num2generate :: rest, s =>
    match place_postings_in_random_documents termids term_len term_type num2generate
        num_postings rnd s with
    | none => none
    | some (_, s1) => run_calls num_postings rnd rest s1

/-- Whether slot `i` is one of the slots still available of doctable entry `e`. -/
def in_region (i e : Nat) : Bool :=
  decide (dt_pointer e ≤ i ∧ i < dt_pointer e + dt_count e)

/-- Whether a posting bears the end-of-document flag. -/
def is_final (p : Nat) : Bool := decide (p &&& FINAL_POSTING_IN_DOC ≠ 0)

/-- For documents of the given lengths laid out one after the other from
`index`, the offsets one past the last slot of each document. -/
def doc_ends : List Nat → Nat → List Nat
  | [], _ => []
  | len :: rest, index => (index + len) :: doc_ends rest (index + len)

/-- The intermediate array as the source comment describes it: for each rank
from `trank` on, `TOFS[trank - 1]` copies of the rank. -/
def expand_ranks (TOFS : List Nat) : Nat → Nat → List Nat
  | 0, _ => []
  | n + 1, trank =>
    List.replicate (TOFS.getD (trank - 1) 0) trank ++ expand_ranks TOFS n (trank + 1)

/-- Facts about the placement state that do not depend on the order of the
doctable: the slots still available of the entries and the slots already
written partition the occurrence array, every entry stays inside its document,
and the postings written are the terms placed so far. -/
structure Layout (N : Nat) (ends placed : List Nat) (s : PlaceState) : Prop where
  len_toa : s.toa.length = N
  bound : ∀ e ∈ s.doctable, dt_pointer e + dt_count e ≤ N
  cover : ∀ i, i < N → s.written.count i + s.doctable.countP (in_region i) = 1
  wlt : ∀ w ∈ s.written, w < N
  total : (s.doctable.map dt_count).sum + s.written.length = N
  ends_mem : ∀ e ∈ s.doctable, dt_pointer e + dt_count e ∈ ends
  noend : ∀ e ∈ s.doctable, ∀ x ∈ ends,
    ¬ (dt_pointer e < x ∧ x < dt_pointer e + dt_count e)
  vals : s.written.map (fun w => s.toa.getD w 0 &&& MASK_ALL_BUT_FINAL_POSTING_FLAG)
    = placed.map (fun v => v &&& MASK_ALL_BUT_FINAL_POSTING_FLAG)

/-- Where the end-of-document flags are, provided the terms placed have bit 31
clear: on the written slots that end a document, one per full document. -/
def Flags (N : Nat) (ends placed : List Nat) (s : PlaceState) : Prop :=
  (∀ v ∈ placed, v < 2 ^ 31) →
    (∀ i, i < N → (is_final (s.toa.getD i 0) = true ↔ (0 < s.written.count i ∧ i + 1 ∈ ends))) ∧
    s.toa.countP is_final + s.nonfulls = s.doctable.length

/-- The invariant of unigram placement. -/
def UInv (N : Nat) (ends placed : List Nat) (s : PlaceState) : Prop :=
  Layout N ends placed s ∧ Partition s ∧ Flags N ends placed s

/-! ### termRepMethods.c and the writers of corpusGenerator.c -/

/-- Longest term representation, from termRepMethods.h. -/
def MAX_TERM_LEN : Nat := 15

/-- The do-while loop of `fill_in_term_repn_table_base26` for one slot: the
letters of the 0-based rank in base 26, least significant first; the first
argument bounds the iterations (the loop stops at `max_term_len` letters). -/
def base26_letters (max_term_len : Nat) : Nat → Nat → Nat → List Char
  | 0, _, _ => []
  | fuel + 1, len, trank =>
    if len ≥ max_term_len then []
    else
      let ch := Char.ofNat (97 + trank % 26)
      if trank / 26 > 0 then ch :: base26_letters max_term_len fuel (len + 1) (trank / 26)
      else [ch]

/-- The function `fill_in_term_repn_table_base26`: slot `t` receives the word of
the term whose rank, counted from 0, is `t`. -/
def fill_in_term_repn_table_base26 (vocab_size max_term_len : Nat) : List String :=
  (List.range vocab_size).map
    (fun t => String.mk (base26_letters max_term_len (max_term_len + 1) 0 t))

/-- The function `make_term_rep_table` for the method `base26`: `vocab_size`
slots of words followed by the slot of the UNKNOWN word. -/
def make_term_rep_table (vocab_size : Nat) : List String :=
  fill_in_term_repn_table_base26 vocab_size MAX_TERM_LEN ++ ["UNKNOWN"]

/-- The three lines with which both writers find the representation of a
posting: mask the rank, clamp it to `vocab_size`, index the table. -/
def lookup_term_rep (term_rep_table : List String) (vocab_size posting : Nat) : String :=
  let trank := posting &&& TERM_RANK_MASK
  let trank := if trank > vocab_size then vocab_size else trank
  term_rep_table.getD trank ""

/-- The loop of `write_synthetic_docs_tsv`; `out` is everything handed to
`buffered_write` so far. -/
def write_synthetic_docs_tsv_loop (term_rep_table : List String) (vocab_size : Nat)
    (include_docnums : Bool) (num_postings : Nat) : List Nat → Nat → Nat → String → String
  | [], _, _, out => out
  | posting :: rest, p, doxWritten, out =>
    let out := out ++ lookup_term_rep term_rep_table vocab_size posting
    if posting &&& FINAL_POSTING_IN_DOC ≠ 0 ∨ p = num_postings - 1 then
      let out := if include_docnums then out ++ "\t1\tDoc" ++ toString doxWritten ++ "\n"
        else out ++ "\t1\n"
      write_synthetic_docs_tsv_loop term_rep_table vocab_size include_docnums num_postings
        rest (p + 1) (doxWritten + 1) out
    else
      write_synthetic_docs_tsv_loop term_rep_table vocab_size include_docnums num_postings
        rest (p + 1) doxWritten (out ++ " ")

/-- The function `write_synthetic_docs_tsv`: the bytes written to the corpus. -/
def write_synthetic_docs_tsv (term_occurrence_array : List Nat) (num_postings : Nat)
    (term_rep_table : List String) (vocab_size : Nat) (include_docnums : Bool) : String :=
  write_synthetic_docs_tsv_loop term_rep_table vocab_size include_docnums num_postings
    (term_occurrence_array.take num_postings) 0 0 ""

/-- The format `%08lld` for a non-negative number. -/
def pad8 (n : Nat) : String :=
  String.mk (List.replicate (8 - (toString n).length) '0') ++ toString n

/-- The constant `MAX_DOC_LEN` of definitions.h: `docBuffer` is allocated with
`MAX_DOC_LEN + 1` bytes. -/
def MAX_DOC_LEN : Nat := 10485760

/-- How a call of `write_synthetic_docs_starc` ends: it returns, having handed
`out` to `buffered_write`; or `strcpy` stores a word beyond the end of
`docBuffer`; or the counter `int p` is incremented beyond `INT_MAX`. -/
inductive StarcWrite where
  | written (out : String)
  | buffer_overrun
  | counter_overflow
  deriving DecidableEq, Repr

/-- The loop `for (p = 0; p < num_postings; p++)` of
`write_synthetic_docs_starc`; `doc` is the contents of `docBuffer`, whose
length in bytes is `bytes_in_docBuffer`, and `out` everything handed to
`buffered_write` so far.  `strcpy` stores the word and its NUL from offset
`bytes_in_docBuffer` on: the NUL must land at an offset of at most
`MAX_DOC_LEN`. -/
def write_synthetic_docs_starc_loop (term_rep_table : List String) (vocab_size : Nat)
    (include_docnums : Bool) (num_postings : Nat) :
    List Nat → Nat → Nat → String → String → StarcWrite
  | [], _, _, _, out => StarcWrite.written out
  | posting :: rest, p, doxWritten, doc, out =>
    let doc := if doc.utf8ByteSize > 0 then doc ++ " " else doc
    let term_rep := lookup_term_rep term_rep_table vocab_size posting
    if doc.utf8ByteSize + term_rep.utf8ByteSize > MAX_DOC_LEN then StarcWrite.buffer_overrun
    else
      let doc := doc ++ term_rep
      if posting &&& FINAL_POSTING_IN_DOC ≠ 0 ∨ p = num_postings - 1 then
        let headerBuffer := "Doc" ++ pad8 doxWritten
        let out := if include_docnums then
            out ++ " " ++ toString headerBuffer.utf8ByteSize ++ "H " ++ headerBuffer
          else out
        let doc := doc ++ "\n"
        let out := out ++ " " ++ toString doc.utf8ByteSize ++ "D " ++ doc
        if p + 1 > INT_MAX then StarcWrite.counter_overflow
        else
          write_synthetic_docs_starc_loop term_rep_table vocab_size include_docnums
            num_postings rest (p + 1) (doxWritten + 1) "" out
      else if p + 1 > INT_MAX then StarcWrite.counter_overflow
      else
        write_synthetic_docs_starc_loop term_rep_table vocab_size include_docnums num_postings
          rest (p + 1) doxWritten doc out

/-- The function `write_synthetic_docs_starc`: the bytes written to the corpus
when the call returns. -/
def write_synthetic_docs_starc (term_occurrence_array : List Nat) (num_postings : Nat)
    (term_rep_table : List String) (vocab_size : Nat) (include_docnums : Bool) : StarcWrite :=
  write_synthetic_docs_starc_loop term_rep_table vocab_size include_docnums num_postings
    (term_occurrence_array.take num_postings) 0 0 "" ""

/-! ### corpusGenerator.c: the doctable made from the length histogram -/

/-- The loop `for (j = 0; j < *histoptr; j++)` of `create_doctable_from_histo`
for one length; the first argument counts the copies still to make.  The
result is the entries, the postings created and whether the function
returned from inside the loop.  Only `requested_postings - postings_created`
is computed in natural numbers: the loop is left as soon as `postings_created`
reaches `requested_postings`. -/
def create_copies (requested_postings num_docs : Nat) :
    Nat → Nat → List Nat → Nat → List Nat × Nat × Bool
  | 0, _, rezo, postings_created => (rezo, postings_created, false)
  | n + 1, len3b, rezo, postings_created =>
    let len3b := if len3b > requested_postings - postings_created then
        (requested_postings - postings_created) % 2 ^ 32 else len3b
    let rezo := rezo ++ [len3b]
    let postings_created := postings_created + len3b
    if postings_created ≥ requested_postings ∨ rezo.length ≥ num_docs then
      (rezo, postings_created, true)
    else create_copies requested_postings num_docs n len3b rezo postings_created

/-- The loop `for (i = 1; i <= count; i++)` of `create_doctable_from_histo` over
the counts of the histogram, the first one being the count of length `i`. -/
def create_lengths (requested_postings num_docs : Nat) :
    List Nat → Nat → List Nat → Nat → List Nat
  | [], _, rezo, _ => rezo
  | freq :: rest, i, rezo, postings_created =>
    if freq > 0 then
      let len3b := i &&& doctable_slots_avail_mask
      match create_copies requested_postings num_docs freq len3b rezo postings_created with
      | (rezo1, _, true) => rezo1
      | (rezo1, postings_created1, false) =>
        create_lengths requested_postings num_docs rest (i + 1) rezo1 postings_created1
    else create_lengths requested_postings num_docs rest (i + 1) rezo postings_created

/-- The function `create_doctable_from_histo`: `histo` lists the number of
documents of length 1, 2, ...; the result is the entries created (its length
is the new `*num_docs`). -/
def create_doctable_from_histo (histo : List Nat) (requested_postings num_docs : Nat) :
    List Nat :=
  create_lengths requested_postings num_docs histo 1 [] 0

/-- The document lengths a histogram describes, in increasing order: `freq`
copies of each length, the first count being that of length `i`. -/
def histo_lengths : List Nat → Nat → List Nat
  | [], _ => []
  | freq :: rest, i => List.replicate freq i ++ histo_lengths rest (i + 1)

/-- What `create_doctable_from_histo` does, told on the list of document
lengths: take the lengths one by one, shorten the one that would pass the
requested number of postings, stop when that number or `num_docs` entries are
reached. -/
def take_postings (requested_postings num_docs : Nat) : List Nat → List Nat → Nat → List Nat
  | [], rezo, _ => rezo
  | len :: rest, rezo, postings_created =>
    let len3b := if len > requested_postings - postings_created then
        requested_postings - postings_created else len
    if postings_created + len3b ≥ requested_postings ∨ rezo.length + 1 ≥ num_docs then
      rezo ++ [len3b]
    else take_postings requested_postings num_docs rest (rezo ++ [len3b])
      (postings_created + len3b)

/-! ### corpusGenerator.c: the TOFS array

The floating-point work of the head and of the middle segments is taken as
given: `head_limits` lists `(long long) floor(head_term_cumprobs[ht] *
dnum_postings)` for the head terms, and `mid_tf ms trank` is `(long long)
floor(tf)` for rank `trank` of middle segment `ms`.  The tail, whose doubles
are a quotient of two integers and its running remainder, is computed in exact
rational arithmetic.  `TOFS` holds unsigned 64-bit values, `posting` is a
`long long`, `trank` an unsigned 32-bit value. -/

/-- First and last rank of a middle segment, `(u_int)mid_seg_defns[ms].F` and
`(u_int)mid_seg_defns[ms].L`. -/
structure midseg_ranks where
  F : Nat
  L : Nat
  deriving Repr, DecidableEq

/-- A store `TOFS[index] = value` of a `long long` into the array of `u_ll`; an
index outside the array leaves it unchanged. -/
def store_ull (TOFS : List Nat) (index value : Int) : List Nat :=
  if index < 0 then TOFS else TOFS.set index.toNat (value % 2 ^ 64).toNat

/-- A load `TOFS[index]`. -/
def load_ull (TOFS : List Nat) (index : Int) : Int :=
  if index < 0 then 0 else (TOFS.getD index.toNat 0 : Nat)

/-- The loop over the head terms; the result is the array, `posting` and
`outcome` (1 after the premature end). -/
def head_loop (limit : Int) : List Int → Nat → List Nat → Int → List Nat × Int × Nat
  | [], _, TOFS, posting => (TOFS, posting, 0)
  | cumlimit :: rest, ht, TOFS, posting =>
    let posting_limit := if cumlimit > limit then limit else cumlimit
    let tf0 := posting_limit - posting
    if tf0 ≤ 0 then (TOFS, posting, 1)
    else head_loop limit rest (ht + 1) (store_ull TOFS ht tf0) (posting + tf0)

/-- The loop `for (trank = F; trank <= L; trank++)` over one middle segment; the
first argument counts the iterations still to run.  Returns the array,
`posting` and the value of `trank` on leaving the loop. -/
def middle_ranks (limit : Int) (tf : Nat → Int) :
    Nat → Nat → List Nat → Int → List Nat × Int × Nat
  | 0, trank, TOFS, posting => (TOFS, posting, trank)
  | n + 1, trank, TOFS, posting =>
    let tf0 := tf trank
    let tf0 := if posting + tf0 > limit then limit - posting else tf0
    middle_ranks limit tf n ((trank + 1) % 2 ^ 32) (store_ull TOFS ((trank : Int) - 1) tf0)
      (posting + tf0)

/-- The loop `for (ms = 0; ms < mid_segs; ms++)`. -/
def middle_loop (limit : Int) (mid_tf : Nat → Nat → Int) :
    List midseg_ranks → Nat → Nat → List Nat → Int → List Nat × Int × Nat
  | [], _, trank, TOFS, posting => (TOFS, posting, trank)
  | seg :: rest, ms, _, TOFS, posting =>
    match middle_ranks limit (mid_tf ms) (seg.L + 1 - seg.F) seg.F TOFS posting with
    | (TOFS1, posting1, trank1) => middle_loop limit mid_tf rest (ms + 1) trank1 TOFS1 posting1

/-- The loop `for (t = 0; t < terms_to_alter; t++)` taking postings away from
the first terms; the first argument counts the iterations still to run.
Returns the array, `tail_postings_needed` and `posting`. -/
def adjust_loop (adjustment : Int) :
    Nat → Nat → List Nat → Int → Int → Int → List Nat × Int × Int
  | 0, _, TOFS, _, tail_postings_needed, posting => (TOFS, tail_postings_needed, posting)
  | n + 1, t, TOFS, total_adjustment_required, tail_postings_needed, posting =>
    let TOFS := store_ull TOFS t (load_ull TOFS t - adjustment)
    let tail_postings_needed := tail_postings_needed + adjustment
    let total_adjustment_required := total_adjustment_required - adjustment
    let posting := posting - adjustment
    if total_adjustment_required ≤ 0 then (TOFS, tail_postings_needed, posting)
    else adjust_loop adjustment n (t + 1) TOFS total_adjustment_required tail_postings_needed
      posting

/-- The loop `while (trank <= *vocab_size)` over the tail; the first argument
counts the iterations still to run. -/
def tail_loop (limit : Int) (ave_tail_tf : ℚ) :
    Nat → Nat → ℚ → List Nat → Int → List Nat × Int × Nat
  | 0, trank, _, TOFS, posting => (TOFS, posting, trank)
  | n + 1, trank, carry, TOFS, posting =>
    let tf := ave_tail_tf + carry
    let tf0 : Int := ⌊tf⌋
    let carry := tf - tf0
    let tf0 := if posting + tf0 > limit then limit - posting else tf0
    tail_loop limit ave_tail_tf n ((trank + 1) % 2 ^ 32) carry
      (store_ull TOFS ((trank : Int) - 1) tf0) (posting + tf0)

/-- The function `create_and_fill_TOFS_array`. -/
def create_and_fill_TOFS_array (num_postings vocab_size : Nat) (head_limits : List Int)
    (mid_seg_defns : List midseg_ranks) (mid_tf : Nat → Nat → Int) : List Nat :=
  let limit : Int := num_postings
  let TOFS := List.replicate vocab_size 0
  match head_loop limit head_limits 0 TOFS 0 with
  | (TOFS, _, 1) => TOFS
  | (TOFS, posting, _) =>
    match middle_loop limit mid_tf mid_seg_defns 0 0 TOFS posting with
    | (TOFS, posting, trank) =>
      let tail_postings_needed : Int := num_postings - posting
      let tail_vocab_needed : Int := ((vocab_size : Int) - trank) % 2 ^ 32
      let adjusted : List Nat × Int × Int :=
        if tail_vocab_needed > tail_postings_needed then
          let total_adjustment_required := tail_vocab_needed - tail_postings_needed
          let terms_to_alter := if 1000 > vocab_size / 100 then vocab_size / 100 + 1 else 1000
          let adjustment := total_adjustment_required / (terms_to_alter : Int) + 1
          adjust_loop adjustment terms_to_alter 0 TOFS total_adjustment_required
            tail_postings_needed posting
        else (TOFS, tail_postings_needed, posting)
      match adjusted with
      | (TOFS, tail_postings_needed, posting) =>
        let ave_tail_tf : ℚ := (tail_postings_needed : ℚ) / (tail_vocab_needed : ℚ)
        let trank := (trank + 1) % 2 ^ 32
        match tail_loop limit ave_tail_tf (vocab_size + 1 - trank) trank 0 TOFS posting with
        | (TOFS, posting, trank) =>
          if (num_postings : Int) > posting then
            store_ull TOFS ((trank : Int) - 2)
              (load_ull TOFS ((trank : Int) - 2) + ((num_postings : Int) - posting))
          else TOFS

/-! ### shuffling.c: the phrase-respecting shuffle -/

/-- The scan `while (array[k] & CON_FLAG) {k++; gramlen++;}` applied to the
postings from `array[k]` on: how many leading postings bear `CON_FLAG`.  A read
past the end of the list yields no flag. -/
def con_run : List Nat → Nat
  | [] => 0
  | x :: rest => if x &&& CON_FLAG ≠ 0 then con_run rest + 1 else 0

/-- The check loop `for (k = 0; k < gramlen; k++) if (array[j + k] & NGRAM_FLAGS)`:
whether one of the `gramlen` postings from index `j` bears an n-gram flag. -/
def swappee_flagged (a : List Nat) : Nat → Nat → Bool
  | 0, _ => false
  | n + 1, j => if a.getD j 0 &&& NGRAM_FLAGS ≠ 0 then true else swappee_flagged a n (j + 1)

/-- The exchange loop
`for (k = 0; k < gramlen; k++) { t = array[i + k]; array[i + k] = array[j]; array[j++] = t; }`;
the first argument counts the iterations still to run. -/
def swap_grams : Nat → Nat → Nat → List Nat → List Nat
  | 0, _, _, a => a
  | n + 1, i, j, a => swap_grams n (i + 1) (j + 1) (swap_elts a i j)

/-- The choice `if (lo == hi) j = hi; else j = random_long_long(lo, hi);` made
in both branches of the shuffle; returns `j` and the new count of draws. -/
def choose_swappee (lo hi : Nat) (rnd : Nat → Nat) (c : Nat) : Option (Nat × Nat) :=
  if lo = hi then some (hi, c)
  else
    match random_long_long lo hi (rnd c) with
    | none => none
    | some j => some (j, c + 1)

/-- The loop `for (i = 0; i < l; i++)` of `knuth_shuffle_uint_respect_phrases`
on the sub-array that starts at offset `base` of `a`.  The body changes `i`, so
the loop is driven by a count of iterations allowed (first numeric argument),
at most `l` being ever needed since every iteration increases `i`.  The value
`k = m - gramlen + 1` is computed in truncated subtraction: when the signed
value is negative the test `i + gramlen > k` holds either way. -/
def respect_phrases_loop (base m l : Nat) (rnd : Nat → Nat) :
    Nat → Nat → Nat → List Nat → Option (List Nat × Nat)
  | 0, _, c, a => some (a, c)
  | n + 1, i, c, a =>
    if ¬ i < l then some (a, c)
    else if a.getD (base + i) 0 &&& CON_FLAG ≠ 0 then
      respect_phrases_loop base m l rnd n (i + 1) c a
    else if a.getD (base + i) 0 &&& SON_FLAG ≠ 0 then
      let gramlen := 1 + con_run (a.drop (base + i + 1))
      let k := m + 1 - gramlen
      if i + gramlen > k then some (a, c)
      else
        match choose_swappee (i + gramlen) k rnd c with
        | none => none
        | some (j, c1) =>
          if swappee_flagged a gramlen (base + j) then
            respect_phrases_loop base m l rnd n (i + 1) c1 a
          else
            respect_phrases_loop base m l rnd n (i + gramlen) c1
              (swap_grams gramlen (base + i) (base + j) a)
    else
      match choose_swappee (i + 1) m rnd c with
      | none => none
      | some (j, c1) =>
        if a.getD (base + j) 0 &&& NGRAM_FLAGS ≠ 0 then
          respect_phrases_loop base m l rnd n (i + 1) c1 a
        else
          respect_phrases_loop base m l rnd n (i + 1) c1 (swap_elts a (base + i) (base + j))

/-- The function `knuth_shuffle_uint_respect_phrases(array + base, num_elts)`;
returns the array and the new count of draws consumed, `none` when
`random_long_long` exits. -/
def knuth_shuffle_uint_respect_phrases (a : List Nat) (base num_elts : Nat)
    (rnd : Nat → Nat) (c : Nat) : Option (List Nat × Nat) :=
  if num_elts < 2 then some (a, c)
  else
    let l := num_elts - 2
    let m := l + 1
    respect_phrases_loop base m l rnd l 0 c a

/-! ### corpusGenerator.c: shuffle_terms_within_docs -/

/-- The scan
`while (end < num_postings && !(term_occurrence_array[end] & FINAL_POSTING_IN_DOC)) end++;`
the first numeric argument counts the iterations allowed. -/
def find_doc_end (a : List Nat) (num_postings : Nat) : Nat → Nat → Nat
  | 0, e => e
  | n + 1, e =>
    if e < num_postings ∧ a.getD e 0 &&& FINAL_POSTING_IN_DOC = 0 then
      find_doc_end a num_postings n (e + 1)
    else e

/-- The loop `while (start < num_postings)` of `shuffle_terms_within_docs`; the
first numeric argument counts the iterations allowed, `start` growing in each. -/
def shuffle_docs_loop (num_postings : Nat) (rnd : Nat → Nat) :
    Nat → Nat → Nat → List Nat → Option (List Nat × Nat)
  | 0, _, c, a => some (a, c)
  | n + 1, start, c, a =>
    if ¬ start < num_postings then some (a, c)
    else
      let e := find_doc_end a num_postings (num_postings - start) start
      if a.getD e 0 &&& FINAL_POSTING_IN_DOC ≠ 0 then
        if e - start > 2 then
          let a1 := a.set e (a.getD e 0 &&& MASK_ALL_BUT_FINAL_POSTING_FLAG)
          match knuth_shuffle_uint_respect_phrases a1 start (e - start + 1) rnd c with
          | none => none
          | some (a2, c2) =>
            shuffle_docs_loop num_postings rnd n (e + 1) c2
              (a2.set e (a2.getD e 0 ||| FINAL_POSTING_IN_DOC))
        else shuffle_docs_loop num_postings rnd n (e + 1) c a
      else shuffle_docs_loop num_postings rnd n (e + 1) c a

/-- The function `shuffle_terms_within_docs(term_occurrence_array, num_postings)`. -/
def shuffle_terms_within_docs (a : List Nat) (num_postings : Nat) (rnd : Nat → Nat)
    (c : Nat) : Option (List Nat × Nat) :=
  shuffle_docs_loop num_postings rnd num_postings 0 c a

/-- The n-gram instances of an array, read from the right: the pending run of
continuation postings not yet attached to a posting without `CON_FLAG`, and the
groups found so far, each a posting without `CON_FLAG` followed by the
continuation postings after it. -/
def phrases_from : List Nat → List Nat × List (List Nat)
  | [] => ([], [])
  | x :: rest =>
    let r := phrases_from rest
    if x &&& CON_FLAG ≠ 0 then (x :: r.1, r.2) else ([], (x :: r.1) :: r.2)

/-- The list of groups of an array, in order: a posting without `CON_FLAG`
with the continuation postings that follow it; a plain posting is a group of
one, an n-gram instance a group of its length.  Continuation postings at the
very start form a group of their own. -/
def phrases (a : List Nat) : List (List Nat) :=
  let r := phrases_from a
  if r.1 = [] then r.2 else r.1 :: r.2

/-- The check of the phrase structure from left to right, `prev` telling
whether the posting before bears `SON_FLAG` or `CON_FLAG` (false at the start
of the array): a posting with `CON_FLAG` is accepted only after such a posting. -/
def phrased_from : Bool → List Nat → Bool
  | _, [] => true
  | prev, x :: rest =>
    (decide (x &&& CON_FLAG = 0) || prev) && phrased_from (decide (x &&& NGRAM_FLAGS ≠ 0)) rest

/-- The precondition on the phrase structure: every continuation posting
follows a start-of-n-gram or a continuation posting. -/
def phrased (a : List Nat) : Bool := phrased_from false a

/-- The frame of a shuffle of the `n` slots from `base`: same length, a
permutation, and nothing changed outside the window. -/
def Within (base n : Nat) (a1 a : List Nat) : Prop :=
  a1.length = a.length ∧ a1.Perm a ∧
  ∀ x, (x < base ∨ base + n ≤ x) → a1.getD x 0 = a.getD x 0

/-- The postings of slots `s..e` of the array. -/
def doc_slice (a : List Nat) (s e : Nat) : List Nat := (a.drop s).take (e + 1 - s)

/-- What one iteration of `shuffle_terms_within_docs` keeps for the document
in slots `s..e`: the length of the array, every slot outside the document, the
end-of-document flag of every slot, and the document's postings without that
flag, as a multiset. -/
def DocKept (s e : Nat) (a1 a : List Nat) : Prop :=
  a1.length = a.length ∧
  (∀ x, (x < s ∨ e < x) → a1.getD x 0 = a.getD x 0) ∧
  (∀ x, is_final (a1.getD x 0) = is_final (a.getD x 0)) ∧
  ((doc_slice a1 s e).map (fun p => p &&& MASK_ALL_BUT_FINAL_POSTING_FLAG)).Perm
    ((doc_slice a s e).map (fun p => p &&& MASK_ALL_BUT_FINAL_POSTING_FLAG))

/-! ### MarkovWords.c: training of the transition matrices

The arrays of doubles are maps from the element index to an exact rational;
`cmalloc` zeroes them.  The flag `eow` is `USE_MODIFIED_MARKOV_WITH_END_SYMBOL`;
`markov_use_within_vocab_probs` is TRUE, so that `freak` is 1. -/

/-- Largest order of a Markov model. -/
def MAX_MARKOV_K : Nat := 7

/-- Number of logarithmic rank buckets (termRepMethods.h). -/
def NUM_RANK_BUCKETS : Nat := 9

/-- The end-of-word symbol, the character `$`. -/
def EOW : Nat := 36

/-- Value of `col_map` for a character outside the alphabet. -/
def CHAR_NOT_IN_ALPHABET : Int := -1

/-- The size `A` of the alphabet of columns set by `define_alphabet_lc_ascii`:
26 letters, and the end-of-word symbol when it is in use. -/
def A_alphabet_size ( eow : Bool) : Nat := if eow then 27 else 26

/-- The size `E` of the alphabet of rows set by `define_alphabet_lc_ascii`:
the start symbol and 26 letters. -/
def E_alphabet_size : Nat := 27

/-- The table `col_map` after `define_alphabet_lc_ascii`: the letters `a..z`
map to columns 0..25, the end-of-word symbol to column 26 when in use. -/
def col_map ( eow : Bool) (ch : Nat) : Int :=
  if 97 ≤ ch ∧ ch ≤ 122 then (ch : Int) - 97
  else if eow = true ∧ ch = EOW then 26
  else CHAR_NOT_IN_ALPHABET

/-- The table `row_map` after `define_alphabet_lc_ascii`: the start symbol
(code 0) maps to row 0, the letters `a..z` to rows 1..26; the other entries of
the static array keep their initial 0.  No entry is negative. -/
def row_map (ch : Nat) : Nat := if 97 ≤ ch ∧ ch ≤ 122 then ch - 96 else 0

/-- The assignment `array[i] = v` on an array of doubles. -/
def store (m : Nat → ℚ) (i : Nat) (v : ℚ) : Nat → ℚ := fun x => if x = i then v else m x

/-- The pointer `Markov[k]` as an offset into `transition_matrices`: the
matrices of orders below `k` hold `A`, `A * E`, ... elements. -/
def Markov ( eow : Bool) : Nat → Nat
  | 0 => 0
  | k + 1 => Markov eow k + A_alphabet_size eow * E_alphabet_size ^ k

/-- The loop `for (i = 0; i < k; i++)` of `calculate_row_index` on the bytes
from offset `p` of the buffer; `none` is the exit on a row number out of range. -/
def row_index_loop (buf : List Nat) (p : Nat) : Nat → Nat → Nat → Option Nat
  | 0, _, index => some index
  | n + 1, i, index =>
    let rm := row_map (buf.getD (p + i) 0)
    if rm ≥ E_alphabet_size then none
    else row_index_loop buf p n (i + 1) (index * E_alphabet_size + rm)

/-- The function `calculate_row_index(p, k)`: the element index of the start of
the row of the context of `k` bytes at `p`. -/
def calculate_row_index ( eow : Bool) (buf : List Nat) (p k : Nat) : Option Nat :=
  if k = 0 then some 0
  else
    match row_index_loop buf p k 0 0 with
    | none => none
    | some index => some (index * A_alphabet_size eow)

/-- The test `isalpha` on a byte, in the C locale. -/
def isalpha (ch : Nat) : Bool := decide ((65 ≤ ch ∧ ch ≤ 90) ∨ (97 ≤ ch ∧ ch ≤ 122))

/-- The function `tolower` on a byte, in the C locale. -/
def tolower (ch : Nat) : Nat := if 65 ≤ ch ∧ ch ≤ 90 then ch + 32 else ch

/-- The start of the loop body of `setup_transition_matrices` on one line
read by `fgets`: skip to the first byte below the space character (the end of
the list being the terminating NUL), exit unless it is a TAB, then squeeze out
the non-letters before it and lower-case the rest. -/
def squeeze_word (line : List Nat) : Option (List Nat) :=
  if (line.dropWhile (fun ch => decide (32 ≤ ch))).head? = some 9 then
    some (((line.takeWhile (fun ch => decide (32 ≤ ch))).filter isalpha).map tolower)
  else none

/-- The loop `for (i = 0; i < l; i++) letter_frequencies[col_map[linebuf[i]]] += freak`. -/
def count_letters ( eow : Bool) (w : List Nat) : Nat → Nat → (Nat → ℚ) → (Nat → ℚ)
  | 0, _, lf => lf
  | n + 1, i, lf =>
    let col_index := (col_map eow (w.getD i 0)).toNat
    count_letters eow w n (i + 1) (store lf col_index (lf col_index + 1))

/-- The loop `for (i = 0; i < l; i++)` over the contexts of order `k` of one
word: `bp` is the offset of the pointer `bp` in `wd_buf`, `mk` that of
`Markov[k]` in the storage. -/
def count_transitions ( eow : Bool) (k : Nat) (buf : List Nat) (bp mk : Nat) :
    Nat → Nat → (Nat → ℚ) → Option (Nat → ℚ)
  | 0, _, tm => some tm
  | n + 1, i, tm =>
    match calculate_row_index eow buf (bp + i) k with
    | none => none
    | some row_index =>
      let col_index := col_map eow (buf.getD (bp + i + k) 0)
      if col_index < 0 ∨ col_index ≥ (A_alphabet_size eow : Int) then none
      else
        count_transitions eow k buf bp mk n (i + 1)
          (store tm (mk + row_index + col_index.toNat)
            (tm (mk + row_index + col_index.toNat) + 1))

/-- The transition to the end-of-word symbol, counted when it is in use. -/
def count_end_of_word ( eow : Bool) (k : Nat) (buf : List Nat) (bp mk l : Nat)
    (tm : Nat → ℚ) : Option (Nat → ℚ) :=
  if eow = true then
    match calculate_row_index eow buf (bp + l) k with
    | none => none
    | some row_index =>
      some (store tm (mk + row_index + (col_map eow EOW).toNat)
        (tm (mk + row_index + (col_map eow EOW).toNat) + 1))
  else some tm

/-- The loop `for (k = 1; k <= Markov_order; k++)` over the orders, for one
word of length `l` copied to `real_buf = wd_buf + MAX_MARKOV_K`. -/
def count_orders ( eow : Bool) (buf : List Nat) (l : Nat) :
    Nat → Nat → (Nat → ℚ) → Option (Nat → ℚ)
  | 0, _, tm => some tm
  | n + 1, k, tm =>
    match count_transitions eow k buf (MAX_MARKOV_K - k) (Markov eow k) l 0 tm with
    | none => none
    | some tm1 =>
      match count_end_of_word eow k buf (MAX_MARKOV_K - k) (Markov eow k) l tm1 with
      | none => none
      | some tm2 => count_orders eow buf l n (k + 1) tm2

/-- The arrays `letter_frequencies` and `transition_matrices`. -/
structure MarkovState where
  letter_frequencies : Nat → ℚ
  transition_matrices : Nat → ℚ

/-- The loop `while (fgets(linebuf, 1000, VF) != NULL)` over the lines of the
training file.  The rank bucket `floor(log10(wds_read))` reaches
`NUM_RANK_BUCKETS` when `wds_read` reaches `10 ^ NUM_RANK_BUCKETS`. -/
def train_loop ( eow : Bool) (K : Nat) : List (List Nat) → Nat → MarkovState → Option MarkovState
  | [], _, s => some s
  | line :: rest, wds_read, s =>
    match squeeze_word line with
    | none => none
    | some w =>
      if w.length = 0 then train_loop eow K rest (wds_read + 1) s
      else if w.length > MAX_TERM_LEN then none
      else if wds_read + 1 ≥ 10 ^ NUM_RANK_BUCKETS then none
      else
        let lf := count_letters eow w w.length 0 s.letter_frequencies
        let lf1 :=
          if eow = true then
            store lf (col_map eow EOW).toNat (lf (col_map eow EOW).toNat + 1)
          else lf
        match count_orders eow (List.replicate MAX_MARKOV_K 0 ++ w ++ [0]) w.length K 1
            s.transition_matrices with
        | none => none
        | some tm =>
          train_loop eow K rest (wds_read + 1)
            { letter_frequencies := lf1, transition_matrices := tm }

/-- The loop `for (i = 0; i < A; i++) transition_matrix[i] = letter_frequencies[i]`
on `Markov[0]`. -/
def copy_letter_frequencies (lf : Nat → ℚ) : Nat → Nat → (Nat → ℚ) → (Nat → ℚ)
  | 0, _, tm => tm
  | n + 1, i, tm => copy_letter_frequencies lf n (i + 1) (store tm i (lf i))

/-- The function `setup_transition_matrices` up to the call of
`convert_transition_matrices_to_probs`: the matrices of counts. -/
def trained_counts ( eow : Bool) (K : Nat) (lines : List (List Nat)) : Option (Nat → ℚ) :=
  if K > MAX_MARKOV_K then none
  else
    match train_loop eow K lines 0
        { letter_frequencies := fun _ => 0, transition_matrices := fun _ => 0 } with
    | none => none
    | some s =>
      some (copy_letter_frequencies s.letter_frequencies (A_alphabet_size eow) 0
        s.transition_matrices)

/-! ### MarkovWords.c: conversion to cumulative probabilities -/

/-- The loop `for (j = 0; j < A; j++) row_sum += transition_matrix[start_of_row + j]`
after `n` iterations. -/
def sum_row (tm : Nat → ℚ) (start : Nat) : Nat → ℚ
  | 0 => 0
  | n + 1 => sum_row tm start n + tm (start + n)

/-- The loop filling in the cumulative probabilities of the row at `start`;
`backoff` is the address `backoff_matrix + backstart`, `none` while
`backoff_matrix` is NULL, and reading through it then ends the run. -/
def fill_row (row_sum : ℚ) (start : Nat) (backoff : Option Nat) :
    Nat → Nat → ℚ → (Nat → ℚ) → Option (ℚ × (Nat → ℚ))
  | 0, _, cumprob, tm => some (cumprob, tm)
  | n + 1, j, cumprob, tm =>
    if row_sum > 1 / 1000000 then
      fill_row row_sum start backoff n (j + 1) (cumprob + tm (start + j) / row_sum)
        (store tm (start + j) (cumprob + tm (start + j) / row_sum))
    else
      match backoff with
      | none => none
      | some b =>
        fill_row row_sum start backoff n (j + 1) (tm (b + j)) (store tm (start + j) (tm (b + j)))

/-- The loop `for (j = 1; j < k; j++) backoff_power *= A_alphabet_size`; the
first argument counts the iterations still to run, `k - 1` at the start. -/
def backoff_power_loop ( eow : Bool) : Nat → Int → Int
  | 0, backoff_power => backoff_power
  | n + 1, backoff_power =>
    backoff_power_loop eow n (wrap64 (backoff_power * (A_alphabet_size eow : Int)))

/-- The variable `backoff_power` while the matrix of order `k` is converted:
it is set to 1 once, before the loop over the orders, and multiplied on in
every order. -/
def backoff_power_at ( eow : Bool) : Nat → Int
  | 0 => 1
  | k + 1 => backoff_power_loop eow k (backoff_power_at eow k)

/-- The address `backoff_matrix + backstart` chosen for a row without
observations: row 0 of `Markov[0]` with full backoff, otherwise row
`i % backoff_power` of `Markov[k - 1]`; `none` is the division by zero. -/
def backoff_address ( eow : Bool) (markov_full_backoff : Bool) (k i : Nat)
    (backoff_power : Int) : Option Nat :=
  if markov_full_backoff = true then some (Markov eow 0 + 0 * A_alphabet_size eow)
  else if backoff_power = 0 then none
  else some (Markov eow (k - 1) + ((i : Int) % backoff_power).toNat * A_alphabet_size eow)

/-- The loop `for (i = 0; i < num_rows; i++)` of
`convert_transition_matrices_to_probs` on the matrix of order `k` at offset
`mk`; the backoff address is carried from row to row as the variables
`backoff_matrix` and `backstart` are. -/
def convert_rows ( eow : Bool) (markov_full_backoff : Bool) (k mk : Nat) (backoff_power : Int) :
    Nat → Nat → Option Nat → (Nat → ℚ) → Option (Option Nat × (Nat → ℚ))
  | 0, _, backoff, tm => some (backoff, tm)
  | n + 1, i, backoff, tm =>
    let start_of_row := i * A_alphabet_size eow
    let row_sum := sum_row tm (mk + start_of_row) (A_alphabet_size eow)
    let backoff1 : Option (Option Nat) :=
      if row_sum ≤ 1 / 1000000 ∧ k > 0 then
        (backoff_address eow markov_full_backoff k i backoff_power).map some
      else some backoff
    match backoff1 with
    | none => none
    | some b1 =>
      match fill_row row_sum (mk + start_of_row) b1 (A_alphabet_size eow) 0 0 tm with
      | none => none
      | some r => convert_rows eow markov_full_backoff k mk backoff_power n (i + 1) b1 r.2

/-- The loop `for (k = 0; k <= Markov_order; k++)` of
`convert_transition_matrices_to_probs`. -/
def convert_orders ( eow : Bool) (markov_full_backoff : Bool) :
    Nat → Nat → Nat → Int → Option Nat → (Nat → ℚ) → Option (Nat → ℚ)
  | 0, _, _, _, _, tm => some tm
  | n + 1, k, num_rows, backoff_power, backoff, tm =>
    let num_rows1 := if k > 0 then num_rows * E_alphabet_size else num_rows
    let backoff_power1 := backoff_power_loop eow (k - 1) backoff_power
    match convert_rows eow markov_full_backoff k (Markov eow k) backoff_power1 num_rows1 0
        backoff tm with
    | none => none
    | some r => convert_orders eow markov_full_backoff n (k + 1) num_rows1 backoff_power1 r.1 r.2

/-- The ways the loops of `check_transition_matrices` end: all rows passed and
`end_of_row` is returned, a last column lies outside `[0.999999, 1.000001]`
and the function exits, or the increment of the `int` counter `r` leaves the
range of `int`. -/
inductive CheckEnd where
  | passed (end_of_row : Nat)
  | bad_row
  | counter_overflow
  deriving DecidableEq, Repr

/-- The inner loop `for (r = 0; r < num_rows; r++)` of
`check_transition_matrices`: the first argument is `num_rows - r`, and
`end_of_row` advances by one row at a time. -/
def check_rows ( eow : Bool) (tm : Nat → ℚ) : Nat → Nat → Nat → CheckEnd
  | 0, _, end_of_row => CheckEnd.passed end_of_row
  | n + 1, r, end_of_row =>
    if tm end_of_row < 999999 / 1000000 ∨ tm end_of_row > 1000001 / 1000000 then
      CheckEnd.bad_row
    else if r + 1 > INT_MAX then CheckEnd.counter_overflow
    else check_rows eow tm n (r + 1) (end_of_row + A_alphabet_size eow)

/-- The function `check_transition_matrices`, as its loop over the orders. -/
def check_transition_matrices ( eow : Bool) (tm : Nat → ℚ) : Nat → Nat → Nat → CheckEnd
  | 0, _, end_of_row => CheckEnd.passed end_of_row
  | n + 1, num_rows, end_of_row =>
    match check_rows eow tm num_rows 0 end_of_row with
    | CheckEnd.passed e => check_transition_matrices eow tm n (num_rows * E_alphabet_size) e
    | CheckEnd.bad_row => CheckEnd.bad_row
    | CheckEnd.counter_overflow => CheckEnd.counter_overflow

/-- The function `convert_transition_matrices_to_probs` for `Markov_order = K`;
it returns the matrices when the check at its end passes. -/
def convert_transition_matrices_to_probs ( eow : Bool) (markov_full_backoff : Bool) (K : Nat)
    (tm : Nat → ℚ) : Option (Nat → ℚ) :=
  match convert_orders eow markov_full_backoff (K + 1) 0 1 1 none tm with
  | none => none
  | some tm1 =>
    match check_transition_matrices eow tm1 (K + 1) 1 (A_alphabet_size eow - 1) with
    | CheckEnd.passed _ => some tm1
    | CheckEnd.bad_row => none
    | CheckEnd.counter_overflow => none

/-- The function `setup_transition_matrices(K, training_tsv, lp)` as far as the
transition matrices go. -/
def setup_transition_matrices ( eow : Bool) (markov_full_backoff : Bool) (K : Nat)
    (lines : List (List Nat)) : Option (Nat → ℚ) :=
  match trained_counts eow K lines with
  | none => none
  | some tm => convert_transition_matrices_to_probs eow markov_full_backoff K tm

/-- An array of doubles that holds counts. -/
def Counts (m : Nat → ℚ) : Prop := ∀ x, ∃ n : Nat, m x = (n : ℚ)

/-- The property of a converted row at element index `s`: the values are
nondecreasing across the row, and the last column is 1. -/
def RowGood ( eow : Bool) (tm : Nat → ℚ) (s : Nat) : Prop :=
  (∀ j, j + 1 < A_alphabet_size eow → tm (s + j) ≤ tm (s + (j + 1))) ∧
  tm (s + (A_alphabet_size eow - 1)) = 1

/-- Some letter has been observed: an entry of `letter_frequencies` for one of
the 26 letters is at least 1. -/
def HasObs (lf : Nat → ℚ) : Prop := ∃ c, c < 26 ∧ 1 ≤ lf c


/-- Every row that ends at or below the address `addr` is a converted row. -/
def RowsGoodBelow ( eow : Bool) (tm : Nat → ℚ) (addr : Nat) : Prop :=
  ∀ g, g * A_alphabet_size eow + A_alphabet_size eow ≤ addr →
    RowGood eow tm (g * A_alphabet_size eow)
/-! ### shuffling.c: the byte-wise shuffle -/

/-- The loop `for (b = 1; b <= elt_size; b++) { t = *bi; *bi = *bj; *bj = t; bi++; bj++; }`
of `knuth_shuffle`; the first argument counts the iterations still to run. -/
def swap_bytes : Nat → Nat → Nat → List Nat → List Nat
  | 0, _, _, a => a
  | n + 1, bi, bj, a => swap_bytes n (bi + 1) (bj + 1) (swap_elts a bi bj)

/-- The loop `for (i = 0; i < l; i++)` of `knuth_shuffle` on an array of bytes. -/
def knuth_shuffle_loop (elt_size m : Nat) (rnd : Nat → Nat) :
    Nat → Nat → Nat → List Nat → Option (List Nat × Nat)
  | 0, _, c, a => some (a, c)
  | n + 1, i, c, a =>
    match random_long_long (i + 1) m (rnd c) with
    | none => none
    | some j =>
      knuth_shuffle_loop elt_size m rnd n (i + 1) (c + 1)
        (swap_bytes elt_size (i * elt_size) (j * elt_size) a)

/-- The function `knuth_shuffle(array, elt_size, num_elts)`; `none` is the exit
on an element size outside 1..8. -/
def knuth_shuffle (array : List Nat) (elt_size num_elts : Nat) (rnd : Nat → Nat) (c : Nat) :
    Option (List Nat × Nat) :=
  if elt_size > 8 ∨ elt_size < 1 then none
  else if num_elts < 2 then some (array, c)
  else
    let l := num_elts - 2
    let m := l + 1
    knuth_shuffle_loop elt_size m rnd l 0 c array

/-! ### C library functions on byte strings

A pointer into a NUL-terminated buffer is the list of the bytes from it to
the terminator; the byte read at the end of the list is the NUL. -/

/-- The test `isspace` in the C locale. -/
def isspace (ch : Nat) : Bool := decide (ch = 32 ∨ (9 ≤ ch ∧ ch ≤ 13))

/-- The test `isdigit`. -/
def isdigit (ch : Nat) : Bool := decide (48 ≤ ch ∧ ch ≤ 57)

/-- The digits at the start of a string, accumulated in base 10, and the pointer
to the first byte after them. -/
def digits_value : List Nat → Nat → Nat × List Nat
  | [], acc => (acc, [])
  | ch :: rest, acc =>
    if isdigit ch then digits_value rest (acc * 10 + (ch - 48)) else (acc, ch :: rest)

/-- The function `strtoll(nptr, &endptr, 10)`: white space, an optional sign,
decimal digits.  Returns the value, saturated to the range of `long long`,
the end pointer (`nptr` itself when there is no digit), and whether `errno`
is set for a value out of range. -/
def strtoll (nptr : List Nat) : Int × List Nat × Bool :=
  let s1 := nptr.dropWhile isspace
  let negative := decide (s1.headD 0 = 45)
  let s2 := if s1.headD 0 = 45 ∨ s1.headD 0 = 43 then s1.tail else s1
  if isdigit (s2.headD 0) then
    let r := digits_value s2 0
    if negative then
      if r.1 > 2 ^ 63 then (-(2 ^ 63 : Int), r.2, true) else (-(r.1 : Int), r.2, false)
    else
      if r.1 ≥ 2 ^ 63 then ((2 ^ 63 - 1 : Int), r.2, true) else ((r.1 : Int), r.2, false)
  else (0, nptr, false)

/-- The function `strtol`, `long` being 64 bits wide. -/
def strtol (nptr : List Nat) : Int × List Nat × Bool := strtoll nptr

/-- The conversion of a `long` to `int` on assignment. -/
def to_int (v : Int) : Int := (v + 2 ^ 31) % 2 ^ 32 - 2 ^ 31

/-! ### corpusGenerator.c: the n-grams file -/

/-- Largest arity of an n-gram, from corpusGenerator.h. -/
def MAX_DEPEND_ARITY : Nat := 6

/-- Number of columns of a row of the n-grams array: arity, termids, frequency. -/
def num_cols : Nat := MAX_DEPEND_ARITY + 2

/-- The loop `while (*p != ')' && *p >= ' ')` of `load_ngrams_file_and_sort`
over the termids of one line.  Every iteration increases `column` and the loop
is left when `column` reaches `num_cols`, so `num_cols` iterations are enough
(first argument).  Returns the row, `column` and `p`. -/
def parse_termids : Nat → Nat → List Nat → List Int → List Int × Nat × List Nat
  | 0, column, p, row => (row, column, p)
  | n + 1, column, p, row =>
    if p.headD 0 ≠ 41 ∧ p.headD 0 ≥ 32 then
      let r := strtol p
      let row1 := row.set column (to_int r.1)
      if column + 1 ≥ num_cols then
        (row1, column + 1, p.dropWhile (fun ch => decide (ch ≠ 41 ∧ ch ≥ 32)))
      else
        parse_termids n (column + 1) (if r.2.1.headD 0 = 44 then r.2.1.tail else r.2.1) row1
    else (row, column, p)

/-- The body of the loop of `load_ngrams_file_and_sort` for one line read by
`fgets`: `none` when the line does not start with `N(` and a digit, otherwise
the row stored, which starts as zeroes. -/
def parse_ngram_line (fbuf : List Nat) : Option (List Int) :=
  if fbuf.getD 0 0 = 78 ∧ fbuf.getD 1 0 = 40 ∧ isdigit (fbuf.getD 2 0) = true then
    let r := parse_termids num_cols 1 (fbuf.drop 2) (List.replicate num_cols 0)
    let row :=
      if r.2.2.headD 0 = 41 ∧ r.2.2.tail.headD 0 = 58 then
        r.1.set (num_cols - 1) (to_int (strtol r.2.2.tail.tail).1)
      else r.1
    some (row.set 0 ((r.2.1 : Int) - 1))
  else none

/-- The comparison `multicol_cmp` turned into an order: arity descending, then
the termid columns ascending; the frequency is not compared. -/
def multicol_le (i j : List Int) : Bool :=
  if i.getD 0 0 < j.getD 0 0 then false
  else if i.getD 0 0 > j.getD 0 0 then true
  else decide ((i.drop 1).take MAX_DEPEND_ARITY ≤ (j.drop 1).take MAX_DEPEND_ARITY)

/-- The function `load_ngrams_file_and_sort` on the lines of the file: the rows
of the valid lines, sorted.  The library `qsort` is taken to be a sort by
insertion; rows that compare equal differ in the frequency only. -/
def load_ngrams_file_and_sort (lines : List (List Nat)) : List (List Int) :=
  (lines.filterMap parse_ngram_line).insertionSort (fun i j => multicol_le i j = true)

/-! ### subsumptionLists.c

The n-grams array is the flat array of `int`, `num_cols` to a row.  A store
outside an array is dropped and a load outside an array yields 0. -/

/-- The inner loop of `subsumes` for the starting point `sp`: whether the
termids of the row at offset `sub` match those of the row at offset `super`
from column `sp` on; the first argument counts the columns still to compare. -/
def match_run (ngrams : List Int) (super sub sp : Nat) : Nat → Nat → Bool
  | 0, _ => true
  | n + 1, ix =>
    if ngrams.getD (sub + ix) 0 ≠ ngrams.getD (super + (sp + ix - 1)) 0 then false
    else match_run ngrams super sub sp n (ix + 1)

/-- The outer loop of `subsumes` over the starting points. -/
def subsumes_loop (ngrams : List Int) (super sub sub_arity : Nat) : Nat → Nat → Bool
  | 0, _ => false
  | n + 1, sp =>
    if match_run ngrams super sub sp sub_arity 1 then true
    else subsumes_loop ngrams super sub sub_arity n (sp + 1)

/-- The function `subsumes(super, sub)` on two rows of the n-grams array given
by their offsets. -/
def subsumes (ngrams : List Int) (super sub : Nat) : Bool :=
  subsumes_loop ngrams super sub (ngrams.getD sub 0).toNat
    (ngrams.getD super 0 - ngrams.getD sub 0 + 1).toNat 1

/-- The static data of subsumptionLists.c: the heads `(head, tail)` of the
lists of the termids, and the elements `(next, row)` of the lists. -/
structure SubsumptionState where
  arity_first_line : List Nat
  arity_count : List Nat
  vocab : List (Int × Int)
  subsumption_memory : List (Int × Int)
  sm_next_free : Nat

/-- The function `slist_append` for the list of termid `t`. -/
def slist_append (s : SubsumptionState) (t : Nat) (rowno : Int) : SubsumptionState :=
  let new_item := s.sm_next_free
  let mem1 := s.subsumption_memory.set new_item (-1, rowno)
  let slist := s.vocab.getD t (0, 0)
  let mem2 :=
    if slist.2 < 0 then mem1
    else mem1.set slist.2.toNat ((new_item : Int), (mem1.getD slist.2.toNat (0, 0)).2)
  let head := if slist.1 < 0 then (new_item : Int) else slist.1
  { s with sm_next_free := new_item + 1, subsumption_memory := mem2,
           vocab := s.vocab.set t (head, (new_item : Int)) }

/-- The loop `for (m = 1; m <= arity; m++)` of phase 1 of `set_up_for_subsumption`:
the highest termid of row `l`. -/
def highest_termid_loop (ngrams : List Int) (l : Nat) : Nat → Nat → Int → Int
  | 0, _, highest_termid => highest_termid
  | n + 1, m, highest_termid =>
    highest_termid_loop ngrams l n (m + 1)
      (if ngrams.getD (l * num_cols + m) 0 > highest_termid then ngrams.getD (l * num_cols + m) 0
       else highest_termid)

/-- The variables of phase 1 of `set_up_for_subsumption`. -/
structure Phase1 where
  arity_first_line : List Nat
  arity_count : List Nat
  last_arity : Int
  a_count : Nat
  highest_termid : Int
  total_postings : Int

/-- The loop `for (l = 0; l < vl; l++)` of phase 1. -/
def phase1_loop (ngrams : List Int) (highest_arity : Int) : Nat → Nat → Phase1 → Phase1
  | 0, _, s => s
  | n + 1, l, s =>
    let arity := ngrams.getD (l * num_cols) 0
    let s1 : Phase1 :=
      if arity ≠ s.last_arity then
        { s with arity_first_line := s.arity_first_line.set arity.toNat l,
                 arity_count :=
                   if s.a_count > 0 then s.arity_count.set s.last_arity.toNat s.a_count
                   else s.arity_count,
                 a_count := 0, last_arity := arity }
      else s
    let s2 : Phase1 := { s1 with a_count := s1.a_count + 1 }
    let s3 : Phase1 :=
      if arity < highest_arity then
        { s2 with total_postings := s2.total_postings + arity,
                  highest_termid := highest_termid_loop ngrams l arity.toNat 1 s2.highest_termid }
      else s2
    phase1_loop ngrams highest_arity n (l + 1) s3

/-- The loop `for (m = 1; m <= arity; m++)` of phase 3: one element for each
termid of row `r`. -/
def append_row (ngrams : List Int) (r : Nat) : Nat → Nat → SubsumptionState → SubsumptionState
  | 0, _, s => s
  | n + 1, m, s =>
    append_row ngrams r n (m + 1) (slist_append s (ngrams.getD (r * num_cols + m) 0).toNat r)

/-- The loop `for (r = start_row; r < vl; r++)` of phase 3. -/
def phase3_loop (ngrams : List Int) : Nat → Nat → SubsumptionState → SubsumptionState
  | 0, _, s => s
  | n + 1, r, s =>
    phase3_loop ngrams n (r + 1)
      (append_row ngrams r (ngrams.getD (r * num_cols) 0).toNat 1 s)

/-- The function `set_up_for_subsumption(ngrams, vl)`. -/
def set_up_for_subsumption (ngrams : List Int) (vl : Nat) : SubsumptionState :=
  let highest_arity := ngrams.getD 0 0
  let p := phase1_loop ngrams highest_arity vl 0
    { arity_first_line := List.replicate (MAX_DEPEND_ARITY + 1) 0,
      arity_count := List.replicate (MAX_DEPEND_ARITY + 1) 0,
      last_arity := 999, a_count := 0, highest_termid := 0, total_postings := 0 }
  let arity_count :=
    if p.a_count > 0 then p.arity_count.set p.last_arity.toNat p.a_count else p.arity_count
  let start_row := p.arity_first_line.getD (highest_arity - 1).toNat 0
  phase3_loop ngrams (vl - start_row) start_row
    { arity_first_line := p.arity_first_line, arity_count := arity_count,
      vocab := List.replicate (p.highest_termid + 1).toNat (-1, -1),
      subsumption_memory := List.replicate p.total_postings.toNat (0, 0),
      sm_next_free := 0 }

/-- The arrays `slist_curpos` and `exhausted` of `find_all_subsumptions_of_an_ngram`. -/
structure Cursors where
  slist_curpos : List Int
  exhausted : List Bool

/-- The member `row` of the list element at index `cur`. -/
def row_at (mem : List (Int × Int)) (cur : Int) : Int := (mem.getD cur.toNat (0, 0)).2

/-- The member `next` of the list element at index `cur`. -/
def next_at (mem : List (Int × Int)) (cur : Int) : Int := (mem.getD cur.toNat (0, 0)).1

/-- The loop that initialises the cursors from the heads of the lists of the
termids of the n-gram. -/
def init_cursors (ngrams : List Int) (vocab : List (Int × Int)) (termids : Nat) :
    Nat → Nat → Cursors → Cursors
  | 0, _, cs => cs
  | n + 1, a, cs =>
    let sle := (vocab.getD (ngrams.getD (termids + a) 0).toNat (0, 0)).1
    init_cursors ngrams vocab termids n (a + 1)
      (if sle = -1 then { cs with exhausted := cs.exhausted.set a true }
       else { slist_curpos := cs.slist_curpos.set a sle, exhausted := cs.exhausted.set a false })

/-- The loop that finds the highest row number under the cursors. -/
def highest_start (mem : List (Int × Int)) (cs : Cursors) : Nat → Nat → Int → Int
  | 0, _, highest => highest
  | n + 1, a, highest =>
    highest_start mem cs n (a + 1)
      (if cs.exhausted.getD a false = false ∧ row_at mem (cs.slist_curpos.getD a 0) > highest
       then row_at mem (cs.slist_curpos.getD a 0) else highest)

/-- The loop `while (!exhausted[a] && subsumption_memory[slist_curpos[a]].row < highest)`
for one list; a list has at most as many elements as the memory, which bounds
the iterations (first argument). -/
def advance_to (mem : List (Int × Int)) (highest : Int) : Nat → Int → Bool → Int × Bool
  | 0, cur, ex => (cur, ex)
  | n + 1, cur, ex =>
    if ex = false ∧ row_at mem cur < highest then
      if next_at mem cur = -1 then advance_to mem highest n cur true
      else advance_to mem highest n (next_at mem cur) false
    else (cur, ex)

/-- The first `for` loop of the intersection: advance every list to `highest`
and count the lists that are on it. -/
def first_pass (mem : List (Int × Int)) (highest : Int) : Nat → Nat → Cursors → Nat →
    Cursors × Nat
  | 0, _, cs, count => (cs, count)
  | n + 1, a, cs, count =>
    let r := advance_to mem highest (mem.length + 1) (cs.slist_curpos.getD a 0)
      (cs.exhausted.getD a false)
    first_pass mem highest n (a + 1)
      { slist_curpos := cs.slist_curpos.set a r.1, exhausted := cs.exhausted.set a r.2 }
      (if r.2 = false ∧ row_at mem r.1 = highest then count + 1 else count)

/-- The loop `while (subsumption_memory[slist_curpos[a]].row == oldhighest)`;
returns the cursor and whether the list became exhausted. -/
def skip_old (mem : List (Int × Int)) (oldhighest : Int) : Nat → Int → Int × Bool
  | 0, cur => (cur, false)
  | n + 1, cur =>
    if row_at mem cur = oldhighest then
      if next_at mem cur = -1 then (cur, true) else skip_old mem oldhighest n (next_at mem cur)
    else (cur, false)

/-- The second `for` loop of the intersection: move the lists off `oldhighest`,
count those not exhausted and choose the new `highest`. -/
def second_pass (mem : List (Int × Int)) (oldhighest : Int) :
    Nat → Nat → Cursors → Nat → Int → Cursors × Nat × Int
  | 0, _, cs, count, highest => (cs, count, highest)
  | n + 1, a, cs, count, highest =>
    if cs.exhausted.getD a false = false then
      let r := skip_old mem oldhighest (mem.length + 1) (cs.slist_curpos.getD a 0)
      second_pass mem oldhighest n (a + 1)
        { slist_curpos := cs.slist_curpos.set a r.1,
          exhausted := if r.2 then cs.exhausted.set a true else cs.exhausted }
        (if r.2 then count else count + 1)
        (if row_at mem r.1 > highest then row_at mem r.1 else highest)
    else second_pass mem oldhighest n (a + 1) cs count highest

/-- The loop `while (1)` of the intersection; `refs` are the row numbers
stored so far.  The first argument bounds the iterations: `highest` grows in
each, so the number of rows is enough; `none` when it is used up. -/
def intersect_loop (ngrams : List Int) (mem : List (Int × Int)) (super arity : Nat) :
    Nat → Cursors → Int → List Int → Option (List Int)
  | 0, _, _, _ => none
  | n + 1, cs, highest, refs =>
    let p1 := first_pass mem highest arity 0 cs 0
    let refs1 :=
      if p1.2 ≥ 2 ∧ subsumes ngrams super (highest.toNat * num_cols) = true then refs ++ [highest]
      else refs
    let p2 := second_pass mem highest arity 0 p1.1 0 highest
    if p2.2.1 < 2 then some refs1
    else intersect_loop ngrams mem super arity n p2.1 p2.2.2 refs1

/-- The function `find_all_subsumptions_of_an_ngram` for the row `line` of the
n-grams array, once `set_up_for_subsumption` has run: the row numbers stored in
`ngram_refs`; `none` is the exit on a suspicious number of subsumptions. -/
def find_all_subsumptions_of_an_ngram (s : SubsumptionState) (ngrams : List Int)
    (line vl : Nat) : Option (List Int) :=
  let arity := (ngrams.getD (line * num_cols) 0).toNat
  if arity = 2 then some []
  else
    let cs := init_cursors ngrams s.vocab (line * num_cols + 1) arity 0
      { slist_curpos := List.replicate MAX_DEPEND_ARITY 0,
        exhausted := List.replicate MAX_DEPEND_ARITY false }
    let highest := highest_start s.subsumption_memory cs arity 0 (-1)
    match intersect_loop ngrams s.subsumption_memory (line * num_cols) arity (vl + 1) cs
        highest [] with
    | none => none
    | some refs => if refs.length ≥ arity then none else some refs

/-- The rows that the row `line` subsumes by the definition of the claim: the
rows of lower arity whose termids occur as a contiguous run in the row. -/
def subsumed_rows (ngrams : List Int) (line vl : Nat) : List Nat :=
  (List.range vl).filter (fun r =>
    decide (ngrams.getD (r * num_cols) 0 < ngrams.getD (line * num_cols) 0) &&
    decide (List.IsInfix
      ((ngrams.drop (r * num_cols + 1)).take (ngrams.getD (r * num_cols) 0).toNat)
      ((ngrams.drop (line * num_cols + 1)).take (ngrams.getD (line * num_cols) 0).toNat)))

/-! ### termRepMethods.c: assignment of words to ranks by length

The function `strlenp` is a parameter: it is `strlen` with a penalty that
depends on `unicode_isvowel`, which is not among the sources. -/

/-- Longest word, from definitions.h. -/
def MAX_WORD_LEN : Nat := 15

/-- The entry `rb[i]` of an array of `rank_bucket_entry_t`, as the pair
`(next_rank, max_rank)`; outside the array it reads as zeroes. -/
def rb_get (rb : List (Int × Int)) (i : Int) : Int × Int :=
  if i < 0 then (0, 0) else rb.getD i.toNat (0, 0)

/-- The store to the member `next_rank` of `rb[i]`. -/
def rb_set_next (rb : List (Int × Int)) (i : Int) (v : Int) : List (Int × Int) :=
  if i < 0 then rb else rb.set i.toNat (v, (rb.getD i.toNat (0, 0)).2)

/-- The store to the member `max_rank` of `rb[i]`. -/
def rb_set_max (rb : List (Int × Int)) (i : Int) (v : Int) : List (Int × Int) :=
  if i < 0 then rb else rb.set i.toNat ((rb.getD i.toNat (0, 0)).1, v)

/-- The second loop of `setup_length_buckets` over the terms; `none` is the
exit on a term shorter than the one before. -/
def setup_length_buckets_loop (strlenp : List Nat → Nat) :
    List (List Nat) → Int → Int → List (Int × Int) → Option (List (Int × Int))
  | [], _, _, rb => some rb
  | term :: rest, r, prevlen, rb =>
    let len : Int := (strlenp term : Int)
    if len < prevlen then none
    else if len > prevlen then
      let rb1 := rb_set_next rb (len - 1) r
      let rb2 := if len > 1 then rb_set_max rb1 (len - 2) (r - 1) else rb1
      setup_length_buckets_loop strlenp rest (r + 1) len rb2
    else setup_length_buckets_loop strlenp rest (r + 1) prevlen rb

/-- The function `setup_length_buckets(rb, term_array, vocab_size)` on the
array `rank_buckets` of `NUM_RANK_BUCKETS + MAX_TERM_LEN` zeroed entries: the
first `MAX_TERM_LEN` are set to `(vocab_size, vocab_size)`, then the loop over
the terms runs. -/
def setup_length_buckets (strlenp : List Nat → Nat) (term_array : List (List Nat))
    (vocab_size : Nat) : Option (List (Int × Int)) :=
  setup_length_buckets_loop strlenp (term_array.take vocab_size) 1 0
    (List.replicate MAX_TERM_LEN ((vocab_size : Int), (vocab_size : Int))
      ++ List.replicate NUM_RANK_BUCKETS (0, 0))

/-- The loop of `biased_random_pick`: the first `e` with `r < probvec[e]`. -/
def pick_loop (probvec : Nat → ℚ) (r : ℚ) : Nat → Nat → Option Nat
  | 0, _ => none
  | n + 1, e => if r < probvec e then some e else pick_loop probvec r n (e + 1)

/-- The function `biased_random_pick(probvec, veclen)` for the draw `r`. -/
def biased_random_pick (probvec : Nat → ℚ) (veclen : Nat) (r : ℚ) : Int :=
  match pick_loop probvec r veclen 0 with
  | some e => (e : Int)
  | none => ⌊r * (veclen : ℚ)⌋

/-- The loop `while (rb[len - 1] is full && len <= MAX_WORD_LEN) len++`. -/
def longer_bucket (rb : List (Int × Int)) : Nat → Int → Int
  | 0, len => len
  | n + 1, len =>
    if (rb_get rb (len - 1)).1 > (rb_get rb (len - 1)).2 ∧ len ≤ (MAX_WORD_LEN : Int) then
      longer_bucket rb n (len + 1)
    else len

/-- The loop `while (len > 0 && (rb[len - 1] is full || its next rank > num_terms)) len--`. -/
def shorter_bucket (rb : List (Int × Int)) (num_terms : Int) : Nat → Int → Int
  | 0, len => len
  | n + 1, len =>
    if len > 0 ∧ ((rb_get rb (len - 1)).1 > (rb_get rb (len - 1)).2
        ∨ (rb_get rb (len - 1)).1 > num_terms) then
      shorter_bucket rb num_terms n (len - 1)
    else len

/-- The function `find_a_better_length_bucket`; `none` is its exit. -/
def find_a_better_length_bucket (useless_len : Int) (rb : List (Int × Int)) (num_terms : Int) :
    Option Int :=
  let len := longer_bucket rb (MAX_WORD_LEN + 1) (useless_len + 1)
  if (rb_get rb (len - 1)).1 ≤ num_terms ∧ len ≤ (MAX_WORD_LEN : Int) then some len
  else
    let len1 := shorter_bucket rb num_terms (MAX_WORD_LEN + 1) (useless_len - 1)
    if len1 ≤ 0 ∨ (rb_get rb (len1 - 1)).1 > num_terms then none else some len1

/-- The value `(int)log10((double)i)` for `i ≥ 1`: the number of decimal
digits less one. -/
def log10_floor : Nat → Nat → Nat
  | 0, _ => 0
  | f + 1, i => if i < 10 then 0 else 1 + log10_floor f (i / 10)

/-- The loop `while (rank_buckets[l - 1].next_rank > num_terms) l--`; it stops
at the latest when `l - 1` leaves the array. -/
def lower_length (rb : List (Int × Int)) (num_terms : Int) : Nat → Int → Int
  | 0, l => l
  | n + 1, l => if (rb_get rb (l - 1)).1 > num_terms then lower_length rb num_terms n (l - 1) else l

/-- The loop `for (i = 1; i <= num_terms; i++)` of
`randomly_assign_terms_to_ranks_based_on_length` with `markov_assign_reps_by_rank`
set; `draws i` is the value of `rand_val` in iteration `i`, and `new_terms`
the words copied so far. -/
def assign_loop (terms : List (List Nat)) (num_terms : Nat) (lenprob_matrix : Nat → ℚ)
    (draws : Nat → ℚ) :
    Nat → Nat → List (Int × Int) → List (List Nat) → Option (List (List Nat))
  | 0, _, _, new_terms => some new_terms
  | n + 1, i, rb, new_terms =>
    let lbuk := log10_floor i i
    let l0 := biased_random_pick (fun e => lenprob_matrix (lbuk * MAX_TERM_LEN + e))
      MAX_TERM_LEN (draws i) + 1
    let l1 := lower_length rb num_terms (MAX_TERM_LEN + 1) l0
    let l2 :=
      if (rb_get rb (l1 - 1)).1 > (rb_get rb (l1 - 1)).2 then
        find_a_better_length_bucket l1 rb num_terms
      else some l1
    match l2 with
    | none => none
    | some l =>
      let chosen := (rb_get rb (l - 1)).1 - 1
      if chosen ≥ (num_terms : Int) then none
      else
        assign_loop terms num_terms lenprob_matrix draws n (i + 1)
          (rb_set_next rb (l - 1) ((rb_get rb (l - 1)).1 + 1))
          (new_terms ++ [terms.getD chosen.toNat []])

/-- The function `randomly_assign_terms_to_ranks_based_on_length` with
`markov_assign_reps_by_rank` set: the new table of terms. -/
def randomly_assign_terms_to_ranks_based_on_length (strlenp : List Nat → Nat)
    (terms : List (List Nat)) (num_terms : Nat) (lenprob_matrix : Nat → ℚ) (draws : Nat → ℚ) :
    Option (List (List Nat)) :=
  match setup_length_buckets strlenp terms num_terms with
  | none => none
  | some rb => assign_loop terms num_terms lenprob_matrix draws num_terms 1 rb []

/-! ### MarkovWords.c: the sampler of unique words

The draws of `rand_val` are a stream of rationals `rnd` read through a
counter; the lengths `(int)ceil(rand_normal(...) * DLS_ADJUSTMENT)` are a
second stream `lens`.  The hash `words_generated` is the list of its keys. -/

/-- The table `rev_col_map`: the character of a column. -/
def rev_col_map ( eow : Bool) (j : Nat) : Nat :=
  if j < 26 then 97 + j else if eow = true ∧ j = 26 then EOW else 0

/-- The loop `for (j = 0; j < A; j++) if (randy <= row[j]) { alphabet_index = j; break; }`;
`none` is `alphabet_index = -1`. -/
def choose_column (row : Nat → ℚ) (randy : ℚ) : Nat → Nat → Option Nat
  | 0, _ => none
  | n + 1, j => if randy ≤ row j then some j else choose_column row randy n (j + 1)

/-- The rescaling of the draw for the first letter when the end-of-word symbol
is in use: `randy *= row[A - 2]`. -/
def scaled_draw ( eow : Bool) (i : Nat) (row : Nat → ℚ) (randy : ℚ) : ℚ :=
  if i = 0 ∧ eow = true then randy * row (A_alphabet_size eow - 2) else randy

/-- The loop `for (j = 1; j < k; j++) context[j - 1] = context[j]`. -/
def shift_context : Nat → Nat → List Nat → List Nat
  | 0, _, context => context
  | n + 1, j, context => shift_context n (j + 1) (context.set (j - 1) (context.getD j 0))

/-- The parameters of the sampler: the flag of the end-of-word symbol, the
order, `markov_lambda`, `markov_full_backoff`, the transition matrices and the
two streams of draws. -/
structure SamplerParams where
  eow : Bool
  Markov_order : Nat
  markov_lambda : ℚ
  markov_full_backoff : Bool
  transition_matrices : Nat → ℚ
  rnd : Nat → ℚ
  lens : Nat → Int

/-- The data that `store_unique_markov_word` keeps between calls: the keys of
the hash `words_generated`, the array `max_tries`, and the numbers of draws
consumed from `rnd` and from `lens`. -/
structure SamplerState where
  words_generated : List (List Nat)
  max_tries : List Nat
  c : Nat
  cl : Nat
  deriving DecidableEq

/-- The row used for the next letter, as an offset into the transition
matrices: of the order-k matrix, or of the background matrix. -/
def sampling_row (P : SamplerParams) (context : List Nat) (use_background : Bool) : Option Nat :=
  if use_background = false then
    match calculate_row_index P.eow context 0 P.Markov_order with
    | none => none
    | some row_index => some (Markov P.eow P.Markov_order + row_index)
  else if P.markov_full_backoff = true then some (Markov P.eow 0 + 0)
  else
    match calculate_row_index P.eow context 0 (P.Markov_order - 1) with
    | none => none
    | some row_index => some (Markov P.eow (P.Markov_order - 1) + row_index)

/-- The loop `for (i = 0; i < l; i++)` that generates the letters of one
candidate word; the first argument is `l - i`.  Returns the word and the new
count of draws; `none` is the exit on an all-zero row. -/
def generate_letters (P : SamplerParams) :
    Nat → Nat → List Nat → Nat → List Nat → Option (List Nat × Nat)
  | 0, _, _, c, word => some (word, c)
  | n + 1, i, context, c, word =>
    let smooth := decide (P.Markov_order > 0 ∧ P.markov_lambda > 0)
    let use_background := smooth && decide (P.rnd c < P.markov_lambda)
    let c1 := if smooth then c + 1 else c
    let randy := P.rnd c1
    match sampling_row P context use_background with
    | none => none
    | some row =>
      match choose_column (fun j => P.transition_matrices (row + j))
          (scaled_draw P.eow i (fun j => P.transition_matrices (row + j)) randy)
          (A_alphabet_size P.eow) 0 with
      | none => none
      | some alphabet_index =>
        if P.eow = true ∧ rev_col_map P.eow alphabet_index = EOW ∧ i > 0 then some (word, c1 + 1)
        else
          generate_letters P n (i + 1)
            (if P.Markov_order > 0 then
              (shift_context (P.Markov_order - 1) 1 context).set (P.Markov_order - 1)
                (rev_col_map P.eow alphabet_index)
             else context)
            (c1 + 1) (word ++ [rev_col_map P.eow alphabet_index])

/-- The loop `do ... while (1)` of `store_unique_markov_word`: try until a
word not seen before is generated.  The first argument bounds the number of
tries of the model; `none` is that bound used up, or an exit of the code. -/
def unique_word_loop (P : SamplerParams) :
    Nat → Nat → Nat → List Nat → Nat → List (List Nat) →
    Option (List Nat × List (List Nat) × List Nat × Nat)
  | 0, _, _, _, _, _ => none
  | n + 1, tries, l, max_tries, c, words_generated =>
    match generate_letters P l 0 (List.replicate MAX_MARKOV_K 0) c [] with
    | none => none
    | some r =>
      if r.1 ≠ [] ∧ r.1 ∉ words_generated then
        some (r.1, r.1 :: words_generated, max_tries, r.2)
      else if tries + 1 > max_tries.getD l 0 then
        if l + 1 > MAX_TERM_LEN then none
        else unique_word_loop P n (tries + 1) (l + 1) (max_tries.set l 0) r.2 words_generated
      else unique_word_loop P n (tries + 1) l max_tries r.2 words_generated

/-- The loop `while (1)` that draws the length of the word when the
end-of-word symbol is not in use; the first argument bounds the number of
draws of the model.  Returns the length, capped at 15, and the new count. -/
def draw_length (lens : Nat → Int) : Nat → Nat → Option (Nat × Nat)
  | 0, _ => none
  | n + 1, cl =>
    if lens cl > 0 then some (if lens cl > 15 then 15 else (lens cl).toNat, cl + 1)
    else draw_length lens n (cl + 1)

/-- The loop that fills `max_tries` on the first call: powers of `A`, capped. -/
def init_max_tries ( eow : Bool) : Nat → Nat → Nat → List Nat → List Nat
  | 0, _, _, max_tries => max_tries
  | n + 1, i, t, max_tries =>
    init_max_tries eow n (i + 1) (if t ≤ 10000000000 then t * A_alphabet_size eow else t)
      (max_tries.set i t)

/-- The function `store_unique_markov_word(where, term_rank)`: the word stored
and the new state; `fuel` bounds both unbounded loops of the model. -/
def store_unique_markov_word (P : SamplerParams) (fuel : Nat) (s : SamplerState) :
    Option (List Nat × SamplerState) :=
  match (if P.eow = true then some (MAX_TERM_LEN, s.cl) else draw_length P.lens fuel s.cl) with
  | none => none
  | some len =>
    let max_tries :=
      if s.max_tries.getD 0 0 = 0 then init_max_tries P.eow (MAX_TERM_LEN + 1) 0 1 s.max_tries
      else s.max_tries
    match unique_word_loop P fuel 0 len.1 max_tries s.c s.words_generated with
    | none => none
    | some r =>
      some (r.1, { words_generated := r.2.1, max_tries := r.2.2.1, c := r.2.2.2, cl := len.2 })

/-- The words stored by a run of calls of `store_unique_markov_word`, as the
loop of `fill_in_term_repn_table_markov` makes them, in order. -/
def store_words (P : SamplerParams) (fuel : Nat) : Nat → SamplerState →
    Option (List (List Nat) × SamplerState)
  | 0, s => some ([], s)
  | n + 1, s =>
    match store_unique_markov_word P fuel s with
    | none => none
    | some r =>
      match store_words P fuel n r.2 with
      | none => none
      | some rest => some (r.1 :: rest.1, rest.2)

/-! ### corpusGenerator.c: read_TOFS_array_from_file -/

/-- The scan `while (*p >= ' ') p++; if (*p != '\t') exit; p++` on a line read
by `fgets`: the pointer to the second field, `none` when the first byte below
the space character is not a TAB. -/
def tab_pointer (line : List Nat) : Option (List Nat) :=
  if (line.dropWhile (fun ch => decide (32 ≤ ch))).headD 0 = 9 then
    some (line.dropWhile (fun ch => decide (32 ≤ ch))).tail
  else none

/-- The frequency that `read_TOFS_array_from_file` reads on a line: `strtoll`
of the second field. -/
def line_freq (line : List Nat) : Int :=
  match tab_pointer line with
  | none => 0
  | some p => (strtoll p).1

/-- The loop `while (fgets(linebuf, 1000, VF) != NULL)` of
`read_TOFS_array_from_file` over the lines of the file.  The store
`TOFS[trank] = freq` converts the `long long` to `u_ll`; `tot_freq` is a
`long long`, and `tot_freq += freq` wraps modulo `2^64` when the sum leaves
its range, as the compiled code does. -/
def read_TOFS_loop (vocab_size : Nat) :
    List (List Nat) → Nat → Int → List Nat → Option (List Nat × Nat × Int)
  | [], trank, tot_freq, TOFS => some (TOFS, trank, tot_freq)
  | line :: rest, trank, tot_freq, TOFS =>
    match tab_pointer line with
    | none => none
    | some p =>
      if trank + 1 > vocab_size then none
      else
        read_TOFS_loop vocab_size rest (trank + 1) (wrap64 (tot_freq + (strtoll p).1))
          (TOFS.set trank ((strtoll p).1 % 2 ^ 64).toNat)

/-- The function `read_TOFS_array_from_file(vocab_filename, num_postings, vocab_size)`
on the lines of the file; `none` is an exit with an error. -/
def read_TOFS_array_from_file (lines : List (List Nat)) (num_postings : Int)
    (vocab_size : Nat) : Option (List Nat) :=
  match read_TOFS_loop vocab_size lines 0 0 (List.replicate vocab_size 0) with
  | none => none
  | some r =>
    if r.2.1 < vocab_size then none
    else if r.2.2 ≠ num_postings then none
    else some r.1

/-! ### corpusGenerator.c: process_ngrams_file

The dynamic array `ngram_refs` is a list of row numbers that reads as 0 where
nothing was stored (the dynamic arrays are not among the sources).  The
variable `subsumed_ngrams` is not initialised in the source and is assigned
only for rows of arity above 2: its first value is a parameter. -/

/-- The load `a[i]` of an array of `int` at an index computed in `int`. -/
def int_get (a : List Int) (i : Int) : Int := if i < 0 then 0 else a.getD i.toNat 0

/-- The store `a[i] = v` to an array of `int` at an index computed in `int`. -/
def int_set (a : List Int) (i : Int) (v : Int) : List Int :=
  if i < 0 then a else a.set i.toNat v

/-- The load `TOFS[i]` at an index computed in `int`. -/
def tofs_get (TOFS : List Nat) (i : Int) : Nat := if i < 0 then 0 else TOFS.getD i.toNat 0

/-- The inner loop `for (b = 1; b < arity; b++)` of `count_term_repetitions`. -/
def repetition_count (termids : List Int) (a : Nat) : Nat → Nat → Nat → Nat
  | 0, _, count => count
  | n + 1, b, count =>
    repetition_count termids a n (b + 1)
      (if termids.getD b 0 = termids.getD a 0 then count + 1 else count)

/-- The function `count_term_repetitions(arity, termids)`. -/
def count_term_repetitions (arity : Nat) (termids : List Int) : List Nat :=
  (List.range arity).map (fun a => repetition_count termids a (arity - 1) 1 1)

/-- The loop that checks the subsumed rows: whether one of them has frequency 0. -/
def subsumed_exhausted (ngrams ngram_refs : List Int) : Nat → Nat → Bool
  | 0, _ => false
  | n + 1, j =>
    if int_get ngrams (ngram_refs.getD j 0 * (num_cols : Int) + (num_cols : Int) - 1) = 0 then true
    else subsumed_exhausted ngrams ngram_refs n (j + 1)

/-- The loop that checks the words: whether one of them has fewer occurrences
left than its repetition count. -/
def terms_exhausted (TOFS : List Nat) (termids : List Int) (repetitions : List Nat) :
    Nat → Nat → Bool
  | 0, _ => false
  | n + 1, j =>
    if tofs_get TOFS (termids.getD j 0 - 1) < repetitions.getD j 0 then true
    else terms_exhausted TOFS termids repetitions n (j + 1)

/-- The loop that decrements the frequency of the subsumed rows. -/
def decrement_subsumed (ngram_refs : List Int) : Nat → Nat → List Int → List Int
  | 0, _, ngrams => ngrams
  | n + 1, j, ngrams =>
    decrement_subsumed ngram_refs n (j + 1)
      (int_set ngrams (ngram_refs.getD j 0 * (num_cols : Int) + (num_cols : Int) - 1)
        (int_get ngrams (ngram_refs.getD j 0 * (num_cols : Int) + (num_cols : Int) - 1) - 1))

/-- The loop that decrements `TOFS` for each word of the n-gram and counts in
`TOFs_subtracted`; it is left at a termid out of range or a count of 0. -/
def decrement_words (vocab_size : Int) (termids : List Int) :
    Nat → Nat → List Nat → Nat → List Nat × Nat
  | 0, _, TOFS, TOFs_subtracted => (TOFS, TOFs_subtracted)
  | n + 1, j, TOFS, TOFs_subtracted =>
    if termids.getD j 0 < 1 ∨ termids.getD j 0 > vocab_size then (TOFS, TOFs_subtracted)
    else if tofs_get TOFS (termids.getD j 0 - 1) = 0 then (TOFS, TOFs_subtracted)
    else
      decrement_words vocab_size termids n (j + 1)
        (TOFS.set (termids.getD j 0 - 1).toNat (tofs_get TOFS (termids.getD j 0 - 1) - 1))
        (TOFs_subtracted + 1)

/-- The ways `process_ngrams_file` exits: inside the placement, inside the
search for subsumptions, or on `postings_placed != TOFs_subtracted`. -/
inductive RunEnd where
  | exit_placement
  | exit_subsumption
  | exit_mismatch
  deriving DecidableEq, Repr

/-- The data that `process_ngrams_file` changes. -/
structure NgramState where
  ngrams : List Int
  TOFS : List Nat
  place : PlaceState
  postings_placed : Nat
  TOFs_subtracted : Nat
  ngram_instances_emitted : Nat
  ngram_instances_not_emitted : Int
  deriving DecidableEq

/-- The loop `for (i = 0; i < freq; i++)` over the instances of the n-gram of
one row; the first argument is `freq - i`. -/
def emit_instances (vocab_size : Int) (num_postings : Nat) (rnd : Nat → Nat) (arity : Nat)
    (termids : List Int) (freq : Int) (repetitions : List Nat) (ngram_refs : List Int)
    (subsumed_ngrams : Int) : Nat → Nat → NgramState → Except RunEnd NgramState
  | 0, _, s => Except.ok s
  | n + 1, i, s =>
    if subsumed_exhausted s.ngrams ngram_refs subsumed_ngrams.toNat 0 = true
        ∨ terms_exhausted s.TOFS termids repetitions arity 0 = true then
      Except.ok
        { s with ngram_instances_not_emitted := s.ngram_instances_not_emitted + (freq - i) }
    else
      match place_postings_in_random_documents (termids.map Int.toNat) arity
          term_type_t.TT_NGRAM 1 num_postings rnd s.place with
      | none => Except.error RunEnd.exit_placement
      | some r =>
        if r.1 ≠ 0 then
          emit_instances vocab_size num_postings rnd arity termids freq repetitions ngram_refs
            subsumed_ngrams n (i + 1) { s with place := r.2 }
        else
          let w := decrement_words vocab_size termids arity 0 s.TOFS s.TOFs_subtracted
          if s.postings_placed + arity ≠ w.2 then Except.error RunEnd.exit_mismatch
          else
            emit_instances vocab_size num_postings rnd arity termids freq repetitions ngram_refs
              subsumed_ngrams n (i + 1)
              { ngrams := decrement_subsumed ngram_refs subsumed_ngrams.toNat 0 s.ngrams,
                TOFS := w.1, place := r.2, postings_placed := s.postings_placed + arity,
                TOFs_subtracted := w.2,
                ngram_instances_emitted := s.ngram_instances_emitted + 1,
                ngram_instances_not_emitted := s.ngram_instances_not_emitted }

/-- The static data of subsumptionLists.c after the call made for a row: it is
`none` until `set_up_for_subsumption` has run, which the first call does. -/
def line_subsumption (vl line : Nat) (sub : Option SubsumptionState) (ngrams : List Int) :
    Option SubsumptionState :=
  if int_get ngrams ((line * num_cols : Nat) : Int) > 2 then
    match sub with
    | none => some (set_up_for_subsumption ngrams vl)
    | some st => some st
  else sub

/-- The step `if (arity > 2) find_all_subsumptions_of_an_ngram(...)` for a row:
the contents of `ngram_refs` and the value of `subsumed_ngrams` after it, or
`none` when the search exits. -/
def line_refs (vl line : Nat) (sub : Option SubsumptionState) (ngrams : List Int)
    (ngram_refs : List Int) (subsumed_ngrams : Int) : Option (List Int × Int) :=
  if int_get ngrams ((line * num_cols : Nat) : Int) > 2 then
    match find_all_subsumptions_of_an_ngram
        ((line_subsumption vl line sub ngrams).getD (set_up_for_subsumption ngrams vl))
        ngrams line vl with
    | none => none
    | some refs => some (refs ++ ngram_refs.drop refs.length, (refs.length : Int))
  else some (ngram_refs, subsumed_ngrams)

/-- The instances of one row: `arity`, `termids` and `freq` are read from the
row, the repetitions are counted, and the loop over the instances runs. -/
def process_line (vocab_size : Int) (num_postings : Nat) (rnd : Nat → Nat) (line : Nat)
    (ngram_refs : List Int) (subsumed_ngrams : Int) (s : NgramState) :
    Except RunEnd NgramState :=
  let arity := int_get s.ngrams ((line * num_cols : Nat) : Int)
  let termids := (s.ngrams.drop (line * num_cols + 1)).take (num_cols - 1)
  let freq := s.ngrams.getD (line * num_cols + num_cols - 1) 0
  emit_instances vocab_size num_postings rnd arity.toNat termids freq
    (count_term_repetitions arity.toNat termids) ngram_refs subsumed_ngrams freq.toNat 0 s

/-- The loop `for (line = 0; line < vl; line++)` of `process_ngrams_file`. -/
def process_lines (vocab_size : Int) (num_postings : Nat) (rnd : Nat → Nat) (vl : Nat) :
    Nat → Nat → Option SubsumptionState → List Int → Int → NgramState →
    Except RunEnd NgramState
  | 0, _, _, _, _, s => Except.ok s
  | n + 1, line, sub, ngram_refs, subsumed_ngrams, s =>
    match line_refs vl line sub s.ngrams ngram_refs subsumed_ngrams with
    | none => Except.error RunEnd.exit_subsumption
    | some f =>
      match process_line vocab_size num_postings rnd line f.1 f.2 s with
      | Except.error e => Except.error e
      | Except.ok s1 =>
        process_lines vocab_size num_postings rnd vl n (line + 1)
          (line_subsumption vl line sub s.ngrams) f.1 f.2 s1

/-- The function `process_ngrams_file` from the sorted n-grams array on; the
first contents of `ngram_refs` and the first value of `subsumed_ngrams` are
parameters. -/
def process_ngrams_table (ngrams : List Int) (vl : Nat) (TOFS : List Nat) (vocab_size : Int)
    (num_postings : Nat) (rnd : Nat → Nat) (place : PlaceState) (ngram_refs : List Int)
    (subsumed_ngrams : Int) : Except RunEnd NgramState :=
  process_lines vocab_size num_postings rnd vl vl 0 none ngram_refs subsumed_ngrams
    { ngrams := ngrams, TOFS := TOFS, place := place, postings_placed := 0,
      TOFs_subtracted := 0, ngram_instances_emitted := 0, ngram_instances_not_emitted := 0 }

/-- The function `process_ngrams_file` on the lines of the n-grams file. -/
def process_ngrams_file (lines : List (List Nat)) (TOFS : List Nat) (vocab_size : Int)
    (num_postings : Nat) (rnd : Nat → Nat) (place : PlaceState) (ngram_refs : List Int)
    (subsumed_ngrams : Int) : Except RunEnd NgramState :=
  process_ngrams_table (load_ngrams_file_and_sort lines).flatten
    (load_ngrams_file_and_sort lines).length TOFS vocab_size num_postings rnd place ngram_refs
    subsumed_ngrams

/-- The number of positions `b` of `j .. j+n-1` whose termid is that of position `a`. -/
def occurrences (termids : List Int) (a : Nat) (j n : Nat) : Nat :=
  (List.range' j n).countP (fun b => decide (termids.getD b 0 = termids.getD a 0))

/-- What `process_ngrams_file` keeps at every instance: the two counters
agree, the postings placed and those left in `TOFS` add up to `C`, `TOFS` has
its `vocab_size` entries, and of the table only frequency columns change. -/
def Conserved (C : Nat) (vocab_size : Int) (ngrams : List Int) (s : NgramState) : Prop :=
  s.postings_placed = s.TOFs_subtracted ∧ s.TOFS.sum + s.postings_placed = C ∧
    vocab_size.toNat ≤ s.TOFS.length ∧
    ∀ k, k % num_cols ≠ num_cols - 1 → s.ngrams.getD k 0 = ngrams.getD k 0

/-! ### checkSTARCFile.c -/

/-- The bytes of a string: its UTF-8 encoding, which is what the writers hand to
`buffered_write`. -/
def utf8_bytes (s : String) : List Nat :=
  (s.data.flatMap String.utf8EncodeChar).map UInt8.toNat

/-- The function `getSTARCLengthAndType(str, &recType, &startOfRecord)`: the
length read by `strtoll`, converted to `u_ll`, the byte at `oneAfter` and the
offset of `oneAfter + 2` from `str`; `none` is the exit on `errno`.  The bytes
from `str` on end with the file, and a read at the end of the file gives 0. -/
def getSTARCLengthAndType (str : List Nat) : Option (Nat × Nat × Nat) :=
  let r := strtoll str
  if r.2.2 = true then none
  else some ((r.1 % 2 ^ 64).toNat, r.2.1.headD 0, str.length - r.2.1.length + 2)

/-- The counts that `checkSTARCInMem` prints, and the record types in the
order in which it met them. -/
structure STARCCounts where
  HCount : Nat
  DCount : Nat
  TCount : Nat
  types : List Nat
  deriving DecidableEq, Repr

/-- The loop `while (nextRec < EOFIM)` of `checkSTARCInMem` and the test after
it; `nextRec` is an offset into the file.  Every iteration moves `nextRec`
forward by 2 bytes at least, so the loop body runs at most `fileSize` times:
the first argument bounds the iterations.  The result `none` is an exit. -/
def checkSTARC_loop (fileInMem : List Nat) : Nat → Nat → STARCCounts → Option STARCCounts
  | 0, _, _ => none
  | fuel + 1, nextRec, counts =>
    if nextRec < fileInMem.length then
      match getSTARCLengthAndType (fileInMem.drop nextRec) with
      | none => none
      | some r =>
        if r.2.1 = 72 then
          checkSTARC_loop fileInMem fuel (nextRec + r.2.2 + r.1)
            { counts with HCount := counts.HCount + 1, types := counts.types ++ [r.2.1] }
        else if r.2.1 = 68 then
          checkSTARC_loop fileInMem fuel (nextRec + r.2.2 + r.1)
            { counts with DCount := counts.DCount + 1, types := counts.types ++ [r.2.1] }
        else if r.2.1 = 84 then
          checkSTARC_loop fileInMem fuel (nextRec + r.2.2 + r.1)
            { counts with TCount := counts.TCount + 1, types := counts.types ++ [r.2.1] }
        else none
    else if nextRec ≠ fileInMem.length then none
    else some counts

/-- The function `checkSTARCInMem(fileInMem, fileSize)`: the counts of the
records of type H, D and T when all checks pass, `none` when it exits. -/
def checkSTARCInMem (fileInMem : List Nat) : Option STARCCounts :=
  checkSTARC_loop fileInMem (fileInMem.length + 1) 0
    { HCount := 0, DCount := 0, TCount := 0, types := [] }

/-- The bytes of one STARC record of type `ty` with content `body`: a space,
the length of the content in decimal, the type, a space, the content. -/
def starc_record (r : Nat × List Nat) : List Nat :=
  [32] ++ utf8_bytes (toString r.2.length) ++ [r.1, 32] ++ r.2

/-- The record types of `d` documents: H and D for each when documents are
numbered, D alone otherwise. -/
def starc_types (include_docnums : Bool) (d : Nat) : List Nat :=
  (List.replicate d (if include_docnums = true then [72, 68] else [68])).flatten

/-! ### wordFeatures.c

The functions `utf8_getchar` and `unicode_isvowel` and the constant
`MAX_PRONOUNCABILITY_SCORE` are not among the sources: a word is the list of
the code points that `utf8_getchar` returns, the test for a vowel and the
constant are parameters. -/

/-- The loop `while ((unicode = utf8_getchar(p, &q, FALSE)))` of
`pronouncability`: it stops at the code point 0 that ends the word. -/
def count_vowels_consonants (unicode_isvowel : Nat → Bool) : List Nat → Int → Int → Int × Int
  | [], vowels, consonants => (vowels, consonants)
  | unicode :: rest, vowels, consonants =>
    if unicode = 0 then (vowels, consonants)
    else if unicode_isvowel unicode = true then
      count_vowels_consonants unicode_isvowel rest (vowels + 1) consonants
    else count_vowels_consonants unicode_isvowel rest vowels (consonants + 1)

/-- The function `pronouncability(wd)`. -/
def pronouncability (unicode_isvowel : Nat → Bool) (MAX_PRONOUNCABILITY_SCORE : Int)
    (wd : List Nat) : Int :=
  let vc := count_vowels_consonants unicode_isvowel wd 0 0
  let score : Int :=
    if vc.1 ≠ 0 then (if vc.2 ≠ 0 ∧ vc.2 - vc.1 ≤ 2 then 2 else 1) else 0
  if score > MAX_PRONOUNCABILITY_SCORE then MAX_PRONOUNCABILITY_SCORE else score

/-- The function `test_pronouncability`: the value of `errors` at its end. -/
def test_pronouncability (unicode_isvowel : Nat → Bool) (MAX_PRONOUNCABILITY_SCORE : Int) :
    Nat :=
  let p := fun (w : String) (expected : Int) =>
    if pronouncability unicode_isvowel MAX_PRONOUNCABILITY_SCORE (w.toList.map Char.toNat)
        ≠ expected then 1 else 0
  p "dxq" 0 + p "x" 0 + p "A" 1 + p "axe" 2 + p "aardvark" 2 + p "do" 1 + p "odd" 2

/-- Modelled from the spec: the vowels are the letters a, e, i, o, u in either
case. -/
def ascii_vowel (unicode : Nat) : Bool :=
  decide (unicode ∈ [97, 101, 105, 111, 117, 65, 69, 73, 79, 85])

/-! ### utils/general.c: tailstr -/

/-- The library function `strstr(haystack, needle)` on strings without their
terminating NUL: the offset of the first occurrence of `needle`, `none` for
NULL. -/
def strstr : List Nat → List Nat → Option Nat
  | [], needle => if needle = [] then some 0 else none
  | c :: rest, needle =>
    if needle.isPrefixOf (c :: rest) = true then some 0
    else (strstr rest needle).map (fun p => p + 1)

/-- The loop `while ((p = strstr(str, s)) != NULL) { str = p + l; matched = TRUE; }`
of `tailstr`; `pos` is the offset of the pointer `str` in the string it first
pointed to.  With `s` not empty every iteration moves `str` forward, so the
body runs at most `strlen(str)` times: the first argument bounds the
iterations, and `none` stands for a loop that does not end. -/
def tailstr_loop (str0 s : List Nat) : Nat → Nat → Bool → Option (Nat × Bool)
  | 0, _, _ => none
  | fuel + 1, pos, matched =>
    match strstr (str0.drop pos) s with
    | none => some (pos, matched)
    | some p => tailstr_loop str0 s fuel (pos + p + s.length) true

/-- The function `tailstr(str, s)`: the offset of the pointer returned, the
inner `none` for NULL; the outer `none` is a call that does not return. -/
def tailstr (str s : List Nat) : Option (Option Nat) :=
  match tailstr_loop str s (str.length + 1) 0 false with
  | none => none
  | some (pos, matched) =>
    if matched = true ∧ str.drop (pos - s.length) = s then some (some (pos - s.length))
    else some none

/-! ### MarkovWords.c and termRepMethods.c: the rank bucket -/

/-- The statement `rankbuk = (int)floor(log10((double)wds_read))` of
`setup_transition_matrices`, `wds_read` being the number of the training line. -/
def training_rankbuk (wds_read : Nat) : Nat := log10_floor wds_read wds_read

/-- The statement `rankbuk = (int)(floor(log10((double)term_rank + 1)))` of
`store_unique_markov_word`. -/
def sampling_rankbuk (term_rank : Nat) : Nat := log10_floor (term_rank + 1) (term_rank + 1)

/-- The rank with which `fill_in_term_repn_table_markov` calls
`store_unique_markov_word` for the table slot `t`: `trank = t + 1`. -/
def markov_term_rank (t : Nat) : Nat := t + 1

/-! ### corpusGenerator.c: a run of equal stores into TOFS -/

/-- The array after `n` stores `TOFS[trank - 1] = v` at consecutive ranks from
`trank` on. -/
def store_run (v : Int) : Nat → Nat → List Nat → List Nat
  | 0, _, TOFS => TOFS
  | n + 1, trank, TOFS => store_run v n (trank + 1) (store_ull TOFS ((trank : Int) - 1) v)

/-! ### corpusGenerator.c: the document picked in a retry -/

/-- The entry of the doctable that a retry of the placement picks: entry 0
when one document is not full, otherwise `random_long_long(0, nonfulls - 1)`
on the draw number `c`. -/
def retry_pick (rnd : Nat → Nat) (nonfulls c : Nat) : Nat :=
  if nonfulls = 1 then 0 else rnd c % nonfulls

/-! ### MarkovWords.c: convert_matrix_rows_to_cumprobs -/

/-- The loop `for (j = 0; j < columns; j++)` that replaces the entries of the
row at `start_of_row` by the cumulative probabilities; the first argument
counts the iterations still to run. -/
def cumprob_row (row_sum : ℚ) (start_of_row : Nat) : Nat → Nat → ℚ → (Nat → ℚ) → (Nat → ℚ)
  | 0, _, _, M => M
  | n + 1, j, cumprob, M =>
    cumprob_row row_sum start_of_row n (j + 1) (cumprob + M (start_of_row + j) / row_sum)
      (store M (start_of_row + j) (cumprob + M (start_of_row + j) / row_sum))

/-- The loop `for (i = 0; i < rows; i++)` of `convert_matrix_rows_to_cumprobs`;
the first argument counts the rows still to convert. -/
def convert_matrix_rows_loop (columns : Nat) : Nat → Nat → (Nat → ℚ) → (Nat → ℚ)
  | 0, _, M => M
  | n + 1, i, M =>
    let start_of_row := i * columns
    let row_sum := sum_row M start_of_row columns
    if row_sum > 0 then
      convert_matrix_rows_loop columns n (i + 1) (cumprob_row row_sum start_of_row columns 0 0 M)
    else convert_matrix_rows_loop columns n (i + 1) M

/-- The function `convert_matrix_rows_to_cumprobs(M, rows, columns)`. -/
def convert_matrix_rows_to_cumprobs (M : Nat → ℚ) (rows columns : Nat) : Nat → ℚ :=
  convert_matrix_rows_loop columns rows 0 M

/-! ### MarkovWords.c: one observation -/

/-- The statement `transition_matrix[index] += freak`, and the like on
`letter_frequencies`, with `freak` being 1. -/
def count_one (m : Nat → ℚ) (index : Nat) : Nat → ℚ := store m index (m index + 1)

/-! ### termRepMethods.c: the methods tnum and bubble_babble, strlenp, the sort by length -/

/-- The do-while loop of `fill_in_term_repn_table_tnum` for one slot, entered
with `len` bytes stored: it stores `'0' + (trank % 10)` and divides `trank` by
10 while `trank > 0`, and is left when `len` reaches `max_term_len`; the first
argument bounds the iterations.  The result is the bytes stored, in the order
of the stores. -/
def tnum_digits (max_term_len : Nat) : Nat → Nat → Nat → List Char
  | 0, _, _ => []
  | fuel + 1, len, trank =>
    if len ≥ max_term_len then []
    else
      let ch := Char.ofNat (48 + trank % 10)
      if trank / 10 > 0 then ch :: tnum_digits max_term_len fuel (len + 1) (trank / 10)
      else [ch]

/-- The function `fill_in_term_repn_table_tnum`: slot `t` receives the word (the
bytes `wp[0 .. len-1]`, the letter `t` and what the loop stores) and the length
byte `wp[TERM_LENGTH_INDEX] = len`. -/
def fill_in_term_repn_table_tnum (vocab_size max_term_len : Nat) : List (String × Nat) :=
  (List.range vocab_size).map
    (fun t =>
      let wp := 't' :: tnum_digits max_term_len (max_term_len + 1) 1 t
      (String.mk wp, wp.length))

/-- The table `Vtable` of bubbleBabble.c. -/
def Vtable : List Char := "aeiouy".toList

/-- The table `Ctable` of bubbleBabble.c. -/
def Ctable : List Char := "bcdfghklmnprstvzx".toList

/-- The function `bubble_babble(k)` for `0 ≤ k < 2^31`; `D[1] .. D[4]` are the
bytes of the `int`, the lowest first (little-endian), and `INCLUDE_FILLERS` is
0.  The result is the contents of `buffer` before its NUL. -/
def bubble_babble (k : Nat) : List Char :=
  let D1 := k % 256
  let D2 := k / 256 % 256
  let D3 := k / 65536 % 256
  let D4 := k / 16777216 % 256
  let C1 := 1
  let C2 := (C1 * 5 + (D1 * 7 + D2)) % 36
  let C3 := (C2 * 5 + (D3 * 7 + D4)) % 36
  let T1_0 := (((D1 >>> 6) &&& 3) + C1) % 6
  let T1_1 := (D1 >>> 2) &&& 15
  let T1_2 := (D1 &&& 3) % 6
  let T1_3 := (D2 >>> 4) &&& 15
  let P0 := C3 % 6
  let P1 := (D4 >>> 2) &&& 15
  let P2 := ((D4 &&& 3) + C3 / 6) % 6
  [Vtable.getD T1_0 ' ', Ctable.getD T1_1 ' ', Vtable.getD T1_2 ' ', Ctable.getD T1_3 ' ',
   Ctable.getD T1_3 ' ', Vtable.getD T1_0 ' ', Ctable.getD T1_1 ' ', Vtable.getD T1_2 ' ',
   Ctable.getD T1_3 ' ',
   Ctable.getD T1_3 ' ', Vtable.getD P0 ' ', Ctable.getD P1 ' ', Vtable.getD P2 ' ']

/-- The function `fill_in_term_repn_table_bubble_babble`: slot `t` receives the
first `MAX_TERM_LEN` bytes of `bubble_babble(t)` and their number as length
byte. -/
def fill_in_term_repn_table_bubble_babble (vocab_size : Nat) : List (String × Nat) :=
  (List.range vocab_size).map
    (fun t =>
      let wp := (bubble_babble t).take MAX_TERM_LEN
      (String.mk wp, wp.length))

/-- The penalty `UNPRONOUNCABLE_PENALTY`. -/
def UNPRONOUNCABLE_PENALTY : Nat := 2

/-- The library function `strlen` on a buffer of bytes: the number of bytes
before the first NUL. -/
def strlen (s : List Nat) : Nat := (s.takeWhile (fun b => decide (b ≠ 0))).length

/-- The function `strlenp(s)`.  The words it is called on are made of the
letters of the alphabet of MarkovWords.c, one byte each, so that the code
points `pronouncability` reads are the bytes of `s`. -/
def strlenp (markov_favour_pronouncable : Bool) (unicode_isvowel : Nat → Bool)
    (MAX_PRONOUNCABILITY_SCORE : Int) (s : List Nat) : Nat :=
  let l := strlen s
  if markov_favour_pronouncable = true then
    let p := pronouncability unicode_isvowel MAX_PRONOUNCABILITY_SCORE s
    let l := if p = 0 then l + UNPRONOUNCABLE_PENALTY else l
    if l > MAX_TERM_LEN then MAX_TERM_LEN else l
  else l

/-- The first loop of `sort_term_array_by_length`: each entry (its word and its
length byte) gets `(byte) strlenp(old)` as length byte and is counted in
`word_length_histo`.  The length function is a parameter, as in
`setup_length_buckets`. -/
def build_histogram (strlenp : List Nat → Nat) :
    List (List Nat × Nat) → List Nat → List (List Nat × Nat) × List Nat
  | [], word_length_histo => ([], word_length_histo)
  | old :: rest, word_length_histo =>
    let l := strlenp old.1
    match build_histogram strlenp rest
        (word_length_histo.set l (word_length_histo.getD l 0 + 1)) with
    | (terms, histo) => ((old.1, l % 256) :: terms, histo)

/-- The loop `for (i = 0; i <= MAX_TERM_LEN; i++)` that turns the histogram into
its cumulative version; the first argument counts the iterations still to run. -/
def cumulate_histogram : Nat → Nat → Nat → List Nat → List Nat
  | 0, _, _, word_length_histo => word_length_histo
  | n + 1, i, sum, word_length_histo =>
    cumulate_histogram n (i + 1) (sum + word_length_histo.getD i 0)
      (word_length_histo.set i sum)

/-- The last loop of `sort_term_array_by_length`: each entry is copied to the
slot its length has reached in the histogram. -/
def scatter_terms :
    List (List Nat × Nat) → List Nat → List (List Nat × Nat) → List (List Nat × Nat)
  | [], _, new_terms => new_terms
  | old :: rest, word_length_histo, new_terms =>
    let len := old.2
    let slot := word_length_histo.getD len 0
    scatter_terms rest (word_length_histo.set len (slot + 1)) (new_terms.set slot old)

/-- The function `sort_term_array_by_length(terms, num_terms)`: the new table.
`word_length_histo` is the global histogram as the call finds it (zeroes at the
start of the program) and `new_terms` the block of `num_terms` entries that
`malloc` returns. -/
def sort_term_array_by_length (strlenp : List Nat → Nat) (word_length_histo : List Nat)
    (new_terms : List (List Nat × Nat)) (terms : List (List Nat × Nat)) (num_terms : Nat) :
    List (List Nat × Nat) :=
  match build_histogram strlenp (terms.take num_terms) word_length_histo with
  | (terms1, histo) =>
    scatter_terms terms1 (cumulate_histogram (MAX_TERM_LEN + 1) 0 0 histo) new_terms

/-! ### MarkovWords.c: the sanity check of calculate_row_index -/

/-- The loop `for (i = 1; i <= MAX_MARKOV_K; i++)` of `calculate_row_index` on
the array `sanity_check_row_numbers`; the first argument counts the iterations
still to run. -/
def sanity_check_loop : Nat → Nat → List Nat → List Nat
  | 0, _, numbers => numbers
  | n + 1, i, numbers =>
    sanity_check_loop n (i + 1) (numbers.set i (numbers.getD (i - 1) 0 * E_alphabet_size))

/-- The array `sanity_check_row_numbers` of `calculate_row_index`, declared
with `MAX_MARKOV_K + 1` entries and the initialiser `{1}`, after its loop. -/
def sanity_check_row_numbers : List Nat :=
  sanity_check_loop MAX_MARKOV_K 1 (1 :: List.replicate MAX_MARKOV_K 0)

/-- Whether `calculate_row_index(p, k)` prints its message `Erroneous row
number calculated`: the test `index > sanity_check_row_numbers[k]` on the row
number that the loop returns. -/
def row_number_message (buf : List Nat) (p k : Nat) : Bool :=
  if k = 0 then false
  else
    match row_index_loop buf p k 0 0 with
    | none => false
    | some index => decide (index > sanity_check_row_numbers.getD k 0)
/-! ### What the sort by length is compared with -/

/-- The entries of a table whose length byte is `l`, in the order of the table. -/
def length_class (l : Nat) (terms : List (List Nat × Nat)) : List (List Nat × Nat) :=
  terms.filter (fun e => decide (e.2 = l))

/-- The number of entries of a table whose length byte is below `l`. -/
def first_slot (terms : List (List Nat × Nat)) : Nat → Nat
  | 0 => 0
  | l + 1 => first_slot terms l + (length_class l terms).length

/-- The entries of a table with a length byte below `m`, the lengths in
increasing order and the entries of one length in the order of the table. -/
def sorted_by_length (terms : List (List Nat × Nat)) : Nat → List (List Nat × Nat)
  | 0 => []
  | m + 1 => sorted_by_length terms m ++ length_class m terms
/-! ## Theorems -/

/-! ### Bit fields and list stores -/

theorem or_final_and_rank (v : Nat) : (v ||| FINAL_POSTING_IN_DOC) &&& TERM_RANK_MASK = v &&& TERM_RANK_MASK := by
  have h1 : FINAL_POSTING_IN_DOC = 2 ^ 31 := by decide
  have h2 : TERM_RANK_MASK = 2 ^ 29 - 1 := by decide
  rw [h1, h2]
  apply Nat.eq_of_testBit_eq
  intro i
  simp only [Nat.testBit_and, Nat.testBit_or, Nat.testBit_two_pow, Nat.testBit_two_pow_sub_one]
  by_cases h : i < 29
  · have : ¬ (31 = i) := by omega
    simp [h, this]
  · simp [h]

theorem dt_count_pack (p c : Nat) (hc : c < 2 ^ 24) : dt_count (dt_pack p c) = c := by
  unfold dt_count dt_pack
  have h2 : doctable_slots_avail_mask = 2 ^ 24 - 1 := by decide
  rw [h2, Nat.and_pow_two_sub_one_eq_mod, doctable_pointer_shift, Nat.shiftLeft_eq, Nat.mul_comm,
    ← Nat.mul_add_lt_is_or hc, Nat.mul_add_mod, Nat.mod_eq_of_lt hc]

theorem dt_pointer_pack (p c : Nat) (hp : p < 2 ^ 40) (hc : c < 2 ^ 24) :
    dt_pointer (dt_pack p c) = p := by
  unfold dt_pointer dt_pack
  have h1 : doctable_pointer_mask = (2 ^ 40 - 1) <<< 24 := by decide
  have h2 : doctable_pointer_mask2 = 2 ^ 40 - 1 := by decide
  rw [h1, h2, doctable_pointer_shift]
  apply Nat.eq_of_testBit_eq
  intro i
  simp only [Nat.testBit_shiftRight, Nat.testBit_and, Nat.testBit_or, Nat.testBit_shiftLeft,
    Nat.testBit_two_pow_sub_one]
  have hc' : c.testBit (24 + i) = false := by
    apply Nat.testBit_lt_two_pow
    calc c < 2 ^ 24 := hc
      _ ≤ 2 ^ (24 + i) := Nat.pow_le_pow_right (by decide) (by omega)
  have e : 24 + i - 24 = i := by omega
  by_cases h : i < 40
  · simp [h, hc', e]
  · have hp' : p.testBit i = false := by
      apply Nat.testBit_lt_two_pow
      calc p < 2 ^ 40 := hp
        _ ≤ 2 ^ i := Nat.pow_le_pow_right (by decide) (by omega)
    simp [h, hc', e, hp']

theorem dt_count_lt (e : Nat) : dt_count e < 2 ^ 24 := by
  unfold dt_count
  have h2 : doctable_slots_avail_mask = 2 ^ 24 - 1 := by decide
  rw [h2, Nat.and_pow_two_sub_one_eq_mod]
  exact Nat.mod_lt _ (by decide)

theorem getD_set_eq (l : List Nat) (i j v : Nat) :
    (l.set i v).getD j 0 = if i = j ∧ i < l.length then v else l.getD j 0 := by
  simp only [List.getD_eq_getElem?_getD, List.getElem?_set]
  by_cases h : i = j
  · subst h
    by_cases h2 : i < l.length
    · simp [h2]
    · simp [h2, List.getElem?_eq_none (Nat.le_of_not_lt h2)]
  · simp [h]

theorem countP_set_add (p : Nat → Bool) (l : List Nat) (i v : Nat) (h : i < l.length) :
    (l.set i v).countP p + (if p (l.getD i 0) then 1 else 0)
      = l.countP p + (if p v then 1 else 0) := by
  induction l generalizing i with
  | nil => simp at h
  | cons a t ih =>
    cases i with
    | zero =>
      simp only [List.set_cons_zero, List.countP_cons, List.getD_cons_zero]
      omega
    | succ k =>
      have hk : k < t.length := by simpa using h
      have := ih k hk
      simp only [List.set_cons_succ, List.countP_cons, List.getD_cons_succ]
      omega

theorem swap_elts_countP (p : Nat → Bool) (a : List Nat) (i j : Nat) (hi : i < a.length)
    (hj : j < a.length) : (swap_elts a i j).countP p = a.countP p := by
  unfold swap_elts
  have hj' : j < (a.set i (a.getD j 0)).length := by simpa using hj
  have h1 := countP_set_add p (a.set i (a.getD j 0)) j (a.getD i 0) hj'
  have h2 := countP_set_add p a i (a.getD j 0) hi
  rw [getD_set_eq] at h1
  by_cases hij : i = j
  · subst hij
    simp only [hi, and_self, if_true] at h1
    simp only []
    omega
  · simp only [hij, false_and, if_false] at h1
    simp only []
    omega

theorem swap_elts_perm (a : List Nat) (i j : Nat) (hi : i < a.length) (hj : j < a.length) :
    (swap_elts a i j).Perm a := by
  rw [List.perm_iff_count]
  intro x
  simp only [List.count_eq_countP]
  exact swap_elts_countP _ a i j hi hj

theorem swap_elts_length (a : List Nat) (i j : Nat) : (swap_elts a i j).length = a.length := by
  simp [swap_elts]

/-! ### The doctable partition is kept by the retry loop -/

theorem write_term_some (termids : List Nat) (tt : term_type_t) (N : Nat) :
    ∀ (n k p c : Nat) (toa w : List Nat) (r : Nat × Nat × List Nat × List Nat),
      write_term termids tt N n k p c toa w = some r →
      r.1 = p + n ∧ r.2.1 = c - n ∧ r.2.2.1.length = toa.length := by
  intro n
  induction n with
  | zero =>
    intro k p c toa w r h
    simp only [write_term, Option.some.injEq] at h
    subst h
    simp
  | succ n ih =>
    intro k p c toa w r h
    simp only [write_term] at h
    split at h
    · exact absurd h (by simp)
    · have := ih _ _ _ _ _ _ h
      simp only [List.length_set] at this
      omega

theorem pick_some (rnd : Nat → Nat) (s : PlaceState) (h : ¬ s.nonfulls < 1) :
    ∃ j c1, j < s.nonfulls ∧
      (if s.nonfulls = 1 then some (0, s.c)
        else (random_long_long 0 (s.nonfulls - 1) (rnd s.c)).map (fun j => (j, s.c + 1)))
        = some (j, c1) := by
  by_cases h1 : s.nonfulls = 1
  · exact ⟨0, s.c, by omega, by simp [h1]⟩
  · refine ⟨0 + rnd s.c % (s.nonfulls - 1 - 0 + 1), s.c + 1, ?_, ?_⟩
    · have : rnd s.c % (s.nonfulls - 1 - 0 + 1) < s.nonfulls - 1 - 0 + 1 := Nat.mod_lt _ (by omega)
      omega
    · have : ¬ (s.nonfulls - 1 < 0 ∨ s.nonfulls - 1 - 0 < 1) := by omega
      simp [h1, random_long_long, this]
      omega

theorem partition_set_nonzero (s : PlaceState) (j e : Nat) (hP : Partition s)
    (hj : j < s.nonfulls) (he : 0 < dt_count e) (toa w : List Nat) (c : Nat) :
    Partition { doctable := s.doctable.set j e, nonfulls := s.nonfulls, toa := toa,
                written := w, c := c } := by
  obtain ⟨h1, h2⟩ := hP
  refine ⟨by simpa using h1, ?_⟩
  intro i hi
  simp only [List.length_set] at hi
  simp only [getD_set_eq]
  by_cases hji : j = i
  · subst hji
    simp only [true_and, hi, if_true]
    exact ⟨fun _ => he, fun h => by omega⟩
  · simp only [hji, false_and, if_false]
    exact h2 i hi

theorem partition_mark_full (s : PlaceState) (j e p : Nat) (hP : Partition s)
    (hj : j < s.nonfulls) (he : dt_count e = 0) (toa w : List Nat) (c : Nat) :
    Partition (mark_full
      { doctable := s.doctable.set j e, nonfulls := s.nonfulls, toa := toa, written := w, c := c }
      j p) := by
  obtain ⟨h1, h2⟩ := hP
  unfold mark_full
  by_cases hn : s.nonfulls > 1
  · simp only [hn, if_true]
    refine ⟨by simp; omega, ?_⟩
    intro i hi
    simp only [List.length_set] at hi
    simp only [getD_set_eq, List.length_set]
    have hjl : j < s.doctable.length := by omega
    have hnl : s.nonfulls - 1 < s.doctable.length := by omega
    by_cases hin : s.nonfulls - 1 = i
    · simp only [hin, hi, and_self, if_true, hjl] 
      exact ⟨fun h => by omega, fun _ => he⟩
    · simp only [hin, false_and, if_false]
      by_cases hji : j = i
      · subst hji
        simp only [true_and, hjl, if_true]
        have hne : ¬ (j = s.nonfulls - 1) := fun h => hin h.symm
        simp only [hne, false_and, if_false]
        constructor
        · intro _
          exact (h2 (s.nonfulls - 1) hnl).1 (by omega)
        · intro h; omega
      · simp only [hji, false_and, if_false]
        constructor
        · intro h
          exact (h2 i hi).1 (by omega)
        · intro h
          exact (h2 i hi).2 (by omega)
  · simp only [hn, if_false]
    refine ⟨by simp; omega, ?_⟩
    intro i hi
    simp only [List.length_set] at hi
    simp only [getD_set_eq]
    have hj0 : j = 0 := by omega
    subst hj0
    by_cases hi0 : 0 = i
    · subst hi0
      simp only [true_and, hi, if_true]
      exact ⟨fun h => by omega, fun _ => he⟩
    · simp only [hi0, false_and, if_false]
      exact ⟨fun h => by omega, fun _ => (h2 i hi).2 (by omega)⟩

theorem place_retry_partition (termids : List Nat) (term_len : Nat) (tt : term_type_t)
    (N : Nat) (rnd : Nat → Nat) :
    ∀ (n : Nat) (s : PlaceState) (r : Nat × PlaceState), Partition s →
      place_retry termids term_len tt N rnd n s = some r → Partition r.2 := by
  intro n
  induction n with
  | zero =>
    intro s r hP h
    simp only [place_retry, Option.some.injEq] at h
    subst h
    exact hP
  | succ n ih =>
    intro s r hP h
    simp only [place_retry] at h
    split at h
    · simp only [Option.some.injEq] at h
      subst h
      exact hP
    · rename_i hnf
      obtain ⟨j, c1, hj, hpick⟩ := pick_some rnd s hnf
      rw [hpick] at h
      simp only [] at h
      split at h
      · rename_i hge
        split at h
        · exact absurd h (by simp)
        · rename_i p1 cnt1 toa1 w1 hw
          have hws := write_term_some _ _ _ _ _ _ _ _ _ _ hw
          simp only [] at hws
          split at h
          · rename_i hc0
            simp only [Option.some.injEq] at h
            subst h
            apply partition_mark_full s j _ p1 hP hj
            rw [dt_count_pack _ _ (by have := dt_count_lt (s.doctable.getD j 0); omega)]
            exact hc0
          · rename_i hc0
            simp only [Option.some.injEq] at h
            subst h
            apply partition_set_nonzero s j _ hP hj
            rw [dt_count_pack _ _ (by have := dt_count_lt (s.doctable.getD j 0); omega)]
            omega
      · refine ih _ _ ?_ h
        exact hP

/-! ### The layout invariant of unigram placement -/

theorem sum_map_set_add (f : Nat → Nat) (l : List Nat) (i v : Nat) (h : i < l.length) :
    ((l.set i v).map f).sum + f (l.getD i 0) = (l.map f).sum + f v := by
  induction l generalizing i with
  | nil => simp at h
  | cons a t ih =>
    cases i with
    | zero =>
      simp only [List.set_cons_zero, List.map_cons, List.sum_cons, List.getD_cons_zero]
      omega
    | succ k =>
      have hk : k < t.length := by simpa using h
      have := ih k hk
      simp only [List.set_cons_succ, List.map_cons, List.sum_cons, List.getD_cons_succ]
      omega

theorem getD_mem (l : List Nat) (i : Nat) (h : i < l.length) : l.getD i 0 ∈ l := by
  rw [List.getD_eq_getElem?_getD, List.getElem?_eq_getElem h]
  exact List.getElem_mem h

theorem or_final_and_mask (v : Nat) :
    (v ||| FINAL_POSTING_IN_DOC) &&& MASK_ALL_BUT_FINAL_POSTING_FLAG
      = v &&& MASK_ALL_BUT_FINAL_POSTING_FLAG := by
  have h1 : FINAL_POSTING_IN_DOC = 2 ^ 31 := by decide
  have h2 : MASK_ALL_BUT_FINAL_POSTING_FLAG = 2 ^ 31 - 1 := by decide
  rw [h1, h2]
  apply Nat.eq_of_testBit_eq
  intro i
  simp only [Nat.testBit_and, Nat.testBit_or, Nat.testBit_two_pow, Nat.testBit_two_pow_sub_one]
  by_cases h : i < 31
  · have : ¬ (31 = i) := by omega
    simp [h, this]
  · simp [h]

theorem is_final_or (v : Nat) : is_final (v ||| FINAL_POSTING_IN_DOC) = true := by
  unfold is_final
  simp only [decide_eq_true_eq]
  intro h
  have h1 : FINAL_POSTING_IN_DOC = 2 ^ 31 := by decide
  rw [h1] at h
  have := congrArg (fun x => Nat.testBit x 31) h
  simp only [Nat.testBit_and, Nat.testBit_or, Nat.testBit_two_pow_self, Nat.zero_testBit,
    Bool.or_true, Bool.and_true] at this
  exact absurd this (by decide)

theorem is_final_of_lt (v : Nat) (h : v < 2 ^ 31) : is_final v = false := by
  unfold is_final
  simp only [decide_eq_false_iff_not, not_not]
  have h1 : FINAL_POSTING_IN_DOC = 2 ^ 31 := by decide
  rw [h1]
  apply Nat.eq_of_testBit_eq
  intro i
  simp only [Nat.testBit_and, Nat.testBit_two_pow, Nat.zero_testBit]
  by_cases hi : 31 = i
  · subst hi
    simp [Nat.testBit_lt_two_pow h]
  · simp [hi]

theorem layout_write (N : Nat) (ends placed : List Nat) (s : PlaceState) (hN : N < 2 ^ 40)
    (hL : Layout N ends placed s) (j : Nat) (hj : j < s.doctable.length)
    (hk : 0 < dt_count (s.doctable.getD j 0)) (v c1 : Nat) :
    Layout N ends (placed ++ [v])
      { doctable := s.doctable.set j
          (dt_pack (dt_pointer (s.doctable.getD j 0) + 1) (dt_count (s.doctable.getD j 0) - 1)),
        nonfulls := s.nonfulls,
        toa := s.toa.set (dt_pointer (s.doctable.getD j 0)) v,
        written := s.written ++ [dt_pointer (s.doctable.getD j 0)],
        c := c1 } := by
  have hmem := getD_mem s.doctable j hj
  generalize he : s.doctable.getD j 0 = e at hmem hk ⊢
  have hb := hL.bound e hmem
  have hklt := dt_count_lt e
  have hp' : dt_pointer (dt_pack (dt_pointer e + 1) (dt_count e - 1)) = dt_pointer e + 1 :=
    dt_pointer_pack _ _ (by omega) (by omega)
  have hc' : dt_count (dt_pack (dt_pointer e + 1) (dt_count e - 1)) = dt_count e - 1 :=
    dt_count_pack _ _ (by omega)
  have hcov := hL.cover (dt_pointer e) (by omega)
  have hin : in_region (dt_pointer e) e = true := by
    unfold in_region; simp; omega
  have hpos : 0 < s.doctable.countP (in_region (dt_pointer e)) :=
    List.countP_pos_iff.mpr ⟨e, hmem, hin⟩
  have hnotw : s.written.count (dt_pointer e) = 0 := by omega
  have hnotmem : dt_pointer e ∉ s.written := fun h => by
    have := List.count_pos_iff.mpr h
    omega
  constructor
  · simp [hL.len_toa]
  · intro x hx
    rcases List.mem_or_eq_of_mem_set hx with h | h
    · exact hL.bound x h
    · subst h
      rw [hp', hc']; omega
  · intro i hi
    have h1 := countP_set_add (in_region i) s.doctable j
      (dt_pack (dt_pointer e + 1) (dt_count e - 1)) hj
    rw [he] at h1
    have h0 := hL.cover i hi
    simp only [List.count_append]
    by_cases hip : i = dt_pointer e
    · subst hip
      have e2 : in_region (dt_pointer e) (dt_pack (dt_pointer e + 1) (dt_count e - 1)) = false := by
        unfold in_region; rw [hp', hc']; simp
      rw [hin, e2] at h1
      simp only [List.count_singleton_self] 
      simp only [if_true] at h1
      simp at h1
      omega
    · have e2 : in_region i (dt_pack (dt_pointer e + 1) (dt_count e - 1)) = in_region i e := by
        unfold in_region; rw [hp', hc']
        apply decide_eq_decide.mpr
        omega
      rw [e2] at h1
      have e3 : List.count i [dt_pointer e] = 0 := by
        rw [List.count_eq_zero]; simp; exact hip
      rw [e3]
      omega
  · intro w hw
    rcases List.mem_append.mp hw with h | h
    · exact hL.wlt w h
    · simp at h; omega
  · have h1 := sum_map_set_add dt_count s.doctable j
      (dt_pack (dt_pointer e + 1) (dt_count e - 1)) hj
    rw [he, hc'] at h1
    have h0 := hL.total
    simp only [List.length_append, List.length_singleton]
    omega
  · intro x hx
    rcases List.mem_or_eq_of_mem_set hx with h | h
    · exact hL.ends_mem x h
    · subst h
      rw [hp', hc']
      have := hL.ends_mem e hmem
      have e4 : dt_pointer e + 1 + (dt_count e - 1) = dt_pointer e + dt_count e := by omega
      rw [e4]; exact this
  · intro x hx y hy
    rcases List.mem_or_eq_of_mem_set hx with h | h
    · exact hL.noend x h y hy
    · subst h
      rw [hp', hc']
      have := hL.noend e hmem y hy
      omega
  · simp only [List.map_append, List.map_cons, List.map_nil]
    have hv := hL.vals
    congr 1
    · rw [← hv]
      apply List.map_congr_left
      intro w hw
      have hne : ¬ (dt_pointer e = w) := fun h => hnotmem (h ▸ hw)
      rw [getD_set_eq]
      simp [hne]
    · rw [getD_set_eq]
      have : dt_pointer e < s.toa.length := by rw [hL.len_toa]; omega
      simp [this]


theorem mark_full_toa (s : PlaceState) (j q : Nat) :
    (mark_full s j q).toa
      = s.toa.set (q - 1) (s.toa.getD (q - 1) 0 ||| FINAL_POSTING_IN_DOC) := by
  unfold mark_full
  by_cases h : s.nonfulls > 1 <;> simp [h]

theorem mark_full_nonfulls (s : PlaceState) (j q : Nat) :
    (mark_full s j q).nonfulls = s.nonfulls - 1 := by
  unfold mark_full
  by_cases h : s.nonfulls > 1 <;> simp [h]

theorem mark_full_written (s : PlaceState) (j q : Nat) :
    (mark_full s j q).written = s.written := by
  unfold mark_full
  by_cases h : s.nonfulls > 1 <;> simp [h]

theorem mark_full_doctable_perm (s : PlaceState) (j q : Nat) (hj : j < s.nonfulls)
    (hn : s.nonfulls ≤ s.doctable.length) :
    (mark_full s j q).doctable.Perm s.doctable := by
  unfold mark_full
  by_cases h : s.nonfulls > 1
  · simp only [h, if_true]
    exact swap_elts_perm s.doctable j (s.nonfulls - 1) (by omega) (by omega)
  · simp [h]

theorem layout_of_perm (N : Nat) (ends placed : List Nat) (s t : PlaceState)
    (hL : Layout N ends placed s) (hd : t.doctable.Perm s.doctable)
    (hw : t.written = s.written) (hlen : t.toa.length = N)
    (ht : ∀ w, t.toa.getD w 0 &&& MASK_ALL_BUT_FINAL_POSTING_FLAG
      = s.toa.getD w 0 &&& MASK_ALL_BUT_FINAL_POSTING_FLAG) :
    Layout N ends placed t := by
  constructor
  · exact hlen
  · intro e he
    exact hL.bound e (hd.mem_iff.mp he)
  · intro i hi
    rw [hw, hd.countP_eq]
    exact hL.cover i hi
  · intro w h
    rw [hw] at h
    exact hL.wlt w h
  · rw [hw, (hd.map dt_count).sum_eq]
    exact hL.total
  · intro e he
    exact hL.ends_mem e (hd.mem_iff.mp he)
  · intro e he
    exact hL.noend e (hd.mem_iff.mp he)
  · rw [hw, ← hL.vals]
    apply List.map_congr_left
    intro w _
    exact ht w

theorem layout_mark_full (N : Nat) (ends placed : List Nat) (s : PlaceState) (j q : Nat)
    (hL : Layout N ends placed s) (hj : j < s.nonfulls)
    (hn : s.nonfulls ≤ s.doctable.length) :
    Layout N ends placed (mark_full s j q) := by
  apply layout_of_perm N ends placed s _ hL (mark_full_doctable_perm s j q hj hn)
    (mark_full_written s j q)
  · rw [mark_full_toa]; simp [hL.len_toa]
  · intro w
    rw [mark_full_toa, getD_set_eq]
    by_cases h : q - 1 = w ∧ q - 1 < s.toa.length
    · rw [if_pos h, or_final_and_mask, h.1]
    · rw [if_neg h]


theorem flags_step (N : Nat) (ends placed : List Nat) (s : PlaceState)
    (hI : UInv N ends placed s) (j : Nat) (hj : j < s.nonfulls) (v c1 : Nat) :
    Flags N ends (placed ++ [v])
      (if dt_count (s.doctable.getD j 0) - 1 = 0 then
        mark_full
          { doctable := s.doctable.set j
              (dt_pack (dt_pointer (s.doctable.getD j 0) + 1) (dt_count (s.doctable.getD j 0) - 1)),
            nonfulls := s.nonfulls,
            toa := s.toa.set (dt_pointer (s.doctable.getD j 0)) v,
            written := s.written ++ [dt_pointer (s.doctable.getD j 0)],
            c := c1 } j (dt_pointer (s.doctable.getD j 0) + 1)
       else
          { doctable := s.doctable.set j
              (dt_pack (dt_pointer (s.doctable.getD j 0) + 1) (dt_count (s.doctable.getD j 0) - 1)),
            nonfulls := s.nonfulls,
            toa := s.toa.set (dt_pointer (s.doctable.getD j 0)) v,
            written := s.written ++ [dt_pointer (s.doctable.getD j 0)],
            c := c1 }) := by
  obtain ⟨hL, hP, hF⟩ := hI
  have hjl : j < s.doctable.length := Nat.lt_of_lt_of_le hj hP.1
  have hk : 0 < dt_count (s.doctable.getD j 0) := (hP.2 j hjl).1 hj
  have hmem := getD_mem s.doctable j hjl
  generalize he : s.doctable.getD j 0 = e at hmem hk ⊢
  intro hv
  have hvold : ∀ x ∈ placed, x < 2 ^ 31 := fun x hx => hv x (List.mem_append_left _ hx)
  have hvv : v < 2 ^ 31 := hv v (by simp)
  obtain ⟨F1, F2⟩ := hF hvold
  have hb := hL.bound e hmem
  have hpN : dt_pointer e < N := by omega
  have hpl : dt_pointer e < s.toa.length := by rw [hL.len_toa]; exact hpN
  have hcov := hL.cover (dt_pointer e) hpN
  have hin : in_region (dt_pointer e) e = true := by
    unfold in_region; simp; omega
  have hpos : 0 < s.doctable.countP (in_region (dt_pointer e)) :=
    List.countP_pos_iff.mpr ⟨e, hmem, hin⟩
  have hnotw : s.written.count (dt_pointer e) = 0 := by omega
  have hold : is_final (s.toa.getD (dt_pointer e) 0) = false := by
    cases hf : is_final (s.toa.getD (dt_pointer e) 0) with
    | false => rfl
    | true => have := ((F1 _ hpN).mp hf).1; omega
  have hcnt1 := countP_set_add is_final s.toa (dt_pointer e) v hpl
  rw [hold, is_final_of_lt v hvv] at hcnt1
  simp only [Bool.false_eq_true, if_false, Nat.add_zero] at hcnt1
  have hcountne : ∀ i, i ≠ dt_pointer e →
      List.count i (s.written ++ [dt_pointer e]) = List.count i s.written := by
    intro i hi
    rw [List.count_append]
    have : List.count i [dt_pointer e] = 0 := by
      rw [List.count_eq_zero]; simp; exact hi
    omega
  have hcountp : 0 < List.count (dt_pointer e) (s.written ++ [dt_pointer e]) := by
    rw [List.count_append]; simp
  by_cases hk1 : dt_count e - 1 = 0
  · rw [if_pos hk1]
    have hend : dt_pointer e + 1 ∈ ends := by
      have := hL.ends_mem e hmem
      have e1 : dt_pointer e + dt_count e = dt_pointer e + 1 := by omega
      rwa [e1] at this
    have hget : (s.toa.set (dt_pointer e) v).getD (dt_pointer e) 0 = v := by
      rw [getD_set_eq]; simp [hpl]
    have hpl' : dt_pointer e < (s.toa.set (dt_pointer e) v).length := by simpa using hpl
    refine ⟨?_, ?_⟩
    · intro i hi
      rw [mark_full_toa, mark_full_written]
      simp only [Nat.add_sub_cancel, hget]
      rw [getD_set_eq]
      by_cases hip : dt_pointer e = i
      · subst hip
        simp only [true_and, hpl', if_true, is_final_or, true_iff]
        exact ⟨hcountp, hend⟩
      · simp only [hip, false_and, if_false]
        rw [getD_set_eq]
        simp only [hip, false_and, if_false]
        rw [hcountne i (fun h => hip h.symm)]
        exact F1 i hi
    · rw [mark_full_toa, mark_full_nonfulls]
      simp only [Nat.add_sub_cancel, hget]
      have h2 := countP_set_add is_final (s.toa.set (dt_pointer e) v) (dt_pointer e)
        (v ||| FINAL_POSTING_IN_DOC) hpl'
      rw [hget, is_final_of_lt v hvv, is_final_or] at h2
      simp only [Bool.false_eq_true, if_false, if_true, Nat.add_zero] at h2
      have hlen : (mark_full
          { doctable := s.doctable.set j (dt_pack (dt_pointer e + 1) (dt_count e - 1)),
            nonfulls := s.nonfulls,
            toa := s.toa.set (dt_pointer e) v,
            written := s.written ++ [dt_pointer e],
            c := c1 } j (dt_pointer e + 1)).doctable.length = s.doctable.length := by
        have := (mark_full_doctable_perm
          { doctable := s.doctable.set j (dt_pack (dt_pointer e + 1) (dt_count e - 1)),
            nonfulls := s.nonfulls,
            toa := s.toa.set (dt_pointer e) v,
            written := s.written ++ [dt_pointer e],
            c := c1 } j (dt_pointer e + 1) hj (by simpa using hP.1)).length_eq
        simpa using this
      rw [hlen]
      omega
  · rw [if_neg hk1]
    have hnend : ¬ (dt_pointer e + 1 ∈ ends) := by
      intro h
      have := hL.noend e hmem _ h
      omega
    refine ⟨?_, ?_⟩
    · intro i hi
      simp only []
      rw [getD_set_eq]
      by_cases hip : dt_pointer e = i
      · subst hip
        simp only [true_and, hpl, if_true, is_final_of_lt v hvv, Bool.false_eq_true, false_iff]
        intro h
        exact hnend h.2
      · simp only [hip, false_and, if_false]
        rw [hcountne i (fun h => hip h.symm)]
        exact F1 i hi
    · simp only [List.length_set]
      omega


theorem all_full_sum_zero (s : PlaceState) (hP : Partition s) (h0 : s.nonfulls = 0) :
    (s.doctable.map dt_count).sum = 0 := by
  apply List.sum_eq_zero
  intro x hx
  obtain ⟨e, he, rfl⟩ := List.mem_map.mp hx
  obtain ⟨i, hi, rfl⟩ := List.getElem_of_mem he
  have := (hP.2 i hi).2 (by omega)
  rwa [List.getD_eq_getElem?_getD, List.getElem?_eq_getElem hi] at this

theorem write_term_word_one (termids : List Nat) (N p k : Nat) (toa w : List Nat) (hp : p < N) :
    write_term termids term_type_t.TT_WORD N 1 0 p k toa w
      = some (p + 1, k - 1, toa.set p (termids.getD 0 0), w ++ [p]) := by
  have : ¬ (p ≥ N) := by omega
  simp [write_term, this]

theorem place_unigram (N : Nat) (ends placed : List Nat) (s : PlaceState) (hN : N < 2 ^ 40)
    (hI : UInv N ends placed s) (hlt : s.written.length < N) (termids : List Nat)
    (rnd : Nat → Nat) :
    ∃ s1, place_one_word_instance_in_a_random_document termids 1 term_type_t.TT_WORD N rnd s
        = some (0, s1) ∧
      UInv N ends (placed ++ [termids.getD 0 0]) s1 ∧
      s1.written.length = s.written.length + 1 ∧
      s1.doctable.length = s.doctable.length := by
  have hI' := hI
  obtain ⟨hL, hP, hF⟩ := hI
  have hnf : ¬ s.nonfulls < 1 := by
    intro h
    have := all_full_sum_zero s hP (by omega)
    have := hL.total
    omega
  obtain ⟨j, c1, hj, hpick⟩ := pick_some rnd s hnf
  have hjl : j < s.doctable.length := Nat.lt_of_lt_of_le hj hP.1
  have hk : 0 < dt_count (s.doctable.getD j 0) := (hP.2 j hjl).1 hj
  have hb := hL.bound _ (getD_mem s.doctable j hjl)
  have hpN : dt_pointer (s.doctable.getD j 0) < N := by omega
  have hklt := dt_count_lt (s.doctable.getD j 0)
  have hflags := flags_step N ends placed s hI' j hj (termids.getD 0 0) c1
  have hlay := layout_write N ends placed s hN hL j hjl hk (termids.getD 0 0) c1
  unfold place_one_word_instance_in_a_random_document
  rw [show MAX_RANDOM_RETRIES = 4999 + 1 from rfl]
  generalize 4999 = n
  simp only [place_retry, hnf, if_false, hpick]
  have hge : dt_count (s.doctable.getD j 0) ≥ 1 := hk
  simp only [hge, if_true, write_term_word_one termids N _ _ _ _ hpN]
  by_cases hk1 : dt_count (s.doctable.getD j 0) - 1 = 0
  · rw [if_pos hk1] at hflags ⊢
    refine ⟨_, rfl, ⟨?_, ?_, hflags⟩, ?_, ?_⟩
    · exact layout_mark_full N ends _ _ j _ hlay hj (by simpa using hP.1)
    · apply partition_mark_full s j _ _ hP hj
      rw [dt_count_pack _ _ (by omega)]
      exact hk1
    · rw [mark_full_written]; simp
    · have := (mark_full_doctable_perm
        { doctable := s.doctable.set j
            (dt_pack (dt_pointer (s.doctable.getD j 0) + 1) (dt_count (s.doctable.getD j 0) - 1)),
          nonfulls := s.nonfulls,
          toa := s.toa.set (dt_pointer (s.doctable.getD j 0)) (termids.getD 0 0),
          written := s.written ++ [dt_pointer (s.doctable.getD j 0)],
          c := c1 } j (dt_pointer (s.doctable.getD j 0) + 1) hj (by simpa using hP.1)).length_eq
      simpa using this
  · rw [if_neg hk1] at hflags ⊢
    refine ⟨_, rfl, ⟨hlay, ?_, hflags⟩, ?_, ?_⟩
    · apply partition_set_nonzero s j _ hP hj
      rw [dt_count_pack _ _ (by omega)]
      omega
    · simp
    · simp


theorem dt_count_of_lt (l : Nat) (h : l < 2 ^ 24) : dt_count l = l := by
  unfold dt_count
  have h2 : doctable_slots_avail_mask = 2 ^ 24 - 1 := by decide
  rw [h2, Nat.and_pow_two_sub_one_eq_mod, Nat.mod_eq_of_lt h]

theorem plug_loop_cons (l : Nat) (rest : List Nat) (idx : Nat) :
    plug_in_dt_pointers_loop (l :: rest) idx
      = dt_pack idx (dt_count l) :: plug_in_dt_pointers_loop rest (idx + dt_count l) := rfl

theorem doc_ends_ge (lens : List Nat) : ∀ idx, ∀ x ∈ doc_ends lens idx, idx ≤ x := by
  induction lens with
  | nil => intro idx x hx; simp [doc_ends] at hx
  | cons l rest ih =>
    intro idx x hx
    simp only [doc_ends, List.mem_cons] at hx
    rcases hx with h | h
    · omega
    · have := ih _ x h; omega

theorem plug_loop_length (lens : List Nat) :
    ∀ idx, (plug_in_dt_pointers_loop lens idx).length = lens.length := by
  induction lens with
  | nil => intro idx; rfl
  | cons l rest ih => intro idx; rw [plug_loop_cons]; simp [ih]

theorem plug_loop_counts (lens : List Nat) (hl : ∀ l ∈ lens, l < 2 ^ 24) :
    ∀ idx, (plug_in_dt_pointers_loop lens idx).map dt_count = lens := by
  induction lens with
  | nil => intro idx; rfl
  | cons l rest ih =>
    intro idx
    have hl0 : l < 2 ^ 24 := hl l (by simp)
    rw [plug_loop_cons, List.map_cons, dt_count_of_lt l hl0, dt_count_pack _ _ hl0,
      ih (fun x hx => hl x (List.mem_cons_of_mem _ hx))]

theorem plug_loop_entries (lens : List Nat) (hl : ∀ l ∈ lens, l < 2 ^ 24) :
    ∀ idx, idx + lens.sum < 2 ^ 40 → ∀ e ∈ plug_in_dt_pointers_loop lens idx,
      idx ≤ dt_pointer e ∧ dt_pointer e + dt_count e ≤ idx + lens.sum ∧
      dt_pointer e + dt_count e ∈ doc_ends lens idx ∧
      ∀ x ∈ doc_ends lens idx, ¬ (dt_pointer e < x ∧ x < dt_pointer e + dt_count e) := by
  induction lens with
  | nil => intro idx _ e he; simp [plug_in_dt_pointers_loop] at he
  | cons l rest ih =>
    intro idx hN e he
    have hl0 : l < 2 ^ 24 := hl l (by simp)
    simp only [List.sum_cons] at hN
    rw [plug_loop_cons, dt_count_of_lt l hl0] at he
    simp only [List.sum_cons, doc_ends, List.mem_cons]
    rcases List.mem_cons.mp he with h | h
    · subst h
      rw [dt_pointer_pack _ _ (by omega) hl0, dt_count_pack _ _ hl0]
      refine ⟨le_refl _, by omega, Or.inl rfl, ?_⟩
      intro x hx
      rcases hx with h | h
      · omega
      · have := doc_ends_ge rest _ x h; omega
    · obtain ⟨h1, h2, h3, h4⟩ := ih (fun x hx => hl x (List.mem_cons_of_mem _ hx)) (idx + l)
        (by omega) e h
      refine ⟨by omega, by omega, Or.inr h3, ?_⟩
      intro x hx
      rcases hx with h | h
      · omega
      · exact h4 x h

theorem plug_loop_cover (lens : List Nat) (hl : ∀ l ∈ lens, l < 2 ^ 24) :
    ∀ idx, idx + lens.sum < 2 ^ 40 → ∀ i,
      (plug_in_dt_pointers_loop lens idx).countP (in_region i)
        = if idx ≤ i ∧ i < idx + lens.sum then 1 else 0 := by
  induction lens with
  | nil =>
    intro idx _ i
    have : ¬ (idx ≤ i ∧ i < idx) := by omega
    simp [plug_in_dt_pointers_loop, this]
  | cons l rest ih =>
    intro idx hN i
    have hl0 : l < 2 ^ 24 := hl l (by simp)
    simp only [List.sum_cons] at hN
    rw [plug_loop_cons, dt_count_of_lt l hl0, List.countP_cons,
      ih (fun x hx => hl x (List.mem_cons_of_mem _ hx)) (idx + l) (by omega) i]
    unfold in_region
    rw [dt_pointer_pack _ _ (by omega) hl0, dt_count_pack _ _ hl0]
    simp only [List.sum_cons, decide_eq_true_eq]
    by_cases h1 : idx ≤ i ∧ i < idx + l
    · have h2 : ¬ (idx + l ≤ i ∧ i < idx + l + rest.sum) := by omega
      have h3 : idx ≤ i ∧ i < idx + (l + rest.sum) := by omega
      simp [h1, h2, h3]
    · by_cases h2 : idx + l ≤ i ∧ i < idx + l + rest.sum
      · have h3 : idx ≤ i ∧ i < idx + (l + rest.sum) := by omega
        simp [h1, h2, h3]
      · have h3 : ¬ (idx ≤ i ∧ i < idx + (l + rest.sum)) := by omega
        simp [h1, h2, h3]

theorem getD_replicate_zero (N i : Nat) : (List.replicate N 0).getD i 0 = 0 := by
  rw [List.getD_eq_getElem?_getD]
  by_cases h : i < N
  · simp [List.getElem?_replicate, h]
  · simp [List.getElem?_replicate, h]

theorem is_final_zero : is_final 0 = false := by decide

theorem uinv_init (lens : List Nat) (hl : ∀ l ∈ lens, 1 ≤ l ∧ l < 2 ^ 24)
    (hN : lens.sum < 2 ^ 40) (c : Nat) :
    UInv lens.sum (doc_ends lens 0) []
      { doctable := plug_in_dt_pointers lens, nonfulls := lens.length,
        toa := List.replicate lens.sum 0, written := [], c := c } := by
  have hl2 : ∀ l ∈ lens, l < 2 ^ 24 := fun l h => (hl l h).2
  have hent := plug_loop_entries lens hl2 0 (by simpa using hN)
  have hcnt := plug_loop_counts lens hl2 0
  have hlen := plug_loop_length lens 0
  refine ⟨?_, ?_, ?_⟩
  · constructor
    · simp
    · intro e he
      have := (hent e he).2.1
      simpa using this
    · intro i hi
      simp only [List.count_nil, Nat.zero_add]
      show (plug_in_dt_pointers_loop lens 0).countP (in_region i) = 1
      rw [plug_loop_cover lens hl2 0 (by simpa using hN) i]
      simp [hi]
    · intro w hw; simp at hw
    · show ((plug_in_dt_pointers_loop lens 0).map dt_count).sum + 0 = lens.sum
      rw [hcnt]; rfl
    · intro e he; exact (hent e he).2.2.1
    · intro e he; exact (hent e he).2.2.2
    · rfl
  · refine ⟨by show lens.length ≤ (plug_in_dt_pointers_loop lens 0).length; rw [hlen], ?_⟩
    intro j hj
    have hj' : j < lens.length := by
      have : j < (plug_in_dt_pointers_loop lens 0).length := hj
      rwa [hlen] at this
    have hjd : j < (plug_in_dt_pointers_loop lens 0).length := hj
    have e1 : dt_count ((plug_in_dt_pointers_loop lens 0).getD j 0) = lens.getD j 0 := by
      have h1 : ((plug_in_dt_pointers_loop lens 0).map dt_count).getD j 0 = lens.getD j 0 := by
        rw [hcnt]
      rw [← h1]
      simp [List.getD_eq_getElem?_getD, List.getElem?_eq_getElem hjd]
    show (j < lens.length → 0 < dt_count ((plug_in_dt_pointers_loop lens 0).getD j 0)) ∧
      (lens.length ≤ j → dt_count ((plug_in_dt_pointers_loop lens 0).getD j 0) = 0)
    rw [e1]
    refine ⟨fun _ => ?_, fun h => by omega⟩
    have := (hl _ (getD_mem lens j hj')).1
    omega
  · intro _
    refine ⟨?_, ?_⟩
    · intro i hi
      simp [getD_replicate_zero, is_final_zero]
    · show (List.replicate lens.sum 0).countP is_final + lens.length
        = (plug_in_dt_pointers_loop lens 0).length
      rw [hlen, List.countP_replicate]
      simp [is_final_zero]


theorem getD_drop_zero (im : List Nat) (t : Nat) : (im.drop t).getD 0 0 = im.getD t 0 := by
  simp [List.getD_eq_getElem?_getD, List.getElem?_drop]

theorem place_intermediate_inv (N : Nat) (ends im : List Nat) (rnd : Nat → Nat)
    (hN : N < 2 ^ 40) :
    ∀ (n t : Nat) (s : PlaceState),
      UInv N ends ((List.range t).map (fun i => im.getD i 0)) s →
      s.written.length = t → t + n ≤ N →
      ∃ s1, place_intermediate im N rnd n t s = some s1 ∧
        UInv N ends ((List.range (t + n)).map (fun i => im.getD i 0)) s1 ∧
        s1.written.length = t + n ∧ s1.doctable.length = s.doctable.length := by
  intro n
  induction n with
  | zero =>
    intro t s hI hw _
    exact ⟨s, rfl, hI, hw, rfl⟩
  | succ n ih =>
    intro t s hI hw hle
    obtain ⟨s1, h1, hI1, hw1, hd1⟩ := place_unigram N ends _ s hN hI (by omega) (im.drop t) rnd
    rw [getD_drop_zero] at hI1
    have e : (List.range t).map (fun i => im.getD i 0) ++ [im.getD t 0]
        = (List.range (t + 1)).map (fun i => im.getD i 0) := by
      rw [List.range_succ, List.map_append]; rfl
    rw [e] at hI1
    obtain ⟨s2, h2, hI2, hw2, hd2⟩ := ih (t + 1) s1 hI1 (by omega) (by omega)
    refine ⟨s2, ?_, ?_, ?_, ?_⟩
    · simp only [place_intermediate, h1]
      simpa using h2
    · have : t + 1 + n = t + (n + 1) := by omega
      rw [this] at hI2; exact hI2
    · omega
    · omega

theorem plug_loop_map_count (dt0 : List Nat) :
    ∀ idx, plug_in_dt_pointers_loop dt0 idx
      = plug_in_dt_pointers_loop (dt0.map dt_count) idx := by
  induction dt0 with
  | nil => intro idx; rfl
  | cons e rest ih =>
    intro idx
    rw [List.map_cons, plug_loop_cons, plug_loop_cons, dt_count_of_lt _ (dt_count_lt e), ih]

theorem all_counts_zero (N : Nat) (ends placed : List Nat) (s : PlaceState)
    (hI : UInv N ends placed s) (hw : s.written.length = N) :
    s.nonfulls = 0 ∧ ∀ i, s.doctable.countP (in_region i) = 0 := by
  obtain ⟨hL, hP, _⟩ := hI
  have hsum : (s.doctable.map dt_count).sum = 0 := by
    have := hL.total; omega
  have hz : ∀ e ∈ s.doctable, dt_count e = 0 := by
    intro e he
    have := List.sum_eq_zero_iff.mp hsum (dt_count e) (List.mem_map_of_mem _ he)
    exact this
  constructor
  · by_contra h
    have h0 : 0 < s.doctable.length := by have := hP.1; omega
    have := (hP.2 0 h0).1 (by omega)
    have := hz _ (getD_mem s.doctable 0 h0)
    omega
  · intro i
    rw [List.countP_eq_zero]
    intro e he
    unfold in_region
    have := hz e he
    simp only [decide_eq_true_eq]
    omega

/-- C4: starting from the pointer-plugged doctable of documents with lengths at
least 1 summing to `N` (below the capacity `2^40` of the pointer field), the
zeroed occurrence array and `nonfulls = D`, the `N` successive one-word
placements of the unigram loop all return outcome 0, every slot is written
exactly once, `nonfulls` ends at 0, and, the words placed having bit 31 clear,
exactly `D` postings bear the end-of-document flag: the last slot of each
document. -/
theorem unigram_placement_fills_array (dt0 im : List Nat) (rnd : Nat → Nat) (c N : Nat)
    (hlen : ∀ e ∈ dt0, 1 ≤ dt_count e) (hsum : (dt0.map dt_count).sum = N)
    (hN : N < 2 ^ 40) :
    ∃ s, place_intermediate im N rnd N 0
        { doctable := plug_in_dt_pointers dt0, nonfulls := dt0.length,
          toa := List.replicate N 0, written := [], c := c } = some s ∧
      s.written.length = N ∧
      (∀ i, i < N → s.written.count i = 1) ∧
      s.nonfulls = 0 ∧
      ((∀ t, t < N → im.getD t 0 < 2 ^ 31) →
        s.toa.countP is_final = dt0.length ∧
        ∀ i, i < N →
          (is_final (s.toa.getD i 0) = true ↔ i + 1 ∈ doc_ends (dt0.map dt_count) 0)) := by
  subst hsum
  have hl : ∀ l ∈ dt0.map dt_count, 1 ≤ l ∧ l < 2 ^ 24 := by
    intro l h
    obtain ⟨e, he, rfl⟩ := List.mem_map.mp h
    exact ⟨hlen e he, dt_count_lt e⟩
  have h0 := uinv_init (dt0.map dt_count) hl hN c
  have e0 : plug_in_dt_pointers (dt0.map dt_count) = plug_in_dt_pointers dt0 :=
    (plug_loop_map_count dt0 0).symm
  rw [e0, List.length_map] at h0
  obtain ⟨s, hs, hI, hw, hd⟩ := place_intermediate_inv _ _ im rnd hN (dt0.map dt_count).sum 0 _
    h0 rfl (by omega)
  rw [Nat.zero_add] at hI hw
  obtain ⟨hnf, hcz⟩ := all_counts_zero _ _ _ s hI hw
  refine ⟨s, hs, hw, ?_, hnf, ?_⟩
  · intro i hi
    have := hI.1.cover i hi
    rw [hcz i] at this
    exact this
  · intro hv
    have hv' : ∀ v ∈ (List.range (dt0.map dt_count).sum).map (fun i => im.getD i 0),
        v < 2 ^ 31 := by
      intro v h
      obtain ⟨t, ht, rfl⟩ := List.mem_map.mp h
      exact hv t (List.mem_range.mp ht)
    obtain ⟨F1, F2⟩ := hI.2.2 hv'
    constructor
    · have hdl : s.doctable.length = dt0.length := by
        rw [hd]
        show (plug_in_dt_pointers_loop dt0 0).length = dt0.length
        exact plug_loop_length dt0 0
      omega
    · intro i hi
      rw [F1 i hi]
      have := hI.1.cover i hi
      rw [hcz i] at this
      constructor
      · intro h; exact h.2
      · intro h; exact ⟨by omega, h⟩


/-- Witness of C4: two documents of lengths 2 and 1, three words. -/
theorem unigram_placement_fills_array_witness :
    (∀ e ∈ [2, 1], 1 ≤ dt_count e) ∧ (([2, 1] : List Nat).map dt_count).sum = 3 ∧
    (3 : Nat) < 2 ^ 40 ∧
    ∃ s, place_intermediate [5, 6, 7] 3 (fun n => n) 3 0
        { doctable := plug_in_dt_pointers [2, 1], nonfulls := ([2, 1] : List Nat).length,
          toa := List.replicate 3 0, written := [], c := 0 } = some s ∧
      s.written.length = 3 ∧
      (∀ i, i < 3 → s.written.count i = 1) ∧
      s.nonfulls = 0 ∧
      ((∀ t, t < 3 → ([5, 6, 7] : List Nat).getD t 0 < 2 ^ 31) →
        s.toa.countP is_final = ([2, 1] : List Nat).length ∧
        ∀ i, i < 3 →
          (is_final (s.toa.getD i 0) = true ↔
            i + 1 ∈ doc_ends (([2, 1] : List Nat).map dt_count) 0)) :=
  ⟨by decide, by decide, by decide,
    unigram_placement_fills_array [2, 1] [5, 6, 7] (fun n => n) 0 3 (by decide) (by decide)
      (by decide)⟩

theorem place_postings_loop_partition (termids : List Nat) (term_len : Nat) (tt : term_type_t)
    (N : Nat) (rnd : Nat → Nat) :
    ∀ (n o : Nat) (s : PlaceState) (r : Nat × PlaceState), Partition s →
      place_postings_loop termids term_len tt N rnd n o s = some r → Partition r.2 := by
  intro n
  induction n with
  | zero =>
    intro o s r hP h
    simp only [place_postings_loop, Option.some.injEq] at h
    subst h
    exact hP
  | succ n ih =>
    intro o s r hP h
    simp only [place_postings_loop] at h
    split at h
    · exact absurd h (by simp)
    · rename_i o1 s1 h1
      exact ih _ _ _ (place_retry_partition _ _ _ _ _ _ _ _ hP h1) h

theorem run_calls_partition (N : Nat) (rnd : Nat → Nat) :
    ∀ (calls : List PlacementCall) (s s1 : PlaceState), Partition s →
      run_calls N rnd calls s = some s1 → Partition s1 := by
  intro calls
  induction calls with
  | nil =>
    intro s s1 hP h
    simp only [run_calls, Option.some.injEq] at h
    subst h
    exact hP
  | cons call rest ih =>
    intro s s1 hP h
    cases call with
    | one_instance termids term_len tt =>
      simp only [run_calls] at h
      split at h
      · exact absurd h (by simp)
      · rename_i o s2 h2
        exact ih _ _ (place_retry_partition _ _ _ _ _ _ _ _ hP h2) h
    | postings termids term_len tt num =>
      simp only [run_calls] at h
      split at h
      · exact absurd h (by simp)
      · rename_i o s2 h2
        exact ih _ _ (place_postings_loop_partition _ _ _ _ _ _ _ _ _ hP h2) h

/-- C6: from a doctable whose entries all have slots left and `nonfulls = D`,
after any sequence of calls of the two placement functions (words or n-grams,
any random draws) that returns, every entry below `nonfulls` has slots left
and every entry from `nonfulls` on has none. -/
theorem placement_keeps_partition (N : Nat) (rnd : Nat → Nat) (calls : List PlacementCall)
    (s s1 : PlaceState) (hnf : s.nonfulls = s.doctable.length)
    (hpos : ∀ j, j < s.doctable.length → 0 < dt_count (s.doctable.getD j 0))
    (hrun : run_calls N rnd calls s = some s1) :
    s1.nonfulls ≤ s1.doctable.length ∧
    ∀ j, j < s1.doctable.length →
      (j < s1.nonfulls → 0 < dt_count (s1.doctable.getD j 0)) ∧
      (s1.nonfulls ≤ j → dt_count (s1.doctable.getD j 0) = 0) := by
  have hP : Partition s :=
    ⟨by omega, fun j hj => ⟨fun _ => hpos j hj, fun h => by omega⟩⟩
  exact run_calls_partition N rnd calls s s1 hP hrun

/-- Witness of C6: a 2-gram (with one retry) and two words placed into three
documents of lengths 2, 1, 2. -/
theorem placement_keeps_partition_witness :
    (3 : Nat) = (plug_in_dt_pointers [2, 1, 2]).length ∧
    (∀ j, j < (plug_in_dt_pointers [2, 1, 2]).length →
      0 < dt_count ((plug_in_dt_pointers [2, 1, 2]).getD j 0)) ∧
    (1 : Nat) ≤ ([16777217, 50331648, 83886080] : List Nat).length ∧
    ∀ j, j < ([16777217, 50331648, 83886080] : List Nat).length →
      (j < 1 → 0 < dt_count (([16777217, 50331648, 83886080] : List Nat).getD j 0)) ∧
      (1 ≤ j → dt_count (([16777217, 50331648, 83886080] : List Nat).getD j 0) = 0) :=
  ⟨by decide, by decide,
    placement_keeps_partition 5 (fun n => n + 1)
      [PlacementCall.one_instance [7, 8] 2 term_type_t.TT_NGRAM,
       PlacementCall.postings [9] 1 term_type_t.TT_WORD 2]
      { doctable := plug_in_dt_pointers [2, 1, 2], nonfulls := 3, toa := List.replicate 5 0,
        written := [], c := 0 }
      { doctable := [16777217, 50331648, 83886080], nonfulls := 1,
        toa := [9, 0, 2147483657, 1073741831, 2684354568], written := [3, 4, 2, 0], c := 3 }
      (by decide) (by decide) (by decide)⟩

/-! ### The intermediate array and its shuffle -/

theorem take_set_succ (l : List Nat) : ∀ (i x : Nat), i < l.length →
    (l.set i x).take (i + 1) = l.take i ++ [x] := by
  induction l with
  | nil => intro i x h; simp at h
  | cons a t ih =>
    intro i x h
    cases i with
    | zero => simp
    | succ k =>
      have hk : k < t.length := by simpa using h
      simp [ih k x hk]

theorem fill_rank_spec (trank pstg : Nat) :
    ∀ (n occno : Nat) (im : List Nat), occno + n ≤ pstg → im.length = pstg →
      ∃ im1, fill_rank trank pstg n occno im = some (occno + n, im1) ∧ im1.length = pstg ∧
        im1.take (occno + n) = im.take occno ++ List.replicate n trank := by
  intro n
  induction n with
  | zero =>
    intro occno im _ hl
    exact ⟨im, rfl, hl, by simp⟩
  | succ n ih =>
    intro occno im hle hl
    have hlt : ¬ (occno ≥ pstg) := by omega
    obtain ⟨im1, h1, h2, h3⟩ := ih (occno + 1) (im.set occno trank) (by omega) (by simpa using hl)
    refine ⟨im1, ?_, h2, ?_⟩
    · simp only [fill_rank, hlt, if_false]
      rw [h1]
      congr 2
      omega
    · have e : occno + (n + 1) = occno + 1 + n := by omega
      rw [e, h3, take_set_succ im occno trank (by omega), List.append_assoc]
      rfl

theorem fill_intermediate_spec (TOFS : List Nat) (pstg : Nat) :
    ∀ (n trank occno : Nat) (im : List Nat),
      occno + (expand_ranks TOFS n trank).length ≤ pstg → im.length = pstg →
      ∃ im1, fill_intermediate TOFS pstg n trank occno im
          = some (occno + (expand_ranks TOFS n trank).length, im1) ∧ im1.length = pstg ∧
        im1.take (occno + (expand_ranks TOFS n trank).length)
          = im.take occno ++ expand_ranks TOFS n trank := by
  intro n
  induction n with
  | zero =>
    intro trank occno im _ hl
    exact ⟨im, rfl, hl, by simp [expand_ranks]⟩
  | succ n ih =>
    intro trank occno im hle hl
    simp only [expand_ranks, List.length_append, List.length_replicate] at hle ⊢
    obtain ⟨im1, h1, h2, h3⟩ := fill_rank_spec trank pstg (TOFS.getD (trank - 1) 0) occno im
      (by omega) hl
    obtain ⟨im2, g1, g2, g3⟩ := ih (trank + 1) (occno + TOFS.getD (trank - 1) 0) im1
      (by omega) h2
    refine ⟨im2, ?_, g2, ?_⟩
    · simp only [fill_intermediate, h1]
      rw [g1]
      congr 2
      omega
    · have e : occno + (TOFS.getD (trank - 1) 0 + (expand_ranks TOFS n (trank + 1)).length)
          = occno + TOFS.getD (trank - 1) 0 + (expand_ranks TOFS n (trank + 1)).length := by omega
      rw [e, g3, h3, List.append_assoc]

theorem expand_ranks_mem (TOFS : List Nat) : ∀ (n trank v : Nat),
    v ∈ expand_ranks TOFS n trank → trank ≤ v ∧ v < trank + n := by
  intro n
  induction n with
  | zero => intro trank v h; simp [expand_ranks] at h
  | succ n ih =>
    intro trank v h
    simp only [expand_ranks, List.mem_append] at h
    rcases h with h | h
    · have := (List.mem_replicate.mp h).2
      omega
    · have := ih _ _ h
      omega

theorem expand_ranks_count (TOFS : List Nat) : ∀ (n trank r : Nat),
    (expand_ranks TOFS n trank).count r
      = if trank ≤ r ∧ r < trank + n then TOFS.getD (r - 1) 0 else 0 := by
  intro n
  induction n with
  | zero =>
    intro trank r
    have : ¬ (trank ≤ r ∧ r < trank + 0) := by omega
    rw [if_neg this]
    simp [expand_ranks]
  | succ n ih =>
    intro trank r
    simp only [expand_ranks, List.count_append, List.count_replicate, ih]
    by_cases h1 : trank = r
    · subst h1
      have h2 : ¬ (trank + 1 ≤ trank ∧ trank < trank + 1 + n) := by omega
      have h3 : trank ≤ trank ∧ trank < trank + (n + 1) := by omega
      simp [h2, h3]
    · by_cases h2 : trank + 1 ≤ r ∧ r < trank + 1 + n
      · have h3 : trank ≤ r ∧ r < trank + (n + 1) := by omega
        simp [h1, h2, h3]
      · have h3 : ¬ (trank ≤ r ∧ r < trank + (n + 1)) := by omega
        simp [h1, h2, h3]

theorem expand_ranks_length (B : List Nat) : ∀ (A : List Nat),
    (expand_ranks (A ++ B) B.length (A.length + 1)).length = B.sum := by
  induction B with
  | nil => intro A; simp [expand_ranks]
  | cons b B ih =>
    intro A
    have h := ih (A ++ [b])
    simp only [List.append_assoc, List.singleton_append, List.length_append,
      List.length_singleton] at h
    simp only [List.length_cons, expand_ranks, List.length_append, List.length_replicate,
      Nat.add_sub_cancel, List.sum_cons, h]
    congr 1
    rw [List.getD_eq_getElem?_getD, List.getElem?_append_right (le_refl _)]
    simp

theorem knuth_shuffle_uint_loop_perm (m : Nat) (rnd : Nat → Nat) :
    ∀ (n i c : Nat) (a : List Nat), i + n < m → m < a.length →
      ∃ a1 c1, knuth_shuffle_uint_loop m rnd n i c a = some (a1, c1) ∧ a1.Perm a := by
  intro n
  induction n with
  | zero => intro i c a _ _; exact ⟨a, c, rfl, List.Perm.refl _⟩
  | succ n ih =>
    intro i c a h1 h2
    have hr : ¬ (m < i + 1 ∨ m - (i + 1) < 1) := by omega
    have hj : i + 1 + rnd c % (m - (i + 1) + 1) < a.length := by
      have : rnd c % (m - (i + 1) + 1) < m - (i + 1) + 1 := Nat.mod_lt _ (by omega)
      omega
    obtain ⟨a1, c1, e1, p1⟩ := ih (i + 1) (c + 1)
      (swap_elts a i (i + 1 + rnd c % (m - (i + 1) + 1))) (by omega)
      (by rw [swap_elts_length]; exact h2)
    refine ⟨a1, c1, ?_, p1.trans (swap_elts_perm a _ _ (by omega) hj)⟩
    simp only [knuth_shuffle_uint_loop, random_long_long, hr, if_false]
    exact e1

theorem knuth_shuffle_uint_perm (a : List Nat) (rnd : Nat → Nat) (c : Nat) :
    ∃ a1 c1, knuth_shuffle_uint a a.length rnd c = some (a1, c1) ∧ a1.Perm a := by
  unfold knuth_shuffle_uint
  by_cases h : a.length < 2
  · exact ⟨a, c, by simp [h], List.Perm.refl _⟩
  · simp only [h, if_false]
    exact knuth_shuffle_uint_loop_perm _ rnd _ 0 c a (by omega) (by omega)

theorem and_mask_and_rank (p : Nat) :
    (p &&& MASK_ALL_BUT_FINAL_POSTING_FLAG) &&& TERM_RANK_MASK = p &&& TERM_RANK_MASK := by
  have h1 : MASK_ALL_BUT_FINAL_POSTING_FLAG = 2 ^ 31 - 1 := by decide
  have h2 : TERM_RANK_MASK = 2 ^ 29 - 1 := by decide
  rw [h1, h2, Nat.and_pow_two_sub_one_eq_mod, Nat.and_pow_two_sub_one_eq_mod,
    Nat.and_pow_two_sub_one_eq_mod]
  exact Nat.mod_mod_of_dvd p (by decide)

theorem map_range_getD (l : List Nat) :
    (List.range l.length).map (fun i => l.getD i 0) = l := by
  apply List.ext_getElem
  · simp
  · intro i h1 h2
    simp [List.getD_eq_getElem?_getD, List.getElem?_eq_getElem h2]

/-! ### Rank counts of the term occurrence array -/

theorem count_rank_set_final (toa : List Nat) (i r : Nat) :
    count_rank (toa.set i (toa.getD i 0 ||| FINAL_POSTING_IN_DOC)) r = count_rank toa r := by
  unfold count_rank
  by_cases h : i < toa.length
  · have := countP_set_add (fun p => decide (p &&& TERM_RANK_MASK = r)) toa i
      (toa.getD i 0 ||| FINAL_POSTING_IN_DOC) h
    simp only [or_final_and_rank] at this
    omega
  · rw [List.set_eq_of_length_le (by omega)]

theorem placed_counts (N : Nat) (ends im : List Nat) (s : PlaceState) (hlen : im.length = N)
    (hI : UInv N ends ((List.range N).map (fun i => im.getD i 0)) s)
    (hw : s.written.length = N) (r : Nat) :
    count_rank s.toa r = im.countP (fun v => decide (v &&& TERM_RANK_MASK = r)) := by
  obtain ⟨hnf, hcz⟩ := all_counts_zero _ _ _ s hI hw
  have hperm : s.written.Perm (List.range N) := by
    rw [List.perm_iff_count]
    intro i
    by_cases hi : i < N
    · have := hI.1.cover i hi
      rw [hcz i] at this
      rw [List.count_eq_one_of_mem (List.nodup_range N) (List.mem_range.mpr hi)]
      omega
    · have h1 : List.count i (List.range N) = 0 :=
        List.count_eq_zero.mpr (fun h => hi (List.mem_range.mp h))
      have h2 : List.count i s.written = 0 :=
        List.count_eq_zero.mpr (fun h => hi (hI.1.wlt i h))
      omega
  have hv := hI.1.vals
  rw [← hlen, map_range_getD] at hv
  have h1 : (s.toa.map (fun p => p &&& MASK_ALL_BUT_FINAL_POSTING_FLAG)).Perm
      (im.map (fun v => v &&& MASK_ALL_BUT_FINAL_POSTING_FLAG)) := by
    rw [← hv]
    have e : s.toa.map (fun p => p &&& MASK_ALL_BUT_FINAL_POSTING_FLAG)
        = (List.range N).map (fun w => s.toa.getD w 0 &&& MASK_ALL_BUT_FINAL_POSTING_FLAG) := by
      conv_lhs => rw [← map_range_getD s.toa]
      rw [List.map_map, hI.1.len_toa]
      rfl
    rw [e]
    exact (hperm.map _).symm
  have h2 := h1.countP_eq (fun q => decide (q &&& TERM_RANK_MASK = r))
  rw [List.countP_map, List.countP_map] at h2
  unfold count_rank
  have e1 : ((fun q => decide (q &&& TERM_RANK_MASK = r)) ∘
      fun p => p &&& MASK_ALL_BUT_FINAL_POSTING_FLAG)
      = fun p => decide (p &&& TERM_RANK_MASK = r) := by
    funext p
    simp [and_mask_and_rank]
  rw [e1] at h2
  exact h2

theorem create_and_fill_counts (TOFS dt0 : List Nat) (rnd : Nat → Nat) (V N : Nat)
    (hV : TOFS.length = V) (hT : TOFS.sum = N) (hlen : ∀ e ∈ dt0, 1 ≤ dt_count e)
    (hsum : (dt0.map dt_count).sum = N) (hN : N < 2 ^ 40) :
    ∃ rezo, create_and_fill_term_occurrence_array TOFS (plug_in_dt_pointers dt0) dt0.length
        V N rnd = some rezo ∧
      ∀ r, count_rank rezo r
        = (expand_ranks TOFS V 1).countP (fun v => decide (v &&& TERM_RANK_MASK = r)) := by
  have hexp : (expand_ranks TOFS V 1).length = N := by
    have := expand_ranks_length TOFS []
    simp only [List.nil_append, List.length_nil, Nat.zero_add] at this
    rw [hV] at this
    omega
  obtain ⟨im1, f1, f2, f3⟩ := fill_intermediate_spec TOFS N V 1 0 (List.replicate N 0)
    (by omega) (by simp)
  rw [Nat.zero_add, hexp] at f1 f3
  have him1 : im1 = expand_ranks TOFS V 1 := by
    have e : List.take N im1 = im1 := by rw [← f2, List.take_length]
    rw [e] at f3
    simpa using f3
  obtain ⟨im2, c2, g1, g2⟩ := knuth_shuffle_uint_perm im1 rnd 0
  rw [f2] at g1
  have hl : ∀ l ∈ dt0.map dt_count, 1 ≤ l ∧ l < 2 ^ 24 := by
    intro l h
    obtain ⟨e, he, rfl⟩ := List.mem_map.mp h
    exact ⟨hlen e he, dt_count_lt e⟩
  have h0 := uinv_init (dt0.map dt_count) hl (by rw [hsum]; exact hN) c2
  have e0 : plug_in_dt_pointers (dt0.map dt_count) = plug_in_dt_pointers dt0 :=
    (plug_loop_map_count dt0 0).symm
  rw [e0, List.length_map, hsum] at h0
  obtain ⟨s, hs, hI, hw, _⟩ := place_intermediate_inv N _ im2 rnd hN N 0 _ h0 rfl (by omega)
  rw [Nat.zero_add] at hI hw
  have hcount := placed_counts N _ im2 s (by rw [g2.length_eq, f2]) hI hw
  have hres : ∀ r, count_rank s.toa r
      = (expand_ranks TOFS V 1).countP (fun v => decide (v &&& TERM_RANK_MASK = r)) := by
    intro r
    rw [hcount r, g2.countP_eq, him1]
  unfold create_and_fill_term_occurrence_array
  simp only [f1, g1, hs]
  by_cases hfin : s.toa.getD (N - 1) 0 &&& FINAL_POSTING_IN_DOC = 0
  · rw [if_pos hfin]
    refine ⟨_, rfl, ?_⟩
    intro r
    rw [count_rank_set_final]
    exact hres r
  · rw [if_neg hfin]
    exact ⟨_, rfl, hres⟩


theorem and_rank_of_lt (v : Nat) (h : v < 2 ^ 29) : v &&& TERM_RANK_MASK = v := by
  have h2 : TERM_RANK_MASK = 2 ^ 29 - 1 := by decide
  rw [h2, Nat.and_pow_two_sub_one_eq_mod, Nat.mod_eq_of_lt h]

/-- C1 (amended): with no n-grams file, a TOFS array over ranks `1..V` with
`V < 2^29` whose entries sum to `N`, and the pointer-plugged doctable of
documents with lengths at least 1 summing to `N < 2^40`, the array returned by
`create_and_fill_term_occurrence_array` holds, for every rank `r` in `1..V` and
whatever the random draws, exactly `TOFS[r-1]` postings whose rank field is
`r`. -/
theorem term_occurrence_array_rank_counts (TOFS dt0 : List Nat) (rnd : Nat → Nat) (V N : Nat)
    (hV : TOFS.length = V) (hT : TOFS.sum = N) (hlen : ∀ e ∈ dt0, 1 ≤ dt_count e)
    (hsum : (dt0.map dt_count).sum = N) (hN : N < 2 ^ 40) (hV29 : V < 2 ^ 29) :
    ∃ rezo, create_and_fill_term_occurrence_array TOFS (plug_in_dt_pointers dt0) dt0.length
        V N rnd = some rezo ∧
      ∀ r, 1 ≤ r → r ≤ V → count_rank rezo r = TOFS.getD (r - 1) 0 := by
  obtain ⟨rezo, h1, h2⟩ := create_and_fill_counts TOFS dt0 rnd V N hV hT hlen hsum hN
  refine ⟨rezo, h1, ?_⟩
  intro r hr1 hr2
  rw [h2 r]
  have e : (expand_ranks TOFS V 1).countP (fun v => decide (v &&& TERM_RANK_MASK = r))
      = (expand_ranks TOFS V 1).count r := by
    rw [List.count_eq_countP]
    apply List.countP_congr
    intro v hv
    have := expand_ranks_mem TOFS V 1 v hv
    rw [and_rank_of_lt v (by omega)]
    simp
  rw [e, expand_ranks_count]
  have : 1 ≤ r ∧ r < 1 + V := by omega
  rw [if_pos this]

/-- Witness of C1 (amended): three ranks with frequencies 2, 0, 1 and two
documents of lengths 2 and 1. -/
theorem term_occurrence_array_rank_counts_witness :
    ([2, 0, 1] : List Nat).length = 3 ∧ ([2, 0, 1] : List Nat).sum = 3 ∧
    (∀ e ∈ [2, 1], 1 ≤ dt_count e) ∧ (([2, 1] : List Nat).map dt_count).sum = 3 ∧
    (3 : Nat) < 2 ^ 40 ∧ (3 : Nat) < 2 ^ 29 ∧
    ∃ rezo, create_and_fill_term_occurrence_array [2, 0, 1] (plug_in_dt_pointers [2, 1])
        ([2, 1] : List Nat).length 3 3 (fun n => 3 * n + 1) = some rezo ∧
      ∀ r, 1 ≤ r → r ≤ 3 → count_rank rezo r = ([2, 0, 1] : List Nat).getD (r - 1) 0 :=
  ⟨by decide, by decide, by decide, by decide, by decide, by decide,
    term_occurrence_array_rank_counts [2, 0, 1] [2, 1] (fun n => 3 * n + 1) 3 3 (by decide)
      (by decide) (by decide) (by decide) (by decide) (by decide)⟩

theorem expand_ranks_add (TOFS : List Nat) : ∀ (a b trank : Nat),
    expand_ranks TOFS (a + b) trank
      = expand_ranks TOFS a trank ++ expand_ranks TOFS b (trank + a) := by
  intro a
  induction a with
  | zero => intro b trank; simp [expand_ranks]
  | succ a ih =>
    intro b trank
    have e : a + 1 + b = (a + b) + 1 := by omega
    rw [e]
    simp only [expand_ranks, ih, List.append_assoc]
    have e2 : trank + 1 + a = trank + (a + 1) := by omega
    rw [e2]

theorem expand_ranks_zeros (TOFS : List Nat) : ∀ (n trank : Nat),
    (∀ r, trank ≤ r → r < trank + n → TOFS.getD (r - 1) 0 = 0) →
    expand_ranks TOFS n trank = [] := by
  intro n
  induction n with
  | zero => intro trank _; rfl
  | succ n ih =>
    intro trank h
    simp only [expand_ranks]
    rw [h trank (le_refl _) (by omega), ih (trank + 1) (fun r h1 h2 => h r (by omega) (by omega))]
    rfl

theorem getD_replicate_append (k i : Nat) :
    (List.replicate k 0 ++ [1]).getD i 0 = if i = k then 1 else 0 := by
  rw [List.getD_eq_getElem?_getD]
  by_cases h : i < k
  · rw [List.getElem?_append_left (by simpa using h)]
    have : ¬ (i = k) := by omega
    simp [List.getElem?_replicate, h, this]
  · rw [List.getElem?_append_right (by simp; omega)]
    simp only [List.length_replicate]
    by_cases h2 : i = k
    · subst h2; simp
    · have : i - k ≠ 0 := by omega
      simp [h2]
      cases hik : i - k with
      | zero => omega
      | succ m => simp

theorem rank_field_overflow (k : Nat) (hk : k + 1 = 2 ^ 29) (rnd : Nat → Nat) :
    ∃ rezo, create_and_fill_term_occurrence_array (List.replicate k 0 ++ [1])
        (plug_in_dt_pointers [1]) 1 (k + 1) 1 rnd = some rezo ∧
      count_rank rezo (k + 1) = 0 ∧ (List.replicate k 0 ++ [1]).getD (k + 1 - 1) 0 = 1 ∧
      (List.replicate k 0 ++ [1]).length = k + 1 ∧ (List.replicate k 0 ++ [1]).sum = 1 := by
  obtain ⟨rezo, h1, h2⟩ := create_and_fill_counts (List.replicate k 0 ++ [1]) [1] rnd (k + 1) 1
    (by simp) (by simp) (by decide) (by decide) (by decide)
  refine ⟨rezo, h1, ?_, ?_, by simp, by simp⟩
  · rw [h2, Nat.add_comm k 1, Nat.add_comm 1 k, expand_ranks_add,
      expand_ranks_zeros _ k 1 (fun r hr1 hr2 => by
        rw [getD_replicate_append]
        have : ¬ (r - 1 = k) := by omega
        simp [this])]
    simp only [expand_ranks, Nat.add_sub_cancel_left, List.nil_append, List.append_nil,
      getD_replicate_append, if_true, Nat.add_comm 1 k]
    have hm : (k + 1) &&& TERM_RANK_MASK ≠ k + 1 := by
      have h2 : TERM_RANK_MASK = 2 ^ 29 - 1 := by decide
      rw [h2, Nat.and_pow_two_sub_one_eq_mod, hk, Nat.mod_self]
      exact (Nat.two_pow_pos 29).ne
    simp [hm]
  · rw [getD_replicate_append]
    simp


/-- C1 fails as stated: with `V = 2^29` ranks, the single occurrence of rank
`2^29` is stored as a posting whose rank field is 0, so no posting has rank
field `2^29` although `TOFS[2^29 - 1] = 1`. -/
theorem term_occurrence_array_rank_counts_counterexample :
    (List.replicate 536870911 0 ++ [1]).length = 536870911 + 1 ∧
    (List.replicate 536870911 0 ++ [1]).sum = 1 ∧
    ∃ rezo, create_and_fill_term_occurrence_array (List.replicate 536870911 0 ++ [1])
        (plug_in_dt_pointers [1]) 1 (536870911 + 1) 1 (fun _ => 0) = some rezo ∧
      count_rank rezo (536870911 + 1)
        ≠ (List.replicate 536870911 0 ++ [1]).getD (536870911 + 1 - 1) 0 :=
  match rank_field_overflow 536870911 (by norm_num) (fun _ => 0) with
  | ⟨rezo, h1, h2, h3, h4, h5⟩ =>
    ⟨h4, h5, rezo, h1, fun h => absurd (h2.symm.trans (h.trans h3)) (by decide)⟩

/-! ### The writers -/

/-- C5 (code evaluated at the failing input): with two terms and the default
table `a`, `b`, UNKNOWN, the postings of ranks 1 and 2 are written by both
writers as `b` and `UNKNOWN`: the word of slot `r`, not of slot `r - 1`. -/
theorem writers_emit_slot_of_rank :
    make_term_rep_table 2 = ["a", "b", "UNKNOWN"] ∧
    write_synthetic_docs_tsv [1, 0x80000002] 2 (make_term_rep_table 2) 2 true
      = "b UNKNOWN\t1\tDoc0\n" ∧
    write_synthetic_docs_starc [1, 0x80000002] 2 (make_term_rep_table 2) 2 true
      = StarcWrite.written " 11H Doc00000000 10D b UNKNOWN\n" := by
  decide

theorem lookup_term_rep_slot (table : List String) (V p : Nat) (h : p &&& TERM_RANK_MASK ≤ V) :
    lookup_term_rep table V p = table.getD (p &&& TERM_RANK_MASK) "" := by
  unfold lookup_term_rep
  have : ¬ (p &&& TERM_RANK_MASK > V) := by omega
  simp [this]

/-! ### The doctable made from the length histogram -/

theorem create_copies_spec (N D : Nat) (tail : List Nat) :
    ∀ (n len : Nat) (rezo : List Nat) (created : Nat), created < N → len < 2 ^ 24 →
      (∃ r1 c1, create_copies N D n len rezo created = (r1, c1, true) ∧
        take_postings N D (List.replicate n len ++ tail) rezo created = r1) ∨
      (∃ r1 c1, create_copies N D n len rezo created = (r1, c1, false) ∧ c1 < N ∧
        take_postings N D (List.replicate n len ++ tail) rezo created
          = take_postings N D tail r1 c1) := by
  intro n
  induction n with
  | zero =>
    intro len rezo created hc _
    exact Or.inr ⟨rezo, created, rfl, hc, by simp⟩
  | succ n ih =>
    intro len rezo created hc hl
    simp only [create_copies, List.replicate_succ, List.cons_append, take_postings,
      List.length_append, List.length_singleton]
    by_cases hs : len > N - created
    · have hmod : (N - created) % 2 ^ 32 = N - created := by
        apply Nat.mod_eq_of_lt
        have : (2:Nat) ^ 24 < 2 ^ 32 := by decide
        omega
      have hret : created + (N - created) ≥ N ∨ rezo.length + 1 ≥ D := Or.inl (by omega)
      simp only [hs, if_true, hmod, hret]
      exact Or.inl ⟨_, _, rfl, rfl⟩
    · simp only [hs, if_false]
      by_cases hret : created + len ≥ N ∨ rezo.length + 1 ≥ D
      · simp only [hret, if_true]
        exact Or.inl ⟨_, _, rfl, rfl⟩
      · simp only [hret, if_false]
        exact ih len (rezo ++ [len]) (created + len) (by omega) hl

theorem create_lengths_spec (N D : Nat) :
    ∀ (histo : List Nat) (i : Nat) (rezo : List Nat) (created : Nat), created < N →
      i + histo.length ≤ 2 ^ 24 →
      create_lengths N D histo i rezo created
        = take_postings N D (histo_lengths histo i) rezo created := by
  intro histo
  induction histo with
  | nil => intro i rezo created _ _; rfl
  | cons freq rest ih =>
    intro i rezo created hc hi
    simp only [List.length_cons] at hi
    have hmask : i &&& doctable_slots_avail_mask = i := by
      have := dt_count_of_lt i (by omega)
      exact this
    simp only [create_lengths, histo_lengths, hmask]
    by_cases hf : freq > 0
    · simp only [hf, if_true]
      rcases create_copies_spec N D (histo_lengths rest (i + 1)) freq i rezo created hc
        (by omega) with ⟨r1, c1, h1, h2⟩ | ⟨r1, c1, h1, h2, h3⟩
      · rw [h1, h2]
      · rw [h1, h3]
        exact ih (i + 1) r1 c1 h2 (by omega)
    · have hf0 : freq = 0 := by omega
      subst hf0
      simp only [gt_iff_lt, lt_self_iff_false, if_false, List.replicate_zero, List.nil_append]
      exact ih (i + 1) rezo created hc (by omega)

theorem take_postings_spec (N D : Nat) :
    ∀ (F rezo : List Nat) (created : Nat), (∀ x ∈ F, 1 ≤ x) → created < N →
      created + F.sum ≥ N → rezo.length + F.length ≤ D →
      ∃ k x, k < F.length ∧ take_postings N D F rezo created = rezo ++ F.take k ++ [x] ∧
        1 ≤ x ∧ x ≤ F.getD k 0 ∧ created + (F.take k).sum + x = N ∧
        (created + F.sum = N → take_postings N D F rezo created = rezo ++ F) := by
  intro F
  induction F with
  | nil => intro rezo created _ hc hs _; simp at hs; omega
  | cons L rest ih =>
    intro rezo created hpos hc hs hD
    have hL : 1 ≤ L := hpos L (by simp)
    have hrest : ∀ x ∈ rest, 1 ≤ x := fun x hx => hpos x (List.mem_cons_of_mem _ hx)
    simp only [List.sum_cons, List.length_cons] at hs hD
    simp only [take_postings]
    by_cases hsh : L > N - created
    · have hret : created + (N - created) ≥ N ∨ rezo.length + 1 ≥ D := Or.inl (by omega)
      simp only [hsh, if_true, hret]
      refine ⟨0, N - created, by simp, by simp, by omega, by simp; omega, by simp; omega, ?_⟩
      intro h
      simp only [List.sum_cons] at h
      omega
    · simp only [hsh, if_false]
      by_cases hret : created + L ≥ N ∨ rezo.length + 1 ≥ D
      · simp only [hret, if_true]
        have hrn : rest = [] ∨ created + L ≥ N := by
          rcases hret with h | h
          · exact Or.inr h
          · left
            apply List.eq_nil_of_length_eq_zero
            omega
        have hLN : created + L = N := by
          rcases hrn with h | h
          · subst h; simp at hs; omega
          · omega
        refine ⟨0, L, by simp, by simp, hL, by simp, by simp; omega, ?_⟩
        intro h
        simp only [List.sum_cons] at h
        have h0 : rest.sum = 0 := by omega
        have : rest = [] := by
          cases rest with
          | nil => rfl
          | cons a t =>
            have := hrest a (by simp)
            simp at h0
            omega
        rw [this]
      · simp only [hret, if_false]
        obtain ⟨k, x, h1, h2, h3, h4, h5, h6⟩ := ih (rezo ++ [L]) (created + L) hrest
          (by omega) (by omega) (by simp; omega)
        refine ⟨k + 1, x, by simp; omega, ?_, h3, by simpa using h4, ?_, ?_⟩
        · rw [h2]; simp
        · simp only [List.take_succ_cons, List.sum_cons]; omega
        · intro h
          simp only [List.sum_cons] at h
          rw [h6 (by omega)]
          simp

theorem histo_lengths_props : ∀ (histo : List Nat) (i : Nat), 1 ≤ i →
    (∀ x ∈ histo_lengths histo i, 1 ≤ x) ∧ (histo_lengths histo i).length = histo.sum := by
  intro histo
  induction histo with
  | nil => intro i _; simp [histo_lengths]
  | cons f rest ih =>
    intro i hi
    obtain ⟨h1, h2⟩ := ih (i + 1) (by omega)
    constructor
    · intro x hx
      simp only [histo_lengths, List.mem_append] at hx
      rcases hx with h | h
      · have := (List.mem_replicate.mp h).2; omega
      · exact h1 x h
    · simp [histo_lengths, h2]


/-- C7 (amended): for a length histogram whose lengths are all below `2^24`,
describing `num_docs` documents whose total length is at least the requested
`N ≥ 1`, `create_doctable_from_histo` returns entries that are all at least 1
and sum to exactly `N`; they are the document lengths of the histogram in
order, cut after some entry, and only that last entry can be shorter than its
histogram length; when the histogram total equals `N` nothing is shortened. -/
theorem doctable_from_histo_lengths (histo : List Nat) (N num_docs : Nat) (hN : 1 ≤ N)
    (hdocs : num_docs = histo.sum) (hmax : histo.length < 2 ^ 24)
    (htot : N ≤ (histo_lengths histo 1).sum) :
    (∀ x ∈ create_doctable_from_histo histo N num_docs, 1 ≤ x) ∧
    (create_doctable_from_histo histo N num_docs).sum = N ∧
    (∃ k x, k < (histo_lengths histo 1).length ∧
      create_doctable_from_histo histo N num_docs = (histo_lengths histo 1).take k ++ [x] ∧
      x ≤ (histo_lengths histo 1).getD k 0) ∧
    ((histo_lengths histo 1).sum = N →
      create_doctable_from_histo histo N num_docs = histo_lengths histo 1) := by
  obtain ⟨hpos, hlen⟩ := histo_lengths_props histo 1 (le_refl _)
  have hspec : create_doctable_from_histo histo N num_docs
      = take_postings N num_docs (histo_lengths histo 1) [] 0 :=
    create_lengths_spec N num_docs histo 1 [] 0 (by omega) (by omega)
  obtain ⟨k, x, h1, h2, h3, h4, h5, h6⟩ := take_postings_spec N num_docs (histo_lengths histo 1)
    [] 0 hpos (by omega) (by omega) (by simp; omega)
  rw [hspec, h2]
  simp only [List.nil_append] at h6 ⊢
  refine ⟨?_, ?_, ⟨k, x, h1, rfl, h4⟩, ?_⟩
  · intro y hy
    rcases List.mem_append.mp hy with h | h
    · exact hpos y (List.mem_of_mem_take h)
    · simp at h; omega
  · simp only [List.sum_append, List.sum_cons, List.sum_nil]; omega
  · intro h
    have h7 := h6 (by omega)
    rw [h2] at h7
    simpa using h7

/-- Witness of C7 (amended): two documents of length 1 and three of length 3,
ten postings requested. -/
theorem doctable_from_histo_lengths_witness :
    (1 : Nat) ≤ 10 ∧ (5 : Nat) = ([2, 0, 3] : List Nat).sum ∧
    ([2, 0, 3] : List Nat).length < 2 ^ 24 ∧ 10 ≤ (histo_lengths [2, 0, 3] 1).sum ∧
    (∀ x ∈ create_doctable_from_histo [2, 0, 3] 10 5, 1 ≤ x) ∧
    (create_doctable_from_histo [2, 0, 3] 10 5).sum = 10 ∧
    (∃ k x, k < (histo_lengths [2, 0, 3] 1).length ∧
      create_doctable_from_histo [2, 0, 3] 10 5 = (histo_lengths [2, 0, 3] 1).take k ++ [x] ∧
      x ≤ (histo_lengths [2, 0, 3] 1).getD k 0) ∧
    ((histo_lengths [2, 0, 3] 1).sum = 10 →
      create_doctable_from_histo [2, 0, 3] 10 5 = histo_lengths [2, 0, 3] 1) :=
  ⟨by decide, by decide, by decide, by decide,
    doctable_from_histo_lengths [2, 0, 3] 10 5 (by decide) (by decide) (by decide) (by decide)⟩

theorem create_lengths_skip_zeros (N D : Nat) (rest : List Nat) :
    ∀ (k i : Nat) (rezo : List Nat) (c : Nat),
      create_lengths N D (List.replicate k 0 ++ rest) i rezo c
        = create_lengths N D rest (i + k) rezo c := by
  intro k
  induction k with
  | zero => intro i rezo c; rfl
  | succ k ih =>
    intro i rezo c
    rw [List.replicate_succ, List.cons_append]
    simp only [create_lengths, gt_iff_lt, lt_self_iff_false, if_false]
    rw [ih (i + 1) rezo c]
    congr 1
    omega

theorem histo_lengths_skip_zeros (rest : List Nat) :
    ∀ (k i : Nat), histo_lengths (List.replicate k 0 ++ rest) i = histo_lengths rest (i + k) := by
  intro k
  induction k with
  | zero => intro i; rfl
  | succ k ih =>
    intro i
    rw [List.replicate_succ, List.cons_append]
    simp only [histo_lengths, List.replicate_zero, List.nil_append]
    rw [ih (i + 1)]
    congr 1
    omega

theorem length_field_overflow (k : Nat) (hk : 1 + k = 2 ^ 24) :
    (List.replicate k 0 ++ [1]).sum = 1 ∧
    histo_lengths (List.replicate k 0 ++ [1]) 1 = [1 + k] ∧
    create_doctable_from_histo (List.replicate k 0 ++ [1]) (1 + k) 1 = [0] := by
  refine ⟨by simp, ?_, ?_⟩
  · rw [histo_lengths_skip_zeros]
    simp [histo_lengths]
  · unfold create_doctable_from_histo
    rw [create_lengths_skip_zeros]
    have hm : (1 + k) &&& doctable_slots_avail_mask = 0 := by
      have h2 : doctable_slots_avail_mask = 2 ^ 24 - 1 := by decide
      rw [h2, Nat.and_pow_two_sub_one_eq_mod, hk, Nat.mod_self]
    simp only [create_lengths, hm]
    have : ¬ (0 > 1 + k - 0) := by omega
    simp [create_copies]

/-- C7 fails as stated: one document of length `2^24` and as many postings
requested.  The histogram describes one document whose length equals the
request, yet the entry created has length 0, so the entries neither are at
least 1 nor sum to the request. -/
theorem doctable_from_histo_lengths_counterexample :
    (List.replicate 16777215 0 ++ [1]).sum = 1 ∧
    histo_lengths (List.replicate 16777215 0 ++ [1]) 1 = [1 + 16777215] ∧
    create_doctable_from_histo (List.replicate 16777215 0 ++ [1]) (1 + 16777215) 1 = [0] :=
  length_field_overflow 16777215 (by norm_num)

/-! ### The TOFS array at two inputs -/

theorem floor_three_halves : ⌊(3 : ℚ) / 2⌋ = 1 :=
  Int.floor_eq_iff.mpr ⟨by norm_num, by norm_num⟩

theorem floor_three_halves_carry : ⌊(3 : ℚ) / 2 + (3 / 2 - 1)⌋ = 2 :=
  Int.floor_eq_iff.mpr ⟨by norm_num, by norm_num⟩

/-- C2 (code evaluated at failing inputs).  First input: 10 postings, 2 terms,
no head, one middle segment over ranks 1..2 (`L = V`, as when the tail
percentage is 0) giving 6 and 4 postings.  On leaving the middle loop `trank`
is 3, `vocab_size - trank` wraps to `2^32 - 1`, and `2^32` postings are taken
from the first term: the two entries returned sum to `10 - 2^32` modulo `2^64`,
not to 10.  Second input: 100 postings, 10 terms, one head term whose posting
limit is 0: the premature end leaves the array zero. -/
theorem TOFS_sum_misses_budget :
    create_and_fill_TOFS_array 10 2 [] [⟨1, 2⟩] (fun _ r => if r = 1 then 6 else 4)
      = [18446744069414584326, 4] ∧
    ([18446744069414584326, 4] : List Nat).sum % 2 ^ 64 ≠ 10 ∧
    create_and_fill_TOFS_array 100 10 [0] [⟨2, 10⟩] (fun _ _ => 10)
      = [0, 0, 0, 0, 0, 0, 0, 0, 0, 0] := by
  decide

/-- C3 (code evaluated at failing inputs).  First input: 3 postings, 3 terms, no
head, tail percentage 100, so the middle segment is `F = 1`, `L = 0` and has no
rank: `trank` is 1 after the middle and is incremented again before the tail,
so rank 1 is never assigned and stays 0.  Second input: 10 postings, 3 terms, a
middle segment over rank 1 alone giving 5 postings: rank `L + 1 = 2` is
skipped and stays 0. -/
theorem TOFS_skips_rank_after_middle :
    create_and_fill_TOFS_array 3 3 [] [⟨1, 0⟩] (fun _ _ => 0) = [0, 1, 2] ∧
    create_and_fill_TOFS_array 10 3 [] [⟨1, 1⟩] (fun _ _ => 5) = [5, 0, 5] := by
  constructor
  · simp [create_and_fill_TOFS_array, head_loop, middle_loop, middle_ranks, tail_loop,
      store_ull, load_ull, adjust_loop, floor_three_halves, floor_three_halves_carry]
  · simp [create_and_fill_TOFS_array, head_loop, middle_loop, middle_ranks, tail_loop,
      store_ull, load_ull, adjust_loop]

/-! ### Frame of the phrase-respecting shuffle -/

theorem within_refl (base n : Nat) (a : List Nat) : Within base n a a :=
  ⟨rfl, List.Perm.refl _, fun _ _ => rfl⟩

theorem within_trans {base n : Nat} {a2 a1 a : List Nat} (h2 : Within base n a2 a1)
    (h1 : Within base n a1 a) : Within base n a2 a :=
  ⟨h2.1.trans h1.1, h2.2.1.trans h1.2.1, fun x hx => (h2.2.2 x hx).trans (h1.2.2 x hx)⟩

theorem swap_elts_getD (a : List Nat) (p q x : Nat) (hp : p < a.length) (hq : q < a.length) :
    (swap_elts a p q).getD x 0
      = if x = q then a.getD p 0 else if x = p then a.getD q 0 else a.getD x 0 := by
  unfold swap_elts
  simp only [getD_set_eq, List.length_set]
  by_cases h1 : x = q
  · subst h1
    simp [hq]
  · by_cases h2 : x = p
    · subst h2
      simp [hp, h1, Ne.symm h1]
    · simp [h1, h2, Ne.symm h1, Ne.symm h2]

theorem within_swap_elts (base n : Nat) (a : List Nat) (p q : Nat) (hn : base + n ≤ a.length)
    (hp1 : base ≤ p) (hp2 : p < base + n) (hq1 : base ≤ q) (hq2 : q < base + n) :
    Within base n (swap_elts a p q) a := by
  refine ⟨swap_elts_length a p q, swap_elts_perm a p q (by omega) (by omega), ?_⟩
  intro x hx
  rw [swap_elts_getD a p q x (by omega) (by omega)]
  rw [if_neg (by omega), if_neg (by omega)]

theorem within_swap_grams (base n : Nat) (g : Nat) : ∀ (i j : Nat) (a : List Nat),
    base + n ≤ a.length → base ≤ i → i + g ≤ base + n → base ≤ j → j + g ≤ base + n →
    Within base n (swap_grams g i j a) a := by
  induction g with
  | zero => intro i j a _ _ _ _ _; exact within_refl _ _ _
  | succ g ih =>
    intro i j a hn hi1 hi2 hj1 hj2
    simp only [swap_grams]
    have h1 := within_swap_elts base n a i j hn hi1 (by omega) hj1 (by omega)
    have h2 := ih (i + 1) (j + 1) (swap_elts a i j) (by rw [swap_elts_length]; exact hn)
      (by omega) (by omega) (by omega) (by omega)
    exact within_trans h2 h1

theorem choose_swappee_some (lo hi : Nat) (rnd : Nat → Nat) (c : Nat) (h : lo ≤ hi) :
    ∃ j c1, choose_swappee lo hi rnd c = some (j, c1) ∧ lo ≤ j ∧ j ≤ hi := by
  unfold choose_swappee
  by_cases h1 : lo = hi
  · exact ⟨hi, c, by simp [h1], h, le_refl _⟩
  · have h2 : lo < hi := lt_of_le_of_ne h h1
    have h3 : random_long_long lo hi (rnd c) = some (lo + rnd c % (hi - lo + 1)) := by
      unfold random_long_long
      rw [if_neg (by omega)]
    refine ⟨lo + rnd c % (hi - lo + 1), c + 1, by simp [h1, h3], by omega, ?_⟩
    have := Nat.mod_lt (rnd c) (show 0 < hi - lo + 1 by omega)
    omega

theorem respect_phrases_loop_within (base m l : Nat) (rnd : Nat → Nat) (hm : m = l + 1) :
    ∀ (n i c : Nat) (a : List Nat), base + m < a.length →
    ∃ a1 c1, respect_phrases_loop base m l rnd n i c a = some (a1, c1) ∧
      Within base (m + 1) a1 a := by
  intro n
  induction n with
  | zero => intro i c a _; exact ⟨a, c, rfl, within_refl _ _ _⟩
  | succ n ih =>
    intro i c a hlen
    simp only [respect_phrases_loop]
    by_cases h1 : i < l
    swap
    · rw [if_pos h1]; exact ⟨a, c, rfl, within_refl _ _ _⟩
    rw [if_neg (not_not.mpr h1)]
    by_cases h2 : a.getD (base + i) 0 &&& CON_FLAG ≠ 0
    · rw [if_pos h2]; exact ih _ _ _ hlen
    rw [if_neg h2]
    by_cases h3 : a.getD (base + i) 0 &&& SON_FLAG ≠ 0
    · rw [if_pos h3]
      generalize 1 + con_run (List.drop (base + i + 1) a) = g
      by_cases h4 : i + g > m + 1 - g
      · rw [if_pos h4]; exact ⟨a, c, rfl, within_refl _ _ _⟩
      rw [if_neg h4]
      obtain ⟨j, c1, hj, hj1, hj2⟩ := choose_swappee_some (i + g) (m + 1 - g) rnd c (by omega)
      rw [hj]
      simp only
      by_cases h5 : swappee_flagged a g (base + j) = true
      · rw [if_pos h5]; exact ih _ _ _ hlen
      rw [if_neg h5]
      have hw := within_swap_grams base (m + 1) g (base + i) (base + j) a (by omega) (by omega)
        (by omega) (by omega) (by omega)
      obtain ⟨a1, c2, e1, e2⟩ := ih (i + g) c1 (swap_grams g (base + i) (base + j) a)
        (by rw [hw.1]; exact hlen)
      exact ⟨a1, c2, e1, within_trans e2 hw⟩
    rw [if_neg h3]
    obtain ⟨j, c1, hj, hj1, hj2⟩ := choose_swappee_some (i + 1) m rnd c (by omega)
    rw [hj]
    simp only
    by_cases h5 : a.getD (base + j) 0 &&& NGRAM_FLAGS ≠ 0
    · rw [if_pos h5]; exact ih _ _ _ hlen
    rw [if_neg h5]
    have hw := within_swap_elts base (m + 1) a (base + i) (base + j) (by omega) (by omega)
      (by omega) (by omega) (by omega)
    obtain ⟨a1, c2, e1, e2⟩ := ih (i + 1) c1 (swap_elts a (base + i) (base + j))
      (by rw [hw.1]; exact hlen)
    exact ⟨a1, c2, e1, within_trans e2 hw⟩

theorem respect_phrases_within (a : List Nat) (base num_elts : Nat) (rnd : Nat → Nat) (c : Nat)
    (h : base + num_elts ≤ a.length) :
    ∃ a1 c1, knuth_shuffle_uint_respect_phrases a base num_elts rnd c = some (a1, c1) ∧
      Within base num_elts a1 a := by
  unfold knuth_shuffle_uint_respect_phrases
  by_cases h1 : num_elts < 2
  · rw [if_pos h1]; exact ⟨a, c, rfl, within_refl _ _ _⟩
  rw [if_neg h1]
  simp only
  obtain ⟨a1, c1, e1, e2⟩ := respect_phrases_loop_within base (num_elts - 2 + 1) (num_elts - 2)
    rnd rfl (num_elts - 2) 0 c a (by omega)
  refine ⟨a1, c1, e1, ?_⟩
  have : num_elts - 2 + 1 + 1 = num_elts := by omega
  rw [this] at e2
  exact e2

/-! ### Slices of the occurrence array -/

theorem getElem?_eq_getD (a : List Nat) (x : Nat) (h : x < a.length) :
    a[x]? = some (a.getD x 0) := by
  rw [List.getD_eq_getElem?_getD, List.getElem?_eq_getElem h]
  rfl

theorem doc_slice_getElem? (a : List Nat) (s e i : Nat) :
    (doc_slice a s e)[i]? = if i < e + 1 - s then a[s + i]? else none := by
  unfold doc_slice
  rw [List.getElem?_take]
  by_cases h : i < e + 1 - s
  · rw [if_pos h, if_pos h, List.getElem?_drop]
  · rw [if_neg h, if_neg h]

theorem doc_slice_map_congr (f : Nat → Nat) (a1 a : List Nat) (s e : Nat)
    (hlen : a1.length = a.length)
    (h : ∀ x, s ≤ x → x ≤ e → f (a1.getD x 0) = f (a.getD x 0)) :
    (doc_slice a1 s e).map f = (doc_slice a s e).map f := by
  apply List.ext_getElem?
  intro i
  rw [List.getElem?_map, List.getElem?_map, doc_slice_getElem?, doc_slice_getElem?]
  by_cases hi : i < e + 1 - s
  · rw [if_pos hi, if_pos hi]
    by_cases hx : s + i < a.length
    · rw [getElem?_eq_getD a _ hx, getElem?_eq_getD a1 _ (by omega)]
      simp only [Option.map_some']
      rw [h (s + i) (by omega) (by omega)]
    · rw [List.getElem?_eq_none (by omega), List.getElem?_eq_none (by omega)]
  · rw [if_neg hi, if_neg hi]

theorem mem_doc_slice (a : List Nat) (s e v : Nat) (h : v ∈ doc_slice a s e) :
    ∃ y, s ≤ y ∧ y ≤ e ∧ y < a.length ∧ a.getD y 0 = v := by
  obtain ⟨i, hi⟩ := List.mem_iff_getElem?.mp h
  rw [doc_slice_getElem?] at hi
  by_cases h1 : i < e + 1 - s
  · rw [if_pos h1] at hi
    have h2 : s + i < a.length := by
      by_contra hc
      rw [List.getElem?_eq_none (by omega)] at hi
      exact absurd hi (by simp)
    rw [getElem?_eq_getD a _ h2] at hi
    exact ⟨s + i, by omega, by omega, h2, Option.some.inj hi⟩
  · rw [if_neg h1] at hi
    exact absurd hi (by simp)

theorem getD_mem_doc_slice (a : List Nat) (s e y : Nat) (h1 : s ≤ y) (h2 : y ≤ e)
    (h3 : y < a.length) : a.getD y 0 ∈ doc_slice a s e := by
  apply List.mem_iff_getElem?.mpr
  refine ⟨y - s, ?_⟩
  rw [doc_slice_getElem?, if_pos (by omega)]
  have : s + (y - s) = y := by omega
  rw [this, getElem?_eq_getD a y h3]

theorem take_eq_of_getD (a1 a : List Nat) (k : Nat) (hlen : a1.length = a.length)
    (h : ∀ x, x < k → a1.getD x 0 = a.getD x 0) : a1.take k = a.take k := by
  apply List.ext_getElem?
  intro i
  rw [List.getElem?_take, List.getElem?_take]
  by_cases hi : i < k
  · rw [if_pos hi, if_pos hi]
    by_cases hx : i < a.length
    · rw [getElem?_eq_getD a _ hx, getElem?_eq_getD a1 _ (by omega), h i hi]
    · rw [List.getElem?_eq_none (by omega), List.getElem?_eq_none (by omega)]
  · rw [if_neg hi, if_neg hi]

theorem drop_eq_of_getD (a1 a : List Nat) (k : Nat) (hlen : a1.length = a.length)
    (h : ∀ x, k ≤ x → a1.getD x 0 = a.getD x 0) : a1.drop k = a.drop k := by
  apply List.ext_getElem?
  intro i
  rw [List.getElem?_drop, List.getElem?_drop]
  by_cases hx : k + i < a.length
  · rw [getElem?_eq_getD a _ hx, getElem?_eq_getD a1 _ (by omega), h (k + i) (by omega)]
  · rw [List.getElem?_eq_none (by omega), List.getElem?_eq_none (by omega)]

theorem split_at_window (a : List Nat) (s n : Nat) :
    a = a.take s ++ ((a.drop s).take n ++ a.drop (s + n)) := by
  have h1 : a.drop (s + n) = (a.drop s).drop n := by
    rw [List.drop_drop, Nat.add_comm]
  rw [h1, List.take_append_drop, List.take_append_drop]

theorem within_slice (base n : Nat) (a1 a : List Nat) (h : Within base n a1 a) :
    ((a1.drop base).take n).Perm ((a.drop base).take n) := by
  obtain ⟨hlen, hperm, hout⟩ := h
  have e1 := split_at_window a1 base n
  have e2 := split_at_window a base n
  rw [take_eq_of_getD a1 a base hlen (fun x hx => hout x (Or.inl hx)),
    drop_eq_of_getD a1 a (base + n) hlen (fun x hx => hout x (Or.inr hx))] at e1
  have hp := (List.Perm.of_eq e1.symm).trans (hperm.trans (List.Perm.of_eq e2))
  exact (List.perm_append_right_iff _).mp ((List.perm_append_left_iff _).mp hp)

/-! ### One document of shuffle_terms_within_docs -/

theorem is_final_false_iff (v : Nat) : is_final v = false ↔ v &&& FINAL_POSTING_IN_DOC = 0 := by
  simp [is_final]

theorem is_final_true_iff (v : Nat) : is_final v = true ↔ v &&& FINAL_POSTING_IN_DOC ≠ 0 := by
  simp [is_final]

theorem is_final_and_mask (v : Nat) :
    is_final (v &&& MASK_ALL_BUT_FINAL_POSTING_FLAG) = false := by
  rw [is_final_false_iff]
  have h1 : FINAL_POSTING_IN_DOC = 2 ^ 31 := by decide
  have h2 : MASK_ALL_BUT_FINAL_POSTING_FLAG = 2 ^ 31 - 1 := by decide
  rw [h1, h2]
  apply Nat.eq_of_testBit_eq
  intro i
  simp only [Nat.testBit_and, Nat.testBit_two_pow, Nat.testBit_two_pow_sub_one, Nat.zero_testBit]
  by_cases h : 31 = i
  · subst h; simp
  · simp [h]

theorem and_mask_idem (v : Nat) :
    (v &&& MASK_ALL_BUT_FINAL_POSTING_FLAG) &&& MASK_ALL_BUT_FINAL_POSTING_FLAG
      = v &&& MASK_ALL_BUT_FINAL_POSTING_FLAG := by
  rw [Nat.and_assoc, Nat.and_self]

theorem getD_of_length_le (a : List Nat) (x : Nat) (h : a.length ≤ x) : a.getD x 0 = 0 := by
  rw [List.getD_eq_getElem?_getD, List.getElem?_eq_none h]
  rfl

theorem find_doc_end_spec (a : List Nat) (N : Nat) : ∀ (n e : Nat), e ≤ N → N - e ≤ n →
    e ≤ find_doc_end a N n e ∧ find_doc_end a N n e ≤ N ∧
    (∀ i, e ≤ i → i < find_doc_end a N n e → is_final (a.getD i 0) = false) ∧
    (find_doc_end a N n e < N → is_final (a.getD (find_doc_end a N n e) 0) = true) := by
  intro n
  induction n with
  | zero =>
    intro e h1 h2
    simp only [find_doc_end]
    exact ⟨le_refl _, h1, fun i hi1 hi2 => absurd hi2 (by omega), fun h => absurd h (by omega)⟩
  | succ n ih =>
    intro e h1 h2
    simp only [find_doc_end]
    by_cases h : e < N ∧ a.getD e 0 &&& FINAL_POSTING_IN_DOC = 0
    · rw [if_pos h]
      obtain ⟨i1, i2, i3, i4⟩ := ih (e + 1) (by omega) (by omega)
      refine ⟨by omega, i2, ?_, i4⟩
      intro i hi1 hi2
      by_cases hie : i = e
      · rw [hie]; exact (is_final_false_iff _).mpr h.2
      · exact i3 i (by omega) hi2
    · rw [if_neg h]
      refine ⟨le_refl _, h1, fun i hi1 hi2 => absurd hi2 (by omega), ?_⟩
      intro hlt
      rw [is_final_true_iff]
      intro hz
      exact h ⟨hlt, hz⟩

theorem dockept_refl (s e : Nat) (a : List Nat) : DocKept s e a a :=
  ⟨rfl, fun _ _ => rfl, fun _ => rfl, List.Perm.refl _⟩

/-- The body of the loop for a document that is shuffled. -/
theorem dockept_shuffled (a : List Nat) (s e : Nat) (rnd : Nat → Nat) (c : Nat)
    (hse : s ≤ e) (he : e < a.length)
    (hnf : ∀ i, s ≤ i → i < e → is_final (a.getD i 0) = false)
    (hf : is_final (a.getD e 0) = true) :
    ∃ a2 c2, knuth_shuffle_uint_respect_phrases
        (a.set e (a.getD e 0 &&& MASK_ALL_BUT_FINAL_POSTING_FLAG)) s (e - s + 1) rnd c
        = some (a2, c2) ∧
      DocKept s e (a2.set e (a2.getD e 0 ||| FINAL_POSTING_IN_DOC)) a := by
  obtain ⟨a2, c2, h1, hlen, hperm, hout⟩ := respect_phrases_within
    (a.set e (a.getD e 0 &&& MASK_ALL_BUT_FINAL_POSTING_FLAG)) s (e - s + 1) rnd c
    (by rw [List.length_set]; omega)
  have hw : Within s (e - s + 1) a2 (a.set e (a.getD e 0 &&& MASK_ALL_BUT_FINAL_POSTING_FLAG)) :=
    ⟨hlen, hperm, hout⟩
  rw [List.length_set] at hlen
  have hsl := within_slice _ _ _ _ hw
  have hn : e - s + 1 = e + 1 - s := by omega
  rw [hn] at hsl
  refine ⟨a2, c2, h1, ?_, ?_, ?_, ?_⟩
  · rw [List.length_set]; exact hlen
  · intro x hx
    rw [getD_set_eq, if_neg (by omega), hout x (by omega), getD_set_eq, if_neg (by omega)]
  · intro x
    rw [getD_set_eq]
    by_cases hx : e = x ∧ e < a2.length
    · rw [if_pos hx, is_final_or, ← hx.1, hf]
    · rw [if_neg hx]
      have hxe : x ≠ e := fun h => hx ⟨h.symm, by omega⟩
      by_cases hin : s ≤ x ∧ x < e
      · rw [hnf x hin.1 hin.2]
        have hm : a2.getD x 0 ∈ doc_slice a2 s e :=
          getD_mem_doc_slice a2 s e x hin.1 (by omega) (by omega)
        have hm2 := (List.Perm.mem_iff hsl).mp hm
        obtain ⟨y, hy1, hy2, hy3, hy4⟩ := mem_doc_slice _ s e _ hm2
        rw [← hy4, getD_set_eq]
        by_cases hye : e = y ∧ e < a.length
        · rw [if_pos hye]; exact is_final_and_mask _
        · rw [if_neg hye]
          exact hnf y hy1 (by omega)
      · rw [hout x (by omega), getD_set_eq, if_neg (by omega)]
  · have e1 : (doc_slice (a2.set e (a2.getD e 0 ||| FINAL_POSTING_IN_DOC)) s e).map
        (fun p => p &&& MASK_ALL_BUT_FINAL_POSTING_FLAG)
        = (doc_slice a2 s e).map (fun p => p &&& MASK_ALL_BUT_FINAL_POSTING_FLAG) := by
      apply doc_slice_map_congr
      · rw [List.length_set]
      · intro x _ _
        rw [getD_set_eq]
        by_cases hx : e = x ∧ e < a2.length
        · rw [if_pos hx, or_final_and_mask, hx.1]
        · rw [if_neg hx]
    have e2 : (doc_slice (a.set e (a.getD e 0 &&& MASK_ALL_BUT_FINAL_POSTING_FLAG)) s e).map
        (fun p => p &&& MASK_ALL_BUT_FINAL_POSTING_FLAG)
        = (doc_slice a s e).map (fun p => p &&& MASK_ALL_BUT_FINAL_POSTING_FLAG) := by
      apply doc_slice_map_congr
      · rw [List.length_set]
      · intro x _ _
        rw [getD_set_eq]
        by_cases hx : e = x ∧ e < a.length
        · rw [if_pos hx, and_mask_idem, hx.1]
        · rw [if_neg hx]
    rw [e1, ← e2]
    exact List.Perm.map _ hsl

/-! ### shuffle_terms_within_docs keeps every document -/

/-- One iteration of the loop of `shuffle_terms_within_docs` continues the loop
at `e + 1` with an array that keeps the document `start..e`. -/
theorem shuffle_docs_body (N : Nat) (rnd : Nat → Nat) (n start c : Nat) (a : List Nat)
    (hlen : a.length = N) (hs : start < N) :
    ∃ a2 c2, shuffle_docs_loop N rnd (n + 1) start c a
        = shuffle_docs_loop N rnd n (find_doc_end a N (N - start) start + 1) c2 a2 ∧
      DocKept start (find_doc_end a N (N - start) start) a2 a := by
  obtain ⟨f1, f2, f3, f4⟩ := find_doc_end_spec a N (N - start) start (by omega) (le_refl _)
  simp only [shuffle_docs_loop]
  rw [if_neg (not_not.mpr hs)]
  generalize find_doc_end a N (N - start) start = e at f1 f2 f3 f4
  by_cases h1 : a.getD e 0 &&& FINAL_POSTING_IN_DOC ≠ 0
  · rw [if_pos h1]
    by_cases h2 : e - start > 2
    · rw [if_pos h2]
      have he : e < a.length := by
        by_contra hc
        rw [getD_of_length_le a e (by omega)] at h1
        exact h1 (by decide)
      obtain ⟨a2, c2, e1, e2⟩ := dockept_shuffled a start e rnd c f1 he f3
        ((is_final_true_iff _).mpr h1)
      rw [e1]
      exact ⟨_, c2, rfl, e2⟩
    · rw [if_neg h2]
      exact ⟨a, c, rfl, dockept_refl _ _ _⟩
  · rw [if_neg h1]
    exact ⟨a, c, rfl, dockept_refl _ _ _⟩

theorem shuffle_docs_loop_spec (N : Nat) (rnd : Nat → Nat) :
    ∀ (n start c : Nat) (a : List Nat), a.length = N → N - start ≤ n →
    ∃ a1 c1, shuffle_docs_loop N rnd n start c a = some (a1, c1) ∧ a1.length = N ∧
      (∀ x, x < start → a1.getD x 0 = a.getD x 0) ∧
      (∀ x, is_final (a1.getD x 0) = is_final (a.getD x 0)) ∧
      ∀ s e, start ≤ s → s ≤ e → e < N →
        (s = start ∨ is_final (a.getD (s - 1) 0) = true) →
        is_final (a.getD e 0) = true →
        (∀ i, s ≤ i → i < e → is_final (a.getD i 0) = false) →
        ((doc_slice a1 s e).map (fun p => p &&& MASK_ALL_BUT_FINAL_POSTING_FLAG)).Perm
          ((doc_slice a s e).map (fun p => p &&& MASK_ALL_BUT_FINAL_POSTING_FLAG)) := by
  intro n
  induction n with
  | zero =>
    intro start c a hlen hn
    exact ⟨a, c, rfl, hlen, fun _ _ => rfl, fun _ => rfl, fun _ _ _ _ _ _ _ _ => List.Perm.refl _⟩
  | succ n ih =>
    intro start c a hlen hn
    by_cases hs : start < N
    swap
    · refine ⟨a, c, ?_, hlen, fun _ _ => rfl, fun _ => rfl,
        fun _ _ _ _ _ _ _ _ => List.Perm.refl _⟩
      simp only [shuffle_docs_loop]
      rw [if_pos hs]
    obtain ⟨a2, c2, hb, k1, k2, k3, k4⟩ := shuffle_docs_body N rnd n start c a hlen hs
    obtain ⟨f1, f2, f3, f4⟩ := find_doc_end_spec a N (N - start) start (by omega) (le_refl _)
    rw [hb]
    generalize find_doc_end a N (N - start) start = e0 at f1 f2 f3 f4 k2 k4
    obtain ⟨a1, c1, r1, r2, r3, r4, r5⟩ := ih (e0 + 1) c2 a2 (k1.trans hlen) (by omega)
    refine ⟨a1, c1, r1, r2, ?_, ?_, ?_⟩
    · intro x hx
      rw [r3 x (by omega), k2 x (Or.inl hx)]
    · intro x
      rw [r4 x, k3 x]
    · intro s e hs1 hse he hb1 hfe hnf
      by_cases hcase : e0 + 1 ≤ s
      · have hb2 : s = e0 + 1 ∨ is_final (a2.getD (s - 1) 0) = true := by
          rcases hb1 with hb1 | hb1
          · omega
          · right; rw [k3]; exact hb1
        have p1 := r5 s e hcase hse he hb2 (by rw [k3]; exact hfe)
          (fun i hi1 hi2 => by rw [k3]; exact hnf i hi1 hi2)
        have p2 : (doc_slice a2 s e).map (fun p => p &&& MASK_ALL_BUT_FINAL_POSTING_FLAG)
            = (doc_slice a s e).map (fun p => p &&& MASK_ALL_BUT_FINAL_POSTING_FLAG) := by
          apply doc_slice_map_congr _ _ _ _ _ k1
          intro x hx1 _
          rw [k2 x (Or.inr (by omega))]
        rw [← p2]
        exact p1
      · have hs2 : s = start := by
          rcases hb1 with hb1 | hb1
          · exact hb1
          · by_contra hne
            have := f3 (s - 1) (by omega) (by omega)
            rw [hb1] at this
            exact absurd this (by simp)
        subst hs2
        have he2 : e = e0 := by
          by_contra hne
          rcases Nat.lt_or_gt_of_ne hne with hlt | hgt
          · have := f3 e hse hlt
            rw [hfe] at this
            exact absurd this (by simp)
          · have h1 := f4 (by omega)
            have h2 := hnf e0 f1 hgt
            rw [h1] at h2
            exact absurd h2 (by simp)
        subst he2
        have p2 : (doc_slice a1 s e).map (fun p => p &&& MASK_ALL_BUT_FINAL_POSTING_FLAG)
            = (doc_slice a2 s e).map (fun p => p &&& MASK_ALL_BUT_FINAL_POSTING_FLAG) := by
          apply doc_slice_map_congr _ _ _ _ _ (r2.trans (k1.trans hlen).symm)
          intro x _ hx2
          rw [r3 x (by omega)]
        rw [p2]
        exact k4

/-- C9.  For every occurrence array whose last posting bears the
end-of-document flag and every sequence of random draws,
`shuffle_terms_within_docs` returns; the array keeps its length, every slot
keeps its end-of-document flag, and for each document (slots `s..e`, where
`s` is 0 or follows a flagged slot and `e` is the first flagged slot from `s`)
the postings without that flag, that is rank and n-gram flags, are the same
multiset as before.  The flag on the last posting is what keeps the scan for
the end of a document inside the array. -/
theorem shuffle_within_docs_keeps_documents (a : List Nat) (N : Nat) (rnd : Nat → Nat) (c : Nat)
    (hlen : a.length = N) (hlast : is_final (a.getD (N - 1) 0) = true) :
    ∃ a1 c1, shuffle_terms_within_docs a N rnd c = some (a1, c1) ∧ a1.length = N ∧
      (∀ x, is_final (a1.getD x 0) = is_final (a.getD x 0)) ∧
      ∀ s e, s ≤ e → e < N →
        (s = 0 ∨ is_final (a.getD (s - 1) 0) = true) →
        is_final (a.getD e 0) = true →
        (∀ i, s ≤ i → i < e → is_final (a.getD i 0) = false) →
        ((doc_slice a1 s e).map (fun p => p &&& MASK_ALL_BUT_FINAL_POSTING_FLAG)).Perm
          ((doc_slice a s e).map (fun p => p &&& MASK_ALL_BUT_FINAL_POSTING_FLAG)) := by
  obtain ⟨a1, c1, r1, r2, _, r4, r5⟩ := shuffle_docs_loop_spec N rnd N 0 c a hlen (by omega)
  exact ⟨a1, c1, r1, r2, r4, fun s e hse he hb => r5 s e (Nat.zero_le _) hse he hb⟩

/-- Witness of C9: a document of five postings holding a 2-gram, then a
document of one posting. -/
theorem shuffle_within_docs_keeps_documents_witness :
    ([1, 1073741826, 536870915, 4, 2147483653, 2147483654] : List Nat).length = 6 ∧
    is_final (([1, 1073741826, 536870915, 4, 2147483653, 2147483654] : List Nat).getD (6 - 1) 0)
      = true ∧
    ∃ a1 c1, shuffle_terms_within_docs [1, 1073741826, 536870915, 4, 2147483653, 2147483654] 6
        (fun n => n + 1) 0 = some (a1, c1) ∧ a1.length = 6 ∧
      (∀ x, is_final (a1.getD x 0)
        = is_final (([1, 1073741826, 536870915, 4, 2147483653, 2147483654] : List Nat).getD x 0)) ∧
      ∀ s e, s ≤ e → e < 6 →
        (s = 0 ∨ is_final
          (([1, 1073741826, 536870915, 4, 2147483653, 2147483654] : List Nat).getD (s - 1) 0)
            = true) →
        is_final (([1, 1073741826, 536870915, 4, 2147483653, 2147483654] : List Nat).getD e 0)
          = true →
        (∀ i, s ≤ i → i < e → is_final
          (([1, 1073741826, 536870915, 4, 2147483653, 2147483654] : List Nat).getD i 0)
            = false) →
        ((doc_slice a1 s e).map (fun p => p &&& MASK_ALL_BUT_FINAL_POSTING_FLAG)).Perm
          ((doc_slice [1, 1073741826, 536870915, 4, 2147483653, 2147483654] s e).map
            (fun p => p &&& MASK_ALL_BUT_FINAL_POSTING_FLAG)) :=
  ⟨rfl, by decide,
    shuffle_within_docs_keeps_documents [1, 1073741826, 536870915, 4, 2147483653, 2147483654] 6
      (fun n => n + 1) 0 rfl (by decide)⟩

/-- The run of the witness of C9: the 2-gram changes places with the postings 4
and 5 and stays together; the end-of-document flags stay on slots 4 and 5. -/
theorem shuffle_within_docs_run :
    shuffle_terms_within_docs [1, 1073741826, 536870915, 4, 2147483653, 2147483654] 6
      (fun n => n + 1) 0 = some ([1, 4, 5, 1073741826, 2684354563, 2147483654], 1) := by
  decide

/-! ### Groups of an array and cuts before a posting without CON_FLAG -/

theorem phrases_from_clean (V : List Nat) (h : V.getD 0 0 &&& CON_FLAG = 0) :
    (phrases_from V).1 = [] := by
  cases V with
  | nil => rfl
  | cons x r =>
    have hx : x &&& CON_FLAG = 0 := by simpa using h
    simp [phrases_from, hx]

theorem phrases_from_append (U V : List Nat) (h : V.getD 0 0 &&& CON_FLAG = 0) :
    phrases_from (U ++ V) = ((phrases_from U).1, (phrases_from U).2 ++ (phrases_from V).2) := by
  induction U with
  | nil =>
    have := phrases_from_clean V h
    simp only [List.nil_append, phrases_from]
    exact Prod.ext this rfl
  | cons x r ih =>
    rw [List.cons_append]
    simp only [phrases_from]
    rw [ih]
    by_cases hx : x &&& CON_FLAG ≠ 0
    · rw [if_pos hx, if_pos hx]
    · rw [if_neg hx, if_neg hx]
      rfl

theorem phrases_append (U V : List Nat) (h : V.getD 0 0 &&& CON_FLAG = 0) :
    phrases (U ++ V) = phrases U ++ phrases V := by
  unfold phrases
  simp only [phrases_from_append U V h, phrases_from_clean V h, if_true]
  by_cases hp : (phrases_from U).1 = []
  · rw [if_pos hp, if_pos hp]
  · rw [if_neg hp, if_neg hp]
    rfl

theorem phrased_from_clean (V : List Nat) (h : V.getD 0 0 &&& CON_FLAG = 0) (p : Bool) :
    phrased_from p V = phrased_from false V := by
  cases V with
  | nil => rfl
  | cons x r =>
    have hx : x &&& CON_FLAG = 0 := by simpa using h
    simp [phrased_from, hx]

theorem phrased_from_append (U V : List Nat) (h : V.getD 0 0 &&& CON_FLAG = 0) :
    ∀ p : Bool, phrased_from p (U ++ V) = (phrased_from p U && phrased_from false V) := by
  induction U with
  | nil =>
    intro p
    simp only [List.nil_append, phrased_from, Bool.true_and]
    exact phrased_from_clean V h p
  | cons x r ih =>
    intro p
    rw [List.cons_append]
    simp only [phrased_from]
    rw [ih, Bool.and_assoc]

theorem clean_append (U V : List Nat) (hU : U.getD 0 0 &&& CON_FLAG = 0)
    (hV : V.getD 0 0 &&& CON_FLAG = 0) : (U ++ V).getD 0 0 &&& CON_FLAG = 0 := by
  cases U with
  | nil => exact hV
  | cons x r => exact hU

/-- Exchanging two stretches of an array cut before postings without
`CON_FLAG` permutes the groups and keeps the phrase structure. -/
theorem exchange_groups (A G B W C : List Nat) (hG : G.getD 0 0 &&& CON_FLAG = 0)
    (hB : B.getD 0 0 &&& CON_FLAG = 0) (hW : W.getD 0 0 &&& CON_FLAG = 0)
    (hC : C.getD 0 0 &&& CON_FLAG = 0) :
    (phrases (A ++ (W ++ (B ++ (G ++ C))))).Perm (phrases (A ++ (G ++ (B ++ (W ++ C))))) ∧
    phrased (A ++ (W ++ (B ++ (G ++ C)))) = phrased (A ++ (G ++ (B ++ (W ++ C)))) := by
  have c1 := clean_append G C hG hC
  have c2 := clean_append B _ hB c1
  have c3 := clean_append W _ hW c2
  have d1 := clean_append W C hW hC
  have d2 := clean_append B _ hB d1
  have d3 := clean_append G _ hG d2
  constructor
  · rw [phrases_append A _ c3, phrases_append W _ c2, phrases_append B _ c1, phrases_append G _ hC,
      phrases_append A _ d3, phrases_append G _ d2, phrases_append B _ d1, phrases_append W _ hC]
    rw [List.perm_iff_count]
    intro x
    simp only [List.count_append]
    omega
  · unfold phrased
    rw [phrased_from_append A _ c3, phrased_from_append W _ c2, phrased_from_append B _ c1,
      phrased_from_append G _ hC, phrased_from_append A _ d3, phrased_from_append G _ d2,
      phrased_from_append B _ d1, phrased_from_append W _ hC]
    cases phrased_from false A <;> cases phrased_from false G <;> cases phrased_from false B <;>
      cases phrased_from false W <;> cases phrased_from false C <;> rfl

/-! ### The exchange loop as a rearrangement of the array -/

theorem swap_grams_length (g : Nat) : ∀ (i j : Nat) (a : List Nat),
    (swap_grams g i j a).length = a.length := by
  induction g with
  | zero => intro i j a; rfl
  | succ g ih =>
    intro i j a
    simp only [swap_grams]
    rw [ih, swap_elts_length]

theorem swap_grams_getD (g : Nat) : ∀ (i j : Nat) (a : List Nat) (x : Nat),
    i + g ≤ j → j + g ≤ a.length →
    (swap_grams g i j a).getD x 0
      = if i ≤ x ∧ x < i + g then a.getD (x - i + j) 0
        else if j ≤ x ∧ x < j + g then a.getD (x - j + i) 0 else a.getD x 0 := by
  induction g with
  | zero =>
    intro i j a x _ _
    simp only [swap_grams]
    rw [if_neg (by omega), if_neg (by omega)]
  | succ g ih =>
    intro i j a x h1 h2
    simp only [swap_grams]
    rw [ih (i + 1) (j + 1) (swap_elts a i j) x (by omega) (by rw [swap_elts_length]; omega)]
    by_cases c1 : i + 1 ≤ x ∧ x < i + 1 + g
    · rw [if_pos c1, if_pos (by omega), swap_elts_getD a i j _ (by omega) (by omega),
        if_neg (by omega), if_neg (by omega)]
      congr 1
      omega
    · rw [if_neg c1]
      by_cases c2 : j + 1 ≤ x ∧ x < j + 1 + g
      · rw [if_pos c2, if_neg (by omega), if_pos (by omega),
          swap_elts_getD a i j _ (by omega) (by omega), if_neg (by omega), if_neg (by omega)]
        congr 1
        omega
      · rw [if_neg c2, swap_elts_getD a i j _ (by omega) (by omega)]
        by_cases c3 : x = j
        · rw [if_pos c3, if_neg (by omega), if_pos (by omega)]
          congr 1
          omega
        · rw [if_neg c3]
          by_cases c4 : x = i
          · rw [if_pos c4, if_pos (by omega)]
            congr 1
            omega
          · rw [if_neg c4, if_neg (by omega), if_neg (by omega)]

theorem getD_append_nat (l1 l2 : List Nat) (x : Nat) :
    (l1 ++ l2).getD x 0 = if x < l1.length then l1.getD x 0 else l2.getD (x - l1.length) 0 := by
  simp only [List.getD_eq_getElem?_getD, List.getElem?_append]
  by_cases h : x < l1.length
  · rw [if_pos h, if_pos h]
  · rw [if_neg h, if_neg h]

theorem getD_take_drop (a : List Nat) (p k x : Nat) :
    ((a.drop p).take k).getD x 0 = if x < k then a.getD (p + x) 0 else 0 := by
  simp only [List.getD_eq_getElem?_getD, List.getElem?_take, List.getElem?_drop]
  by_cases h : x < k
  · rw [if_pos h, if_pos h]
  · rw [if_neg h, if_neg h]
    rfl

theorem getD_drop_nat (a : List Nat) (p x : Nat) : (a.drop p).getD x 0 = a.getD (p + x) 0 := by
  simp only [List.getD_eq_getElem?_getD, List.getElem?_drop]

theorem getD_take_nat (a : List Nat) (k x : Nat) :
    (a.take k).getD x 0 = if x < k then a.getD x 0 else 0 := by
  simp only [List.getD_eq_getElem?_getD, List.getElem?_take]
  by_cases h : x < k
  · rw [if_pos h, if_pos h]
  · rw [if_neg h, if_neg h]
    rfl

theorem eq_of_getD (l1 l2 : List Nat) (hlen : l1.length = l2.length)
    (h : ∀ x, x < l2.length → l1.getD x 0 = l2.getD x 0) : l1 = l2 := by
  apply List.ext_getElem?
  intro x
  by_cases hx : x < l2.length
  · rw [getElem?_eq_getD l2 x hx, getElem?_eq_getD l1 x (by omega), h x hx]
  · rw [List.getElem?_eq_none (by omega), List.getElem?_eq_none (by omega)]

/-- The array cut at `i`, `i + g`, `j`, `j + g`. -/
theorem five_parts (a : List Nat) (i j g : Nat) (h1 : i + g ≤ j) (h2 : j + g ≤ a.length) :
    a = a.take i ++ ((a.drop i).take g ++ ((a.drop (i + g)).take (j - (i + g)) ++
      ((a.drop j).take g ++ a.drop (j + g)))) := by
  apply eq_of_getD
  · simp only [List.length_append, List.length_take, List.length_drop]
    omega
  · intro x hx
    simp only [getD_append_nat, getD_take_drop, getD_drop_nat, getD_take_nat, List.length_take,
      List.length_drop]
    have m1 : min i a.length = i := by omega
    have m2 : min g (a.length - i) = g := by omega
    have m3 : min (j - (i + g)) (a.length - (i + g)) = j - (i + g) := by omega
    have m4 : min g (a.length - j) = g := by omega
    rw [m1, m2, m3, m4]
    by_cases c1 : x < i
    · rw [if_pos c1, if_pos c1]
    rw [if_neg c1]
    by_cases c2 : x - i < g
    · rw [if_pos c2, if_pos c2]; congr 1; omega
    rw [if_neg c2]
    by_cases c3 : x - i - g < j - (i + g)
    · rw [if_pos c3, if_pos c3]; congr 1; omega
    rw [if_neg c3]
    by_cases c4 : x - i - g - (j - (i + g)) < g
    · rw [if_pos c4, if_pos c4]; congr 1; omega
    rw [if_neg c4]
    congr 1
    omega

/-- The exchange loop swaps the second and the fourth part. -/
theorem swap_grams_parts (a : List Nat) (i j g : Nat) (h1 : i + g ≤ j) (h2 : j + g ≤ a.length) :
    swap_grams g i j a = a.take i ++ ((a.drop j).take g ++
      ((a.drop (i + g)).take (j - (i + g)) ++ ((a.drop i).take g ++ a.drop (j + g)))) := by
  apply eq_of_getD
  · rw [swap_grams_length]
    simp only [List.length_append, List.length_take, List.length_drop]
    omega
  · intro x hx
    rw [swap_grams_getD g i j a x h1 h2]
    simp only [getD_append_nat, getD_take_drop, getD_drop_nat, getD_take_nat, List.length_take,
      List.length_drop]
    have m1 : min i a.length = i := by omega
    have m2 : min g (a.length - i) = g := by omega
    have m3 : min (j - (i + g)) (a.length - (i + g)) = j - (i + g) := by omega
    have m4 : min g (a.length - j) = g := by omega
    rw [m1, m2, m3, m4]
    by_cases c1 : x < i
    · rw [if_pos c1, if_pos c1, if_neg (by omega), if_neg (by omega)]
    rw [if_neg c1]
    by_cases c2 : x - i < g
    · rw [if_pos c2, if_pos c2, if_pos (by omega)]; congr 1; omega
    rw [if_neg c2]
    by_cases c3 : x - i - g < j - (i + g)
    · rw [if_pos c3, if_pos c3, if_neg (by omega), if_neg (by omega)]; congr 1; omega
    rw [if_neg c3]
    by_cases c4 : x - i - g - (j - (i + g)) < g
    · rw [if_pos c4, if_pos c4, if_neg (by omega), if_pos (by omega)]; congr 1; omega
    rw [if_neg c4, if_neg (by omega), if_neg (by omega)]
    congr 1
    omega

/-! ### What the tests of the shuffle establish -/

theorem ngram_flags_split (v : Nat) :
    v &&& NGRAM_FLAGS = 0 ↔ v &&& SON_FLAG = 0 ∧ v &&& CON_FLAG = 0 := by
  have h : NGRAM_FLAGS = SON_FLAG ||| CON_FLAG := by decide
  rw [h, Nat.and_or_distrib_left]
  constructor
  · intro h0
    constructor
    · apply Nat.eq_of_testBit_eq
      intro i
      have := congrArg (fun x => Nat.testBit x i) h0
      simp only [Nat.testBit_or, Nat.zero_testBit, Bool.or_eq_false_iff] at this
      rw [this.1, Nat.zero_testBit]
    · apply Nat.eq_of_testBit_eq
      intro i
      have := congrArg (fun x => Nat.testBit x i) h0
      simp only [Nat.testBit_or, Nat.zero_testBit, Bool.or_eq_false_iff] at this
      rw [this.2, Nat.zero_testBit]
  · intro h0
    rw [h0.1, h0.2]
    rfl

theorem con_run_stop (l : List Nat) : l.getD (con_run l) 0 &&& CON_FLAG = 0 := by
  induction l with
  | nil => rfl
  | cons x r ih =>
    simp only [con_run]
    by_cases hx : x &&& CON_FLAG ≠ 0
    · rw [if_pos hx]
      simpa using ih
    · rw [if_neg hx]
      simpa using hx

theorem swappee_flagged_false (a : List Nat) (g : Nat) : ∀ j, swappee_flagged a g j = false →
    ∀ k, k < g → a.getD (j + k) 0 &&& NGRAM_FLAGS = 0 := by
  induction g with
  | zero => intro j _ k hk; exact absurd hk (by omega)
  | succ g ih =>
    intro j h k hk
    simp only [swappee_flagged] at h
    by_cases hx : a.getD j 0 &&& NGRAM_FLAGS ≠ 0
    · rw [if_pos hx] at h
      exact absurd h (by simp)
    · rw [if_neg hx] at h
      cases k with
      | zero => simpa using hx
      | succ k =>
        have := ih (j + 1) h k (by omega)
        have e : j + (k + 1) = j + 1 + k := by omega
        rw [e]
        exact this

theorem phrased_from_head (r : List Nat) (p : Bool) (h : phrased_from p r = true)
    (hp : p = false) : r.getD 0 0 &&& CON_FLAG = 0 := by
  subst hp
  cases r with
  | nil => rfl
  | cons z t =>
    simp only [phrased_from, Bool.or_false, Bool.and_eq_true, decide_eq_true_eq] at h
    simpa using h.1

theorem phrased_next (a : List Nat) : ∀ (p : Bool) (x : Nat), phrased_from p a = true →
    a.getD x 0 &&& NGRAM_FLAGS = 0 → a.getD (x + 1) 0 &&& CON_FLAG = 0 := by
  induction a with
  | nil => intro p x _ _; simp
  | cons y r ih =>
    intro p x h hx
    simp only [phrased_from, Bool.and_eq_true] at h
    cases x with
    | zero =>
      have hy : y &&& NGRAM_FLAGS = 0 := by simpa using hx
      have h2 := h.2
      rw [show decide (y &&& NGRAM_FLAGS ≠ 0) = false by simp [hy]] at h2
      have := phrased_from_head r false h2 rfl
      simpa using this
    | succ x =>
      have := ih _ x h.2 (by simpa using hx)
      simpa using this

/-- Exchanging the `g` postings from `i` with the `g` postings from `j`, when
none of the four cuts falls before a continuation posting, permutes the groups
and keeps the phrase structure. -/
theorem exchange_step (a : List Nat) (i j g : Nat) (h1 : i + g ≤ j) (h2 : j + g ≤ a.length)
    (ci : a.getD i 0 &&& CON_FLAG = 0) (cig : a.getD (i + g) 0 &&& CON_FLAG = 0)
    (cj : a.getD j 0 &&& CON_FLAG = 0) (cjg : a.getD (j + g) 0 &&& CON_FLAG = 0) :
    (phrases (swap_grams g i j a)).Perm (phrases a) ∧
    phrased (swap_grams g i j a) = phrased a := by
  have hz : (0 : Nat) &&& CON_FLAG = 0 := by decide
  have hG : ((a.drop i).take g).getD 0 0 &&& CON_FLAG = 0 := by
    rw [getD_take_drop]
    by_cases h : 0 < g
    · rw [if_pos h]; exact ci
    · rw [if_neg h]; exact hz
  have hB : ((a.drop (i + g)).take (j - (i + g))).getD 0 0 &&& CON_FLAG = 0 := by
    rw [getD_take_drop]
    by_cases h : 0 < j - (i + g)
    · rw [if_pos h]; exact cig
    · rw [if_neg h]; exact hz
  have hW : ((a.drop j).take g).getD 0 0 &&& CON_FLAG = 0 := by
    rw [getD_take_drop]
    by_cases h : 0 < g
    · rw [if_pos h]; exact cj
    · rw [if_neg h]; exact hz
  have hC : (a.drop (j + g)).getD 0 0 &&& CON_FLAG = 0 := by
    rw [getD_drop_nat]; exact cjg
  have key := exchange_groups (a.take i) _ _ _ _ hG hB hW hC
  rw [← five_parts a i j g h1 h2, ← swap_grams_parts a i j g h1 h2] at key
  exact key

/-! ### The phrase-respecting shuffle keeps the n-grams -/

theorem swap_elts_as_grams (a : List Nat) (i j : Nat) : swap_elts a i j = swap_grams 1 i j a := rfl

theorem respect_phrases_loop_groups (m l : Nat) (rnd : Nat → Nat) (hm : m = l + 1) :
    ∀ (n i c : Nat) (a a1 : List Nat) (c1 : Nat), a.length = m + 1 → phrased a = true →
    respect_phrases_loop 0 m l rnd n i c a = some (a1, c1) →
    (phrases a1).Perm (phrases a) ∧ phrased a1 = true := by
  intro n
  induction n with
  | zero =>
    intro i c a a1 c1 _ hp h
    simp only [respect_phrases_loop, Option.some.injEq, Prod.mk.injEq] at h
    rw [← h.1]
    exact ⟨List.Perm.refl _, hp⟩
  | succ n ih =>
    intro i c a a1 c1 hlen hp h
    simp only [respect_phrases_loop, Nat.zero_add] at h
    by_cases h1 : i < l
    swap
    · rw [if_pos h1] at h
      simp only [Option.some.injEq, Prod.mk.injEq] at h
      rw [← h.1]
      exact ⟨List.Perm.refl _, hp⟩
    rw [if_neg (not_not.mpr h1)] at h
    by_cases h2 : a.getD i 0 &&& CON_FLAG ≠ 0
    · rw [if_pos h2] at h
      exact ih _ _ _ _ _ hlen hp h
    rw [if_neg h2] at h
    have ci : a.getD i 0 &&& CON_FLAG = 0 := not_not.mp h2
    by_cases h3 : a.getD i 0 &&& SON_FLAG ≠ 0
    · rw [if_pos h3] at h
      have hstop : a.getD (i + (1 + con_run (a.drop (i + 1)))) 0 &&& CON_FLAG = 0 := by
        have := con_run_stop (a.drop (i + 1))
        rw [getD_drop_nat] at this
        have e : i + 1 + con_run (a.drop (i + 1)) = i + (1 + con_run (a.drop (i + 1))) := by omega
        rw [← e]
        exact this
      have hg1 : 1 ≤ 1 + con_run (a.drop (i + 1)) := by omega
      generalize 1 + con_run (List.drop (i + 1) a) = g at h hstop hg1
      by_cases h4 : i + g > m + 1 - g
      · rw [if_pos h4] at h
        simp only [Option.some.injEq, Prod.mk.injEq] at h
        rw [← h.1]
        exact ⟨List.Perm.refl _, hp⟩
      rw [if_neg h4] at h
      obtain ⟨j, c2, hj, hj1, hj2⟩ := choose_swappee_some (i + g) (m + 1 - g) rnd c (by omega)
      rw [hj] at h
      simp only at h
      by_cases h5 : swappee_flagged a g j = true
      · rw [if_pos h5] at h
        exact ih _ _ _ _ _ hlen hp h
      rw [if_neg h5] at h
      have hfree := swappee_flagged_false a g j (by simpa using h5)
      have cj : a.getD j 0 &&& CON_FLAG = 0 :=
        ((ngram_flags_split _).mp (hfree 0 (by omega))).2
      have cjg : a.getD (j + g) 0 &&& CON_FLAG = 0 := by
        have := phrased_next a false (j + (g - 1)) hp (hfree (g - 1) (by omega))
        have e : j + (g - 1) + 1 = j + g := by omega
        rw [e] at this
        exact this
      obtain ⟨s1, s2⟩ := exchange_step a i j g hj1 (by omega) ci hstop cj cjg
      obtain ⟨r1, r2⟩ := ih _ _ _ _ _ (by rw [swap_grams_length]; exact hlen)
        (by rw [s2]; exact hp) h
      exact ⟨r1.trans s1, r2⟩
    rw [if_neg h3] at h
    have hplain : a.getD i 0 &&& NGRAM_FLAGS = 0 :=
      (ngram_flags_split _).mpr ⟨not_not.mp h3, ci⟩
    obtain ⟨j, c2, hj, hj1, hj2⟩ := choose_swappee_some (i + 1) m rnd c (by omega)
    rw [hj] at h
    simp only at h
    by_cases h5 : a.getD j 0 &&& NGRAM_FLAGS ≠ 0
    · rw [if_pos h5] at h
      exact ih _ _ _ _ _ hlen hp h
    rw [if_neg h5] at h
    have hj0 : a.getD j 0 &&& NGRAM_FLAGS = 0 := not_not.mp h5
    rw [swap_elts_as_grams] at h
    obtain ⟨s1, s2⟩ := exchange_step a i j 1 hj1 (by omega) ci
      (phrased_next a false i hp hplain) ((ngram_flags_split _).mp hj0).2
      (phrased_next a false j hp hj0)
    obtain ⟨r1, r2⟩ := ih _ _ _ _ _ (by rw [swap_grams_length]; exact hlen)
      (by rw [s2]; exact hp) h
    exact ⟨r1.trans s1, r2⟩

/-- C8.  For every array in which every continuation posting follows a
start-of-n-gram or continuation posting, and every sequence of random draws,
`knuth_shuffle_uint_respect_phrases` on the whole array returns a permutation
of the array whose groups (a posting without `CON_FLAG` together with the
continuation postings behind it: every n-gram instance, and every plain
posting on its own) are the groups of the input, each with its postings in the
original order, as a multiset; the result has the same phrase structure. -/
theorem respect_phrases_keeps_ngrams (a : List Nat) (rnd : Nat → Nat) (c : Nat)
    (hp : phrased a = true) :
    ∃ a1 c1, knuth_shuffle_uint_respect_phrases a 0 a.length rnd c = some (a1, c1) ∧
      a1.Perm a ∧ (phrases a1).Perm (phrases a) ∧ phrased a1 = true := by
  obtain ⟨a1, c1, e1, _, e2, _⟩ := respect_phrases_within a 0 a.length rnd c (by omega)
  refine ⟨a1, c1, e1, e2, ?_⟩
  unfold knuth_shuffle_uint_respect_phrases at e1
  by_cases h : a.length < 2
  · rw [if_pos h] at e1
    simp only [Option.some.injEq, Prod.mk.injEq] at e1
    rw [← e1.1]
    exact ⟨List.Perm.refl _, hp⟩
  · rw [if_neg h] at e1
    exact respect_phrases_loop_groups (a.length - 2 + 1) (a.length - 2) rnd rfl _ _ _ _ _ _
      (by omega) hp e1

/-- Witness of C8: the array of `test_knuth_shuffle_uint_respect_phrases`, a
2-gram, a 3-gram and ten plain postings. -/
theorem respect_phrases_keeps_ngrams_witness :
    phrased [1073741825, 536870914, 1073741827, 536870916, 536870917, 6, 7, 8, 9, 10, 11,
      12, 13, 14, 15] = true ∧
    ∃ a1 c1, knuth_shuffle_uint_respect_phrases [1073741825, 536870914, 1073741827, 536870916,
        536870917, 6, 7, 8, 9, 10, 11, 12, 13, 14, 15] 0
        ([1073741825, 536870914, 1073741827, 536870916, 536870917, 6, 7, 8, 9, 10, 11, 12, 13,
          14, 15] : List Nat).length (fun n => 7 * n + 3) 0 = some (a1, c1) ∧
      a1.Perm [1073741825, 536870914, 1073741827, 536870916, 536870917, 6, 7, 8, 9, 10, 11, 12,
        13, 14, 15] ∧
      (phrases a1).Perm (phrases [1073741825, 536870914, 1073741827, 536870916, 536870917, 6, 7,
        8, 9, 10, 11, 12, 13, 14, 15]) ∧
      phrased a1 = true :=
  ⟨by decide,
    respect_phrases_keeps_ngrams [1073741825, 536870914, 1073741827, 536870916, 536870917, 6, 7,
      8, 9, 10, 11, 12, 13, 14, 15] (fun n => 7 * n + 3) 0 (by decide)⟩

/-- The run of the witness of C8, and the groups of the input. -/
theorem respect_phrases_run :
    knuth_shuffle_uint_respect_phrases [1073741825, 536870914, 1073741827, 536870916,
        536870917, 6, 7, 8, 9, 10, 11, 12, 13, 14, 15] 0 15 (fun n => 7 * n + 3) 0
      = some ([6, 7, 8, 9, 10, 11, 12, 1073741827, 536870916, 536870917, 14, 15, 13,
          1073741825, 536870914], 6) ∧
    phrases [1073741825, 536870914, 1073741827, 536870916, 536870917, 6, 7, 8]
      = [[1073741825, 536870914], [1073741827, 536870916, 536870917], [6], [7], [8]] := by
  decide

/-! ### The iteration counts of the shuffle loops are enough -/

/-- Once `l - i` iterations are allowed, allowing more changes nothing: the
loop of the phrase-respecting shuffle never stops for want of iterations. -/
theorem respect_phrases_loop_enough (base m l : Nat) (rnd : Nat → Nat) (k : Nat) :
    ∀ (n i c : Nat) (a : List Nat), l ≤ i + n →
    respect_phrases_loop base m l rnd (n + k) i c a = respect_phrases_loop base m l rnd n i c a := by
  intro n
  induction n with
  | zero =>
    intro i c a h
    cases k with
    | zero => rfl
    | succ k =>
      simp only [Nat.zero_add, respect_phrases_loop]
      rw [if_pos (by omega)]
  | succ n ih =>
    intro i c a h
    have e : n + 1 + k = n + k + 1 := by omega
    rw [e]
    simp only [respect_phrases_loop]
    by_cases h1 : i < l
    swap
    · rw [if_pos h1, if_pos h1]
    rw [if_neg (not_not.mpr h1), if_neg (not_not.mpr h1)]
    by_cases h2 : a.getD (base + i) 0 &&& CON_FLAG ≠ 0
    · rw [if_pos h2, if_pos h2]; exact ih _ _ _ (by omega)
    rw [if_neg h2, if_neg h2]
    by_cases h3 : a.getD (base + i) 0 &&& SON_FLAG ≠ 0
    · rw [if_pos h3, if_pos h3]
      have hg : 1 ≤ 1 + con_run (List.drop (base + i + 1) a) := by omega
      generalize 1 + con_run (List.drop (base + i + 1) a) = g at hg
      by_cases h4 : i + g > m + 1 - g
      · rw [if_pos h4, if_pos h4]
      rw [if_neg h4, if_neg h4]
      cases choose_swappee (i + g) (m + 1 - g) rnd c with
      | none => rfl
      | some r =>
        simp only
        by_cases h5 : swappee_flagged a g (base + r.1) = true
        · rw [if_pos h5, if_pos h5]; exact ih _ _ _ (by omega)
        · rw [if_neg h5, if_neg h5]
          exact ih _ _ _ (by omega)
    rw [if_neg h3, if_neg h3]
    cases choose_swappee (i + 1) m rnd c with
    | none => rfl
    | some r =>
      simp only
      by_cases h5 : a.getD (base + r.1) 0 &&& NGRAM_FLAGS ≠ 0
      · rw [if_pos h5, if_pos h5]; exact ih _ _ _ (by omega)
      · rw [if_neg h5, if_neg h5]; exact ih _ _ _ (by omega)

theorem find_doc_end_enough (a : List Nat) (N k : Nat) : ∀ (n e : Nat), N ≤ e + n →
    find_doc_end a N (n + k) e = find_doc_end a N n e := by
  intro n
  induction n with
  | zero =>
    intro e h
    cases k with
    | zero => rfl
    | succ k =>
      simp only [Nat.zero_add, find_doc_end]
      rw [if_neg (by omega)]
  | succ n ih =>
    intro e h
    have e1 : n + 1 + k = n + k + 1 := by omega
    rw [e1]
    simp only [find_doc_end]
    by_cases h1 : e < N ∧ a.getD e 0 &&& FINAL_POSTING_IN_DOC = 0
    · rw [if_pos h1, if_pos h1]; exact ih _ (by omega)
    · rw [if_neg h1, if_neg h1]

theorem shuffle_docs_loop_enough (N : Nat) (rnd : Nat → Nat) (k : Nat) :
    ∀ (n start c : Nat) (a : List Nat), N ≤ start + n →
    shuffle_docs_loop N rnd (n + k) start c a = shuffle_docs_loop N rnd n start c a := by
  intro n
  induction n with
  | zero =>
    intro start c a h
    cases k with
    | zero => rfl
    | succ k =>
      simp only [Nat.zero_add, shuffle_docs_loop]
      rw [if_pos (by omega)]
  | succ n ih =>
    intro start c a h
    have e1 : n + 1 + k = n + k + 1 := by omega
    rw [e1]
    simp only [shuffle_docs_loop]
    by_cases h1 : start < N
    swap
    · rw [if_pos h1, if_pos h1]
    rw [if_neg (not_not.mpr h1), if_neg (not_not.mpr h1)]
    obtain ⟨f1, _, _, _⟩ := find_doc_end_spec a N (N - start) start (by omega) (le_refl _)
    generalize find_doc_end a N (N - start) start = e at f1
    by_cases h2 : a.getD e 0 &&& FINAL_POSTING_IN_DOC ≠ 0
    · rw [if_pos h2, if_pos h2]
      by_cases h3 : e - start > 2
      · rw [if_pos h3, if_pos h3]
        cases knuth_shuffle_uint_respect_phrases
          (a.set e (a.getD e 0 &&& MASK_ALL_BUT_FINAL_POSTING_FLAG)) start (e - start + 1) rnd c with
        | none => rfl
        | some r => exact ih _ _ _ (by omega)
      · rw [if_neg h3, if_neg h3]; exact ih _ _ _ (by omega)
    · rw [if_neg h2, if_neg h2]; exact ih _ _ _ (by omega)

/-! ### Sums and counts of a row -/

theorem A_alphabet_size_pos ( eow : Bool) : 26 ≤ A_alphabet_size eow := by
  cases eow <;> decide

theorem store_same (m : Nat → ℚ) (i : Nat) (v : ℚ) : store m i v i = v := by
  simp [store]

theorem store_other (m : Nat → ℚ) (i x : Nat) (v : ℚ) (h : x ≠ i) : store m i v x = m x := by
  simp [store, h]

theorem sum_row_congr (tm tm1 : Nat → ℚ) (s : Nat) : ∀ n, (∀ j, j < n → tm (s + j) = tm1 (s + j)) →
    sum_row tm s n = sum_row tm1 s n := by
  intro n
  induction n with
  | zero => intro _; rfl
  | succ n ih =>
    intro h
    simp only [sum_row]
    rw [ih (fun j hj => h j (by omega)), h n (by omega)]

theorem sum_row_succ_left (tm : Nat → ℚ) (s : Nat) : ∀ n,
    sum_row tm s (n + 1) = tm s + sum_row tm (s + 1) n := by
  intro n
  induction n with
  | zero => simp [sum_row]
  | succ n ih =>
    rw [sum_row, ih, sum_row]
    have e : s + (n + 1) = s + 1 + n := by omega
    rw [e]
    ring

theorem sum_row_count (tm : Nat → ℚ) (s : Nat) : ∀ n, (∀ j, j < n → ∃ c : Nat, tm (s + j) = (c : ℚ)) →
    ∃ c : Nat, sum_row tm s n = (c : ℚ) := by
  intro n
  induction n with
  | zero => intro _; exact ⟨0, by simp [sum_row]⟩
  | succ n ih =>
    intro h
    obtain ⟨c1, h1⟩ := ih (fun j hj => h j (by omega))
    obtain ⟨c2, h2⟩ := h n (by omega)
    exact ⟨c1 + c2, by simp [sum_row, h1, h2]⟩

theorem sum_row_nonneg (tm : Nat → ℚ) (s : Nat) : ∀ n, (∀ j, j < n → 0 ≤ tm (s + j)) →
    0 ≤ sum_row tm s n := by
  intro n
  induction n with
  | zero => intro _; simp [sum_row]
  | succ n ih =>
    intro h
    simp only [sum_row]
    exact add_nonneg (ih (fun j hj => h j (by omega))) (h n (by omega))

theorem sum_row_ge (tm : Nat → ℚ) (s : Nat) : ∀ n, (∀ j, j < n → 0 ≤ tm (s + j)) →
    ∀ j, j < n → tm (s + j) ≤ sum_row tm s n := by
  intro n
  induction n with
  | zero => intro _ j hj; exact absurd hj (by omega)
  | succ n ih =>
    intro h j hj
    simp only [sum_row]
    have h0 := sum_row_nonneg tm s n (fun j hj => h j (by omega))
    by_cases hjn : j = n
    · rw [hjn]; linarith
    · have := ih (fun j hj => h j (by omega)) j (by omega)
      have := h n (by omega)
      linarith

theorem sum_row_zero (tm : Nat → ℚ) (s n : Nat) (h : ∀ j, j < n → tm (s + j) = 0) :
    sum_row tm s n = 0 := by
  induction n with
  | zero => rfl
  | succ n ih =>
    simp only [sum_row]
    rw [ih (fun j hj => h j (by omega)), h n (by omega)]
    simp

/-- A sum of counts is 0 or at least 1, so the comparison with `0.000001`
tells whether the row holds an observation. -/
theorem count_threshold (v : ℚ) (h : ∃ c : Nat, v = (c : ℚ)) :
    (v ≤ 1 / 1000000 ↔ v = 0) ∧ (v > 1 / 1000000 ↔ 1 ≤ v) := by
  obtain ⟨c, hc⟩ := h
  subst hc
  rcases Nat.eq_zero_or_pos c with h0 | h0
  · subst h0
    norm_num
  · have h1 : (1 : ℚ) ≤ (c : ℚ) := by exact_mod_cast h0
    constructor
    · constructor
      · intro h2; linarith
      · intro h2; rw [h2] at h1; linarith
    · constructor
      · intro _; exact h1
      · intro _; linarith

/-! ### Conversion of one row -/

/-- The row with observations: after the loop, column `t` holds the sum of
the first `t + 1` counts divided by the row sum. -/
theorem fill_row_cumulative (S : ℚ) (hS : S > 1 / 1000000) (s : Nat) (backoff : Option Nat) :
    ∀ (n j : Nat) (cum : ℚ) (tm : Nat → ℚ),
    ∃ r, fill_row S s backoff n j cum tm = some r ∧
      (∀ x, (x < s + j ∨ s + j + n ≤ x) → r.2 x = tm x) ∧
      (∀ t, t < n → r.2 (s + j + t) = cum + sum_row tm (s + j) (t + 1) / S) := by
  intro n
  induction n with
  | zero =>
    intro j cum tm
    exact ⟨(cum, tm), rfl, fun _ _ => rfl, fun t ht => absurd ht (by omega)⟩
  | succ n ih =>
    intro j cum tm
    simp only [fill_row]
    rw [if_pos hS]
    obtain ⟨r, e1, e2, e3⟩ := ih (j + 1) (cum + tm (s + j) / S)
      (store tm (s + j) (cum + tm (s + j) / S))
    refine ⟨r, e1, ?_, ?_⟩
    · intro x hx
      rw [e2 x (by omega), store_other _ _ _ _ (by omega)]
    · intro t ht
      cases t with
      | zero =>
        rw [e2 (s + j + 0) (by omega)]
        simp [store, sum_row]
      | succ t =>
        have e : s + j + (t + 1) = s + (j + 1) + t := by omega
        rw [e, e3 t (by omega), sum_row_succ_left tm (s + j) (t + 1)]
        have e4 : s + (j + 1) = s + j + 1 := by omega
        rw [e4, sum_row_congr (store tm (s + j) (cum + tm (s + j) / S)) tm (s + j + 1) (t + 1)
          (fun u _ => store_other _ _ _ _ (by omega))]
        ring

/-- The row without observations: after the loop it holds a copy of the row
at the backoff address, which lies below it. -/
theorem fill_row_backoff (S : ℚ) (hS : ¬ S > 1 / 1000000) (s b : Nat) :
    ∀ (n j : Nat) (cum : ℚ) (tm : Nat → ℚ), b + j + n ≤ s →
    ∃ r, fill_row S s (some b) n j cum tm = some r ∧
      (∀ x, (x < s + j ∨ s + j + n ≤ x) → r.2 x = tm x) ∧
      (∀ t, t < n → r.2 (s + j + t) = tm (b + j + t)) := by
  intro n
  induction n with
  | zero =>
    intro j cum tm _
    exact ⟨(cum, tm), rfl, fun _ _ => rfl, fun t ht => absurd ht (by omega)⟩
  | succ n ih =>
    intro j cum tm hb
    simp only [fill_row]
    rw [if_neg hS]
    obtain ⟨r, e1, e2, e3⟩ := ih (j + 1) (tm (b + j)) (store tm (s + j) (tm (b + j))) (by omega)
    refine ⟨r, e1, ?_, ?_⟩
    · intro x hx
      rw [e2 x (by omega), store_other _ _ _ _ (by omega)]
    · intro t ht
      cases t with
      | zero =>
        rw [e2 (s + j + 0) (by omega)]
        simp [store]
      | succ t =>
        have e : s + j + (t + 1) = s + (j + 1) + t := by omega
        rw [e, e3 t (by omega), store_other _ _ _ _ (by omega)]
        congr 1
        omega

/-- A row of counts with at least one observation becomes a good row. -/
theorem row_good_of_counts ( eow : Bool) (tm tm1 : Nat → ℚ) (s : Nat)
    (hc : ∀ j, j < A_alphabet_size eow → ∃ c : Nat, tm (s + j) = (c : ℚ))
    (hS : 1 ≤ sum_row tm s (A_alphabet_size eow))
    (h : ∀ t, t < A_alphabet_size eow →
      tm1 (s + t) = sum_row tm s (t + 1) / sum_row tm s (A_alphabet_size eow)) :
    RowGood eow tm1 s := by
  have hA := A_alphabet_size_pos eow
  have hpos : (0 : ℚ) < sum_row tm s (A_alphabet_size eow) := by linarith
  constructor
  · intro j hj
    rw [h j (by omega), h (j + 1) hj]
    apply div_le_div_of_nonneg_right _ (le_of_lt hpos)
    obtain ⟨c, hc1⟩ := hc (j + 1) hj
    have : (0 : ℚ) ≤ tm (s + (j + 1)) := by rw [hc1]; exact Nat.cast_nonneg c
    show sum_row tm s (j + 1) ≤ sum_row tm s (j + 1) + tm (s + (j + 1))
    linarith
  · rw [h _ (by omega)]
    have e : A_alphabet_size eow - 1 + 1 = A_alphabet_size eow := by omega
    rw [e]
    exact div_self (ne_of_gt hpos)

/-- A copy of a good row is a good row. -/
theorem row_good_of_copy ( eow : Bool) (tm tm1 : Nat → ℚ) (s b : Nat) (hg : RowGood eow tm b)
    (h : ∀ t, t < A_alphabet_size eow → tm1 (s + t) = tm (b + t)) : RowGood eow tm1 s := by
  have hA := A_alphabet_size_pos eow
  constructor
  · intro j hj
    rw [h j (by omega), h (j + 1) hj]
    exact hg.1 j hj
  · rw [h _ (by omega)]
    exact hg.2

/-! ### Conversion of the matrices of order 1 and above -/

theorem row_good_congr ( eow : Bool) (tm tm1 : Nat → ℚ) (s : Nat)
    (h : ∀ j, j < A_alphabet_size eow → tm1 (s + j) = tm (s + j)) (hg : RowGood eow tm s) :
    RowGood eow tm1 s := by
  have hA := A_alphabet_size_pos eow
  constructor
  · intro j hj
    rw [h j (by omega), h (j + 1) hj]
    exact hg.1 j hj
  · rw [h _ (by omega)]
    exact hg.2

theorem emod_le_self (a b : Int) (ha : 0 ≤ a) (hb : b ≠ 0) : 0 ≤ a % b ∧ a % b ≤ a := by
  refine ⟨Int.emod_nonneg a hb, ?_⟩
  have key : ∀ c : Int, 0 < c → a % c ≤ a := by
    intro c hc
    by_cases h : a < c
    · rw [Int.emod_eq_of_lt ha h]
    · have := Int.emod_lt_of_pos a hc
      omega
  rcases lt_or_gt_of_ne hb with h | h
  · rw [← Int.emod_neg]
    exact key (-b) (by omega)
  · exact key b h

theorem rows_good_below_congr ( eow : Bool) (tm tm1 : Nat → ℚ) (addr : Nat)
    (h : ∀ x, x < addr → tm1 x = tm x) (hg : RowsGoodBelow eow tm addr) :
    RowsGoodBelow eow tm1 addr := by
  intro g hgl
  exact row_good_congr eow tm tm1 _ (fun j hj => h _ (by omega)) (hg g hgl)

theorem rows_good_below_mono ( eow : Bool) (tm : Nat → ℚ) (a b : Nat) (hab : a ≤ b)
    (hg : RowsGoodBelow eow tm b) : RowsGoodBelow eow tm a :=
  fun g hgl => hg g (by omega)

/-- The rows below the end of a row that has just become good are good. -/
theorem rows_good_below_step ( eow : Bool) (tm tm1 : Nat → ℚ) (g0 : Nat)
    (hg : RowsGoodBelow eow tm (g0 * A_alphabet_size eow))
    (hf : ∀ x, x < g0 * A_alphabet_size eow → tm1 x = tm x)
    (hr : RowGood eow tm1 (g0 * A_alphabet_size eow)) :
    RowsGoodBelow eow tm1 ((g0 + 1) * A_alphabet_size eow) := by
  have hA := A_alphabet_size_pos eow
  intro g hgl
  have h1 : (g + 1) * A_alphabet_size eow ≤ (g0 + 1) * A_alphabet_size eow := by
    rw [Nat.succ_mul]; exact hgl
  have h2 : g + 1 ≤ g0 + 1 := Nat.le_of_mul_le_mul_right h1 (by omega)
  by_cases e : g = g0
  · subst e; exact hr
  · have h3 : (g + 1) * A_alphabet_size eow ≤ g0 * A_alphabet_size eow :=
      Nat.mul_le_mul_right _ (by omega)
    rw [Nat.succ_mul] at h3
    exact row_good_congr eow tm tm1 _ (fun j hj => hf _ (by omega)) (hg g h3)

/-- The backoff address of a row without observations is the start of a row
that ends at or below the start of the row being filled. -/
theorem backoff_address_below ( eow : Bool) (markov_full_backoff : Bool) (k i : Nat) (bp : Int)
    (mk : Nat) (hlow : ∃ g1, Markov eow (k - 1) = g1 * A_alphabet_size eow)
    (hlow2 : Markov eow (k - 1) + A_alphabet_size eow ≤ mk)
    (hbp : markov_full_backoff = false → bp ≠ 0) :
    ∃ ga, backoff_address eow markov_full_backoff k i bp = some (ga * A_alphabet_size eow) ∧
      ga * A_alphabet_size eow + A_alphabet_size eow ≤ mk + i * A_alphabet_size eow := by
  unfold backoff_address
  cases markov_full_backoff with
  | true =>
    refine ⟨0, by simp [Markov], ?_⟩
    omega
  | false =>
    have hb := hbp rfl
    rw [if_neg (by simp), if_neg hb]
    obtain ⟨g1, e1⟩ := hlow
    obtain ⟨m1, m2⟩ := emod_le_self (i : Int) bp (by omega) hb
    have hm : ((i : Int) % bp).toNat ≤ i := by omega
    refine ⟨g1 + ((i : Int) % bp).toNat, by rw [e1, Nat.add_mul], ?_⟩
    have := Nat.mul_le_mul_right (A_alphabet_size eow) hm
    rw [Nat.add_mul, ← e1]
    omega

theorem convert_rows_spec ( eow : Bool) (markov_full_backoff : Bool) (k mk : Nat) (bp : Int)
    (g0 : Nat) (hk : 0 < k) (hmk : mk = g0 * A_alphabet_size eow)
    (hlow : ∃ g1, Markov eow (k - 1) = g1 * A_alphabet_size eow)
    (hlow2 : Markov eow (k - 1) + A_alphabet_size eow ≤ mk)
    (hbp : markov_full_backoff = false → bp ≠ 0) :
    ∀ (n i : Nat) (b : Option Nat) (tm : Nat → ℚ),
    RowsGoodBelow eow tm (mk + i * A_alphabet_size eow) →
    (∀ x, mk + i * A_alphabet_size eow ≤ x → ∃ c : Nat, tm x = (c : ℚ)) →
    ∃ r, convert_rows eow markov_full_backoff k mk bp n i b tm = some r ∧
      (∀ x, (x < mk + i * A_alphabet_size eow ∨ mk + (i + n) * A_alphabet_size eow ≤ x) →
        r.2 x = tm x) ∧
      RowsGoodBelow eow r.2 (mk + (i + n) * A_alphabet_size eow) ∧
      ∀ q, i ≤ q → q < i + n →
        (1 ≤ sum_row tm (mk + q * A_alphabet_size eow) (A_alphabet_size eow) →
          ∀ t, t < A_alphabet_size eow →
            r.2 (mk + q * A_alphabet_size eow + t)
              = sum_row tm (mk + q * A_alphabet_size eow) (t + 1)
                / sum_row tm (mk + q * A_alphabet_size eow) (A_alphabet_size eow)) ∧
        ((∀ j, j < A_alphabet_size eow → tm (mk + q * A_alphabet_size eow + j) = 0) →
          ∃ a, backoff_address eow markov_full_backoff k q bp = some a ∧
            a + A_alphabet_size eow ≤ mk + q * A_alphabet_size eow ∧
            ∀ j, j < A_alphabet_size eow →
              r.2 (mk + q * A_alphabet_size eow + j) = r.2 (a + j)) := by
  have hA := A_alphabet_size_pos eow
  intro n
  induction n with
  | zero =>
    intro i b tm hg _
    exact ⟨(b, tm), rfl, fun _ _ => rfl, hg, fun q h1 h2 => absurd h2 (by omega)⟩
  | succ n ih =>
    intro i b tm hg hc
    simp only [convert_rows]
    have hrow : ∀ j, j < A_alphabet_size eow →
        ∃ c : Nat, tm (mk + i * A_alphabet_size eow + j) = (c : ℚ) :=
      fun j _ => hc _ (by omega)
    have hsum := sum_row_count tm (mk + i * A_alphabet_size eow) (A_alphabet_size eow) hrow
    obtain ⟨t1, t2⟩ := count_threshold _ hsum
    have hmul : (i + 1) * A_alphabet_size eow = i * A_alphabet_size eow + A_alphabet_size eow :=
      Nat.succ_mul _ _
    have hmul2 : (i + (n + 1)) * A_alphabet_size eow = (i + 1 + n) * A_alphabet_size eow := by
      congr 1; omega
    have hmul3 : (i + 1) * A_alphabet_size eow ≤ (i + 1 + n) * A_alphabet_size eow :=
      Nat.mul_le_mul_right _ (by omega)
    have hrowaddr : mk + i * A_alphabet_size eow = (g0 + i) * A_alphabet_size eow := by
      rw [hmk, Nat.add_mul]
    have hnextaddr : mk + (i + 1) * A_alphabet_size eow = (g0 + i + 1) * A_alphabet_size eow := by
      rw [hmk, ← Nat.add_mul]; congr 1
    -- what the rest of the loop does once row `i` is filled
    have finish : ∀ (b1 : Option Nat) (r1 : ℚ × (Nat → ℚ)),
        (∀ x, (x < mk + i * A_alphabet_size eow + 0 ∨
            mk + i * A_alphabet_size eow + 0 + A_alphabet_size eow ≤ x) → r1.2 x = tm x) →
        RowGood eow r1.2 (mk + i * A_alphabet_size eow) →
        ∃ r, convert_rows eow markov_full_backoff k mk bp n (i + 1) b1 r1.2 = some r ∧
          (∀ x, (x < mk + i * A_alphabet_size eow ∨
              mk + (i + (n + 1)) * A_alphabet_size eow ≤ x) → r.2 x = tm x) ∧
          (∀ x, x < mk + (i + 1) * A_alphabet_size eow → r.2 x = r1.2 x) ∧
          RowsGoodBelow eow r.2 (mk + (i + (n + 1)) * A_alphabet_size eow) ∧
          ∀ q, i + 1 ≤ q → q < i + (n + 1) →
            (1 ≤ sum_row tm (mk + q * A_alphabet_size eow) (A_alphabet_size eow) →
              ∀ t, t < A_alphabet_size eow →
                r.2 (mk + q * A_alphabet_size eow + t)
                  = sum_row tm (mk + q * A_alphabet_size eow) (t + 1)
                    / sum_row tm (mk + q * A_alphabet_size eow) (A_alphabet_size eow)) ∧
            ((∀ j, j < A_alphabet_size eow → tm (mk + q * A_alphabet_size eow + j) = 0) →
              ∃ a, backoff_address eow markov_full_backoff k q bp = some a ∧
                a + A_alphabet_size eow ≤ mk + q * A_alphabet_size eow ∧
                ∀ j, j < A_alphabet_size eow →
                  r.2 (mk + q * A_alphabet_size eow + j) = r.2 (a + j)) := by
      intro b1 r1 f2 hgood
      have hg1 : RowsGoodBelow eow r1.2 (mk + (i + 1) * A_alphabet_size eow) := by
        rw [hnextaddr]
        apply rows_good_below_step eow tm r1.2 (g0 + i)
        · rw [← hrowaddr]; exact hg
        · intro x hx
          rw [← hrowaddr] at hx
          exact f2 x (Or.inl (by omega))
        · rw [← hrowaddr]; exact hgood
      obtain ⟨r, e1, e2, e3, e4⟩ := ih (i + 1) b1 r1.2 hg1 (fun x hx => by
        rw [f2 x (Or.inr (by omega))]; exact hc x (by omega))
      refine ⟨r, e1, ?_, fun x hx => e2 x (Or.inl hx), ?_, ?_⟩
      · intro x hx
        rw [e2 x (by omega), f2 x (by omega)]
      · rw [hmul2]; exact e3
      · intro q hq1 hq2
        have hle : (i + 1) * A_alphabet_size eow ≤ q * A_alphabet_size eow :=
          Nat.mul_le_mul_right _ (by omega)
        obtain ⟨g1, g2⟩ := e4 q hq1 (by omega)
        have hsame : ∀ j, r1.2 (mk + q * A_alphabet_size eow + j)
            = tm (mk + q * A_alphabet_size eow + j) := fun j => f2 _ (Or.inr (by omega))
        have hs : ∀ m, sum_row r1.2 (mk + q * A_alphabet_size eow) m
            = sum_row tm (mk + q * A_alphabet_size eow) m :=
          fun m => sum_row_congr _ _ _ m (fun j _ => hsame j)
        constructor
        · intro h1 t ht
          rw [← hs, ← hs]
          exact g1 (by rw [hs]; exact h1) t ht
        · intro hz
          exact g2 (fun j hj => by rw [hsame]; exact hz j hj)
    by_cases hS : sum_row tm (mk + i * A_alphabet_size eow) (A_alphabet_size eow) > 1 / 1000000
    · -- a row with observations
      have hS1 := t2.mp hS
      rw [if_neg (by intro hh; linarith [hh.1])]
      obtain ⟨r1, f1, f2, f3⟩ := fill_row_cumulative _ hS (mk + i * A_alphabet_size eow) b
        (A_alphabet_size eow) 0 0 tm
      simp only [f1]
      have hval : ∀ t, t < A_alphabet_size eow →
          r1.2 (mk + i * A_alphabet_size eow + t)
            = sum_row tm (mk + i * A_alphabet_size eow) (t + 1)
              / sum_row tm (mk + i * A_alphabet_size eow) (A_alphabet_size eow) := by
        intro t ht
        have := f3 t ht
        simp only [Nat.add_zero, zero_add] at this
        exact this
      obtain ⟨r, e1, e2, e2b, e3, e4⟩ := finish b r1 f2
        (row_good_of_counts eow tm r1.2 _ hrow hS1 hval)
      refine ⟨r, e1, e2, e3, ?_⟩
      intro q hq1 hq2
      by_cases hqi : q = i
      · subst hqi
        constructor
        · intro _ t ht
          rw [e2b _ (by omega)]
          exact hval t ht
        · intro hz
          have := sum_row_zero tm _ _ hz
          rw [this] at hS1
          exact absurd hS1 (by norm_num)
      · exact e4 q (by omega) hq2
    · -- a row without observations
      have hS0 : sum_row tm (mk + i * A_alphabet_size eow) (A_alphabet_size eow) ≤ 1 / 1000000 :=
        not_lt.mp hS
      rw [if_pos ⟨hS0, hk⟩]
      obtain ⟨ga, a1, a2⟩ := backoff_address_below eow markov_full_backoff k i bp mk hlow hlow2
        hbp
      rw [a1]
      simp only [Option.map_some']
      obtain ⟨r1, f1, f2, f3⟩ := fill_row_backoff _ hS (mk + i * A_alphabet_size eow)
        (ga * A_alphabet_size eow) (A_alphabet_size eow) 0 0 tm (by omega)
      simp only [f1]
      have hcopy : ∀ t, t < A_alphabet_size eow →
          r1.2 (mk + i * A_alphabet_size eow + t) = tm (ga * A_alphabet_size eow + t) := by
        intro t ht
        have := f3 t ht
        simp only [Nat.add_zero] at this
        exact this
      obtain ⟨r, e1, e2, e2b, e3, e4⟩ := finish (some (ga * A_alphabet_size eow)) r1 f2
        (row_good_of_copy eow tm r1.2 _ _ (hg ga a2) hcopy)
      refine ⟨r, e1, e2, e3, ?_⟩
      intro q hq1 hq2
      by_cases hqi : q = i
      · subst hqi
        constructor
        · intro h1
          have := t1.mp hS0
          rw [this] at h1
          exact absurd h1 (by norm_num)
        · intro _
          refine ⟨_, a1, a2, ?_⟩
          intro j hj
          rw [e2b _ (by omega), hcopy j hj, e2b _ (by omega), f2 _ (Or.inl (by omega))]
      · exact e4 q (by omega) hq2

/-! ### Conversion of all the matrices, and the final check -/

theorem Markov_succ ( eow : Bool) (k : Nat) :
    Markov eow (k + 1) = Markov eow k + E_alphabet_size ^ k * A_alphabet_size eow := by
  simp only [Markov]
  rw [Nat.mul_comm]

theorem Markov_mono ( eow : Bool) (k : Nat) : ∀ d, Markov eow k ≤ Markov eow (k + d) := by
  intro d
  induction d with
  | zero => exact le_refl _
  | succ d ih =>
    have : k + (d + 1) = k + d + 1 := by omega
    rw [this, Markov_succ]
    omega

theorem Markov_ge ( eow : Bool) (k : Nat) (hk : 0 < k) : A_alphabet_size eow ≤ Markov eow k := by
  have h1 := Markov_mono eow 1 (k - 1)
  have e : 1 + (k - 1) = k := by omega
  rw [e] at h1
  have h2 : Markov eow 1 = A_alphabet_size eow := by simp [Markov]
  omega

theorem Markov_aligned ( eow : Bool) : ∀ k, ∃ g, Markov eow k = g * A_alphabet_size eow := by
  intro k
  induction k with
  | zero => exact ⟨0, by simp [Markov]⟩
  | succ k ih =>
    obtain ⟨g, e⟩ := ih
    exact ⟨g + E_alphabet_size ^ k, by rw [Markov_succ, e, Nat.add_mul]⟩

theorem Markov_row_end ( eow : Bool) (k q : Nat) (hq : q < E_alphabet_size ^ k) :
    Markov eow k + q * A_alphabet_size eow + A_alphabet_size eow ≤ Markov eow (k + 1) := by
  have := Nat.mul_le_mul_right (A_alphabet_size eow) (Nat.succ_le_of_lt hq)
  rw [Nat.succ_mul] at this
  rw [Markov_succ]
  omega

theorem backoff_power_at_ne_zero ( eow : Bool) (k : Nat) (hk : k ≤ MAX_MARKOV_K) :
    backoff_power_at eow k ≠ 0 := by
  have hk7 : k ≤ 7 := hk
  cases eow <;> interval_cases k <;> decide

theorem convert_rows_order0 ( eow : Bool) (markov_full_backoff : Bool) (bp : Int)
    (tm : Nat → ℚ)
    (hc : ∀ j, j < A_alphabet_size eow → ∃ c : Nat, tm j = (c : ℚ))
    (hS : 1 ≤ sum_row tm 0 (A_alphabet_size eow)) :
    ∃ r, convert_rows eow markov_full_backoff 0 (Markov eow 0) bp 1 0 none tm = some r ∧
      (∀ x, A_alphabet_size eow ≤ x → r.2 x = tm x) ∧ RowGood eow r.2 0 ∧
      ∀ t, t < A_alphabet_size eow →
        r.2 t = sum_row tm 0 (t + 1) / sum_row tm 0 (A_alphabet_size eow) := by
  have hA := A_alphabet_size_pos eow
  have hM : Markov eow 0 = 0 := rfl
  simp only [convert_rows, hM, Nat.zero_mul, Nat.add_zero]
  rw [if_neg (by intro hh; exact absurd hh.2 (by omega))]
  have hc1 : ∀ j, j < A_alphabet_size eow → ∃ c : Nat, tm (0 + j) = (c : ℚ) := by
    intro j hj
    rw [Nat.zero_add]
    exact hc j hj
  obtain ⟨_, t2⟩ := count_threshold _
    (sum_row_count tm 0 (A_alphabet_size eow) hc1)
  obtain ⟨r1, f1, f2, f3⟩ := fill_row_cumulative _ (t2.mpr hS) 0 none
    (A_alphabet_size eow) 0 0 tm
  simp only [f1]
  have hval : ∀ t, t < A_alphabet_size eow →
      r1.2 (0 + t) = sum_row tm 0 (t + 1) / sum_row tm 0 (A_alphabet_size eow) := by
    intro t ht
    have := f3 t ht
    simp only [Nat.add_zero, zero_add] at this
    rw [Nat.zero_add]
    exact this
  refine ⟨(none, r1.2), rfl, fun x hx => f2 x (by omega), ?_, ?_⟩
  · exact row_good_of_counts eow tm r1.2 0 hc1 hS hval
  · intro t ht
    have := hval t ht
    rw [Nat.zero_add] at this
    exact this

theorem convert_orders_spec ( eow : Bool) (markov_full_backoff : Bool) :
    ∀ (n k : Nat) (b : Option Nat) (tm : Nat → ℚ), 0 < k → k + n ≤ MAX_MARKOV_K + 1 →
    RowsGoodBelow eow tm (Markov eow k) →
    (∀ x, Markov eow k ≤ x → ∃ c : Nat, tm x = (c : ℚ)) →
    ∃ tm1, convert_orders eow markov_full_backoff n k (E_alphabet_size ^ (k - 1))
        (backoff_power_at eow (k - 1)) b tm = some tm1 ∧
      (∀ x, x < Markov eow k → tm1 x = tm x) ∧
      RowsGoodBelow eow tm1 (Markov eow (k + n)) ∧
      ∀ k1 q, k ≤ k1 → k1 < k + n → q < E_alphabet_size ^ k1 →
        (1 ≤ sum_row tm (Markov eow k1 + q * A_alphabet_size eow) (A_alphabet_size eow) →
          ∀ t, t < A_alphabet_size eow →
            tm1 (Markov eow k1 + q * A_alphabet_size eow + t)
              = sum_row tm (Markov eow k1 + q * A_alphabet_size eow) (t + 1)
                / sum_row tm (Markov eow k1 + q * A_alphabet_size eow) (A_alphabet_size eow)) ∧
        ((∀ j, j < A_alphabet_size eow →
            tm (Markov eow k1 + q * A_alphabet_size eow + j) = 0) →
          ∃ a, backoff_address eow markov_full_backoff k1 q (backoff_power_at eow k1) = some a ∧
            a + A_alphabet_size eow ≤ Markov eow k1 + q * A_alphabet_size eow ∧
            ∀ j, j < A_alphabet_size eow →
              tm1 (Markov eow k1 + q * A_alphabet_size eow + j) = tm1 (a + j)) := by
  have hA := A_alphabet_size_pos eow
  intro n
  induction n with
  | zero =>
    intro k b tm _ _ hg _
    exact ⟨tm, rfl, fun _ _ => rfl, hg, fun k1 q h1 h2 => absurd h2 (by omega)⟩
  | succ n ih =>
    intro k b tm hk hkn hg hc
    simp only [convert_orders]
    rw [if_pos hk]
    have hpow : E_alphabet_size ^ (k - 1) * E_alphabet_size = E_alphabet_size ^ k := by
      rw [← Nat.pow_succ]
      congr 1
      omega
    have hbpk : backoff_power_loop eow (k - 1) (backoff_power_at eow (k - 1))
        = backoff_power_at eow k := by
      obtain ⟨m, rfl⟩ : ∃ m, k = m + 1 := ⟨k - 1, by omega⟩
      rfl
    rw [hpow, hbpk]
    obtain ⟨g0, hg0⟩ := Markov_aligned eow k
    have hlow2 : Markov eow (k - 1) + A_alphabet_size eow ≤ Markov eow k := by
      obtain ⟨m, rfl⟩ : ∃ m, k = m + 1 := ⟨k - 1, by omega⟩
      have := Markov_row_end eow m 0 (Nat.pow_pos (by decide))
      simpa using this
    obtain ⟨r, c1, c2, c3, c4⟩ := convert_rows_spec eow markov_full_backoff k (Markov eow k)
      (backoff_power_at eow k) g0 hk hg0 (Markov_aligned eow (k - 1)) hlow2
      (fun _ => backoff_power_at_ne_zero eow k (by omega))
      (E_alphabet_size ^ k) 0 b tm (by simpa using hg) (fun x hx => hc x (by omega))
    rw [c1]
    simp only
    have hnext := Markov_succ eow k
    simp only [Nat.zero_mul, Nat.add_zero, Nat.zero_add] at c2 c3
    rw [← hnext] at c2 c3
    have hE : E_alphabet_size ^ k = E_alphabet_size ^ (k + 1 - 1) := rfl
    have hB : backoff_power_at eow k = backoff_power_at eow (k + 1 - 1) := rfl
    rw [hE, hB]
    obtain ⟨tm1, e1, e2, e3, e4⟩ := ih (k + 1) r.1 r.2 (by omega) (by omega) c3 (fun x hx => by
      rw [c2 x (Or.inr hx)]; exact hc x (by have := Markov_mono eow k 1; omega))
    refine ⟨tm1, e1, fun x hx => ?_, ?_, ?_⟩
    · rw [e2 x (by have := Markov_mono eow k 1; omega), c2 x (Or.inl hx)]
    · rw [show k + (n + 1) = k + 1 + n by omega]; exact e3
    · intro k1 q h1 h2 h3
      by_cases hkk : k1 = k
      · subst hkk
        obtain ⟨g1, g2⟩ := c4 q (Nat.zero_le _) (by omega)
        have hq := Markov_row_end eow k1 q h3
        constructor
        · intro hs t ht
          rw [e2 _ (by omega)]
          exact g1 hs t ht
        · intro hz
          obtain ⟨a, a1, a2, a3⟩ := g2 hz
          refine ⟨a, a1, a2, fun j hj => ?_⟩
          rw [e2 _ (by omega), e2 _ (by omega)]
          exact a3 j hj
      · obtain ⟨g1, g2⟩ := e4 k1 q (by omega) (by omega) h3
        have hm := Markov_mono eow (k + 1) (k1 - (k + 1))
        have e : k + 1 + (k1 - (k + 1)) = k1 := by omega
        rw [e] at hm
        have hsame : ∀ j, r.2 (Markov eow k1 + q * A_alphabet_size eow + j)
            = tm (Markov eow k1 + q * A_alphabet_size eow + j) :=
          fun j => c2 _ (Or.inr (by omega))
        have hs : ∀ m, sum_row r.2 (Markov eow k1 + q * A_alphabet_size eow) m
            = sum_row tm (Markov eow k1 + q * A_alphabet_size eow) m :=
          fun m => sum_row_congr _ _ _ m (fun j _ => hsame j)
        constructor
        · intro hs1 t ht
          rw [← hs, ← hs]
          exact g1 (by rw [hs]; exact hs1) t ht
        · intro hz
          exact g2 (fun j hj => by rw [hsame]; exact hz j hj)

theorem convert_orders_all ( eow : Bool) (markov_full_backoff : Bool) (K : Nat)
    (hK : K ≤ MAX_MARKOV_K) (tm : Nat → ℚ) (hc : Counts tm)
    (hS : 1 ≤ sum_row tm 0 (A_alphabet_size eow)) :
    ∃ tm1, convert_orders eow markov_full_backoff (K + 1) 0 1 1 none tm = some tm1 ∧
      ∀ k q, k ≤ K → q < E_alphabet_size ^ k →
        RowGood eow tm1 (Markov eow k + q * A_alphabet_size eow) ∧
        (1 ≤ sum_row tm (Markov eow k + q * A_alphabet_size eow) (A_alphabet_size eow) →
          ∀ t, t < A_alphabet_size eow →
            tm1 (Markov eow k + q * A_alphabet_size eow + t)
              = sum_row tm (Markov eow k + q * A_alphabet_size eow) (t + 1)
                / sum_row tm (Markov eow k + q * A_alphabet_size eow) (A_alphabet_size eow)) ∧
        (0 < k →
          (∀ j, j < A_alphabet_size eow →
            tm (Markov eow k + q * A_alphabet_size eow + j) = 0) →
          ∃ a, backoff_address eow markov_full_backoff k q (backoff_power_at eow k) = some a ∧
            a + A_alphabet_size eow ≤ Markov eow k + q * A_alphabet_size eow ∧
            ∀ j, j < A_alphabet_size eow →
              tm1 (Markov eow k + q * A_alphabet_size eow + j) = tm1 (a + j)) := by
  have hA := A_alphabet_size_pos eow
  obtain ⟨r, c1, c2, c3, c4⟩ := convert_rows_order0 eow markov_full_backoff 1 tm
    (fun j _ => hc j) hS
  simp only [convert_orders]
  have hl : backoff_power_loop eow (0 - 1) 1 = 1 := rfl
  rw [if_neg (by omega), hl, c1]
  simp only
  have hM1 : Markov eow 1 = A_alphabet_size eow := by simp [Markov]
  have hg1 : RowsGoodBelow eow r.2 (Markov eow 1) := by
    rw [hM1]
    have := rows_good_below_step eow tm r.2 0 (fun g hg => absurd hg (by omega))
      (fun x hx => absurd hx (by omega)) (by simpa using c3)
    simpa using this
  obtain ⟨tm1, e1, e2, e3, e4⟩ := convert_orders_spec eow markov_full_backoff K 1 r.1 r.2
    (by omega) (by omega) hg1 (fun x hx => by
      rw [c2 x (by omega)]; exact hc x)
  have hone : E_alphabet_size ^ (1 - 1) = 1 := rfl
  have hbp : backoff_power_at eow (1 - 1) = 1 := rfl
  rw [hone, hbp] at e1
  refine ⟨tm1, e1, ?_⟩
  intro k q hk hq
  have hgood : RowGood eow tm1 (Markov eow k + q * A_alphabet_size eow) := by
    obtain ⟨g, hg⟩ := Markov_aligned eow k
    have hend := Markov_row_end eow k q hq
    have hm := Markov_mono eow (k + 1) (K - k)
    have e : k + 1 + (K - k) = 1 + K := by omega
    rw [e] at hm
    have := e3 (g + q) (by rw [Nat.add_mul, ← hg]; omega)
    rw [Nat.add_mul, ← hg] at this
    exact this
  refine ⟨hgood, ?_, ?_⟩
  · by_cases hk0 : k = 0
    · subst hk0
      have hq0 : q = 0 := by
        have : E_alphabet_size ^ 0 = 1 := rfl
        omega
      subst hq0
      have hM : Markov eow 0 = 0 := rfl
      simp only [hM, Nat.zero_mul, Nat.add_zero, Nat.zero_add]
      intro _ t ht
      rw [e2 t (by omega)]
      exact c4 t ht
    · obtain ⟨g1, _⟩ := e4 k q (by omega) (by omega) hq
      have hm := Markov_mono eow 1 (k - 1)
      have e : 1 + (k - 1) = k := by omega
      rw [e] at hm
      have hsame : ∀ j, r.2 (Markov eow k + q * A_alphabet_size eow + j)
          = tm (Markov eow k + q * A_alphabet_size eow + j) := fun j => c2 _ (by omega)
      have hs : ∀ m, sum_row r.2 (Markov eow k + q * A_alphabet_size eow) m
          = sum_row tm (Markov eow k + q * A_alphabet_size eow) m :=
        fun m => sum_row_congr _ _ _ m (fun j _ => hsame j)
      intro hs1 t ht
      rw [← hs, ← hs]
      exact g1 (by rw [hs]; exact hs1) t ht
  · intro hk0 hz
    obtain ⟨_, g2⟩ := e4 k q (by omega) (by omega) hq
    have hm := Markov_mono eow 1 (k - 1)
    have e : 1 + (k - 1) = k := by omega
    rw [e] at hm
    exact g2 (fun j hj => by rw [c2 _ (by omega)]; exact hz j hj)

theorem check_rows_pass ( eow : Bool) (tm : Nat → ℚ) : ∀ (n r e : Nat), r + n ≤ INT_MAX →
    (∀ t, t < n → tm (e + t * A_alphabet_size eow) = 1) →
    check_rows eow tm n r e = CheckEnd.passed (e + n * A_alphabet_size eow) := by
  intro n
  induction n with
  | zero => intro r e _ _; simp [check_rows]
  | succ n ih =>
    intro r e hr h
    simp only [check_rows]
    have h0 := h 0 (by omega)
    simp only [Nat.zero_mul, Nat.add_zero] at h0
    rw [h0, if_neg (by norm_num), if_neg (by omega), ih _ _ (by omega)]
    · congr 1
      rw [Nat.succ_mul]
      omega
    · intro t ht
      have := h (t + 1) (by omega)
      rw [Nat.succ_mul] at this
      rw [← this]
      congr 1
      omega

/-- The counter `r` cannot count more rows than `INT_MAX`: the loop over that
many rows ends on a bad row or on the overflow of the counter. -/
theorem check_rows_not_passed ( eow : Bool) (tm : Nat → ℚ) : ∀ (n r e e1 : Nat),
    r ≤ INT_MAX → INT_MAX < r + n → check_rows eow tm n r e ≠ CheckEnd.passed e1 := by
  intro n
  induction n with
  | zero => intro r e e1 h1 h2; omega
  | succ n ih =>
    intro r e e1 h1 h2
    simp only [check_rows]
    split
    · simp
    · split
      · simp
      · exact ih _ _ _ (by omega) (by omega)

theorem pow_E_le_INT_MAX (k : Nat) (hk : k < MAX_MARKOV_K) : E_alphabet_size ^ k ≤ INT_MAX := by
  have h6 : k ≤ 6 := Nat.lt_succ_iff.mp hk
  have : E_alphabet_size ^ k ≤ E_alphabet_size ^ 6 := Nat.pow_le_pow_right (by decide) h6
  have h2 : E_alphabet_size ^ 6 ≤ INT_MAX := by decide
  omega

theorem check_pass ( eow : Bool) (tm : Nat → ℚ) : ∀ (n k : Nat), k + n ≤ MAX_MARKOV_K →
    (∀ k1 q, k ≤ k1 → k1 < k + n → q < E_alphabet_size ^ k1 →
      tm (Markov eow k1 + q * A_alphabet_size eow + (A_alphabet_size eow - 1)) = 1) →
    check_transition_matrices eow tm n (E_alphabet_size ^ k)
        (Markov eow k + (A_alphabet_size eow - 1))
      = CheckEnd.passed (Markov eow (k + n) + (A_alphabet_size eow - 1)) := by
  intro n
  induction n with
  | zero => intro k _ _; rfl
  | succ n ih =>
    intro k hkn h
    simp only [check_transition_matrices]
    rw [check_rows_pass eow tm _ _ _ (by have := pow_E_le_INT_MAX k (by omega); omega)
      (fun t ht => by
        have := h k t (le_refl _) (by omega) ht
        rw [← this]
        congr 1
        omega)]
    simp only
    have e1 : Markov eow k + (A_alphabet_size eow - 1)
        + E_alphabet_size ^ k * A_alphabet_size eow
        = Markov eow (k + 1) + (A_alphabet_size eow - 1) := by
      rw [Markov_succ]
      omega
    rw [e1, ← Nat.pow_succ, show k + (n + 1) = k + 1 + n by omega]
    exact ih (k + 1) (by omega) (fun k1 q h1 h2 h3 => h k1 q (by omega) (by omega) h3)

/-- When the rows of the last of the matrices outnumber `INT_MAX`, the check
does not pass, whatever the matrices hold. -/
theorem check_not_passed ( eow : Bool) (tm : Nat → ℚ) : ∀ (n num_rows e e1 : Nat),
    INT_MAX < num_rows * E_alphabet_size ^ n →
    check_transition_matrices eow tm (n + 1) num_rows e ≠ CheckEnd.passed e1 := by
  intro n
  induction n with
  | zero =>
    intro num_rows e e1 h
    simp only [check_transition_matrices]
    have := fun e2 => check_rows_not_passed eow tm num_rows 0 e e2 (Nat.zero_le _)
      (by simpa using h)
    cases hc : check_rows eow tm num_rows 0 e with
    | passed e2 => exact absurd hc (this e2)
    | bad_row => simp
    | counter_overflow => simp
  | succ n ih =>
    intro num_rows e e1 h
    rw [check_transition_matrices]
    cases hc : check_rows eow tm num_rows 0 e with
    | passed e2 =>
      simp only
      apply ih
      rw [Nat.pow_succ] at h
      rw [Nat.mul_assoc, Nat.mul_comm E_alphabet_size]
      exact h
    | bad_row => simp
    | counter_overflow => simp

/-! ### Training leaves counts in the arrays -/

theorem counts_zero : Counts (fun _ => 0) := fun _ => ⟨0, by simp⟩

theorem counts_store_succ (m : Nat → ℚ) (i : Nat) (h : Counts m) :
    Counts (store m i (m i + 1)) := by
  intro x
  by_cases hx : x = i
  · obtain ⟨c, hc⟩ := h i
    exact ⟨c + 1, by rw [hx, store_same, hc]; push_cast; rfl⟩
  · rw [store_other _ _ _ _ hx]
    exact h x

theorem store_succ_ge (m : Nat → ℚ) (i x : Nat) : m x ≤ store m i (m i + 1) x := by
  by_cases hx : x = i
  · rw [hx, store_same]; linarith
  · rw [store_other _ _ _ _ hx]

theorem counts_nonneg (m : Nat → ℚ) (h : Counts m) (x : Nat) : 0 ≤ m x := by
  obtain ⟨c, hc⟩ := h x
  rw [hc]
  exact Nat.cast_nonneg c

theorem squeeze_word_letters (line w : List Nat) (h : squeeze_word line = some w) :
    ∀ ch ∈ w, 97 ≤ ch ∧ ch ≤ 122 := by
  unfold squeeze_word at h
  split at h
  · simp only [Option.some.injEq] at h
    subst h
    intro ch hch
    simp only [List.mem_map, List.mem_filter] at hch
    obtain ⟨b, ⟨_, hb⟩, rfl⟩ := hch
    simp only [isalpha, decide_eq_true_eq] at hb
    unfold tolower
    split <;> omega
  · exact absurd h (by simp)

theorem col_map_letter ( eow : Bool) (ch : Nat) (h : 97 ≤ ch ∧ ch ≤ 122) :
    0 ≤ col_map eow ch ∧ col_map eow ch < 26 ∧ (col_map eow ch).toNat < 26 := by
  unfold col_map
  rw [if_pos h]
  omega

theorem col_map_eow : (col_map true EOW).toNat = 26 := by decide

theorem row_index_loop_some (buf : List Nat) (p : Nat) : ∀ (n i index : Nat),
    ∃ r, row_index_loop buf p n i index = some r := by
  intro n
  induction n with
  | zero => intro i index; exact ⟨index, rfl⟩
  | succ n ih =>
    intro i index
    simp only [row_index_loop]
    have : ¬ row_map (buf.getD (p + i) 0) ≥ E_alphabet_size := by
      unfold row_map E_alphabet_size
      split <;> omega
    rw [if_neg this]
    exact ih _ _

theorem calculate_row_index_some ( eow : Bool) (buf : List Nat) (p k : Nat) :
    ∃ r, calculate_row_index eow buf p k = some r := by
  unfold calculate_row_index
  by_cases hk : k = 0
  · rw [if_pos hk]; exact ⟨0, rfl⟩
  · rw [if_neg hk]
    obtain ⟨r, hr⟩ := row_index_loop_some buf p k 0 0
    rw [hr]
    exact ⟨_, rfl⟩

theorem count_transitions_spec ( eow : Bool) (k : Nat) (buf : List Nat) (bp mk : Nat) :
    ∀ (n i : Nat) (tm : Nat → ℚ), Counts tm →
    (∀ i1, i ≤ i1 → i1 < i + n →
      97 ≤ buf.getD (bp + i1 + k) 0 ∧ buf.getD (bp + i1 + k) 0 ≤ 122) →
    ∃ tm1, count_transitions eow k buf bp mk n i tm = some tm1 ∧ Counts tm1 := by
  intro n
  induction n with
  | zero => intro i tm h _; exact ⟨tm, rfl, h⟩
  | succ n ih =>
    intro i tm h hb
    simp only [count_transitions]
    obtain ⟨r, hr⟩ := calculate_row_index_some eow buf (bp + i) k
    rw [hr]
    simp only
    obtain ⟨c1, c2, _⟩ := col_map_letter eow _ (hb i (le_refl _) (by omega))
    have hA := A_alphabet_size_pos eow
    rw [if_neg (by
      intro hh
      rcases hh with hh | hh
      · omega
      · have : (26 : Int) ≤ (A_alphabet_size eow : Int) := by exact_mod_cast hA
        omega)]
    exact ih _ _ (counts_store_succ _ _ h) (fun i1 h1 h2 => hb i1 (by omega) (by omega))

theorem count_end_of_word_spec ( eow : Bool) (k : Nat) (buf : List Nat) (bp mk l : Nat)
    (tm : Nat → ℚ) (h : Counts tm) :
    ∃ tm1, count_end_of_word eow k buf bp mk l tm = some tm1 ∧ Counts tm1 := by
  unfold count_end_of_word
  by_cases he : eow = true
  · rw [if_pos he]
    obtain ⟨r, hr⟩ := calculate_row_index_some eow buf (bp + l) k
    rw [hr]
    exact ⟨_, rfl, counts_store_succ _ _ h⟩
  · rw [if_neg he]
    exact ⟨tm, rfl, h⟩

theorem word_buffer_getD (w : List Nat) (k i : Nat) (hk : k ≤ MAX_MARKOV_K) (hi : i < w.length) :
    (List.replicate MAX_MARKOV_K 0 ++ w ++ [0]).getD (MAX_MARKOV_K - k + i + k) 0
      = w.getD i 0 := by
  have e : MAX_MARKOV_K - k + i + k = MAX_MARKOV_K + i := by omega
  rw [e, List.append_assoc, getD_append_nat, List.length_replicate, if_neg (by omega),
    getD_append_nat, if_pos (by omega)]
  congr 1
  omega

theorem count_orders_spec ( eow : Bool) (w : List Nat)
    (hw : ∀ ch ∈ w, 97 ≤ ch ∧ ch ≤ 122) :
    ∀ (n k : Nat) (tm : Nat → ℚ), k + n ≤ MAX_MARKOV_K + 1 → Counts tm →
    ∃ tm1, count_orders eow (List.replicate MAX_MARKOV_K 0 ++ w ++ [0]) w.length n k tm
        = some tm1 ∧ Counts tm1 := by
  intro n
  induction n with
  | zero => intro k tm _ h; exact ⟨tm, rfl, h⟩
  | succ n ih =>
    intro k tm hk h
    simp only [count_orders]
    obtain ⟨tm1, e1, e2⟩ := count_transitions_spec eow k
      (List.replicate MAX_MARKOV_K 0 ++ w ++ [0]) (MAX_MARKOV_K - k) (Markov eow k) w.length 0 tm h
      (fun i1 _ h2 => by
        rw [word_buffer_getD w k i1 (by omega) (by omega)]
        exact hw _ (getD_mem w i1 (by omega)))
    rw [e1]
    simp only
    obtain ⟨tm2, e3, e4⟩ := count_end_of_word_spec eow k
      (List.replicate MAX_MARKOV_K 0 ++ w ++ [0]) (MAX_MARKOV_K - k) (Markov eow k) w.length tm1 e2
    rw [e3]
    exact ih _ _ (by omega) e4

theorem count_letters_spec ( eow : Bool) (w : List Nat) : ∀ (n i : Nat) (lf : Nat → ℚ),
    Counts lf →
    Counts (count_letters eow w n i lf) ∧ ∀ x, lf x ≤ count_letters eow w n i lf x := by
  intro n
  induction n with
  | zero => intro i lf h; exact ⟨h, fun _ => le_refl _⟩
  | succ n ih =>
    intro i lf h
    simp only [count_letters]
    obtain ⟨g1, g2⟩ := ih (i + 1) _ (counts_store_succ lf (col_map eow (w.getD i 0)).toNat h)
    exact ⟨g1, fun x => le_trans (store_succ_ge lf _ x) (g2 x)⟩

theorem count_letters_obs ( eow : Bool) (w : List Nat) (hw : ∀ ch ∈ w, 97 ≤ ch ∧ ch ≤ 122)
    (hne : w ≠ []) (lf : Nat → ℚ) (h : Counts lf) :
    HasObs (count_letters eow w w.length 0 lf) := by
  cases w with
  | nil => exact absurd rfl hne
  | cons ch rest =>
    simp only [List.length_cons, count_letters]
    obtain ⟨_, _, c3⟩ := col_map_letter eow ch (hw ch (List.mem_cons_self _ _))
    have hget : (ch :: rest).getD 0 0 = ch := rfl
    rw [hget]
    obtain ⟨_, g2⟩ := count_letters_spec eow (ch :: rest) rest.length (0 + 1) _
      (counts_store_succ lf (col_map eow ch).toNat h)
    refine ⟨(col_map eow ch).toNat, c3, le_trans ?_ (g2 _)⟩
    rw [store_same]
    have := counts_nonneg lf h (col_map eow ch).toNat
    linarith

/-! ### The trained matrices -/

theorem has_obs_mono (lf lf1 : Nat → ℚ) (h : ∀ x, lf x ≤ lf1 x) (ho : HasObs lf) : HasObs lf1 := by
  obtain ⟨c, h1, h2⟩ := ho
  exact ⟨c, h1, le_trans h2 (h c)⟩

theorem train_loop_spec ( eow : Bool) (K : Nat) (hK : K ≤ MAX_MARKOV_K) :
    ∀ (lines : List (List Nat)) (wds_read : Nat) (s : MarkovState),
    (∀ line ∈ lines, ∃ w, squeeze_word line = some w ∧ w.length ≤ MAX_TERM_LEN) →
    wds_read + lines.length < 10 ^ NUM_RANK_BUCKETS →
    Counts s.letter_frequencies → Counts s.transition_matrices →
    ∃ s1, train_loop eow K lines wds_read s = some s1 ∧
      Counts s1.letter_frequencies ∧ Counts s1.transition_matrices ∧
      (∀ x, s.letter_frequencies x ≤ s1.letter_frequencies x) ∧
      ((∃ line ∈ lines, ∃ w, squeeze_word line = some w ∧ w ≠ []) →
        HasObs s1.letter_frequencies) := by
  intro lines
  induction lines with
  | nil =>
    intro wds_read s _ _ h1 h2
    refine ⟨s, rfl, h1, h2, fun _ => le_refl _, ?_⟩
    rintro ⟨line, hl, _⟩
    exact absurd hl (by simp)
  | cons line rest ih =>
    intro wds_read s hv hn h1 h2
    obtain ⟨w, hw1, hw2⟩ := hv line (List.mem_cons_self _ _)
    have hv1 : ∀ l ∈ rest, ∃ w, squeeze_word l = some w ∧ w.length ≤ MAX_TERM_LEN :=
      fun l hl => hv l (List.mem_cons_of_mem _ hl)
    simp only [List.length_cons] at hn
    simp only [train_loop]
    rw [hw1]
    simp only
    by_cases hl0 : w.length = 0
    · rw [if_pos hl0]
      obtain ⟨s1, e1, e2, e3, e4, e5⟩ := ih (wds_read + 1) s hv1 (by omega) h1 h2
      refine ⟨s1, e1, e2, e3, e4, ?_⟩
      rintro ⟨l, hl, w1, hw3, hw4⟩
      rcases List.mem_cons.mp hl with hl1 | hl1
      · subst hl1
        rw [hw1] at hw3
        simp only [Option.some.injEq] at hw3
        subst hw3
        exact absurd (List.length_eq_zero.mp hl0) hw4
      · exact e5 ⟨l, hl1, w1, hw3, hw4⟩
    · rw [if_neg hl0, if_neg (by omega), if_neg (by omega)]
      have hletters := squeeze_word_letters line w hw1
      obtain ⟨tm, t1, t2⟩ := count_orders_spec eow w hletters K 1 s.transition_matrices
        (by omega) h2
      rw [t1]
      simp only
      obtain ⟨g1, g2⟩ := count_letters_spec eow w w.length 0 s.letter_frequencies h1
      have hobs := count_letters_obs eow w hletters (fun h => hl0 (by rw [h]; rfl))
        s.letter_frequencies h1
      have hlf : Counts (if eow = true then
            store (count_letters eow w w.length 0 s.letter_frequencies) (col_map eow EOW).toNat
              (count_letters eow w w.length 0 s.letter_frequencies (col_map eow EOW).toNat + 1)
          else count_letters eow w w.length 0 s.letter_frequencies) ∧
          ∀ x, count_letters eow w w.length 0 s.letter_frequencies x ≤
            (if eow = true then
              store (count_letters eow w w.length 0 s.letter_frequencies) (col_map eow EOW).toNat
                (count_letters eow w w.length 0 s.letter_frequencies (col_map eow EOW).toNat + 1)
            else count_letters eow w w.length 0 s.letter_frequencies) x := by
        by_cases he : eow = true
        · rw [if_pos he]
          exact ⟨counts_store_succ _ _ g1, fun x => store_succ_ge _ _ x⟩
        · rw [if_neg he]
          exact ⟨g1, fun _ => le_refl _⟩
      obtain ⟨s1, e1, e2, e3, e4, _⟩ := ih (wds_read + 1)
        { letter_frequencies := _, transition_matrices := tm } hv1 (by omega) hlf.1 t2
      refine ⟨s1, e1, e2, e3, fun x => le_trans (g2 x) (le_trans (hlf.2 x) (e4 x)), fun _ => ?_⟩
      exact has_obs_mono _ _ (fun x => le_trans (hlf.2 x) (e4 x)) hobs

theorem copy_letter_frequencies_spec (lf : Nat → ℚ) : ∀ (n i : Nat) (tm : Nat → ℚ) (x : Nat),
    copy_letter_frequencies lf n i tm x = if i ≤ x ∧ x < i + n then lf x else tm x := by
  intro n
  induction n with
  | zero =>
    intro i tm x
    simp only [copy_letter_frequencies]
    rw [if_neg (by omega)]
  | succ n ih =>
    intro i tm x
    simp only [copy_letter_frequencies]
    rw [ih]
    by_cases h1 : i + 1 ≤ x ∧ x < i + 1 + n
    · rw [if_pos h1, if_pos (by omega)]
    · rw [if_neg h1]
      by_cases h2 : x = i
      · rw [h2, store_same, if_pos (by omega)]
      · rw [store_other _ _ _ _ h2, if_neg (by omega)]

/-- Under the conditions on the training file that keep
`setup_transition_matrices` from exiting, and with one usable word, the
matrices handed to the conversion hold counts, and the order-0 row holds an
observation. -/
theorem trained_counts_spec ( eow : Bool) (K : Nat) (lines : List (List Nat))
    (hK : K ≤ MAX_MARKOV_K)
    (hv : ∀ line ∈ lines, ∃ w, squeeze_word line = some w ∧ w.length ≤ MAX_TERM_LEN)
    (hn : lines.length < 10 ^ NUM_RANK_BUCKETS)
    (hu : ∃ line ∈ lines, ∃ w, squeeze_word line = some w ∧ w ≠ []) :
    ∃ tm, trained_counts eow K lines = some tm ∧ Counts tm ∧
      1 ≤ sum_row tm 0 (A_alphabet_size eow) := by
  have hA := A_alphabet_size_pos eow
  unfold trained_counts
  rw [if_neg (by omega)]
  obtain ⟨s1, e1, e2, e3, _, e5⟩ := train_loop_spec eow K hK lines 0
    { letter_frequencies := fun _ => 0, transition_matrices := fun _ => 0 } hv (by omega)
    counts_zero counts_zero
  rw [e1]
  have hC : Counts (copy_letter_frequencies s1.letter_frequencies (A_alphabet_size eow) 0
      s1.transition_matrices) := by
    intro x
    rw [copy_letter_frequencies_spec]
    by_cases h : 0 ≤ x ∧ x < 0 + A_alphabet_size eow
    · rw [if_pos h]; exact e2 x
    · rw [if_neg h]; exact e3 x
  refine ⟨_, rfl, hC, ?_⟩
  obtain ⟨c, c1, c2⟩ := e5 hu
  have hge := sum_row_ge _ 0 (A_alphabet_size eow)
    (fun j _ => counts_nonneg _ hC (0 + j)) c (by omega)
  rw [copy_letter_frequencies_spec, if_pos (by omega), Nat.zero_add] at hge
  linarith

/-- C10.  For a training file whose lines all have a TAB after the word, no
word longer than `MAX_TERM_LEN` letters and fewer than a billion lines, with at
least one line whose word keeps a letter, for `K` at most `MAX_MARKOV_K`, with
full backoff and in either mode of the end-of-word symbol: the conversion
returns, and in each matrix of order `k` in `0..K`, on each of its `E ^ k`
rows, the values are nondecreasing across the row and the last column is
exactly 1; a row all of whose counts were zero holds the values of the order-0
row.  For `K` below `MAX_MARKOV_K` the check that follows passes and
`setup_transition_matrices` returns these matrices. -/
theorem transition_matrices_rows_cumulative ( eow : Bool) (K : Nat) (lines : List (List Nat))
    (hK : K ≤ MAX_MARKOV_K)
    (hv : ∀ line ∈ lines, ∃ w, squeeze_word line = some w ∧ w.length ≤ MAX_TERM_LEN)
    (hn : lines.length < 10 ^ NUM_RANK_BUCKETS)
    (hu : ∃ line ∈ lines, ∃ w, squeeze_word line = some w ∧ w ≠ []) :
    ∃ counts tm, trained_counts eow K lines = some counts ∧
      convert_orders eow true (K + 1) 0 1 1 none counts = some tm ∧
      (K < MAX_MARKOV_K → setup_transition_matrices eow true K lines = some tm) ∧
      ∀ k q, k ≤ K → q < E_alphabet_size ^ k →
        (∀ j, j + 1 < A_alphabet_size eow →
          tm (Markov eow k + q * A_alphabet_size eow + j)
            ≤ tm (Markov eow k + q * A_alphabet_size eow + (j + 1))) ∧
        tm (Markov eow k + q * A_alphabet_size eow + (A_alphabet_size eow - 1)) = 1 ∧
        ((∀ j, j < A_alphabet_size eow →
            counts (Markov eow k + q * A_alphabet_size eow + j) = 0) →
          ∀ j, j < A_alphabet_size eow →
            tm (Markov eow k + q * A_alphabet_size eow + j) = tm (Markov eow 0 + j)) := by
  obtain ⟨counts, t1, t2, t3⟩ := trained_counts_spec eow K lines hK hv hn hu
  obtain ⟨tm, c1, c2⟩ := convert_orders_all eow true K hK counts t2 t3
  refine ⟨counts, tm, t1, c1, ?_, ?_⟩
  · intro hlt
    have hcheck := check_pass eow tm (K + 1) 0 (by omega)
      (fun k1 q _ h2 h3 => (c2 k1 q (by omega) h3).1.2)
    have hM : Markov eow 0 = 0 := rfl
    have hE : E_alphabet_size ^ 0 = 1 := rfl
    rw [hM, hE, Nat.zero_add] at hcheck
    unfold setup_transition_matrices convert_transition_matrices_to_probs
    rw [t1]
    simp only
    rw [c1]
    simp only
    rw [hcheck]
  · intro k q hk hq
    obtain ⟨⟨g1, g2⟩, _, g3⟩ := c2 k q hk hq
    refine ⟨g1, g2, fun hz j hj => ?_⟩
    by_cases hk0 : k = 0
    · subst hk0
      have hq0 : q = 0 := by
        have : E_alphabet_size ^ 0 = 1 := rfl
        omega
      subst hq0
      simp
    · obtain ⟨a, a1, _, a3⟩ := g3 (by omega) hz
      have ha : a = Markov eow 0 + 0 * A_alphabet_size eow := by
        simp only [backoff_address, if_true, Option.some.injEq] at a1
        exact a1.symm
      rw [a3 j hj, ha]
      simp
/-- Witness of C10: the training file of two lines `ab<TAB>5` and `b<TAB>1`,
order 1, no end-of-word symbol. -/
theorem transition_matrices_rows_cumulative_witness :
    1 ≤ MAX_MARKOV_K ∧
    (∀ line ∈ ([[97, 98, 9, 53], [98, 9, 49]] : List (List Nat)),
      ∃ w, squeeze_word line = some w ∧ w.length ≤ MAX_TERM_LEN) ∧
    ([[97, 98, 9, 53], [98, 9, 49]] : List (List Nat)).length < 10 ^ NUM_RANK_BUCKETS ∧
    (∃ line ∈ ([[97, 98, 9, 53], [98, 9, 49]] : List (List Nat)),
      ∃ w, squeeze_word line = some w ∧ w ≠ []) ∧
    ∃ counts tm, trained_counts false 1 [[97, 98, 9, 53], [98, 9, 49]] = some counts ∧
      convert_orders false true (1 + 1) 0 1 1 none counts = some tm ∧
      (1 < MAX_MARKOV_K →
        setup_transition_matrices false true 1 [[97, 98, 9, 53], [98, 9, 49]] = some tm) ∧
      ∀ k q, k ≤ 1 → q < E_alphabet_size ^ k →
        (∀ j, j + 1 < A_alphabet_size false →
          tm (Markov false k + q * A_alphabet_size false + j)
            ≤ tm (Markov false k + q * A_alphabet_size false + (j + 1))) ∧
        tm (Markov false k + q * A_alphabet_size false + (A_alphabet_size false - 1)) = 1 ∧
        ((∀ j, j < A_alphabet_size false →
            counts (Markov false k + q * A_alphabet_size false + j) = 0) →
          ∀ j, j < A_alphabet_size false →
            tm (Markov false k + q * A_alphabet_size false + j) = tm (Markov false 0 + j)) :=
  ⟨by decide,
    fun line hl => by
      simp only [List.mem_cons, List.mem_singleton, List.not_mem_nil, or_false] at hl
      rcases hl with rfl | rfl
      · exact ⟨[97, 98], by decide, by decide⟩
      · exact ⟨[98], by decide, by decide⟩,
    by decide,
    ⟨[97, 98, 9, 53], by decide, [97, 98], by decide, by decide⟩,
    transition_matrices_rows_cumulative false 1 [[97, 98, 9, 53], [98, 9, 49]] (by decide)
      (fun line hl => by
        simp only [List.mem_cons, List.mem_singleton, List.not_mem_nil, or_false] at hl
        rcases hl with rfl | rfl
        · exact ⟨[97, 98], by decide, by decide⟩
        · exact ⟨[98], by decide, by decide⟩)
      (by decide)
      ⟨[97, 98, 9, 53], by decide, [97, 98], by decide, by decide⟩⟩

/-! ### The plain shuffles reach few permutations -/

/-- C20 (code evaluated at failing inputs).  On an array of two elements the
loop bound `l = num_elts - 2` is 0, so `knuth_shuffle_uint` and `knuth_shuffle`
return the array as it is whatever the draws: the exchanged order is never
produced.  On `[1, 2, 3]` the only iteration exchanges slot 0 with slot 1 or
slot 2, so two of the six orders are produced and the input is never returned. -/
theorem knuth_shuffles_miss_orders :
    (∀ (rnd : Nat → Nat) (c : Nat), knuth_shuffle_uint [1, 2] 2 rnd c = some ([1, 2], c)) ∧
    (∀ (rnd : Nat → Nat) (c : Nat), knuth_shuffle [1, 2] 1 2 rnd c = some ([1, 2], c)) ∧
    (∀ (rnd : Nat → Nat) (c : Nat),
      knuth_shuffle_uint [1, 2, 3] 3 rnd c = some ([2, 1, 3], c + 1) ∨
      knuth_shuffle_uint [1, 2, 3] 3 rnd c = some ([3, 2, 1], c + 1)) := by
  refine ⟨fun rnd c => rfl, fun rnd c => rfl, fun rnd c => ?_⟩
  have h : knuth_shuffle_uint [1, 2, 3] 3 rnd c
      = some (swap_elts [1, 2, 3] 0 (1 + rnd c % 2), c + 1) := by
    simp [knuth_shuffle_uint, knuth_shuffle_uint_loop, random_long_long]
  rw [h]
  rcases Nat.mod_two_eq_zero_or_one (rnd c) with h0 | h1
  · left; rw [h0]; rfl
  · right; rw [h1]; rfl

/-! ### The n-grams file -/

/-- C17 (code evaluated at failing inputs).  The line `N(1,2,3,4,5,6,7):9`
gives a row whose arity column is 7: the loop over the termids stops when
`column` reaches `num_cols = 8`, one termid too late, so the seventh termid is
stored in the frequency column, which the frequency then overwrites, and the
arity stored is `column - 1 = 7`.  A line of eight termids gives the same row.
A line of six termids is stored as the claim says. -/
theorem ngram_row_arity_above_max :
    parse_ngram_line ("N(1,2,3,4,5,6,7):9\n".toList.map Char.toNat)
      = some [7, 1, 2, 3, 4, 5, 6, 9] ∧
    parse_ngram_line ("N(1,2,3,4,5,6,7,8):9\n".toList.map Char.toNat)
      = some [7, 1, 2, 3, 4, 5, 6, 9] ∧
    load_ngrams_file_and_sort ["N(1,2,3,4,5,6,7):9\n".toList.map Char.toNat]
      = [[7, 1, 2, 3, 4, 5, 6, 9]] ∧
    parse_ngram_line ("N(1,2,3,4,5,6):9\n".toList.map Char.toNat)
      = some [6, 1, 2, 3, 4, 5, 6, 9] := by
  decide

/-! ### Subsumed rows are missed -/

/-- C14 (code evaluated at a failing input).  The n-grams file with the lines
`N(1,2,3):5`, `N(1,2):7` and `N(2,3):4` is loaded as rows 0, 1 and 2.  Row 0
subsumes rows 1 and 2.  The lists of termids 1, 2 and 3 start at rows 1, 1 and
2; the intersection starts at the highest of them, row 2, and advances the
lists of termids 1 and 2 past row 1 without looking at it: only row 2 is
stored. -/
theorem subsumption_misses_a_row :
    (load_ngrams_file_and_sort
        (["N(1,2,3):5\n", "N(1,2):7\n", "N(2,3):4\n"].map
          (fun s => s.toList.map Char.toNat))).flatten
      = [3, 1, 2, 3, 0, 0, 0, 5, 2, 1, 2, 0, 0, 0, 0, 7, 2, 2, 3, 0, 0, 0, 0, 4] ∧
    find_all_subsumptions_of_an_ngram
        (set_up_for_subsumption
          [3, 1, 2, 3, 0, 0, 0, 5, 2, 1, 2, 0, 0, 0, 0, 7, 2, 2, 3, 0, 0, 0, 0, 4] 3)
        [3, 1, 2, 3, 0, 0, 0, 5, 2, 1, 2, 0, 0, 0, 0, 7, 2, 2, 3, 0, 0, 0, 0, 4] 0 3
      = some [2] ∧
    subsumed_rows [3, 1, 2, 3, 0, 0, 0, 5, 2, 1, 2, 0, 0, 0, 0, 7, 2, 2, 3, 0, 0, 0, 0, 4] 0 3
      = [1, 2] := by
  decide

/-! ### Assignment of words to ranks -/

/-- C13 (code evaluated at a failing input).  Two words `a` and `b` of length
1, lengths by `strlen`; in rank bucket 0 of the length probabilities all the
mass is on length 5; every draw of `rand_val` is 0.  The buckets of the
lengths that no word has were set to `(vocab_size, vocab_size)`, which the
test `next_rank > max_rank` does not take for full: rank 1 picks length 5 and
is given the last word, `b`; rank 2 picks length 5, steps down to length 4,
and is given `b` again.  The word `a` is assigned to no rank. -/
theorem assignment_repeats_a_word :
    randomly_assign_terms_to_ranks_based_on_length List.length [[97], [98]] 2
        (fun e => if 4 ≤ e ∧ e < 15 then 1 else 0) (fun _ => 0)
      = some [[98], [98]] := by
  decide

/-! ### The sampler stores new, non-empty words -/

theorem unique_word_loop_new (P : SamplerParams) : ∀ (n tries l : Nat) (max_tries : List Nat)
    (c : Nat) (words : List (List Nat)) (r : List Nat × List (List Nat) × List Nat × Nat),
    unique_word_loop P n tries l max_tries c words = some r →
    r.1 ≠ [] ∧ r.1 ∉ words ∧ r.2.1 = r.1 :: words := by
  intro n
  induction n with
  | zero =>
    intro tries l max_tries c words r h
    simp [unique_word_loop] at h
  | succ n ih =>
    intro tries l max_tries c words r h
    simp only [unique_word_loop] at h
    cases hg : generate_letters P l 0 (List.replicate MAX_MARKOV_K 0) c [] with
    | none => rw [hg] at h; exact absurd h (by simp)
    | some g =>
      rw [hg] at h
      simp only at h
      by_cases h1 : g.1 ≠ [] ∧ g.1 ∉ words
      · rw [if_pos h1] at h
        simp only [Option.some.injEq] at h
        subst h
        exact ⟨h1.1, h1.2, rfl⟩
      · rw [if_neg h1] at h
        by_cases h2 : tries + 1 > max_tries.getD l 0
        · rw [if_pos h2] at h
          by_cases h3 : l + 1 > MAX_TERM_LEN
          · rw [if_pos h3] at h; exact absurd h (by simp)
          · rw [if_neg h3] at h; exact ih _ _ _ _ _ _ h
        · rw [if_neg h2] at h
          exact ih _ _ _ _ _ _ h

theorem store_unique_markov_word_new (P : SamplerParams) (fuel : Nat) (s : SamplerState)
    (r : List Nat × SamplerState) (h : store_unique_markov_word P fuel s = some r) :
    r.1 ≠ [] ∧ r.1 ∉ s.words_generated ∧ r.2.words_generated = r.1 :: s.words_generated := by
  unfold store_unique_markov_word at h
  split at h
  · exact absurd h (by simp)
  · rename_i len _
    simp only at h
    split at h
    · exact absurd h (by simp)
    · rename_i u hu
      simp only [Option.some.injEq] at h
      subst h
      exact unique_word_loop_new P _ _ _ _ _ _ _ hu

/-- C11.  Whatever the parameters, the matrices, the draws and the state the
hash is in, when a run of calls of `store_unique_markov_word` returns, the
words it stored are pairwise distinct and none of them was in the hash
before; the hash holds them afterwards. -/
theorem stored_words_distinct (P : SamplerParams) (fuel : Nat) : ∀ (n : Nat) (s : SamplerState)
    (r : List (List Nat) × SamplerState), store_words P fuel n s = some r →
    r.1.Nodup ∧ (∀ w ∈ r.1, w ∉ s.words_generated) ∧
    r.2.words_generated = r.1.reverse ++ s.words_generated := by
  intro n
  induction n with
  | zero =>
    intro s r h
    simp only [store_words, Option.some.injEq] at h
    subst h
    simp
  | succ n ih =>
    intro s r h
    simp only [store_words] at h
    cases h1 : store_unique_markov_word P fuel s with
    | none => rw [h1] at h; exact absurd h (by simp)
    | some u =>
      rw [h1] at h
      simp only at h
      cases h2 : store_words P fuel n u.2 with
      | none => rw [h2] at h; exact absurd h (by simp)
      | some rest =>
        rw [h2] at h
        simp only [Option.some.injEq] at h
        subst h
        obtain ⟨_, a2, a3⟩ := store_unique_markov_word_new P fuel s u h1
        obtain ⟨b1, b2, b3⟩ := ih u.2 rest h2
        rw [a3] at b2 b3
        refine ⟨?_, ?_, ?_⟩
        · rw [List.nodup_cons]
          exact ⟨fun hm => (b2 _ hm) (List.mem_cons_self _ _), b1⟩
        · intro w hw
          rcases List.mem_cons.mp hw with hw1 | hw1
          · rw [hw1]; exact a2
          · exact fun hm => (b2 w hw1) (List.mem_cons_of_mem _ hm)
        · rw [b3]
          simp

/-- Witness of C11: two calls without end-of-word symbol at order 0, every
cumulative probability 1 and every draw 0, both lengths drawn 1.  The first
call stores `a`; the second generates `a` 27 times, gives up on length 1 and
stores `aa`. -/
theorem stored_words_distinct_witness :
    store_words
        { eow := false, Markov_order := 0, markov_lambda := 0, markov_full_backoff := true,
          transition_matrices := fun _ => 1, rnd := fun _ => 0, lens := fun _ => 1 } 30 2
        { words_generated := [], max_tries := List.replicate 16 0, c := 0, cl := 0 }
      = some ([[97], [97, 97]],
          { words_generated := [[97, 97], [97]],
            max_tries := [1, 0, 676, 17576, 456976, 11881376, 308915776, 8031810176,
              208827064576, 208827064576, 208827064576, 208827064576, 208827064576,
              208827064576, 208827064576, 208827064576],
            c := 30, cl := 2 }) ∧
    ([[97], [97, 97]] : List (List Nat)).Nodup ∧
    (∀ w ∈ ([[97], [97, 97]] : List (List Nat)), w ∉ ([] : List (List Nat))) ∧
    ([[97, 97], [97]] : List (List Nat))
      = ([[97], [97, 97]] : List (List Nat)).reverse ++ [] :=
  ⟨by decide,
    stored_words_distinct
      { eow := false, Markov_order := 0, markov_lambda := 0, markov_full_backoff := true,
        transition_matrices := fun _ => 1, rnd := fun _ => 0, lens := fun _ => 1 } 30 2
      { words_generated := [], max_tries := List.replicate 16 0, c := 0, cl := 0 }
      ([[97], [97, 97]],
        { words_generated := [[97, 97], [97]],
          max_tries := [1, 0, 676, 17576, 456976, 11881376, 308915776, 8031810176,
            208827064576, 208827064576, 208827064576, 208827064576, 208827064576,
            208827064576, 208827064576, 208827064576],
          c := 30, cl := 2 })
      (by decide)⟩

theorem choose_column_le (row : Nat → ℚ) (x : ℚ) : ∀ (n j0 t : Nat), t < n → x ≤ row (j0 + t) →
    ∃ j, choose_column row x n j0 = some j ∧ j ≤ j0 + t := by
  intro n
  induction n with
  | zero => intro j0 t ht _; exact absurd ht (by omega)
  | succ n ih =>
    intro j0 t ht hx
    simp only [choose_column]
    by_cases h : x ≤ row j0
    · rw [if_pos h]; exact ⟨j0, rfl, by omega⟩
    · rw [if_neg h]
      cases t with
      | zero => exact absurd hx h
      | succ t =>
        obtain ⟨j, e1, e2⟩ := ih (j0 + 1) t (by omega) (by
          have e : j0 + 1 + t = j0 + (t + 1) := by omega
          rw [e]; exact hx)
        exact ⟨j, e1, by omega⟩

theorem draw_length_pos (lens : Nat → Int) : ∀ (n cl : Nat) (len : Nat × Nat),
    draw_length lens n cl = some len → 1 ≤ len.1 ∧ len.1 ≤ 15 := by
  intro n
  induction n with
  | zero => intro cl len h; simp [draw_length] at h
  | succ n ih =>
    intro cl len h
    simp only [draw_length] at h
    by_cases h1 : lens cl > 0
    · rw [if_pos h1] at h
      simp only [Option.some.injEq] at h
      subst h
      by_cases h2 : lens cl > 15
      · rw [if_pos h2]; exact ⟨by omega, le_refl _⟩
      · rw [if_neg h2]
        simp only
        omega
    · rw [if_neg h1] at h
      exact ih _ _ h

/-- C12.  A word stored by `store_unique_markov_word` is never empty.  With
the end-of-word symbol in use, for every row whose entry before the
end-of-word column is non-negative and every draw in `[0, 1)`, the column
chosen for the first letter after the rescaling of the draw exists and is not
the end-of-word column.  Without the end-of-word symbol, the length drawn
is between 1 and 15. -/
theorem markov_word_never_empty (P : SamplerParams) (fuel : Nat) (s : SamplerState) :
    (∀ r, store_unique_markov_word P fuel s = some r → r.1 ≠ []) ∧
    (∀ (row : Nat → ℚ) (randy : ℚ), 0 ≤ randy → randy < 1 →
      0 ≤ row (A_alphabet_size true - 2) →
      ∃ j, choose_column row (scaled_draw true 0 row randy) (A_alphabet_size true) 0 = some j ∧
        j < A_alphabet_size true - 1 ∧ rev_col_map true j ≠ EOW) ∧
    (∀ (n cl : Nat) (len : Nat × Nat), draw_length P.lens n cl = some len →
      1 ≤ len.1 ∧ len.1 ≤ 15) := by
  refine ⟨fun r h => (store_unique_markov_word_new P fuel s r h).1, ?_,
    fun n cl len h => draw_length_pos P.lens n cl len h⟩
  intro row randy h0 h1 hrow
  have hA : A_alphabet_size true = 27 := rfl
  rw [hA] at hrow ⊢
  have hx : scaled_draw true 0 row randy ≤ row (0 + 25) := by
    simp only [scaled_draw, hA, true_and, if_true, Nat.zero_add]
    have : randy * row 25 ≤ 1 * row 25 := mul_le_mul_of_nonneg_right (le_of_lt h1) hrow
    linarith
  obtain ⟨j, e1, e2⟩ := choose_column_le row _ 27 0 25 (by omega) hx
  refine ⟨j, e1, by omega, ?_⟩
  unfold rev_col_map EOW
  rw [if_pos (by omega)]
  omega

/-- Witness of C12: the run of the witness of C11 for the stored word, the row
of ones with the draw 0, and the length stream that is 1 throughout. -/
theorem markov_word_never_empty_witness :
    store_unique_markov_word
        { eow := false, Markov_order := 0, markov_lambda := 0, markov_full_backoff := true,
          transition_matrices := fun _ => 1, rnd := fun _ => 0, lens := fun _ => 1 } 3
        { words_generated := [], max_tries := List.replicate 16 0, c := 0, cl := 0 }
      = some ([97],
          { words_generated := [[97]],
            max_tries := [1, 26, 676, 17576, 456976, 11881376, 308915776, 8031810176,
              208827064576, 208827064576, 208827064576, 208827064576, 208827064576,
              208827064576, 208827064576, 208827064576],
            c := 1, cl := 1 }) ∧
    ([97] : List Nat) ≠ [] ∧
    (0 : ℚ) ≤ 0 ∧ (0 : ℚ) < 1 ∧ (0 : ℚ) ≤ (fun _ => (1 : ℚ)) (A_alphabet_size true - 2) ∧
    (∃ j, choose_column (fun _ => 1) (scaled_draw true 0 (fun _ => 1) 0) (A_alphabet_size true) 0
        = some j ∧ j < A_alphabet_size true - 1 ∧ rev_col_map true j ≠ EOW) ∧
    draw_length (fun _ => 1) 3 0 = some (1, 1) ∧ 1 ≤ 1 ∧ 1 ≤ 15 :=
  ⟨by decide,
    (markov_word_never_empty
      { eow := false, Markov_order := 0, markov_lambda := 0, markov_full_backoff := true,
        transition_matrices := fun _ => 1, rnd := fun _ => 0, lens := fun _ => 1 } 3
      { words_generated := [], max_tries := List.replicate 16 0, c := 0, cl := 0 }).1
      ([97],
        { words_generated := [[97]],
          max_tries := [1, 26, 676, 17576, 456976, 11881376, 308915776, 8031810176,
            208827064576, 208827064576, 208827064576, 208827064576, 208827064576,
            208827064576, 208827064576, 208827064576],
          c := 1, cl := 1 })
      (by decide),
    by norm_num, by norm_num, by norm_num,
    (markov_word_never_empty
      { eow := false, Markov_order := 0, markov_lambda := 0, markov_full_backoff := true,
        transition_matrices := fun _ => 1, rnd := fun _ => 0, lens := fun _ => 1 } 3
      { words_generated := [], max_tries := List.replicate 16 0, c := 0, cl := 0 }).2.1
      (fun _ => 1) 0 (by norm_num) (by norm_num) (by norm_num),
    by decide,
    ((markov_word_never_empty
      { eow := false, Markov_order := 0, markov_lambda := 0, markov_full_backoff := true,
        transition_matrices := fun _ => 1, rnd := fun _ => 0, lens := fun _ => 1 } 3
      { words_generated := [], max_tries := List.replicate 16 0, c := 0, cl := 0 }).2.2
      3 0 (1, 1) (by decide)).1,
    by decide⟩

/-! ### read_TOFS_array_from_file -/

theorem line_freq_of_tab (line p : List Nat) (h : tab_pointer line = some p) :
    line_freq line = (strtoll p).1 := by
  unfold line_freq
  rw [h]

/-- When the loop over the lines ends without an exit, every line has its TAB
and there are no more lines than `vocab_size`. -/
theorem read_TOFS_loop_some (V : Nat) : ∀ (lines : List (List Nat)) (trank : Nat) (tot : Int)
    (TOFS : List Nat) (r : List Nat × Nat × Int), trank ≤ V →
    read_TOFS_loop V lines trank tot TOFS = some r →
    (∀ line ∈ lines, (tab_pointer line).isSome = true) ∧ trank + lines.length ≤ V := by
  intro lines
  induction lines with
  | nil =>
    intro trank tot TOFS r ht _
    exact ⟨fun line hl => absurd hl (by simp), by simpa using ht⟩
  | cons line rest ih =>
    intro trank tot TOFS r ht h
    simp only [read_TOFS_loop] at h
    cases hp : tab_pointer line with
    | none => rw [hp] at h; exact absurd h (by simp)
    | some p =>
      rw [hp] at h
      simp only at h
      by_cases hv : trank + 1 > V
      · rw [if_pos hv] at h; exact absurd h (by simp)
      · rw [if_neg hv] at h
        obtain ⟨g1, g2⟩ := ih _ _ _ _ (by omega) h
        refine ⟨?_, by simp only [List.length_cons]; omega⟩
        intro l hl
        rcases List.mem_cons.mp hl with hl1 | hl1
        · rw [hl1, hp]; rfl
        · exact g1 l hl1

theorem wrap64_range (x : Int) : -(2 ^ 63 : Int) ≤ wrap64 x ∧ wrap64 x < 2 ^ 63 := by
  unfold wrap64
  constructor <;> omega

theorem wrap64_of_range (x : Int) (h1 : -(2 ^ 63 : Int) ≤ x) (h2 : x < 2 ^ 63) : wrap64 x = x := by
  unfold wrap64
  omega

theorem wrap64_add_left (a b : Int) : wrap64 (wrap64 a + b) = wrap64 (a + b) := by
  unfold wrap64
  omega

/-- When every line has its TAB and the lines fit, the loop ends without an
exit, having counted the lines, added the frequencies in the 64 bits of
`tot_freq` and stored each of them converted to `u_ll`. -/
theorem read_TOFS_loop_run (V : Nat) : ∀ (lines : List (List Nat)) (trank : Nat) (tot : Int)
    (TOFS : List Nat), TOFS.length = V → wrap64 tot = tot →
    (∀ line ∈ lines, (tab_pointer line).isSome = true) → trank + lines.length ≤ V →
    ∃ T, read_TOFS_loop V lines trank tot TOFS
        = some (T, trank + lines.length, wrap64 (tot + (lines.map line_freq).sum)) ∧
      T.length = V ∧
      (∀ i, i < lines.length →
        T.getD (trank + i) 0 = (line_freq (lines.getD i []) % 2 ^ 64).toNat) ∧
      (∀ x, x < trank → T.getD x 0 = TOFS.getD x 0) := by
  intro lines
  induction lines with
  | nil =>
    intro trank tot TOFS hlen htot _ _
    exact ⟨TOFS, by simp [read_TOFS_loop, htot], hlen, fun i hi => absurd hi (by simp),
      fun _ _ => rfl⟩
  | cons line rest ih =>
    intro trank tot TOFS hlen _ hv hn
    simp only [List.length_cons] at hn
    obtain ⟨p, hp⟩ := Option.isSome_iff_exists.mp (hv line (List.mem_cons_self _ _))
    simp only [read_TOFS_loop]
    rw [hp]
    simp only
    rw [if_neg (by omega)]
    obtain ⟨T, e1, e2, e3, e4⟩ := ih (trank + 1) (wrap64 (tot + (strtoll p).1))
      (TOFS.set trank ((strtoll p).1 % 2 ^ 64).toNat) (by rw [List.length_set]; exact hlen)
      (wrap64_of_range _ (wrap64_range _).1 (wrap64_range _).2)
      (fun l hl => hv l (List.mem_cons_of_mem _ hl)) (by omega)
    refine ⟨T, ?_, e2, ?_, ?_⟩
    · rw [e1]
      simp only [List.length_cons, List.map_cons, List.sum_cons, line_freq_of_tab line p hp]
      have h1 : trank + 1 + rest.length = trank + (rest.length + 1) := by omega
      have h2 : tot + (strtoll p).1 + (List.map line_freq rest).sum
          = tot + ((strtoll p).1 + (List.map line_freq rest).sum) := by ring
      rw [h1, wrap64_add_left, h2]
    · intro i hi
      cases i with
      | zero =>
        rw [Nat.add_zero, e4 trank (by omega), getD_set_eq, if_pos ⟨rfl, by omega⟩]
        simp only [List.getD_cons_zero, line_freq_of_tab line p hp]
      | succ i =>
        have e : trank + (i + 1) = trank + 1 + i := by omega
        rw [e, e3 i (by simpa using hi)]
        simp
    · intro x hx
      rw [e4 x (by omega), getD_set_eq, if_neg (by omega)]


theorem strtoll_range (p : List Nat) : -(2 ^ 63 : Int) ≤ (strtoll p).1 ∧ (strtoll p).1 < 2 ^ 63 := by
  unfold strtoll
  dsimp only
  generalize List.dropWhile isspace p = s1
  generalize (if s1.headD 0 = 45 ∨ s1.headD 0 = 43 then s1.tail else s1) = s2
  generalize digits_value s2 0 = r
  have hr : (0 : Int) ≤ (r.1 : Int) := Int.natCast_nonneg _
  by_cases hd : isdigit (s2.headD 0) = true
  · rw [if_pos hd]
    by_cases hn : decide (s1.headD 0 = 45) = true
    · rw [if_pos hn]
      by_cases h1 : r.1 > 2 ^ 63
      · rw [if_pos h1]; constructor <;> norm_num
      · rw [if_neg h1]
        have : (r.1 : Int) ≤ 2 ^ 63 := by exact_mod_cast (not_lt.mp h1)
        dsimp only
        constructor <;> omega
    · rw [if_neg hn]
      by_cases h1 : r.1 ≥ 2 ^ 63
      · rw [if_pos h1]; constructor <;> norm_num
      · rw [if_neg h1]
        have : (r.1 : Int) < 2 ^ 63 := by exact_mod_cast (not_le.mp h1)
        dsimp only
        constructor <;> omega
  · rw [if_neg hd]; constructor <;> norm_num

theorem line_freq_range (line : List Nat) :
    -(2 ^ 63 : Int) ≤ line_freq line ∧ line_freq line < 2 ^ 63 := by
  unfold line_freq
  split
  · constructor <;> norm_num
  · exact strtoll_range _

/-- C18, amended.  `read_TOFS_array_from_file` returns an array exactly when
the file has `vocab_size` lines, the first byte below the space character on
each is a TAB, and the frequencies read by `strtoll` after the TABs add up to
`num_postings` in the `long long` variable `tot_freq`, that is, their sum
reduced modulo `2^64` to the range of a `long long` is `num_postings`; when
the sum lies in that range it is the sum itself that must be `num_postings`.
The array returned has `vocab_size` entries, entry `i` being the frequency of
line `i + 1` converted to `u_ll`, which is the frequency itself when it is not
negative. -/
theorem read_TOFS_succeeds_iff (lines : List (List Nat)) (num_postings : Int) (vocab_size : Nat) :
    ((∃ TOFS, read_TOFS_array_from_file lines num_postings vocab_size = some TOFS) ↔
      (lines.length = vocab_size ∧ (∀ line ∈ lines, (tab_pointer line).isSome = true) ∧
        wrap64 ((lines.map line_freq).sum) = num_postings)) ∧
    (-(2 ^ 63 : Int) ≤ (lines.map line_freq).sum → (lines.map line_freq).sum < 2 ^ 63 →
      ((∃ TOFS, read_TOFS_array_from_file lines num_postings vocab_size = some TOFS) ↔
        (lines.length = vocab_size ∧ (∀ line ∈ lines, (tab_pointer line).isSome = true) ∧
          (lines.map line_freq).sum = num_postings))) ∧
    (∀ TOFS, read_TOFS_array_from_file lines num_postings vocab_size = some TOFS →
      TOFS.length = vocab_size ∧
      ∀ i, i < vocab_size →
        TOFS.getD i 0 = (line_freq (lines.getD i []) % 2 ^ 64).toNat ∧
        (0 ≤ line_freq (lines.getD i []) →
          (TOFS.getD i 0 : Int) = line_freq (lines.getD i []))) := by
  have key : ∀ TOFS, read_TOFS_array_from_file lines num_postings vocab_size = some TOFS →
      (lines.length = vocab_size ∧ (∀ line ∈ lines, (tab_pointer line).isSome = true) ∧
        wrap64 ((lines.map line_freq).sum) = num_postings) ∧ TOFS.length = vocab_size ∧
      ∀ i, i < vocab_size → TOFS.getD i 0 = (line_freq (lines.getD i []) % 2 ^ 64).toNat := by
    intro TOFS h
    unfold read_TOFS_array_from_file at h
    cases hl : read_TOFS_loop vocab_size lines 0 0 (List.replicate vocab_size 0) with
    | none => rw [hl] at h; exact absurd h (by simp)
    | some r =>
      rw [hl] at h
      simp only at h
      obtain ⟨g1, g2⟩ := read_TOFS_loop_some vocab_size lines 0 0 _ r (Nat.zero_le _) hl
      obtain ⟨T, e1, e2, e3, _⟩ := read_TOFS_loop_run vocab_size lines 0 0
        (List.replicate vocab_size 0) (by simp) (by decide) g1 g2
      rw [e1] at hl
      simp only [Option.some.injEq] at hl
      subst hl
      simp only [Nat.zero_add, zero_add] at h e3
      by_cases h1 : lines.length < vocab_size
      · rw [if_pos h1] at h; exact absurd h (by simp)
      · rw [if_neg h1] at h
        by_cases h2 : wrap64 ((lines.map line_freq).sum) ≠ num_postings
        · rw [if_pos h2] at h; exact absurd h (by simp)
        · rw [if_neg h2] at h
          simp only [Option.some.injEq] at h
          subst h
          have hlen : lines.length = vocab_size := by omega
          exact ⟨⟨hlen, g1, not_not.mp h2⟩, e2, fun i hi => e3 i (by omega)⟩
  have back : (lines.length = vocab_size ∧ (∀ line ∈ lines, (tab_pointer line).isSome = true) ∧
        wrap64 ((lines.map line_freq).sum) = num_postings) →
      ∃ TOFS, read_TOFS_array_from_file lines num_postings vocab_size = some TOFS := by
    rintro ⟨hlen, htab, hsum⟩
    obtain ⟨T, e1, _, _, _⟩ := read_TOFS_loop_run vocab_size lines 0 0
      (List.replicate vocab_size 0) (by simp) (by decide) htab (by omega)
    refine ⟨T, ?_⟩
    unfold read_TOFS_array_from_file
    rw [e1]
    simp only [Nat.zero_add, zero_add]
    rw [if_neg (by omega), if_neg (by rw [hsum]; simp)]
  refine ⟨⟨fun ⟨TOFS, h⟩ => (key TOFS h).1, back⟩, ?_, ?_⟩
  · intro h1 h2
    rw [← wrap64_of_range _ h1 h2]
    exact ⟨fun ⟨TOFS, h⟩ => (key TOFS h).1, back⟩
  · intro TOFS h
    obtain ⟨_, k2, k3⟩ := key TOFS h
    refine ⟨k2, fun i hi => ⟨k3 i hi, fun hpos => ?_⟩⟩
    rw [k3 i hi]
    obtain ⟨_, r2⟩ := line_freq_range (lines.getD i [])
    have hm : line_freq (lines.getD i []) % 2 ^ 64 = line_freq (lines.getD i []) :=
      Int.emod_eq_of_lt hpos (by omega)
    rw [hm]
    exact Int.toNat_of_nonneg hpos

/-- Witness of C18: the two lines `the<TAB>8` and `of<TAB>3` with 11 postings
and 2 terms. -/
theorem read_TOFS_succeeds_iff_witness :
    read_TOFS_array_from_file (["the\t8\n", "of\t3\n"].map (fun (s : String) => s.toList.map Char.toNat))
      11 2 = some [8, 3] ∧
    ([8, 3] : List Nat).length = 2 ∧
    ∀ i, i < 2 →
      ([8, 3] : List Nat).getD i 0
        = (line_freq ((["the\t8\n", "of\t3\n"].map (fun (s : String) => s.toList.map Char.toNat)).getD i [])
            % 2 ^ 64).toNat ∧
      (0 ≤ line_freq ((["the\t8\n", "of\t3\n"].map (fun (s : String) => s.toList.map Char.toNat)).getD i [])
        → (([8, 3] : List Nat).getD i 0 : Int)
          = line_freq ((["the\t8\n", "of\t3\n"].map (fun (s : String) => s.toList.map Char.toNat)).getD i [])) :=
  ⟨by decide,
    (read_TOFS_succeeds_iff (["the\t8\n", "of\t3\n"].map (fun (s : String) => s.toList.map Char.toNat))
      11 2).2.2 [8, 3] (by decide)⟩

/-- Counterexample to C18 as stated: the file of the two lines `a<TAB>8` and
`b<TAB>-3` is accepted for 5 postings, and the entry stored for the second
line is `2^64 - 3`, not the frequency `-3` of that line.  The file of the
three lines with the frequencies `9223372036854775807`, `9223372036854775807`
and `7` is accepted for 5 postings, although the frequencies sum to
`2^64 + 5`: the total is kept in 64 bits. -/
theorem read_TOFS_succeeds_iff_counterexample :
    read_TOFS_array_from_file (["a\t8\n", "b\t-3\n"].map (fun (s : String) => s.toList.map Char.toNat))
      5 2 = some [8, 18446744073709551613] ∧
    line_freq ("b\t-3\n".toList.map Char.toNat) = -3 ∧
    ((([8, 18446744073709551613] : List Nat).getD 1 0 : Nat) : Int)
      ≠ line_freq ("b\t-3\n".toList.map Char.toNat) ∧
    read_TOFS_array_from_file
        (["a\t9223372036854775807\n", "b\t9223372036854775807\n", "c\t7\n"].map
          (fun (s : String) => s.toList.map Char.toNat))
      5 3 = some [9223372036854775807, 9223372036854775807, 7] ∧
    ((["a\t9223372036854775807\n", "b\t9223372036854775807\n", "c\t7\n"].map
        (fun (s : String) => s.toList.map Char.toNat)).map line_freq).sum = 2 ^ 64 + 5 := by
  decide

/-! ### process_ngrams_file: the decrements follow the placements -/

theorem occurrences_succ (termids : List Int) (a j n : Nat) :
    occurrences termids a j (n + 1)
      = (if termids.getD j 0 = termids.getD a 0 then 1 else 0) + occurrences termids a (j + 1) n := by
  unfold occurrences
  rw [List.range'_succ, List.countP_cons]
  by_cases h : termids.getD j 0 = termids.getD a 0
  · simp only [h, decide_True, if_true]; omega
  · simp only [h, decide_False, if_false, Bool.false_eq_true]; omega

theorem repetition_count_eq (termids : List Int) (a : Nat) : ∀ n b count,
    repetition_count termids a n b count = count + occurrences termids a b n := by
  intro n
  induction n with
  | zero => intro b count; simp [repetition_count, occurrences]
  | succ n ih =>
    intro b count
    rw [repetition_count, ih, occurrences_succ]
    by_cases h : termids.getD b 0 = termids.getD a 0
    · simp only [h, if_true]; omega
    · simp only [h, if_false]; omega

theorem repetitions_ge_occurrences (arity : Nat) (termids : List Int) (a : Nat) (ha : a < arity) :
    occurrences termids a 0 arity ≤ (count_term_repetitions arity termids).getD a 0 := by
  have h1 : (count_term_repetitions arity termids).getD a 0
      = repetition_count termids a (arity - 1) 1 1 := by
    unfold count_term_repetitions
    rw [List.getD_eq_getElem?_getD, List.getElem?_map, List.getElem?_range ha]
    rfl
  rw [h1, repetition_count_eq]
  obtain ⟨m, rfl⟩ : ∃ m, arity = m + 1 := ⟨arity - 1, by omega⟩
  rw [occurrences_succ]
  simp only [Nat.add_sub_cancel, Nat.zero_add]
  split <;> omega

theorem terms_exhausted_false (TOFS : List Nat) (termids : List Int) (repetitions : List Nat) :
    ∀ n j, terms_exhausted TOFS termids repetitions n j = false →
      ∀ a, j ≤ a → a < j + n → repetitions.getD a 0 ≤ tofs_get TOFS (termids.getD a 0 - 1) := by
  intro n
  induction n with
  | zero => intro j _ a h1 h2; omega
  | succ n ih =>
    intro j h a h1 h2
    rw [terms_exhausted] at h
    by_cases hc : tofs_get TOFS (termids.getD j 0 - 1) < repetitions.getD j 0
    · rw [if_pos hc] at h; cases h
    · rw [if_neg hc] at h
      by_cases e : a = j
      · subst e; omega
      · exact ih (j + 1) h a (by omega) (by omega)

theorem tofs_get_set (TOFS : List Nat) (t u : Int) (v : Nat) (ht : 1 ≤ t) (hu : 1 ≤ u)
    (hlen : (t - 1).toNat < TOFS.length) :
    tofs_get (TOFS.set (t - 1).toNat v) (u - 1) = if u = t then v else tofs_get TOFS (u - 1) := by
  unfold tofs_get
  rw [if_neg (by omega), getD_set_eq]
  by_cases e : u = t
  · subst e; rw [if_pos ⟨rfl, hlen⟩, if_pos rfl]
  · rw [if_neg e, if_neg (by omega), if_neg (by omega)]

theorem sum_set_pred (TOFS : List Nat) (i : Nat) (h : i < TOFS.length) (hp : 0 < TOFS.getD i 0) :
    (TOFS.set i (TOFS.getD i 0 - 1)).sum + 1 = TOFS.sum := by
  have := sum_map_set_add id TOFS i (TOFS.getD i 0 - 1) h
  simp only [List.map_id, id] at this
  omega

theorem decrement_words_all (V : Int) (termids : List Int) : ∀ n j TOFS sub,
    (∀ a, j ≤ a → a < j + n → 1 ≤ termids.getD a 0 ∧ termids.getD a 0 ≤ V) →
    V.toNat ≤ TOFS.length →
    (∀ a, j ≤ a → a < j + n → occurrences termids a j n ≤ tofs_get TOFS (termids.getD a 0 - 1)) →
    (decrement_words V termids n j TOFS sub).2 = sub + n ∧
    (decrement_words V termids n j TOFS sub).1.sum + n = TOFS.sum ∧
    (decrement_words V termids n j TOFS sub).1.length = TOFS.length := by
  intro n
  induction n with
  | zero => intro j TOFS sub _ _ _; simp [decrement_words]
  | succ n ih =>
    intro j TOFS sub hv hlen hc
    have hj := hv j (le_refl _) (by omega)
    have hcj := hc j (le_refl _) (by omega)
    rw [occurrences_succ, if_pos rfl] at hcj
    have hidx : (termids.getD j 0 - 1).toNat < TOFS.length := by omega
    have hget : tofs_get TOFS (termids.getD j 0 - 1) = TOFS.getD (termids.getD j 0 - 1).toNat 0 := by
      unfold tofs_get; rw [if_neg (by omega)]
    rw [decrement_words, if_neg (by omega), if_neg (by omega)]
    have step := ih (j + 1)
      (TOFS.set (termids.getD j 0 - 1).toNat (tofs_get TOFS (termids.getD j 0 - 1) - 1)) (sub + 1)
      (fun a h1 h2 => hv a (by omega) (by omega)) (by rw [List.length_set]; exact hlen)
      (by
        intro a h1 h2
        have ha := hv a (by omega) (by omega)
        have hca := hc a (by omega) (by omega)
        rw [occurrences_succ] at hca
        rw [tofs_get_set TOFS _ _ _ hj.1 ha.1 hidx]
        by_cases e : termids.getD a 0 = termids.getD j 0
        · rw [if_pos e]
          rw [if_pos e.symm, e] at hca
          omega
        · rw [if_neg e]
          rw [if_neg (fun h => e h.symm)] at hca
          omega)
    obtain ⟨s1, s2, s3⟩ := step
    refine ⟨by rw [s1]; omega, ?_, by rw [s3, List.length_set]⟩
    have := sum_set_pred TOFS _ hidx (by rw [← hget]; omega)
    rw [hget] at s2 ⊢
    omega

theorem int_getD_set_ne (l : List Int) (i k : Nat) (v : Int) (h : i ≠ k) :
    (l.set i v).getD k 0 = l.getD k 0 := by
  simp only [List.getD_eq_getElem?_getD, List.getElem?_set_ne h]

theorem decrement_subsumed_frame (ngram_refs : List Int) (k : Nat)
    (hk : k % num_cols ≠ num_cols - 1) : ∀ n j ngrams,
    (decrement_subsumed ngram_refs n j ngrams).getD k 0 = ngrams.getD k 0 := by
  intro n
  induction n with
  | zero => intro j ngrams; rfl
  | succ n ih =>
    intro j ngrams
    rw [decrement_subsumed, ih]
    unfold int_set
    split
    · rfl
    · apply int_getD_set_ne
      intro e
      apply hk
      rw [← e]
      simp only [num_cols, MAX_DEPEND_ARITY] at *
      omega

theorem emit_instances_conserved (V : Int) (num_postings : Nat) (rnd : Nat → Nat) (arity : Nat)
    (termids : List Int) (freq : Int) (ngram_refs : List Int) (subsumed_ngrams : Int) (C : Nat)
    (ng0 : List Int)
    (hv : ∀ a, a < arity → 1 ≤ termids.getD a 0 ∧ termids.getD a 0 ≤ V) :
    ∀ n i s, Conserved C V ng0 s →
      emit_instances V num_postings rnd arity termids freq
          (count_term_repetitions arity termids) ngram_refs subsumed_ngrams n i s
        ≠ Except.error RunEnd.exit_mismatch ∧
      ∀ s1, emit_instances V num_postings rnd arity termids freq
          (count_term_repetitions arity termids) ngram_refs subsumed_ngrams n i s = Except.ok s1 →
        Conserved C V ng0 s1 := by
  intro n
  induction n with
  | zero =>
    intro i s hs
    rw [emit_instances]
    refine ⟨by simp, ?_⟩
    intro s1 h
    cases h
    exact hs
  | succ n ih =>
    intro i s hs
    rw [emit_instances]
    by_cases hfin : subsumed_exhausted s.ngrams ngram_refs subsumed_ngrams.toNat 0 = true
        ∨ terms_exhausted s.TOFS termids (count_term_repetitions arity termids) arity 0 = true
    · rw [if_pos hfin]
      refine ⟨by simp, ?_⟩
      intro s1 h
      cases h
      exact hs
    · rw [if_neg hfin]
      have hte : terms_exhausted s.TOFS termids (count_term_repetitions arity termids) arity 0
          = false := by
        cases h : terms_exhausted s.TOFS termids (count_term_repetitions arity termids) arity 0
        · rfl
        · exact absurd (Or.inr h) hfin
      cases hp : place_postings_in_random_documents (termids.map Int.toNat) arity
          term_type_t.TT_NGRAM 1 num_postings rnd s.place with
      | none => simp
      | some r =>
        dsimp only
        by_cases hr : r.1 ≠ 0
        · rw [if_pos hr]
          exact ih (i + 1) _ hs
        · rw [if_neg hr]
          obtain ⟨h1, h2, h3, h4⟩ := hs
          have hw := decrement_words_all V termids arity 0 s.TOFS s.TOFs_subtracted
            (fun a _ h => hv a (by omega)) h3
            (fun a _ h => le_trans
              (repetitions_ge_occurrences arity termids a (by omega))
              (terms_exhausted_false _ _ _ arity 0 hte a (Nat.zero_le _) h))
          obtain ⟨w1, w2, w3⟩ := hw
          rw [if_neg (by rw [w1, h1]; simp)]
          apply ih
          refine ⟨?_, ?_, ?_, ?_⟩
          · show s.postings_placed + arity = _
            rw [w1, h1]
          · show (decrement_words V termids arity 0 s.TOFS s.TOFs_subtracted).1.sum
              + (s.postings_placed + arity) = C
            omega
          · show V.toNat ≤ _
            rw [w3]; exact h3
          · intro k hk
            show (decrement_subsumed ngram_refs subsumed_ngrams.toNat 0 s.ngrams).getD k 0 = _
            rw [decrement_subsumed_frame ngram_refs k hk]
            exact h4 k hk

theorem int_getD_take_drop (a : List Int) (p k x : Nat) (h : x < k) :
    ((a.drop p).take k).getD x 0 = a.getD (p + x) 0 := by
  simp only [List.getD_eq_getElem?_getD, List.getElem?_take, List.getElem?_drop, if_pos h]

theorem int_get_natCast (a : List Int) (i : Nat) : int_get a (i : Int) = a.getD i 0 := by
  unfold int_get
  rw [if_neg (by omega), Int.toNat_natCast]

theorem process_line_conserved (V : Int) (num_postings : Nat) (rnd : Nat → Nat) (vl C : Nat)
    (ng0 : List Int)
    (hrows : ∀ line, line < vl →
      2 ≤ ng0.getD (line * num_cols) 0 ∧ ng0.getD (line * num_cols) 0 ≤ MAX_DEPEND_ARITY ∧
      ∀ j, j < (ng0.getD (line * num_cols) 0).toNat →
        1 ≤ ng0.getD (line * num_cols + 1 + j) 0 ∧ ng0.getD (line * num_cols + 1 + j) 0 ≤ V)
    (line : Nat) (hl : line < vl) (ngram_refs : List Int) (subsumed_ngrams : Int)
    (s : NgramState) (hs : Conserved C V ng0 s) :
    process_line V num_postings rnd line ngram_refs subsumed_ngrams s
      ≠ Except.error RunEnd.exit_mismatch ∧
    ∀ s1, process_line V num_postings rnd line ngram_refs subsumed_ngrams s = Except.ok s1 →
      Conserved C V ng0 s1 := by
  unfold process_line
  dsimp only
  obtain ⟨r1, r2, r3⟩ := hrows line hl
  have hfr := hs.2.2.2
  have har : int_get s.ngrams ((line * num_cols : Nat) : Int) = ng0.getD (line * num_cols) 0 := by
    rw [int_get_natCast]
    apply hfr
    rw [Nat.mul_mod_left]
    simp [num_cols, MAX_DEPEND_ARITY]
  apply emit_instances_conserved
  · intro a ha
    rw [har] at ha
    have ha6 : a < 6 := by
      simp only [MAX_DEPEND_ARITY] at r2
      omega
    rw [int_getD_take_drop _ _ _ _ (by simp only [num_cols, MAX_DEPEND_ARITY]; omega)]
    rw [hfr (line * num_cols + 1 + a) (by
      simp only [num_cols, MAX_DEPEND_ARITY]
      omega)]
    exact r3 a ha
  · exact hs

theorem process_lines_conserved (V : Int) (num_postings : Nat) (rnd : Nat → Nat) (vl C : Nat)
    (ng0 : List Int)
    (hrows : ∀ line, line < vl →
      2 ≤ ng0.getD (line * num_cols) 0 ∧ ng0.getD (line * num_cols) 0 ≤ MAX_DEPEND_ARITY ∧
      ∀ j, j < (ng0.getD (line * num_cols) 0).toNat →
        1 ≤ ng0.getD (line * num_cols + 1 + j) 0 ∧ ng0.getD (line * num_cols + 1 + j) 0 ≤ V) :
    ∀ n line sub ngram_refs subsumed_ngrams s, line + n = vl → Conserved C V ng0 s →
      process_lines V num_postings rnd vl n line sub ngram_refs subsumed_ngrams s
        ≠ Except.error RunEnd.exit_mismatch ∧
      ∀ s1, process_lines V num_postings rnd vl n line sub ngram_refs subsumed_ngrams s
          = Except.ok s1 → Conserved C V ng0 s1 := by
  intro n
  induction n with
  | zero =>
    intro line sub ngram_refs subsumed_ngrams s _ hs
    rw [process_lines]
    refine ⟨by simp, ?_⟩
    intro s1 h
    cases h
    exact hs
  | succ n ih =>
    intro line sub ngram_refs subsumed_ngrams s hl hs
    rw [process_lines]
    cases line_refs vl line sub s.ngrams ngram_refs subsumed_ngrams with
    | none => simp
    | some f =>
      dsimp only
      have he := process_line_conserved V num_postings rnd vl C ng0 hrows line (by omega)
        f.1 f.2 s hs
      cases hr : process_line V num_postings rnd line f.1 f.2 s with
      | error e =>
        dsimp only
        rw [hr] at he
        refine ⟨he.1, ?_⟩
        intro s1 h
        cases h
      | ok s2 =>
        dsimp only
        rw [hr] at he
        exact ih (line + 1) _ f.1 f.2 s2 (by omega) (he.2 s2 rfl)

/-- Claim C15: for every n-grams table whose rows have arity 2 to 6 and termids
in 1..V, and a `TOFS` of V entries, `process_ngrams_file` never takes the exit
on `postings_placed != TOFs_subtracted`, and when it returns the two counters
agree and the sum of `TOFS` before is the sum of `TOFS` after plus the
postings placed.  This holds for every stream of random numbers, every state
of the placement and every first value of `ngram_refs` and `subsumed_ngrams`. -/
theorem ngram_placement_conserves_postings (ngrams : List Int) (vl : Nat) (TOFS : List Nat)
    (V num_postings : Nat) (rnd : Nat → Nat) (place : PlaceState) (ngram_refs : List Int)
    (subsumed_ngrams : Int)
    (hlen : TOFS.length = V)
    (hrows : ∀ line, line < vl →
      2 ≤ ngrams.getD (line * num_cols) 0 ∧ ngrams.getD (line * num_cols) 0 ≤ MAX_DEPEND_ARITY ∧
      ∀ j, j < (ngrams.getD (line * num_cols) 0).toNat →
        1 ≤ ngrams.getD (line * num_cols + 1 + j) 0 ∧
        ngrams.getD (line * num_cols + 1 + j) 0 ≤ (V : Int)) :
    process_ngrams_table ngrams vl TOFS V num_postings rnd place ngram_refs subsumed_ngrams
      ≠ Except.error RunEnd.exit_mismatch ∧
    ∀ s, process_ngrams_table ngrams vl TOFS V num_postings rnd place ngram_refs
        subsumed_ngrams = Except.ok s →
      s.postings_placed = s.TOFs_subtracted ∧ TOFS.sum = s.TOFS.sum + s.postings_placed := by
  have h := process_lines_conserved (V : Int) num_postings rnd vl TOFS.sum ngrams hrows vl 0 none
    ngram_refs subsumed_ngrams
    { ngrams := ngrams, TOFS := TOFS, place := place, postings_placed := 0,
      TOFs_subtracted := 0, ngram_instances_emitted := 0, ngram_instances_not_emitted := 0 }
    (Nat.zero_add _) ⟨rfl, rfl, by simp [hlen], fun _ _ => rfl⟩
  refine ⟨h.1, ?_⟩
  intro s hs
  obtain ⟨h1, h2, _, _⟩ := h.2 s hs
  exact ⟨h1, h2.symm⟩

/-- Witness of C15: the rows `N(1,2):3` and `N(2,2):2` with `TOFS = [5, 3]` and
one document of 12 postings: two instances of the first row are placed, and
the run returns with 4 postings placed and `TOFS = [3, 1]`. -/
theorem ngram_placement_conserves_postings_witness :
    (∃ s, process_ngrams_table [2, 1, 2, 0, 0, 0, 0, 3, 2, 2, 2, 0, 0, 0, 0, 2] 2 [5, 3]
        ((2 : Nat) : Int) 12 (fun _ => 0)
        { doctable := plug_in_dt_pointers [12], nonfulls := 1, toa := List.replicate 12 0,
          written := [], c := 0 } [] 0 = Except.ok s ∧
      s.TOFS = [3, 1] ∧ s.postings_placed = 4) ∧
    (process_ngrams_table [2, 1, 2, 0, 0, 0, 0, 3, 2, 2, 2, 0, 0, 0, 0, 2] 2 [5, 3]
        ((2 : Nat) : Int) 12 (fun _ => 0)
        { doctable := plug_in_dt_pointers [12], nonfulls := 1, toa := List.replicate 12 0,
          written := [], c := 0 } [] 0 ≠ Except.error RunEnd.exit_mismatch ∧
      ∀ s, process_ngrams_table [2, 1, 2, 0, 0, 0, 0, 3, 2, 2, 2, 0, 0, 0, 0, 2] 2 [5, 3]
          ((2 : Nat) : Int) 12 (fun _ => 0)
          { doctable := plug_in_dt_pointers [12], nonfulls := 1, toa := List.replicate 12 0,
            written := [], c := 0 } [] 0 = Except.ok s →
        s.postings_placed = s.TOFs_subtracted ∧
          ([5, 3] : List Nat).sum = s.TOFS.sum + s.postings_placed) :=
  ⟨⟨{ ngrams := [2, 1, 2, 0, 0, 0, 0, 3, 2, 2, 2, 0, 0, 0, 0, 2], TOFS := [3, 1],
      place := { doctable := [67108872], nonfulls := 1,
                 toa := [1073741825, 536870914, 1073741825, 536870914, 0, 0, 0, 0, 0, 0, 0, 0],
                 written := [0, 1, 2, 3], c := 0 },
      postings_placed := 4, TOFs_subtracted := 4, ngram_instances_emitted := 2,
      ngram_instances_not_emitted := 3 }, rfl, rfl, rfl⟩,
    ngram_placement_conserves_postings [2, 1, 2, 0, 0, 0, 0, 3, 2, 2, 2, 0, 0, 0, 0, 2] 2 [5, 3]
      2 12 (fun _ => 0)
      { doctable := plug_in_dt_pointers [12], nonfulls := 1, toa := List.replicate 12 0,
        written := [], c := 0 } [] 0 (by decide) (by decide)⟩

/-- Claim C16: the scenario of the single row `N(3,5):4` with `TOFS[2] = TOFS[4] = 10`
and one document of 20 postings, for every stream of random numbers.  The variable `subsumed_ngrams` is read for
this row without having been assigned.  When it holds 0 the run ends as the
claim says: `TOFS[2] = TOFS[4] = 6`, 8 postings placed as 4 instances, each
rank 3 with the start flag followed by rank 5 with the continuation flag.
When it holds 2, with `ngram_refs` reading 0, the row counts itself as its own
subsumed row twice per instance and only 2 instances are placed:
`TOFS[2] = TOFS[4] = 8` and 4 postings.  The same variable is stale after a
row of higher arity: in the table `N(1,2,3):1`, `N(1,2):4`, `N(4,5):1` the row
`N(4,5)` is not placed at all, because the row `N(1,2)` recorded for the
trigram is exhausted, and `TOFS[3] = TOFS[4] = 10` on return. -/
theorem ngram_scenario_reads_unassigned_count (rnd : Nat → Nat) :
    process_ngrams_file [("N(3,5):4\n".toList.map Char.toNat)] [10, 10, 10, 10, 10] 5 20
        rnd
        { doctable := plug_in_dt_pointers [20], nonfulls := 1, toa := List.replicate 20 0,
          written := [], c := 0 } [] 0
      = Except.ok
        { ngrams := [2, 3, 5, 0, 0, 0, 0, 4], TOFS := [10, 10, 6, 10, 6],
          place :=
            { doctable := [134217740], nonfulls := 1,
              toa := (List.replicate 4 [3 ||| SON_FLAG, 5 ||| CON_FLAG]).flatten
                ++ List.replicate 12 0,
              written := [0, 1, 2, 3, 4, 5, 6, 7], c := 0 },
          postings_placed := 8, TOFs_subtracted := 8, ngram_instances_emitted := 4,
          ngram_instances_not_emitted := 0 } ∧
    (3 ||| SON_FLAG) &&& CON_FLAG = 0 ∧ (5 ||| CON_FLAG) &&& SON_FLAG = 0 ∧
    process_ngrams_file [("N(3,5):4\n".toList.map Char.toNat)] [10, 10, 10, 10, 10] 5 20
        rnd
        { doctable := plug_in_dt_pointers [20], nonfulls := 1, toa := List.replicate 20 0,
          written := [], c := 0 } [] 2
      = Except.ok
        { ngrams := [2, 3, 5, 0, 0, 0, 0, 0], TOFS := [10, 10, 8, 10, 8],
          place :=
            { doctable := [67108880], nonfulls := 1,
              toa := (List.replicate 2 [3 ||| SON_FLAG, 5 ||| CON_FLAG]).flatten
                ++ List.replicate 16 0,
              written := [0, 1, 2, 3], c := 0 },
          postings_placed := 4, TOFs_subtracted := 4, ngram_instances_emitted := 2,
          ngram_instances_not_emitted := 2 } ∧
    process_ngrams_file
        (["N(1,2,3):1\n", "N(1,2):4\n", "N(4,5):1\n"].map
          (fun (s : String) => s.toList.map Char.toNat))
        [10, 10, 10, 10, 10] 5 30 rnd
        { doctable := plug_in_dt_pointers [30], nonfulls := 1, toa := List.replicate 30 0,
          written := [], c := 0 } [] 0
      = Except.ok
        { ngrams := [3, 1, 2, 3, 0, 0, 0, 1, 2, 1, 2, 0, 0, 0, 0, 0, 2, 4, 5, 0, 0, 0, 0, 1],
          TOFS := [6, 6, 9, 10, 10],
          place :=
            { doctable := [150994965], nonfulls := 1,
              toa := [1 ||| SON_FLAG, 2 ||| CON_FLAG, 3 ||| CON_FLAG]
                ++ (List.replicate 3 [1 ||| SON_FLAG, 2 ||| CON_FLAG]).flatten
                ++ List.replicate 21 0,
              written := [0, 1, 2, 3, 4, 5, 6, 7, 8], c := 0 },
          postings_placed := 9, TOFs_subtracted := 9, ngram_instances_emitted := 4,
          ngram_instances_not_emitted := 1 } := by
  refine ⟨rfl, by decide, by decide, rfl, rfl⟩

/-! ### The STARC writer against checkSTARCInMem -/

theorem utf8_bytes_append (a b : String) : utf8_bytes (a ++ b) = utf8_bytes a ++ utf8_bytes b := by
  simp [utf8_bytes, String.data_append, List.flatMap_append]

theorem utf8_bytes_length (s : String) : (utf8_bytes s).length = s.utf8ByteSize := by
  rw [← String.size_toUTF8]
  simp [utf8_bytes, String.toUTF8, ByteArray.size]

theorem utf8_bytes_mk (l : List Char) :
    utf8_bytes (String.mk l) = (l.flatMap String.utf8EncodeChar).map UInt8.toNat := rfl

theorem digitChar_bytes (k : Nat) (hk : k < 10) :
    (String.utf8EncodeChar (Nat.digitChar k)).map UInt8.toNat = [48 + k] := by
  interval_cases k <;> rfl

/-- The value that `digits_value` computes over a run of digits. -/
theorem digits_value_append (ds rest : List Nat) (hd : ∀ c ∈ ds, 48 ≤ c ∧ c ≤ 57)
    (hr : isdigit (rest.headD 0) = false) : ∀ acc,
    digits_value (ds ++ rest) acc = (ds.foldl (fun a c => a * 10 + (c - 48)) acc, rest) := by
  induction ds with
  | nil =>
    intro acc
    cases rest with
    | nil => rfl
    | cons c rest =>
      simp only [List.nil_append, digits_value, List.foldl_nil]
      simp only [List.headD_cons] at hr
      rw [if_neg (by rw [hr]; simp)]
  | cons d ds ih =>
    intro acc
    have h1 := hd d (List.mem_cons_self _ _)
    rw [List.cons_append, digits_value, if_pos (by unfold isdigit; simp; omega), List.foldl_cons]
    exact ih (fun c hc => hd c (List.mem_cons_of_mem _ hc)) _

theorem toDigitsCore_decimal : ∀ fuel n ds, n < fuel →
    ∃ D : List Char, Nat.toDigitsCore 10 fuel n ds = D ++ ds ∧ D ≠ [] ∧
      (∀ c ∈ (D.flatMap String.utf8EncodeChar).map UInt8.toNat, 48 ≤ c ∧ c ≤ 57) ∧
      ∀ acc, ((D.flatMap String.utf8EncodeChar).map UInt8.toNat).foldl
        (fun a c => a * 10 + (c - 48)) acc = acc * 10 ^ D.length + n ∧ n < 10 ^ D.length := by
  intro fuel
  induction fuel with
  | zero => intro n ds h; omega
  | succ fuel ih =>
    intro n ds h
    rw [Nat.toDigitsCore]
    have hb := digitChar_bytes (n % 10) (Nat.mod_lt _ (by norm_num))
    by_cases h0 : n / 10 = 0
    · rw [if_pos h0]
      refine ⟨[Nat.digitChar (n % 10)], rfl, by simp, ?_, ?_⟩
      · simp only [List.flatMap_cons, List.flatMap_nil, List.append_nil, hb]
        intro c hc
        simp only [List.mem_singleton] at hc
        omega
      · intro acc
        simp only [List.flatMap_cons, List.flatMap_nil, List.append_nil, hb, List.foldl_cons,
          List.foldl_nil, List.length_singleton, pow_one]
        omega
    · rw [if_neg h0]
      obtain ⟨D, e1, e2, e3, e4⟩ := ih (n / 10) (Nat.digitChar (n % 10) :: ds) (by omega)
      refine ⟨D ++ [Nat.digitChar (n % 10)], by rw [e1]; simp, by simp, ?_, ?_⟩
      · intro c hc
        simp only [List.flatMap_append, List.map_append, List.flatMap_cons, List.flatMap_nil,
          List.append_nil, hb, List.mem_append, List.mem_singleton] at hc
        rcases hc with hc | hc
        · exact e3 c hc
        · omega
      · intro acc
        simp only [List.flatMap_append, List.map_append, List.flatMap_cons, List.flatMap_nil,
          List.append_nil, hb, List.foldl_append, List.foldl_cons, List.foldl_nil,
          List.length_append, List.length_singleton, pow_succ]
        obtain ⟨e5, e6⟩ := e4 acc
        rw [e5]
        constructor
        · have := Nat.div_add_mod n 10
          have : 48 + n % 10 - 48 = n % 10 := by omega
          rw [this]
          ring_nf
          omega
        · omega

theorem decimal_bytes (n : Nat) :
    utf8_bytes (toString n) ≠ [] ∧ (∀ c ∈ utf8_bytes (toString n), 48 ≤ c ∧ c ≤ 57) ∧
    (utf8_bytes (toString n)).foldl (fun a c => a * 10 + (c - 48)) 0 = n := by
  obtain ⟨D, e1, e2, e3, e4⟩ := toDigitsCore_decimal (n + 1) n [] (by omega)
  have hs : toString n = String.mk D := by
    show Nat.repr n = _
    unfold Nat.repr Nat.toDigits
    rw [e1, List.append_nil]
    rfl
  rw [hs, utf8_bytes_mk]
  refine ⟨?_, e3, ?_⟩
  · cases D with
    | nil => exact absurd rfl e2
    | cons c D =>
      intro h
      have := congrArg List.length h
      simp only [List.flatMap_cons, List.map_append, List.length_append, List.length_map,
        String.length_utf8EncodeChar, List.length_nil] at this
      have hc : 0 < c.utf8Size := Char.utf8Size_pos c
      omega
  · have := (e4 0).1
    simpa using this

theorem strtoll_digits (X rest : List Nat) (c n : Nat) (hh : X.headD 0 = c)
    (hc : 48 ≤ c ∧ c ≤ 57) (hdv : digits_value X 0 = (n, rest)) (hn : n < 2 ^ 63) :
    strtoll (32 :: X) = ((n : Int), rest, false) := by
  have hdw : (32 :: X).dropWhile isspace = X := by
    rw [List.dropWhile_cons_of_pos (by decide)]
    cases X with
    | nil => rfl
    | cons x X =>
      simp only [List.headD_cons] at hh
      rw [List.dropWhile_cons_of_neg]
      simp only [isspace, decide_eq_true_eq]
      omega
  have hs2 : (if c = 45 ∨ c = 43 then X.tail else X) = X := if_neg (by omega)
  have hdg : isdigit c = true := by
    simp only [isdigit, decide_eq_true_eq]; omega
  have hneg : decide (c = 45) = false := by
    simp only [decide_eq_false_iff_not]; omega
  unfold strtoll
  simp only [hdw, hh, hs2, hdg, hdv, hneg, if_true, Bool.false_eq_true, if_false]
  rw [if_neg (by omega)]

theorem strtoll_record (r : Nat × List Nat) (tail : List Nat) (hty : r.1 = 72 ∨ r.1 = 68)
    (hlen : r.2.length < 2 ^ 63) :
    strtoll (starc_record r ++ tail)
      = ((r.2.length : Int), [r.1, 32] ++ r.2 ++ tail, false) := by
  obtain ⟨d1, d2, d3⟩ := decimal_bytes r.2.length
  obtain ⟨c, ds, hds⟩ : ∃ c ds, utf8_bytes (toString r.2.length) = c :: ds := by
    cases h : utf8_bytes (toString r.2.length) with
    | nil => exact absurd h d1
    | cons c ds => exact ⟨c, ds, rfl⟩
  have hc := d2 c (by rw [hds]; exact List.mem_cons_self _ _)
  have hdv := digits_value_append (utf8_bytes (toString r.2.length)) ([r.1, 32] ++ r.2 ++ tail) d2
    (by
      simp only [List.cons_append, List.headD_cons, isdigit, decide_eq_false_iff_not]
      rcases hty with h | h <;> rw [h] <;> omega) 0
  rw [d3] at hdv
  have e : starc_record r ++ tail
      = 32 :: (utf8_bytes (toString r.2.length) ++ ([r.1, 32] ++ r.2 ++ tail)) := by
    simp [starc_record]
  rw [e]
  exact strtoll_digits _ _ c _ (by rw [hds]; rfl) hc hdv hlen

theorem getSTARCLengthAndType_record (r : Nat × List Nat) (tail : List Nat)
    (hty : r.1 = 72 ∨ r.1 = 68) (hlen : r.2.length < 2 ^ 63) :
    getSTARCLengthAndType (starc_record r ++ tail)
      = some (r.2.length, r.1, (starc_record r).length - r.2.length) := by
  unfold getSTARCLengthAndType
  simp only [strtoll_record r tail hty hlen]
  rw [if_neg (by simp)]
  have h1 : ((r.2.length : Int) % 2 ^ 64).toNat = r.2.length := by
    rw [Int.emod_eq_of_lt (by omega) (by omega)]
    simp
  rw [h1]
  simp only [List.cons_append, List.headD_cons, starc_record, List.length_append,
    List.length_cons, List.length_nil, List.nil_append]
  congr 3
  omega

theorem checkSTARC_loop_records (recs : List (Nat × List Nat)) : ∀ (pre : List Nat) (fuel : Nat)
    (counts : STARCCounts),
    (∀ r ∈ recs, (r.1 = 72 ∨ r.1 = 68) ∧ r.2.length < 2 ^ 63) → recs.length < fuel →
    checkSTARC_loop (pre ++ (recs.map starc_record).flatten) fuel pre.length counts
      = some { HCount := counts.HCount + recs.countP (fun r => decide (r.1 = 72)),
               DCount := counts.DCount + recs.countP (fun r => decide (r.1 = 68)),
               TCount := counts.TCount,
               types := counts.types ++ recs.map Prod.fst } := by
  induction recs with
  | nil =>
    intro pre fuel counts _ hf
    obtain ⟨f, rfl⟩ : ∃ f, fuel = f + 1 := ⟨fuel - 1, by simp at hf; omega⟩
    rw [checkSTARC_loop]
    simp
  | cons r rs ih =>
    intro pre fuel counts hr hf
    obtain ⟨f, rfl⟩ : ∃ f, fuel = f + 1 := ⟨fuel - 1, by simp at hf; omega⟩
    obtain ⟨hty, hlen⟩ := hr r (List.mem_cons_self _ _)
    have hpos : 0 < (starc_record r).length := by simp [starc_record]
    have hbl : r.2.length ≤ (starc_record r).length := by
      simp only [starc_record, List.length_append]
      omega
    rw [checkSTARC_loop, if_pos (by
      simp only [List.map_cons, List.flatten_cons, List.length_append]
      omega)]
    have hdrop : (pre ++ ((r :: rs).map starc_record).flatten).drop pre.length
        = starc_record r ++ (rs.map starc_record).flatten := by
      rw [List.drop_left]
      rfl
    rw [hdrop, getSTARCLengthAndType_record r _ hty hlen]
    dsimp only
    have hnext : pre.length + ((starc_record r).length - r.2.length) + r.2.length
        = (pre ++ starc_record r).length := by
      rw [List.length_append]; omega
    have hfile : pre ++ ((r :: rs).map starc_record).flatten
        = (pre ++ starc_record r) ++ (rs.map starc_record).flatten := by
      simp
    rw [hnext, hfile]
    have hrs : ∀ r ∈ rs, (r.1 = 72 ∨ r.1 = 68) ∧ r.2.length < 2 ^ 63 :=
      fun x hx => hr x (List.mem_cons_of_mem _ hx)
    have hf2 : rs.length < f := by simp at hf; omega
    rcases hty with h | h
    · rw [if_pos h, ih _ f _ hrs hf2]
      simp [List.countP_cons, h]
      omega
    · rw [if_neg (by omega), if_pos h, ih _ f _ hrs hf2]
      simp [List.countP_cons, h]
      omega

theorem starc_record_of_string (out : String) (ty : Nat) (tys body : String)
    (hty : utf8_bytes tys = [ty, 32]) :
    utf8_bytes (out ++ " " ++ toString body.utf8ByteSize ++ tys ++ body)
      = utf8_bytes out ++ starc_record (ty, utf8_bytes body) := by
  simp only [utf8_bytes_append, starc_record, utf8_bytes_length, hty, List.append_assoc]
  rfl

theorem write_synthetic_docs_starc_loop_records (term_rep_table : List String)
    (vocab_size : Nat) (include_docnums : Bool) (num_postings : Nat) (rest : List Nat) :
    ∀ p doxWritten doc out o, p + rest.length = num_postings →
      (∀ x, rest.getLast? = some x → x &&& FINAL_POSTING_IN_DOC ≠ 0) →
      write_synthetic_docs_starc_loop term_rep_table vocab_size include_docnums
          num_postings rest p doxWritten doc out = StarcWrite.written o →
      ∃ recs : List (Nat × List Nat),
        recs.map Prod.fst = starc_types include_docnums
          (rest.countP (fun x => decide (x &&& FINAL_POSTING_IN_DOC ≠ 0))) ∧
        utf8_bytes o = utf8_bytes out ++ (recs.map starc_record).flatten := by
  induction rest with
  | nil =>
    intro p doxWritten doc out o _ _ h
    simp only [write_synthetic_docs_starc_loop, StarcWrite.written.injEq] at h
    subst h
    refine ⟨[], ?_, ?_⟩
    · simp [starc_types]
    · simp
  | cons posting rest ih =>
    intro p doxWritten doc out o hp hl h
    have hl2 : ∀ x, rest.getLast? = some x → x &&& FINAL_POSTING_IN_DOC ≠ 0 := by
      intro x hx
      apply hl x
      cases rest with
      | nil => simp at hx
      | cons y ys => rw [List.getLast?_cons_cons]; exact hx
    have hcond : (posting &&& FINAL_POSTING_IN_DOC ≠ 0 ∨ p = num_postings - 1)
        ↔ posting &&& FINAL_POSTING_IN_DOC ≠ 0 := by
      constructor
      · rintro (h | h)
        · exact h
        · have : rest = [] := by
            cases rest with
            | nil => rfl
            | cons y ys => simp only [List.length_cons] at hp; omega
          subst this
          exact hl posting rfl
      · exact Or.inl
    rw [write_synthetic_docs_starc_loop] at h
    dsimp only at h
    generalize (if doc.utf8ByteSize > 0 then doc ++ " " else doc) = doc1 at h
    by_cases hov : doc1.utf8ByteSize
        + (lookup_term_rep term_rep_table vocab_size posting).utf8ByteSize > MAX_DOC_LEN
    · rw [if_pos hov] at h; cases h
    · rw [if_neg hov] at h
      by_cases hc : p + 1 > INT_MAX
      · simp only [if_pos hc, ite_self] at h
        cases h
      · simp only [if_neg hc] at h
        by_cases hf : posting &&& FINAL_POSTING_IN_DOC ≠ 0
        · rw [if_pos (hcond.mpr hf)] at h
          obtain ⟨recs, e1, e2⟩ := ih (p + 1) (doxWritten + 1) "" _ o
            (by simp only [List.length_cons] at hp; omega) hl2 h
          rw [e2, starc_record_of_string _ 68 "D " _ rfl]
          rw [List.countP_cons_of_pos _ _ (by simpa using hf)]
          cases include_docnums with
          | true =>
            rw [if_pos rfl, starc_record_of_string _ 72 "H " _ rfl]
            refine ⟨(72, utf8_bytes ("Doc" ++ pad8 doxWritten)) ::
              (68, utf8_bytes (doc1
                  ++ lookup_term_rep term_rep_table vocab_size posting ++ "\n")) :: recs, ?_, ?_⟩
            · simp only [List.map_cons, e1, starc_types, List.replicate_succ, List.flatten_cons,
                if_true]
              rfl
            · simp only [List.map_cons, List.flatten_cons, List.append_assoc]
          | false =>
            rw [if_neg (by simp)]
            refine ⟨(68, utf8_bytes (doc1
                  ++ lookup_term_rep term_rep_table vocab_size posting ++ "\n")) :: recs, ?_, ?_⟩
            · simp only [List.map_cons, e1, starc_types, List.replicate_succ, List.flatten_cons]
              rfl
            · simp only [List.map_cons, List.flatten_cons, List.append_assoc]
        · rw [if_neg (fun h => hf (hcond.mp h))] at h
          rw [List.countP_cons_of_neg _ _ (by simpa using hf)]
          exact ih (p + 1) doxWritten _ out o (by simp only [List.length_cons] at hp; omega)
            hl2 h

/-- A call that returns has counted its postings in an `int`. -/
theorem write_synthetic_docs_starc_loop_counter (term_rep_table : List String)
    (vocab_size : Nat) (include_docnums : Bool) (num_postings : Nat) (rest : List Nat) :
    ∀ p doxWritten doc out o, p ≤ INT_MAX →
      write_synthetic_docs_starc_loop term_rep_table vocab_size include_docnums
          num_postings rest p doxWritten doc out = StarcWrite.written o →
      p + rest.length ≤ INT_MAX := by
  induction rest with
  | nil => intro p _ _ _ _ hp _; simpa using hp
  | cons posting rest ih =>
    intro p doxWritten doc out o hp h
    rw [write_synthetic_docs_starc_loop] at h
    dsimp only at h
    generalize (if doc.utf8ByteSize > 0 then doc ++ " " else doc) = doc1 at h
    by_cases hov : doc1.utf8ByteSize
        + (lookup_term_rep term_rep_table vocab_size posting).utf8ByteSize > MAX_DOC_LEN
    · rw [if_pos hov] at h; cases h
    · rw [if_neg hov] at h
      by_cases hc : p + 1 > INT_MAX
      · simp only [if_pos hc, ite_self] at h
        cases h
      · simp only [if_neg hc] at h
        simp only [List.length_cons]
        split at h
        · have := ih _ _ _ _ _ (by omega) h
          omega
        · have := ih _ _ _ _ _ (by omega) h
          omega

theorem starc_types_mem (include_docnums : Bool) (d x : Nat)
    (h : x ∈ starc_types include_docnums d) : x = 72 ∨ x = 68 := by
  unfold starc_types at h
  rw [List.mem_flatten] at h
  obtain ⟨l, hl, hx⟩ := h
  rw [List.eq_of_mem_replicate hl] at hx
  cases include_docnums <;> simp at hx <;> omega

theorem starc_types_count (include_docnums : Bool) (d : Nat) :
    (starc_types include_docnums d).countP (fun t => decide (t = 72))
        = (if include_docnums = true then d else 0) ∧
    (starc_types include_docnums d).countP (fun t => decide (t = 68)) = d := by
  induction d with
  | zero => simp [starc_types]
  | succ d ih =>
    obtain ⟨i1, i2⟩ := ih
    unfold starc_types at i1 i2 ⊢
    rw [List.replicate_succ, List.flatten_cons, List.countP_append, List.countP_append, i1, i2]
    cases include_docnums
    · simp [List.countP_cons]; omega
    · simp [List.countP_cons]; omega

theorem length_le_flatten (recs : List (Nat × List Nat)) (r : Nat × List Nat) (h : r ∈ recs) :
    r.2.length ≤ ((recs.map starc_record).flatten).length := by
  induction recs with
  | nil => simp at h
  | cons x xs ih =>
    rw [List.map_cons, List.flatten_cons, List.length_append]
    rcases List.mem_cons.mp h with e | e
    · subst e
      simp only [starc_record, List.length_append]
      omega
    · have := ih e
      omega

theorem records_le_flatten (recs : List (Nat × List Nat)) :
    recs.length ≤ ((recs.map starc_record).flatten).length := by
  induction recs with
  | nil => simp
  | cons x xs ih =>
    rw [List.map_cons, List.flatten_cons, List.length_append, List.length_cons]
    have : 0 < (starc_record x).length := by simp [starc_record]
    omega

theorem utf8ByteSize_append (a b : String) :
    (a ++ b).utf8ByteSize = a.utf8ByteSize + b.utf8ByteSize := by
  rw [← utf8_bytes_length, ← utf8_bytes_length, ← utf8_bytes_length, utf8_bytes_append,
    List.length_append]

/-- A run of `n` postings of one word without the flag, none of them the last
posting, entered with a document buffer that is not empty: while the words
fit, each adds a space and the word to the buffer. -/
theorem write_synthetic_docs_starc_loop_fill (term_rep_table : List String)
    (vocab_size : Nat) (include_docnums : Bool) (num_postings x : Nat)
    (hx : x &&& FINAL_POSTING_IN_DOC = 0) (rest : List Nat) :
    ∀ n p doxWritten doc out, 0 < doc.utf8ByteSize →
      doc.utf8ByteSize
          + n * ((lookup_term_rep term_rep_table vocab_size x).utf8ByteSize + 1) ≤ MAX_DOC_LEN →
      p + n ≤ INT_MAX → p + n < num_postings →
      ∃ doc1 : String,
        doc1.utf8ByteSize = doc.utf8ByteSize
          + n * ((lookup_term_rep term_rep_table vocab_size x).utf8ByteSize + 1) ∧
        write_synthetic_docs_starc_loop term_rep_table vocab_size include_docnums num_postings
            (List.replicate n x ++ rest) p doxWritten doc out
          = write_synthetic_docs_starc_loop term_rep_table vocab_size include_docnums
              num_postings rest (p + n) doxWritten doc1 out := by
  intro n
  induction n with
  | zero =>
    intro p doxWritten doc out _ _ _ _
    exact ⟨doc, by simp, by simp⟩
  | succ n ih =>
    intro p doxWritten doc out hpos hfit hint hlast
    rw [Nat.succ_mul] at hfit
    have hsz : (doc ++ " ").utf8ByteSize = doc.utf8ByteSize + 1 := by
      rw [utf8ByteSize_append]; rfl
    have hsz2 : (doc ++ " " ++ lookup_term_rep term_rep_table vocab_size x).utf8ByteSize
        = doc.utf8ByteSize + 1 + (lookup_term_rep term_rep_table vocab_size x).utf8ByteSize := by
      rw [utf8ByteSize_append, hsz]
    obtain ⟨doc1, e1, e2⟩ := ih (p + 1) doxWritten
      (doc ++ " " ++ lookup_term_rep term_rep_table vocab_size x) out (by rw [hsz2]; omega)
      (by rw [hsz2]; omega) (by omega) (by omega)
    refine ⟨doc1, by rw [e1, hsz2, Nat.succ_mul]; omega, ?_⟩
    rw [List.replicate_succ, List.cons_append, write_synthetic_docs_starc_loop]
    dsimp only
    have hnov : ¬ ((doc ++ " ").utf8ByteSize
        + (lookup_term_rep term_rep_table vocab_size x).utf8ByteSize > MAX_DOC_LEN) := by
      rw [hsz]; omega
    have hnf : ¬ (x &&& FINAL_POSTING_IN_DOC ≠ 0 ∨ p = num_postings - 1) := by
      rintro (h | h)
      · exact h hx
      · omega
    have hnc : ¬ (p + 1 > INT_MAX) := by omega
    rw [if_pos hpos, if_neg hnov, if_neg hnf, if_neg hnc, e2]
    have e : p + 1 + n = p + (n + 1) := by omega
    rw [e]

/-- An array that starts with `n + 1` postings of one word without the flag,
where `n + 1` of these words and their spaces fill the document buffer so far
that the word of the next posting does not fit: the call ends in the overrun. -/
theorem write_synthetic_docs_starc_overrun (term_rep_table : List String)
    (vocab_size : Nat) (include_docnums : Bool) (x z n : Nat) (rest : List Nat)
    (hx : x &&& FINAL_POSTING_IN_DOC = 0)
    (hw : 0 < (lookup_term_rep term_rep_table vocab_size x).utf8ByteSize)
    (hfit : (lookup_term_rep term_rep_table vocab_size x).utf8ByteSize
        + n * ((lookup_term_rep term_rep_table vocab_size x).utf8ByteSize + 1) ≤ MAX_DOC_LEN)
    (hover : (lookup_term_rep term_rep_table vocab_size x).utf8ByteSize
        + n * ((lookup_term_rep term_rep_table vocab_size x).utf8ByteSize + 1) + 1
        + (lookup_term_rep term_rep_table vocab_size z).utf8ByteSize > MAX_DOC_LEN)
    (hint : n + 1 ≤ INT_MAX) :
    write_synthetic_docs_starc (List.replicate (n + 1) x ++ z :: rest)
        (n + 1 + 1 + rest.length) term_rep_table vocab_size include_docnums
      = StarcWrite.buffer_overrun := by
  unfold write_synthetic_docs_starc
  have htake : (List.replicate (n + 1) x ++ z :: rest).take (n + 1 + 1 + rest.length)
      = List.replicate (n + 1) x ++ z :: rest := by
    apply List.take_of_length_le
    simp only [List.length_append, List.length_replicate, List.length_cons]
    omega
  rw [htake, List.replicate_succ, List.cons_append, write_synthetic_docs_starc_loop]
  dsimp only
  have h0 : ¬ (("" : String).utf8ByteSize > 0) := by decide
  have hsz0 : ("" ++ lookup_term_rep term_rep_table vocab_size x).utf8ByteSize
      = (lookup_term_rep term_rep_table vocab_size x).utf8ByteSize := by
    rw [utf8ByteSize_append]
    have : ("" : String).utf8ByteSize = 0 := by decide
    omega
  have hnov : ¬ (("" : String).utf8ByteSize
      + (lookup_term_rep term_rep_table vocab_size x).utf8ByteSize > MAX_DOC_LEN) := by
    have : ("" : String).utf8ByteSize = 0 := by decide
    omega
  have hnf : ¬ (x &&& FINAL_POSTING_IN_DOC ≠ 0 ∨ 0 = n + 1 + 1 + rest.length - 1) := by
    rintro (h | h)
    · exact h hx
    · omega
  have hnc : ¬ (0 + 1 > INT_MAX) := by decide
  rw [if_neg h0, if_neg hnov, if_neg hnf, if_neg hnc]
  obtain ⟨doc1, e1, e2⟩ := write_synthetic_docs_starc_loop_fill term_rep_table vocab_size
    include_docnums (n + 1 + 1 + rest.length) x hx (z :: rest) n (0 + 1) 0
    ("" ++ lookup_term_rep term_rep_table vocab_size x) "" (by rw [hsz0]; exact hw)
    (by rw [hsz0]; exact hfit) (by omega) (by omega)
  rw [e2, write_synthetic_docs_starc_loop]
  dsimp only
  have hpos1 : doc1.utf8ByteSize > 0 := by rw [e1, hsz0]; omega
  have hov : (doc1 ++ " ").utf8ByteSize
      + (lookup_term_rep term_rep_table vocab_size z).utf8ByteSize > MAX_DOC_LEN := by
    rw [utf8ByteSize_append, e1, hsz0]
    have : (" " : String).utf8ByteSize = 1 := by decide
    omega
  rw [if_pos hpos1, if_pos hov]


/-- The overrun, with the number `m` of leading postings as it stands: `m`
words and their spaces fit the buffer, the word of the next posting does not. -/
theorem write_synthetic_docs_starc_overrun_at (term_rep_table : List String)
    (vocab_size : Nat) (include_docnums : Bool) (x z m : Nat) (rest : List Nat)
    (hx : x &&& FINAL_POSTING_IN_DOC = 0)
    (hw : 0 < (lookup_term_rep term_rep_table vocab_size x).utf8ByteSize) (hm : 0 < m)
    (hfit : m * ((lookup_term_rep term_rep_table vocab_size x).utf8ByteSize + 1)
        ≤ MAX_DOC_LEN + 1)
    (hover : m * ((lookup_term_rep term_rep_table vocab_size x).utf8ByteSize + 1)
        + (lookup_term_rep term_rep_table vocab_size z).utf8ByteSize > MAX_DOC_LEN)
    (hint : m ≤ INT_MAX) :
    write_synthetic_docs_starc (List.replicate m x ++ z :: rest)
        (m + 1 + rest.length) term_rep_table vocab_size include_docnums
      = StarcWrite.buffer_overrun := by
  obtain ⟨n, rfl⟩ : ∃ n, m = n + 1 := ⟨m - 1, by omega⟩
  rw [Nat.succ_mul] at hfit hover
  exact write_synthetic_docs_starc_overrun term_rep_table vocab_size include_docnums x z n rest
    hx hw (by omega) (by omega) hint

/-- A stream that `write_synthetic_docs_starc` returns is accepted by
`checkSTARCInMem`, with one D record per flag, one H record before each when
the documents are numbered, and no T record. -/
theorem starc_written_stream_accepted (term_occurrence_array : List Nat)
    (term_rep_table : List String) (vocab_size : Nat) (include_docnums : Bool) (out : String)
    (hlast : ∀ x, term_occurrence_array.getLast? = some x → x &&& FINAL_POSTING_IN_DOC ≠ 0)
    (hret : write_synthetic_docs_starc term_occurrence_array term_occurrence_array.length
      term_rep_table vocab_size include_docnums = StarcWrite.written out)
    (hsize : out.utf8ByteSize < 2 ^ 63) :
    checkSTARCInMem (utf8_bytes out)
      = some
        { HCount := if include_docnums = true then
            term_occurrence_array.countP (fun x => decide (x &&& FINAL_POSTING_IN_DOC ≠ 0))
            else 0,
          DCount :=
            term_occurrence_array.countP (fun x => decide (x &&& FINAL_POSTING_IN_DOC ≠ 0)),
          TCount := 0,
          types := starc_types include_docnums
            (term_occurrence_array.countP
              (fun x => decide (x &&& FINAL_POSTING_IN_DOC ≠ 0))) } := by
  rw [← utf8_bytes_length] at hsize
  unfold write_synthetic_docs_starc at hret
  rw [List.take_length] at hret
  obtain ⟨recs, e1, e2⟩ := write_synthetic_docs_starc_loop_records term_rep_table vocab_size
    include_docnums term_occurrence_array.length term_occurrence_array 0 0 "" "" out
    (Nat.zero_add _) hlast hret
  have e0 : utf8_bytes "" = [] := rfl
  rw [e0, List.nil_append] at e2
  rw [e2] at hsize ⊢
  have hrecs : ∀ r ∈ recs, (r.1 = 72 ∨ r.1 = 68) ∧ r.2.length < 2 ^ 63 := by
    intro r hr
    refine ⟨starc_types_mem include_docnums
      (term_occurrence_array.countP (fun x => decide (x &&& FINAL_POSTING_IN_DOC ≠ 0))) r.1 ?_, ?_⟩
    · rw [← e1]
      exact List.mem_map_of_mem _ hr
    · exact lt_of_le_of_lt (length_le_flatten recs r hr) hsize
  have h := checkSTARC_loop_records recs [] (((recs.map starc_record).flatten).length + 1)
    { HCount := 0, DCount := 0, TCount := 0, types := [] } hrecs
    (Nat.lt_succ_of_le (records_le_flatten recs))
  rw [List.nil_append, List.length_nil] at h
  unfold checkSTARCInMem
  rw [h]
  have c1 : recs.countP (fun r => decide (r.1 = 72))
      = (recs.map Prod.fst).countP (fun t => decide (t = 72)) := by
    rw [List.countP_map]; rfl
  have c2 : recs.countP (fun r => decide (r.1 = 68))
      = (recs.map Prod.fst).countP (fun t => decide (t = 68)) := by
    rw [List.countP_map]; rfl
  obtain ⟨k1, k2⟩ := starc_types_count include_docnums
    (term_occurrence_array.countP (fun x => decide (x &&& FINAL_POSTING_IN_DOC ≠ 0)))
  simp only [c1, c2, e1, k1, k2, Nat.zero_add, List.nil_append]

/-- Claim C19: the round trip holds for the streams that
`write_synthetic_docs_starc` returns, but the function does not return a
stream for every occurrence array.  It builds each document in `docBuffer`,
`MAX_DOC_LEN + 1 = 10485761` bytes, with `strcpy` and no test of the room
left, and counts the postings in an `int`.  Three postings in two numbered
documents are written as the records H, D, H, D, which `checkSTARCInMem`
accepts.  For every occurrence array whose last posting bears the flag and
every term table, a call that returns has counted at most `INT_MAX` postings,
and the stream it returns (shorter than `2^63` bytes) is accepted, with one D
record per flag, one H record before each D record when the documents are
numbered, and no other record.  For one document of 5242881 postings of the
one-letter word `b`, the last bearing the flag, numbered or not, the words
and their spaces need 10485761 bytes and the NUL of the last word is stored
beyond the end of `docBuffer`; so it is for every array that starts with
5242880 such postings followed by a posting of a word that is not empty. -/
theorem starc_writer_overruns_document_buffer :
    write_synthetic_docs_starc [1, 2 ||| FINAL_POSTING_IN_DOC, 0 ||| FINAL_POSTING_IN_DOC] 3
        ["the", "of", "and", "UNKNOWN"] 3 true
      = StarcWrite.written " 11H Doc00000000 7D of and\n 11H Doc00000001 4D the\n" ∧
    checkSTARCInMem (utf8_bytes " 11H Doc00000000 7D of and\n 11H Doc00000001 4D the\n")
      = some { HCount := 2, DCount := 2, TCount := 0, types := [72, 68, 72, 68] } ∧
    (∀ (term_occurrence_array : List Nat) (term_rep_table : List String) (vocab_size : Nat)
        (include_docnums : Bool) (out : String),
      (∀ x, term_occurrence_array.getLast? = some x → x &&& FINAL_POSTING_IN_DOC ≠ 0) →
      write_synthetic_docs_starc term_occurrence_array term_occurrence_array.length
        term_rep_table vocab_size include_docnums = StarcWrite.written out →
      term_occurrence_array.length ≤ INT_MAX ∧
      (out.utf8ByteSize < 2 ^ 63 →
        checkSTARCInMem (utf8_bytes out)
          = some
            { HCount := if include_docnums = true then
                term_occurrence_array.countP (fun x => decide (x &&& FINAL_POSTING_IN_DOC ≠ 0))
                else 0,
              DCount :=
                term_occurrence_array.countP (fun x => decide (x &&& FINAL_POSTING_IN_DOC ≠ 0)),
              TCount := 0,
              types := starc_types include_docnums
                (term_occurrence_array.countP
                  (fun x => decide (x &&& FINAL_POSTING_IN_DOC ≠ 0))) })) ∧
    lookup_term_rep ["a", "b", "UNKNOWN"] 2 1 = "b" ∧
    lookup_term_rep ["a", "b", "UNKNOWN"] 2 (1 ||| FINAL_POSTING_IN_DOC) = "b" ∧
    5242881 * (("b" : String).utf8ByteSize + 1) - 1 = MAX_DOC_LEN + 1 ∧
    (∀ include_docnums : Bool,
      write_synthetic_docs_starc (List.replicate 5242880 1 ++ [1 ||| FINAL_POSTING_IN_DOC])
          5242881 ["a", "b", "UNKNOWN"] 2 include_docnums
        = StarcWrite.buffer_overrun) ∧
    (∀ (include_docnums : Bool) (z : Nat) (rest : List Nat),
      0 < (lookup_term_rep ["a", "b", "UNKNOWN"] 2 z).utf8ByteSize →
      write_synthetic_docs_starc (List.replicate 5242880 1 ++ z :: rest)
          (5242880 + 1 + rest.length) ["a", "b", "UNKNOWN"] 2 include_docnums
        = StarcWrite.buffer_overrun) := by
  have hb : lookup_term_rep ["a", "b", "UNKNOWN"] 2 1 = "b" := by decide
  have hbf : lookup_term_rep ["a", "b", "UNKNOWN"] 2 (1 ||| FINAL_POSTING_IN_DOC) = "b" := by
    decide
  have hsz : ("b" : String).utf8ByteSize = 1 := by decide
  have hgen : ∀ (include_docnums : Bool) (z : Nat) (rest : List Nat),
      0 < (lookup_term_rep ["a", "b", "UNKNOWN"] 2 z).utf8ByteSize →
      write_synthetic_docs_starc (List.replicate 5242880 1 ++ z :: rest)
          (5242880 + 1 + rest.length) ["a", "b", "UNKNOWN"] 2 include_docnums
        = StarcWrite.buffer_overrun := by
    intro include_docnums z rest hz
    apply write_synthetic_docs_starc_overrun_at ["a", "b", "UNKNOWN"] 2 include_docnums 1 z
      5242880 rest (by decide)
    · rw [hb, hsz]; decide
    · decide
    · rw [hb, hsz]; decide
    · rw [hb, hsz]
      have : MAX_DOC_LEN = 10485760 := rfl
      omega
    · decide
  refine ⟨by decide, by decide, ?_, hb, hbf, by rw [hsz]; rfl, ?_, hgen⟩
  · intro term_occurrence_array term_rep_table vocab_size include_docnums out hlast hret
    refine ⟨?_, fun hsize => starc_written_stream_accepted term_occurrence_array term_rep_table
      vocab_size include_docnums out hlast hret hsize⟩
    unfold write_synthetic_docs_starc at hret
    rw [List.take_length] at hret
    have := write_synthetic_docs_starc_loop_counter term_rep_table vocab_size include_docnums
      term_occurrence_array.length term_occurrence_array 0 0 "" "" out (Nat.zero_le _) hret
    omega
  · intro include_docnums
    have := hgen include_docnums (1 ||| FINAL_POSTING_IN_DOC) [] (by rw [hbf, hsz]; decide)
    exact this

/-- Claim C28: with the vowels a, e, i, o, u in either case, `pronouncability`
returns 2 for the word `do` (one vowel, one consonant), where
`test_pronouncability` expects 1, and meets the other six expectations when
`MAX_PRONOUNCABILITY_SCORE` is 2: the error count of the test ends at 1.
For no value of the constant does the error count end at 0. -/
theorem test_pronouncability_counts_an_error :
    pronouncability ascii_vowel 2 ("do".toList.map Char.toNat) = 2 ∧
    ["dxq", "x", "A", "axe", "aardvark", "odd"].map
        (fun (w : String) => pronouncability ascii_vowel 2 (w.toList.map Char.toNat))
      = [0, 0, 1, 2, 2, 2] ∧
    test_pronouncability ascii_vowel 2 = 1 ∧
    ∀ M : Int, 1 ≤ test_pronouncability ascii_vowel M := by
  refine ⟨by decide, by decide, by decide, ?_⟩
  intro M
  have hdo : count_vowels_consonants ascii_vowel ("do".toList.map Char.toNat) 0 0 = (1, 1) := by
    decide
  have haxe : count_vowels_consonants ascii_vowel ("axe".toList.map Char.toNat) 0 0 = (2, 1) := by
    decide
  have h1 : pronouncability ascii_vowel M ("do".toList.map Char.toNat) = (if 2 > M then M else 2) := by
    unfold pronouncability
    rw [hdo]
    simp
  have h2 : pronouncability ascii_vowel M ("axe".toList.map Char.toNat) = (if 2 > M then M else 2) := by
    unfold pronouncability
    rw [haxe]
    simp
  unfold test_pronouncability
  simp only [h1, h2]
  by_cases hM : 2 > M
  · simp only [if_pos hM]
    have : M ≠ 2 := by omega
    simp only [this, ne_eq, not_false_eq_true, if_true]
    omega
  · simp only [if_neg hM]
    simp only [ne_eq, show ¬ ((2 : Int) = 1) by decide, not_false_eq_true, if_true]
    omega

/-- Claim C29: `tailstr("aaa", "aa")` returns NULL although `aaa` ends with
`aa`.  The loop steps over the occurrence at offset 0 and resumes the search
behind it, at offset 2, so the occurrence at offset 1 is never found, and the
comparison at the end is made at offset 0.  For the suffix `.tsv` of the file
names of `main` the function returns the offset of the last occurrence. -/
theorem tailstr_misses_overlapping_suffix :
    tailstr ("aaa".toList.map Char.toNat) ("aa".toList.map Char.toNat) = some none ∧
    ("aaa".toList.map Char.toNat).drop (3 - 2) = "aa".toList.map Char.toNat ∧
    tailstr ("ababab".toList.map Char.toNat) ("abab".toList.map Char.toNat) = some none ∧
    tailstr ("x.tsv".toList.map Char.toNat) (".tsv".toList.map Char.toNat) = some (some 1) ∧
    tailstr ("x.tsv.tsv".toList.map Char.toNat) (".tsv".toList.map Char.toNat)
      = some (some 5) ∧
    tailstr ("x.tsvq".toList.map Char.toNat) (".tsv".toList.map Char.toNat) = some none := by
  decide

theorem dt_pack_eq (p c : Nat) (hp : p < 2 ^ 40) (hc : c < 2 ^ 24) :
    dt_pack p c = p * 2 ^ 24 + c := by
  unfold dt_pack
  have h2 : doctable_pointer_mask2 = 2 ^ 40 - 1 := by decide
  rw [h2, Nat.and_pow_two_sub_one_eq_mod, Nat.mod_eq_of_lt hp, doctable_pointer_shift,
    Nat.shiftLeft_eq, Nat.mul_comm, ← Nat.mul_add_lt_is_or hc, Nat.mul_comm]

theorem plug_loop_getD (lens : List Nat) (hl : ∀ l ∈ lens, l < 2 ^ 24) :
    ∀ idx d, d < lens.length →
      (plug_in_dt_pointers_loop lens idx).getD d 0
        = dt_pack (idx + (lens.take d).sum) (lens.getD d 0) := by
  induction lens with
  | nil => intro idx d hd; simp at hd
  | cons l rest ih =>
    intro idx d hd
    have hl0 : l < 2 ^ 24 := hl l (by simp)
    rw [plug_loop_cons, dt_count_of_lt l hl0]
    cases d with
    | zero => simp
    | succ d =>
      simp only [List.getD_cons_succ, List.take_succ_cons, List.sum_cons]
      rw [ih (fun x hx => hl x (List.mem_cons_of_mem _ hx)) _ d
        (by simp only [List.length_cons] at hd; omega)]
      rw [Nat.add_assoc]

theorem take_sum_le (l : List Nat) (d : Nat) : (l.take d).sum ≤ l.sum := by
  conv_rhs => rw [← List.take_append_drop d l]
  rw [List.sum_append]
  omega

/-- Claim C30: for every doctable that holds only lengths, each below `2^24`
and of total below `2^40`, `plug_in_dt_pointers` keeps the number of entries,
and afterwards entry `d` has its low 24 bits equal to its length and its high
40 bits equal to the sum of the lengths of the entries before it; the fields
read back from the entry are this pointer and this length. -/
theorem plug_in_dt_pointers_prefix_sums (doctable : List Nat)
    (hl : ∀ l ∈ doctable, l < 2 ^ 24) (hs : doctable.sum < 2 ^ 40) :
    (plug_in_dt_pointers doctable).length = doctable.length ∧
    ∀ d, d < doctable.length →
      (plug_in_dt_pointers doctable).getD d 0 % 2 ^ 24 = doctable.getD d 0 ∧
      (plug_in_dt_pointers doctable).getD d 0 / 2 ^ 24 = (doctable.take d).sum ∧
      (plug_in_dt_pointers doctable).getD d 0
        = dt_pack (doctable.take d).sum (doctable.getD d 0) ∧
      dt_pointer ((plug_in_dt_pointers doctable).getD d 0) = (doctable.take d).sum ∧
      dt_count ((plug_in_dt_pointers doctable).getD d 0) = doctable.getD d 0 := by
  refine ⟨plug_loop_length doctable 0, ?_⟩
  intro d hd
  have hc : doctable.getD d 0 < 2 ^ 24 := hl _ (by
    rw [List.getD_eq_getElem?_getD, List.getElem?_eq_getElem hd]
    exact List.getElem_mem hd)
  have hp : (doctable.take d).sum < 2 ^ 40 := lt_of_le_of_lt (take_sum_le doctable d) hs
  have he : (plug_in_dt_pointers doctable).getD d 0
      = dt_pack (doctable.take d).sum (doctable.getD d 0) := by
    unfold plug_in_dt_pointers
    rw [plug_loop_getD doctable hl 0 d hd, Nat.zero_add]
  rw [he]
  refine ⟨?_, ?_, rfl, dt_pointer_pack _ _ hp hc, dt_count_pack _ _ hc⟩
  · rw [dt_pack_eq _ _ hp hc, Nat.mul_comm, Nat.mul_add_mod, Nat.mod_eq_of_lt hc]
  · rw [dt_pack_eq _ _ hp hc, Nat.mul_comm, Nat.mul_add_div (by norm_num),
      Nat.div_eq_of_lt hc, Nat.add_zero]

/-- Witness of C30: the lengths 3, 5 and 2 receive the pointers 0, 3 and 8. -/
theorem plug_in_dt_pointers_prefix_sums_witness :
    plug_in_dt_pointers [3, 5, 2] = [3, 3 * 2 ^ 24 + 5, 8 * 2 ^ 24 + 2] ∧
    (plug_in_dt_pointers [3, 5, 2]).length = [3, 5, 2].length ∧
    ∀ d, d < [3, 5, 2].length →
      (plug_in_dt_pointers [3, 5, 2]).getD d 0 % 2 ^ 24 = [3, 5, 2].getD d 0 ∧
      (plug_in_dt_pointers [3, 5, 2]).getD d 0 / 2 ^ 24 = ([3, 5, 2].take d).sum ∧
      (plug_in_dt_pointers [3, 5, 2]).getD d 0
        = dt_pack ([3, 5, 2].take d).sum ([3, 5, 2].getD d 0) ∧
      dt_pointer ((plug_in_dt_pointers [3, 5, 2]).getD d 0) = ([3, 5, 2].take d).sum ∧
      dt_count ((plug_in_dt_pointers [3, 5, 2]).getD d 0) = [3, 5, 2].getD d 0 :=
  ⟨by decide, plug_in_dt_pointers_prefix_sums [3, 5, 2] (by decide) (by decide)⟩

/-- Claim C26: for the rank 9, which is the table slot 8, `store_unique_markov_word`
draws the length from rank bucket 1, while `setup_transition_matrices`
accumulated the length of the ninth training line in bucket 0; the same
happens at rank 99, with buckets 2 and 1.  The sampler adds 1 to a rank that
is already counted from 1, so for every rank it uses the bucket that the
trainer gives to the next rank; the two agree for the ranks 1 to 8 and 10
to 98. -/
theorem rank_bucket_off_by_one :
    sampling_rankbuk (markov_term_rank 8) = 1 ∧ training_rankbuk 9 = 0 ∧
    sampling_rankbuk (markov_term_rank 98) = 2 ∧ training_rankbuk 99 = 1 ∧
    (∀ t, sampling_rankbuk (markov_term_rank t) = training_rankbuk (t + 2)) ∧
    (List.range' 1 8).map sampling_rankbuk = (List.range' 1 8).map training_rankbuk ∧
    (List.range' 10 89).map sampling_rankbuk = (List.range' 10 89).map training_rankbuk := by
  refine ⟨by decide, by decide, by decide, by decide, fun _ => rfl, by decide, by decide⟩

/-- The tail of 19 ranks for 20 postings: while the carry is below `18/19`
each rank receives one posting and the carry grows by `1/19`. -/
theorem tail_loop_unit_steps (limit : Int) (m : Nat) : ∀ (n k trank : Nat) (TOFS : List Nat)
    (posting : Int), k + n ≤ 18 → posting + n ≤ limit → trank + n < 2 ^ 32 →
    tail_loop limit (20 / 19) (n + m) trank ((k : ℚ) / 19) TOFS posting
      = tail_loop limit (20 / 19) m (trank + n) (((k + n : Nat) : ℚ) / 19)
          (store_run 1 n trank TOFS) (posting + n) := by
  intro n
  induction n with
  | zero => intro k trank TOFS posting _ _ _; simp [store_run]
  | succ n ih =>
    intro k trank TOFS posting hk hp ht
    have hfl : ⌊(20 : ℚ) / 19 + (k : ℚ) / 19⌋ = 1 := by
      rw [Int.floor_eq_iff]
      have h1 : (k : ℚ) ≤ 17 := by exact_mod_cast (by omega : k ≤ 17)
      have h0 : (0 : ℚ) ≤ k := by positivity
      constructor
      · push_cast; linarith
      · push_cast; linarith
    rw [show n + 1 + m = (n + m) + 1 by omega, tail_loop]
    simp only [hfl]
    have hnot : ¬ (posting + 1 > limit) := by push_cast at hp; omega
    rw [if_neg hnot, Nat.mod_eq_of_lt (by omega)]
    have hc : (20 : ℚ) / 19 + (k : ℚ) / 19 - ((1 : Int) : ℚ) = (((k + 1 : Nat)) : ℚ) / 19 := by
      push_cast; ring
    rw [hc, ih (k + 1) (trank + 1) _ (posting + 1) (by omega) (by push_cast at hp ⊢; omega)
      (by omega)]
    have e1 : trank + 1 + n = trank + (n + 1) := by omega
    have e2 : k + 1 + n = k + (n + 1) := by omega
    have e3 : posting + 1 + (n : Int) = posting + ((n + 1 : Nat) : Int) := by push_cast; ring
    rw [e1, e2, e3]
    rfl

/-- Claim C21: with 20 postings, 20 terms, no head terms and the tail
percentage 100, the single middle segment is `F = 1`, `L = 0` and holds no
rank; the tail starts at rank 2, so rank 1 is never assigned: the array
returned holds 0 for rank 1, 1 for the ranks 2 to 19 and 2 for rank 20. -/
theorem TOFS_scenario_skips_first_rank (mid_tf : Nat → Nat → Int) :
    create_and_fill_TOFS_array 20 20 [] [⟨1, 0⟩] mid_tf
      = [0, 1, 1, 1, 1, 1, 1, 1, 1, 1, 1, 1, 1, 1, 1, 1, 1, 1, 1, 2] := by
  have h := tail_loop_unit_steps 20 1 18 0 2 (List.replicate 20 0) 0 (by norm_num) (by norm_num)
    (by norm_num)
  have hfl : ⌊(20 : ℚ) / 19 + ((0 + 18 : Nat) : ℚ) / 19⌋ = 2 := by
    rw [Int.floor_eq_iff]
    constructor <;> norm_num
  have hrun : store_run 1 18 2 (List.replicate 20 0)
      = [0, 1, 1, 1, 1, 1, 1, 1, 1, 1, 1, 1, 1, 1, 1, 1, 1, 1, 1, 0] := by decide
  simp only [Nat.cast_zero, zero_div, hrun] at h
  simp only [create_and_fill_TOFS_array, head_loop, middle_loop, middle_ranks]
  norm_num
  rw [h]
  simp only [tail_loop, hfl]
  norm_num [store_ull]
  rfl

theorem write_term_fits (termids : List Nat) (tt : term_type_t) (N : Nat) :
    ∀ (n k p c : Nat) (toa w : List Nat), p + n ≤ N →
      ∃ r, write_term termids tt N n k p c toa w = some r := by
  intro n
  induction n with
  | zero => intro k p c toa w _; exact ⟨_, rfl⟩
  | succ n ih =>
    intro k p c toa w h
    rw [write_term, if_neg (by omega)]
    exact ih _ _ _ _ _ (by omega)

theorem retry_pick_eq (rnd : Nat → Nat) (s : PlaceState) (h : 0 < s.nonfulls) :
    (if s.nonfulls = 1 then some (0, s.c)
      else (random_long_long 0 (s.nonfulls - 1) (rnd s.c)).map (fun j => (j, s.c + 1)))
      = some (retry_pick rnd s.nonfulls s.c, if s.nonfulls = 1 then s.c else s.c + 1) := by
  by_cases h1 : s.nonfulls = 1
  · simp [h1, retry_pick]
  · have : ¬ (s.nonfulls - 1 < 0 ∨ s.nonfulls - 1 - 0 < 1) := by omega
    have e : s.nonfulls - 1 - 0 + 1 = s.nonfulls := by omega
    have e2 : s.nonfulls - 1 + 1 = s.nonfulls := by omega
    simp [h1, random_long_long, retry_pick, e2]
    omega

theorem place_retry_step (termids : List Nat) (term_len : Nat) (tt : term_type_t) (N : Nat)
    (rnd : Nat → Nat) (n : Nat) (s : PlaceState) (h : 0 < s.nonfulls) :
    (dt_count (s.doctable.getD (retry_pick rnd s.nonfulls s.c) 0) < term_len →
      place_retry termids term_len tt N rnd (n + 1) s
        = place_retry termids term_len tt N rnd n
            { s with c := if s.nonfulls = 1 then s.c else s.c + 1 }) ∧
    (term_len ≤ dt_count (s.doctable.getD (retry_pick rnd s.nonfulls s.c) 0) →
      (place_retry termids term_len tt N rnd (n + 1) s = none ∨
        ∃ s1, place_retry termids term_len tt N rnd (n + 1) s = some (0, s1)) ∧
      (dt_pointer (s.doctable.getD (retry_pick rnd s.nonfulls s.c) 0) + term_len ≤ N →
        ∃ s1, place_retry termids term_len tt N rnd (n + 1) s = some (0, s1))) := by
  rw [place_retry, if_neg (by omega), retry_pick_eq rnd s h]
  dsimp only
  constructor
  · intro hc
    rw [if_neg (by omega)]
  · intro hc
    rw [if_pos (by omega)]
    cases hw : write_term termids tt N term_len 0
        (dt_pointer (s.doctable.getD (retry_pick rnd s.nonfulls s.c) 0))
        (dt_count (s.doctable.getD (retry_pick rnd s.nonfulls s.c) 0)) s.toa s.written with
    | none =>
      refine ⟨Or.inl rfl, ?_⟩
      intro hfit
      obtain ⟨r, hr⟩ := write_term_fits termids tt N term_len 0 _
        (dt_count (s.doctable.getD (retry_pick rnd s.nonfulls s.c) 0)) s.toa s.written hfit
      rw [hr] at hw
      cases hw
    | some r =>
      obtain ⟨p1, c1, toa1, w1⟩ := r
      dsimp only
      by_cases h0 : c1 = 0
      · rw [if_pos h0]
        exact ⟨Or.inr ⟨_, rfl⟩, fun _ => ⟨_, rfl⟩⟩
      · rw [if_neg h0]
        exact ⟨Or.inr ⟨_, rfl⟩, fun _ => ⟨_, rfl⟩⟩

theorem retry_pick_shift (rnd : Nat → Nat) (nonfulls c i : Nat) :
    retry_pick rnd nonfulls ((if nonfulls = 1 then c else c + 1) + i)
      = retry_pick rnd nonfulls (c + (i + 1)) := by
  unfold retry_pick
  by_cases h : nonfulls = 1
  · simp [h]
  · simp only [h, if_false]
    rw [show c + 1 + i = c + (i + 1) by omega]

theorem retry_pick_lt (rnd : Nat → Nat) (nonfulls c : Nat) (h : 0 < nonfulls) :
    retry_pick rnd nonfulls c < nonfulls := by
  unfold retry_pick
  split
  · exact h
  · exact Nat.mod_lt _ h

theorem place_retry_outcomes (termids : List Nat) (term_len : Nat) (tt : term_type_t) (N : Nat)
    (rnd : Nat → Nat) : ∀ (n : Nat) (s : PlaceState), 0 < s.nonfulls →
    ((∀ i, i < n →
        dt_count (s.doctable.getD (retry_pick rnd s.nonfulls (s.c + i)) 0) < term_len) →
      ∃ s1, place_retry termids term_len tt N rnd n s = some (2, s1) ∧
        s1.doctable = s.doctable ∧ s1.nonfulls = s.nonfulls ∧ s1.toa = s.toa ∧
        s1.written = s.written) ∧
    ((∃ i, i < n ∧
        term_len ≤ dt_count (s.doctable.getD (retry_pick rnd s.nonfulls (s.c + i)) 0)) →
      (place_retry termids term_len tt N rnd n s = none ∨
        ∃ s1, place_retry termids term_len tt N rnd n s = some (0, s1)) ∧
      ((∀ j, j < s.nonfulls →
          dt_pointer (s.doctable.getD j 0) + dt_count (s.doctable.getD j 0) ≤ N) →
        ∃ s1, place_retry termids term_len tt N rnd n s = some (0, s1))) := by
  intro n
  induction n with
  | zero =>
    intro s _
    refine ⟨fun _ => ⟨s, rfl, rfl, rfl, rfl, rfl⟩, ?_⟩
    rintro ⟨i, hi, _⟩
    omega
  | succ n ih =>
    intro s hs
    obtain ⟨st1, st2⟩ := place_retry_step termids term_len tt N rnd n s hs
    have ih1 := ih { s with c := if s.nonfulls = 1 then s.c else s.c + 1 } hs
    simp only [retry_pick_shift] at ih1
    by_cases h0 : dt_count (s.doctable.getD (retry_pick rnd s.nonfulls s.c) 0) < term_len
    · rw [st1 h0]
      constructor
      · intro hall
        exact ih1.1 (fun i hi => hall (i + 1) (by omega))
      · rintro ⟨i, hi, hc⟩
        cases i with
        | zero => rw [Nat.add_zero] at hc; omega
        | succ i => exact ih1.2 ⟨i, by omega, hc⟩
    · have h0 : term_len ≤ dt_count (s.doctable.getD (retry_pick rnd s.nonfulls s.c) 0) := by
        omega
      obtain ⟨a1, a2⟩ := st2 h0
      constructor
      · intro hall
        have := hall 0 (by omega)
        rw [Nat.add_zero] at this
        omega
      · intro _
        refine ⟨a1, fun hfit => a2 ?_⟩
        have := hfit _ (retry_pick_lt rnd s.nonfulls s.c hs)
        omega

/-- Claim C27: a call of `place_one_word_instance_in_a_random_document` returns
outcome 1 exactly when no document is non-full on entry, and outcome 2 exactly
when some document is non-full and each of the `MAX_RANDOM_RETRIES` documents
picked has fewer slots left than the term is long; with either outcome the
doctable, the count of non-full documents and the occurrence array are as on
entry.  No other outcome than 0, 1 and 2 is returned, and when the slots of
every non-full document lie inside the occurrence array the call returns, so
that in every other case it returns outcome 0. -/
theorem failed_placement_is_atomic (termids : List Nat) (term_len : Nat)
    (term_type : term_type_t) (num_postings : Nat) (rnd : Nat → Nat) (s : PlaceState) :
    ((∃ s1, place_one_word_instance_in_a_random_document termids term_len term_type
        num_postings rnd s = some (1, s1)) ↔ s.nonfulls = 0) ∧
    ((∃ s1, place_one_word_instance_in_a_random_document termids term_len term_type
        num_postings rnd s = some (2, s1)) ↔
      (0 < s.nonfulls ∧ ∀ i, i < MAX_RANDOM_RETRIES →
        dt_count (s.doctable.getD (retry_pick rnd s.nonfulls (s.c + i)) 0) < term_len)) ∧
    (∀ o s1, place_one_word_instance_in_a_random_document termids term_len term_type
        num_postings rnd s = some (o, s1) →
      (o = 0 ∨ o = 1 ∨ o = 2) ∧
      (o ≠ 0 → s1.doctable = s.doctable ∧ s1.nonfulls = s.nonfulls ∧ s1.toa = s.toa)) ∧
    ((∀ j, j < s.nonfulls →
        dt_pointer (s.doctable.getD j 0) + dt_count (s.doctable.getD j 0) ≤ num_postings) →
      ∃ o s1, place_one_word_instance_in_a_random_document termids term_len term_type
        num_postings rnd s = some (o, s1)) := by
  unfold place_one_word_instance_in_a_random_document
  by_cases hz : s.nonfulls = 0
  · have h1 : place_retry termids term_len term_type num_postings rnd MAX_RANDOM_RETRIES s
        = some (1, s) := by
      rw [show MAX_RANDOM_RETRIES = 4999 + 1 from rfl, place_retry, if_pos (by omega)]
    rw [h1]
    refine ⟨⟨fun _ => hz, fun _ => ⟨s, rfl⟩⟩, ⟨?_, ?_⟩, ?_, fun _ => ⟨1, s, rfl⟩⟩
    · rintro ⟨s1, e⟩
      simp at e
    · rintro ⟨hp, _⟩
      omega
    · intro o s1 e
      simp only [Option.some.injEq, Prod.mk.injEq] at e
      obtain ⟨e1, e2⟩ := e
      subst e1 e2
      exact ⟨Or.inr (Or.inl rfl), fun _ => ⟨rfl, rfl, rfl⟩⟩
  · have hp : 0 < s.nonfulls := by omega
    obtain ⟨o1, o2⟩ := place_retry_outcomes termids term_len term_type num_postings rnd
      MAX_RANDOM_RETRIES s hp
    by_cases hall : ∀ i, i < MAX_RANDOM_RETRIES →
        dt_count (s.doctable.getD (retry_pick rnd s.nonfulls (s.c + i)) 0) < term_len
    · obtain ⟨s2, e, f1, f2, f3, _⟩ := o1 hall
      rw [e]
      refine ⟨⟨?_, fun h => absurd h hz⟩, ⟨fun _ => ⟨hp, hall⟩, fun _ => ⟨s2, rfl⟩⟩, ?_,
        fun _ => ⟨2, s2, rfl⟩⟩
      · rintro ⟨s1, e1⟩
        simp at e1
      · intro o s1 e1
        simp only [Option.some.injEq, Prod.mk.injEq] at e1
        obtain ⟨e2, e3⟩ := e1
        subst e2 e3
        exact ⟨Or.inr (Or.inr rfl), fun _ => ⟨f1, f2, f3⟩⟩
    · have hex : ∃ i, i < MAX_RANDOM_RETRIES ∧
          term_len ≤ dt_count (s.doctable.getD (retry_pick rnd s.nonfulls (s.c + i)) 0) := by
        by_contra hne
        apply hall
        intro i hi
        by_contra hlt
        exact hne ⟨i, hi, by omega⟩
      obtain ⟨a1, a2⟩ := o2 hex
      refine ⟨⟨?_, fun h => absurd h hz⟩, ⟨?_, fun h => absurd h.2 hall⟩, ?_, ?_⟩
      · rintro ⟨s1, e1⟩
        rcases a1 with a | ⟨s2, a⟩ <;> rw [a] at e1 <;> simp at e1
      · rintro ⟨s1, e1⟩
        rcases a1 with a | ⟨s2, a⟩ <;> rw [a] at e1 <;> simp at e1
      · intro o s1 e1
        rcases a1 with a | ⟨s2, a⟩
        · rw [a] at e1; cases e1
        · rw [a] at e1
          simp only [Option.some.injEq, Prod.mk.injEq] at e1
          exact ⟨Or.inl e1.1.symm, fun h => absurd e1.1.symm h⟩
      · intro hfit
        obtain ⟨s2, a⟩ := a2 hfit
        exact ⟨0, s2, a⟩

/-- Witness of C27: a term of 3 postings and one non-full document with 2
slots left: every retry picks that document, and the call returns outcome 2
with the state as on entry. -/
theorem failed_placement_is_atomic_witness :
    ∃ s1, place_one_word_instance_in_a_random_document [7, 8, 9] 3 term_type_t.TT_NGRAM 2
        (fun n => n)
        { doctable := plug_in_dt_pointers [2], nonfulls := 1, toa := [0, 0], written := [],
          c := 0 } = some (2, s1) :=
  (failed_placement_is_atomic [7, 8, 9] 3 term_type_t.TT_NGRAM 2 (fun n => n)
    { doctable := plug_in_dt_pointers [2], nonfulls := 1, toa := [0, 0], written := [],
      c := 0 }).2.1.mpr ⟨by decide, fun i _ => by
        show dt_count ((plug_in_dt_pointers [2]).getD (retry_pick (fun n => n) 1 (0 + i)) 0) < 3
        rw [show retry_pick (fun n => n) 1 (0 + i) = 0 from rfl]
        decide⟩

theorem row_index_loop_lt (buf : List Nat) (p : Nat) : ∀ (n i index r : Nat),
    row_index_loop buf p n i index = some r → r < (index + 1) * E_alphabet_size ^ n := by
  intro n
  induction n with
  | zero =>
    intro i index r h
    simp only [row_index_loop, Option.some.injEq] at h
    subst h
    simp
  | succ n ih =>
    intro i index r h
    rw [row_index_loop] at h
    split at h
    · cases h
    · rename_i hrm
      have := ih _ _ _ h
      have h2 : index * E_alphabet_size + row_map (buf.getD (p + i) 0) + 1
          ≤ (index + 1) * E_alphabet_size := by
        rw [Nat.add_mul]; omega
      calc r < (index * E_alphabet_size + row_map (buf.getD (p + i) 0) + 1)
            * E_alphabet_size ^ n := this
        _ ≤ (index + 1) * E_alphabet_size * E_alphabet_size ^ n :=
            Nat.mul_le_mul_right _ h2
        _ = (index + 1) * E_alphabet_size ^ (n + 1) := by
            rw [Nat.pow_succ, Nat.mul_assoc, Nat.mul_comm E_alphabet_size]

theorem calculate_row_index_lt ( eow : Bool) (buf : List Nat) (p k : Nat) :
    (calculate_row_index eow buf p k).getD 0 < E_alphabet_size ^ k * A_alphabet_size eow := by
  have hA := A_alphabet_size_pos eow
  unfold calculate_row_index
  by_cases hk : k = 0
  · subst hk
    simp only [if_true, Option.getD_some]
    have : E_alphabet_size ^ 0 = 1 := rfl
    rw [this]
    omega
  · rw [if_neg hk]
    cases h : row_index_loop buf p k 0 0 with
    | none =>
      simp only [Option.getD_none]
      exact Nat.mul_pos (Nat.pow_pos (by decide)) (by omega)
    | some index =>
      simp only [Option.getD_some]
      have := row_index_loop_lt buf p k 0 0 index h
      rw [Nat.zero_add, Nat.one_mul] at this
      exact Nat.mul_lt_mul_of_pos_right this (by omega)

theorem check_rows_overflow ( eow : Bool) (tm : Nat → ℚ) : ∀ (n r e : Nat),
    r ≤ INT_MAX → INT_MAX < r + n → (∀ t, t < n → tm (e + t * A_alphabet_size eow) = 1) →
    check_rows eow tm n r e = CheckEnd.counter_overflow := by
  intro n
  induction n with
  | zero => intro r e h1 h2; omega
  | succ n ih =>
    intro r e h1 h2 h
    simp only [check_rows]
    have h0 := h 0 (by omega)
    simp only [Nat.zero_mul, Nat.add_zero] at h0
    rw [h0, if_neg (by norm_num)]
    by_cases hr : r + 1 > INT_MAX
    · rw [if_pos hr]
    · rw [if_neg hr]
      apply ih _ _ (by omega) (by omega)
      intro t ht
      have := h (t + 1) (by omega)
      rw [Nat.succ_mul] at this
      rw [← this]
      congr 1
      omega

theorem check_ones_overflow ( eow : Bool) : ∀ (n k e : Nat), k + n = MAX_MARKOV_K →
    check_transition_matrices eow (fun _ => 1) (n + 1) (E_alphabet_size ^ k) e
      = CheckEnd.counter_overflow := by
  intro n
  induction n with
  | zero =>
    intro k e hk
    have hk7 : k = MAX_MARKOV_K := by omega
    have hbig : INT_MAX < 0 + E_alphabet_size ^ k := by
      rw [hk7]
      norm_num [INT_MAX, E_alphabet_size, MAX_MARKOV_K]
    generalize E_alphabet_size ^ k = num_rows at hbig
    rw [check_transition_matrices,
      check_rows_overflow eow _ num_rows 0 e (Nat.zero_le _) hbig (fun _ _ => rfl)]
  | succ n ih =>
    intro k e hk
    rw [check_transition_matrices]
    rw [check_rows_pass eow _ _ 0 e (by have := pow_E_le_INT_MAX k (by omega); omega)
      (fun _ _ => rfl)]
    simp only
    rw [← Nat.pow_succ]
    exact ih (k + 1) _ (by omega)

/-- Claim C25: for the order `MAX_MARKOV_K = 7` a row number stays below
`E^7` and an element offset below `A * E^7`, and these and the size of all the
matrices together are below `2^63`, the range of the 64-bit types that hold
them.  The row counter `r` of `check_transition_matrices` is an `int`, and the
matrix of order 7 has `E^7 = 10460353203` rows, more than `INT_MAX`: the check
never passes for the order 7, whatever the matrices hold, so that
`setup_transition_matrices` does not return; on matrices whose rows all end in
1 it ends with the counter leaving the range of `int`.  The variable
`backoff_power`, a `long long`, is multiplied up to `A^15` in the order 6,
which is above `2^63`. -/
theorem check_row_counter_leaves_int :
    E_alphabet_size ^ MAX_MARKOV_K < 2 ^ 63 ∧
    E_alphabet_size ^ MAX_MARKOV_K * A_alphabet_size true < 2 ^ 63 ∧
    Markov true (MAX_MARKOV_K + 1) < 2 ^ 63 ∧
    (∀ (buf : List Nat) (p : Nat),
      (calculate_row_index true buf p MAX_MARKOV_K).getD 0
        < E_alphabet_size ^ MAX_MARKOV_K * A_alphabet_size true) ∧
    INT_MAX < E_alphabet_size ^ MAX_MARKOV_K ∧
    (∀ ( eow : Bool) (tm : Nat → ℚ),
      check_transition_matrices eow tm (MAX_MARKOV_K + 1) 1 (A_alphabet_size eow - 1)
          = CheckEnd.bad_row ∨
      check_transition_matrices eow tm (MAX_MARKOV_K + 1) 1 (A_alphabet_size eow - 1)
          = CheckEnd.counter_overflow) ∧
    (∀ ( eow : Bool),
      check_transition_matrices eow (fun _ => 1) (MAX_MARKOV_K + 1) 1 (A_alphabet_size eow - 1)
        = CheckEnd.counter_overflow) ∧
    (∀ ( eow : Bool) (markov_full_backoff : Bool) (lines : List (List Nat)),
      setup_transition_matrices eow markov_full_backoff MAX_MARKOV_K lines = none) ∧
    (2 : Int) ^ 63 - 1 < (A_alphabet_size true : Int) ^ 15 ∧
    (2 : Int) ^ 63 - 1 < (A_alphabet_size false : Int) ^ 15 ∧
    backoff_power_at true 5 = (A_alphabet_size true : Int) ^ 10 ∧
    backoff_power_at true 6 = wrap64 ((A_alphabet_size true : Int) ^ 15) ∧
    backoff_power_at true 6 = 2833654757305440083 := by
  have hnp : ∀ ( eow : Bool) (tm : Nat → ℚ) (e1 : Nat),
      check_transition_matrices eow tm (MAX_MARKOV_K + 1) 1 (A_alphabet_size eow - 1)
        ≠ CheckEnd.passed e1 :=
    fun eow tm e1 => check_not_passed eow tm MAX_MARKOV_K 1 _ e1 (by decide)
  refine ⟨by decide, by decide, by decide, fun buf p => calculate_row_index_lt true buf p _,
    by decide, ?_, ?_, ?_, by decide, by decide, by decide, by decide, by decide⟩
  · intro eow tm
    cases h : check_transition_matrices eow tm (MAX_MARKOV_K + 1) 1 (A_alphabet_size eow - 1) with
    | passed e1 => exact absurd h (hnp eow tm e1)
    | bad_row => exact Or.inl rfl
    | counter_overflow => exact Or.inr rfl
  · intro eow
    have := check_ones_overflow eow MAX_MARKOV_K 0 (A_alphabet_size eow - 1) (by omega)
    simpa using this
  · intro eow full lines
    unfold setup_transition_matrices convert_transition_matrices_to_probs
    cases trained_counts eow MAX_MARKOV_K lines with
    | none => rfl
    | some counts =>
      simp only
      cases convert_orders eow full (MAX_MARKOV_K + 1) 0 1 1 none counts with
      | none => rfl
      | some tm1 =>
        simp only
        cases h : check_transition_matrices eow tm1 (MAX_MARKOV_K + 1) 1
            (A_alphabet_size eow - 1) with
        | passed e1 => exact absurd h (hnp eow tm1 e1)
        | bad_row => rfl
        | counter_overflow => rfl

/-! ### convert_matrix_rows_to_cumprobs applied twice -/

theorem cumprob_row_spec (S : ℚ) (s : Nat) : ∀ (n j : Nat) (cum : ℚ) (M : Nat → ℚ),
    (∀ x, (x < s + j ∨ s + j + n ≤ x) → cumprob_row S s n j cum M x = M x) ∧
    (∀ t, t < n → cumprob_row S s n j cum M (s + j + t) = cum + sum_row M (s + j) (t + 1) / S) := by
  intro n
  induction n with
  | zero =>
    intro j cum M
    exact ⟨fun _ _ => rfl, fun t ht => absurd ht (by omega)⟩
  | succ n ih =>
    intro j cum M
    rw [cumprob_row]
    obtain ⟨i1, i2⟩ := ih (j + 1) (cum + M (s + j) / S) (store M (s + j) (cum + M (s + j) / S))
    constructor
    · intro x hx
      rw [i1 x (by omega), store_other _ _ _ _ (by omega)]
    · intro t ht
      cases t with
      | zero =>
        rw [i1 _ (Or.inl (by omega)), Nat.add_zero, store_same]
        simp [sum_row]
      | succ t =>
        have := i2 t (by omega)
        rw [show s + (j + 1) + t = s + j + (t + 1) by omega] at this
        rw [this]
        have hs : sum_row (store M (s + j) (cum + M (s + j) / S)) (s + (j + 1)) (t + 1)
            = sum_row M (s + (j + 1)) (t + 1) :=
          sum_row_congr _ _ _ _ (fun x _ => store_other _ _ _ _ (by omega))
        rw [hs, sum_row_succ_left M (s + j) (t + 1)]
        rw [show s + j + 1 = s + (j + 1) by omega]
        ring

/-- One application: every row with a positive sum holds the cumulative sums
of its entries divided by the row sum, and every other row is as before. -/
theorem convert_matrix_rows_loop_spec (columns : Nat) : ∀ (n i : Nat) (M : Nat → ℚ),
    (∀ x, (x < i * columns ∨ (i + n) * columns ≤ x) →
      convert_matrix_rows_loop columns n i M x = M x) ∧
    ∀ q, i ≤ q → q < i + n → ∀ t, t < columns →
      convert_matrix_rows_loop columns n i M (q * columns + t)
        = if sum_row M (q * columns) columns > 0 then
            sum_row M (q * columns) (t + 1) / sum_row M (q * columns) columns
          else M (q * columns + t) := by
  intro n
  induction n with
  | zero =>
    intro i M
    exact ⟨fun _ _ => rfl, fun q h1 h2 => absurd h2 (by omega)⟩
  | succ n ih =>
    intro i M
    have hmul : (i + 1) * columns = i * columns + columns := Nat.succ_mul _ _
    have hmul2 : (i + (n + 1)) * columns = (i + 1 + n) * columns := by congr 1; omega
    have hmul3 : (i + 1) * columns ≤ (i + 1 + n) * columns := Nat.mul_le_mul_right _ (by omega)
    rw [convert_matrix_rows_loop]
    obtain ⟨c1, c2⟩ := cumprob_row_spec (sum_row M (i * columns) columns) (i * columns)
      columns 0 0 M
    simp only [Nat.add_zero, zero_add] at c1 c2
    by_cases hS : sum_row M (i * columns) columns > 0
    · rw [if_pos hS]
      obtain ⟨e1, e2⟩ := ih (i + 1) (cumprob_row (sum_row M (i * columns) columns) (i * columns)
        columns 0 0 M)
      constructor
      · intro x hx
        rw [e1 x (by omega), c1 x (by omega)]
      · intro q hq1 hq2 t ht
        by_cases hqi : q = i
        · subst hqi
          rw [e1 _ (Or.inl (by omega)), c2 t ht, if_pos hS]
        · have hle : (i + 1) * columns ≤ q * columns := Nat.mul_le_mul_right _ (by omega)
          rw [e2 q (by omega) (by omega) t ht]
          have hs : ∀ m, m ≤ columns →
              sum_row (cumprob_row (sum_row M (i * columns) columns) (i * columns) columns 0 0 M)
                (q * columns) m = sum_row M (q * columns) m :=
            fun m _ => sum_row_congr _ _ _ _ (fun x _ => c1 _ (Or.inr (by omega)))
          rw [hs _ (le_refl _), hs _ (by omega), c1 _ (Or.inr (by omega))]
    · rw [if_neg hS]
      obtain ⟨e1, e2⟩ := ih (i + 1) M
      constructor
      · intro x hx
        rw [e1 x (by omega)]
      · intro q hq1 hq2 t ht
        by_cases hqi : q = i
        · subst hqi
          rw [e1 _ (Or.inl (by omega)), if_neg hS]
        · exact e2 q (by omega) (by omega) t ht

/-- A row of cumulative probabilities with a positive entry before the last
column is changed by a further conversion: its sum is above 1. -/
theorem second_pass_changes (p : Nat → ℚ) (s n j : Nat) (hp : ∀ t, t < n → 0 ≤ p (s + t))
    (h1 : p (s + (n - 1)) = 1) (hj : j + 1 < n) (hpj : 0 < p (s + j)) :
    ¬ (∀ t, t < n → sum_row p s (t + 1) / sum_row p s n = p (s + t)) := by
  intro hfix
  obtain ⟨m, rfl⟩ : ∃ m, n = m + 1 := ⟨n - 1, by omega⟩
  simp only [Nat.add_sub_cancel] at h1
  have hS : 1 < sum_row p s (m + 1) := by
    have h2 : p (s + j) ≤ sum_row p s m :=
      sum_row_ge p s m (fun t ht => hp t (by omega)) j (by omega)
    show 1 < sum_row p s m + p (s + m)
    linarith
  have hzero : ∀ t, t < m + 1 → ∀ u, u ≤ t → p (s + u) = 0 := by
    intro t
    induction t with
    | zero =>
      intro ht u hu
      have hu0 : u = 0 := by omega
      subst hu0
      have := hfix 0 (by omega)
      have e : sum_row p s (0 + 1) = p (s + 0) := by simp [sum_row]
      rw [e, div_eq_iff (by linarith)] at this
      nlinarith
    | succ t ih =>
      intro ht u hu
      by_cases hut : u ≤ t
      · exact ih (by omega) u hut
      · have hu1 : u = t + 1 := by omega
        subst hu1
        have := hfix (t + 1) ht
        have e : sum_row p s (t + 1 + 1) = p (s + (t + 1)) := by
          show sum_row p s (t + 1) + p (s + (t + 1)) = _
          rw [sum_row_zero p s (t + 1) (fun x hx => ih (by omega) x (by omega))]
          ring
        rw [e, div_eq_iff (by linarith)] at this
        nlinarith
  have := hzero m (by omega) m (le_refl _)
  rw [this] at h1
  exact absurd h1 (by norm_num)

/-- A row `0, ..., 0, 1` is left as it is by a further conversion. -/
theorem second_pass_keeps (p : Nat → ℚ) (s n : Nat) (hn : 0 < n)
    (h0 : ∀ t, t + 1 < n → p (s + t) = 0) (h1 : p (s + (n - 1)) = 1) :
    sum_row p s n = 1 ∧ ∀ t, t < n → sum_row p s (t + 1) / sum_row p s n = p (s + t) := by
  obtain ⟨m, rfl⟩ : ∃ m, n = m + 1 := ⟨n - 1, by omega⟩
  simp only [Nat.add_sub_cancel] at h1
  have hS : sum_row p s (m + 1) = 1 := by
    show sum_row p s m + p (s + m) = 1
    rw [sum_row_zero p s m (fun x hx => h0 x (by omega)), h1]
    ring
  refine ⟨hS, ?_⟩
  intro t ht
  rw [hS, div_one]
  by_cases htm : t = m
  · subst htm
    rw [hS, h1]
  · show sum_row p s t + p (s + t) = p (s + t)
    rw [sum_row_zero p s t (fun x hx => h0 x (by omega))]
    ring

/-- Claim C24, as the code has it: for every matrix of non-negative counts, a
second application of `convert_matrix_rows_to_cumprobs` to the output of the
first leaves a row unchanged if and only if the counts of that row are zero in
every column before the last. -/
theorem cumprobs_second_pass (M : Nat → ℚ) (rows columns : Nat) (hM : ∀ x, 0 ≤ M x)
    (i : Nat) (hi : i < rows) :
    (∀ t, t < columns →
      convert_matrix_rows_to_cumprobs (convert_matrix_rows_to_cumprobs M rows columns)
          rows columns (i * columns + t)
        = convert_matrix_rows_to_cumprobs M rows columns (i * columns + t)) ↔
    (∀ j, j + 1 < columns → M (i * columns + j) = 0) := by
  unfold convert_matrix_rows_to_cumprobs
  obtain ⟨_, a2⟩ := convert_matrix_rows_loop_spec columns rows 0 M
  obtain ⟨_, b2⟩ := convert_matrix_rows_loop_spec columns rows 0
    (convert_matrix_rows_loop columns rows 0 M)
  have ha := a2 i (Nat.zero_le _) (by omega)
  have hb := b2 i (Nat.zero_le _) (by omega)
  generalize convert_matrix_rows_loop columns rows 0 M = M1 at ha hb ⊢
  generalize convert_matrix_rows_loop columns rows 0 M1 = M2 at hb ⊢
  have hnn : ∀ t, t < columns → 0 ≤ M (i * columns + t) := fun t _ => hM _
  have hSnn : ∀ m, 0 ≤ sum_row M (i * columns) m :=
    fun m => sum_row_nonneg M _ m (fun t _ => hM _)
  by_cases hS : sum_row M (i * columns) columns > 0
  · -- the row holds an observation
    have hp : ∀ t, t < columns →
        M1 (i * columns + t) = sum_row M (i * columns) (t + 1) / sum_row M (i * columns) columns :=
      fun t ht => by rw [ha t ht, if_pos hS]
    have hcol : 0 < columns := by
      by_contra h
      have : columns = 0 := by omega
      rw [this] at hS
      simp [sum_row] at hS
    have hp0 : ∀ t, t < columns → 0 ≤ M1 (i * columns + t) := fun t ht => by
      rw [hp t ht]
      exact div_nonneg (hSnn _) (le_of_lt hS)
    have hlast : M1 (i * columns + (columns - 1)) = 1 := by
      rw [hp _ (by omega), show columns - 1 + 1 = columns by omega]
      exact div_self (ne_of_gt hS)
    constructor
    · intro hfix j hj
      by_contra hne
      have hpos : 0 < M (i * columns + j) := lt_of_le_of_ne (hM _) (Ne.symm hne)
      have hpj : 0 < M1 (i * columns + j) := by
        rw [hp j (by omega)]
        apply div_pos _ hS
        show 0 < sum_row M (i * columns) j + M (i * columns + j)
        linarith [hSnn j]
      have hS1 : sum_row M1 (i * columns) columns > 0 := by
        have := sum_row_ge M1 (i * columns) columns hp0 j (by omega)
        linarith
      apply second_pass_changes M1 (i * columns) columns j hp0 hlast hj hpj
      intro t ht
      rw [← hfix t ht, hb t ht, if_pos hS1]
    · intro hz t ht
      have hz1 : ∀ u, u + 1 < columns → M1 (i * columns + u) = 0 := by
        intro u hu
        rw [hp u (by omega)]
        have : sum_row M (i * columns) (u + 1) = 0 :=
          sum_row_zero M _ _ (fun x hx => hz x (by omega))
        rw [this, zero_div]
      obtain ⟨k1, k2⟩ := second_pass_keeps M1 (i * columns) columns hcol hz1 hlast
      rw [hb t ht, if_pos (by rw [k1]; norm_num)]
      exact k2 t ht
  · -- a row of zeros
    have hS0 : sum_row M (i * columns) columns = 0 := le_antisymm (not_lt.mp hS) (hSnn _)
    have hzero : ∀ t, t < columns → M (i * columns + t) = 0 := by
      intro t ht
      have := sum_row_ge M (i * columns) columns hnn t ht
      exact le_antisymm (by linarith) (hM _)
    have hp : ∀ t, t < columns → M1 (i * columns + t) = 0 :=
      fun t ht => by rw [ha t ht, if_neg hS, hzero t ht]
    have hS1 : ¬ sum_row M1 (i * columns) columns > 0 := by
      rw [sum_row_zero M1 _ _ hp]
      norm_num
    constructor
    · intro _ j hj
      exact hzero j (by omega)
    · intro _ t ht
      rw [hb t ht, if_neg hS1]

/-- Witness of C24: the row of counts `0, 2` becomes `0, 1`, and a second
application leaves it so. -/
theorem cumprobs_second_pass_witness :
    0 < 1 ∧
    convert_matrix_rows_to_cumprobs
        (convert_matrix_rows_to_cumprobs (fun x => if x = 1 then 2 else 0) 1 2) 1 2 (0 * 2 + 0)
      = convert_matrix_rows_to_cumprobs (fun x => if x = 1 then 2 else 0) 1 2 (0 * 2 + 0) ∧
    convert_matrix_rows_to_cumprobs
        (convert_matrix_rows_to_cumprobs (fun x => if x = 1 then 2 else 0) 1 2) 1 2 (0 * 2 + 1)
      = convert_matrix_rows_to_cumprobs (fun x => if x = 1 then 2 else 0) 1 2 (0 * 2 + 1) :=
  have h := (cumprobs_second_pass (fun x => if x = 1 then 2 else 0) 1 2
    (fun x => by dsimp only; split <;> norm_num) 0 (by decide)).mpr
    (fun j hj => by
      have hj0 : j = 0 := by omega
      subst hj0
      simp)
  ⟨by decide, h 0 (by decide), h 1 (by decide)⟩

/-- Counterexample to C24 as stated: the row of counts `1, 1` becomes
`1/2, 1` in the first application and `1/3, 1` in the second. -/
theorem cumprobs_second_pass_counterexample :
    convert_matrix_rows_to_cumprobs (fun x => if x < 2 then 1 else 0) 1 2 0 = 1 / 2 ∧
    convert_matrix_rows_to_cumprobs (fun x => if x < 2 then 1 else 0) 1 2 1 = 1 ∧
    convert_matrix_rows_to_cumprobs
      (convert_matrix_rows_to_cumprobs (fun x => if x < 2 then 1 else 0) 1 2) 1 2 0 = 1 / 3 ∧
    convert_matrix_rows_to_cumprobs
      (convert_matrix_rows_to_cumprobs (fun x => if x < 2 then 1 else 0) 1 2) 1 2 1 = 1 := by
  have h0 : convert_matrix_rows_to_cumprobs (fun x => if x < 2 then 1 else 0) 1 2 0 = 1 / 2 := by
    simp [convert_matrix_rows_to_cumprobs, convert_matrix_rows_loop, cumprob_row, sum_row, store]
    norm_num
  have h1 : convert_matrix_rows_to_cumprobs (fun x => if x < 2 then 1 else 0) 1 2 1 = 1 := by
    simp [convert_matrix_rows_to_cumprobs, convert_matrix_rows_loop, cumprob_row, sum_row, store]
    norm_num
  refine ⟨h0, h1, ?_, ?_⟩
  · obtain ⟨_, b2⟩ := convert_matrix_rows_loop_spec 2 1 0
      (convert_matrix_rows_to_cumprobs (fun x => if x < 2 then 1 else 0) 1 2)
    have := b2 0 (le_refl _) (by omega) 0 (by omega)
    simp only [Nat.zero_mul, Nat.zero_add, sum_row, h0, h1] at this
    unfold convert_matrix_rows_to_cumprobs at this ⊢
    rw [this]
    norm_num
  · obtain ⟨_, b2⟩ := convert_matrix_rows_loop_spec 2 1 0
      (convert_matrix_rows_to_cumprobs (fun x => if x < 2 then 1 else 0) 1 2)
    have := b2 0 (le_refl _) (by omega) 1 (by omega)
    simp only [Nat.zero_mul, Nat.zero_add, sum_row, h0, h1] at this
    unfold convert_matrix_rows_to_cumprobs at this ⊢
    rw [this]
    norm_num

/-! ### The matrices that `setup_transition_matrices` returns, row by row -/

/-- Under the conditions on the training file that keep
`setup_transition_matrices` from exiting, for `K` below `MAX_MARKOV_K` and in
either mode of backoff: the function returns; a row with an observation holds
its cumulative counts divided by the row sum, and a row of order `k > 0`
without observations holds a copy of the row at its backoff address. -/
theorem setup_transition_matrices_spec ( eow : Bool) (markov_full_backoff : Bool) (K : Nat)
    (lines : List (List Nat)) (hK : K < MAX_MARKOV_K)
    (hv : ∀ line ∈ lines, ∃ w, squeeze_word line = some w ∧ w.length ≤ MAX_TERM_LEN)
    (hn : lines.length < 10 ^ NUM_RANK_BUCKETS)
    (hu : ∃ line ∈ lines, ∃ w, squeeze_word line = some w ∧ w ≠ []) :
    ∃ counts tm, trained_counts eow K lines = some counts ∧
      setup_transition_matrices eow markov_full_backoff K lines = some tm ∧
      ∀ k q, k ≤ K → q < E_alphabet_size ^ k →
        (1 ≤ sum_row counts (Markov eow k + q * A_alphabet_size eow) (A_alphabet_size eow) →
          ∀ t, t < A_alphabet_size eow →
            tm (Markov eow k + q * A_alphabet_size eow + t)
              = sum_row counts (Markov eow k + q * A_alphabet_size eow) (t + 1)
                / sum_row counts (Markov eow k + q * A_alphabet_size eow)
                    (A_alphabet_size eow)) ∧
        (0 < k →
          (∀ j, j < A_alphabet_size eow →
            counts (Markov eow k + q * A_alphabet_size eow + j) = 0) →
          ∃ a, backoff_address eow markov_full_backoff k q (backoff_power_at eow k) = some a ∧
            a + A_alphabet_size eow ≤ Markov eow k + q * A_alphabet_size eow ∧
            ∀ j, j < A_alphabet_size eow →
              tm (Markov eow k + q * A_alphabet_size eow + j) = tm (a + j)) := by
  obtain ⟨counts, t1, t2, t3⟩ := trained_counts_spec eow K lines (by omega) hv hn hu
  obtain ⟨tm, c1, c2⟩ := convert_orders_all eow markov_full_backoff K (by omega) counts t2 t3
  refine ⟨counts, tm, t1, ?_, fun k q hk hq => (c2 k q hk hq).2⟩
  have hcheck := check_pass eow tm (K + 1) 0 (by omega)
    (fun k1 q _ h2 h3 => (c2 k1 q (by omega) h3).1.2)
  have hM : Markov eow 0 = 0 := rfl
  have hE : E_alphabet_size ^ 0 = 1 := rfl
  rw [hM, hE, Nat.zero_add] at hcheck
  unfold setup_transition_matrices convert_transition_matrices_to_probs
  rw [t1]
  simp only
  rw [c1]
  simp only
  rw [hcheck]

theorem count_one_apply (m : Nat → ℚ) (i x : Nat) :
    count_one m i x = if x = i then m i + 1 else m x := rfl

/-- The sums along a row that holds one observation in each of two columns. -/
theorem sum_row_two (f : Nat → ℚ) (s N a b : Nat)
    (h : ∀ j, j < N →
      f (s + j) = (if j = a then 1 else 0) + (if j = b then 1 else 0)) :
    ∀ n, n ≤ N → sum_row f s n = (if a < n then 1 else 0) + (if b < n then 1 else 0) := by
  intro n
  induction n with
  | zero => intro _; simp [sum_row]
  | succ n ih =>
    intro hn
    rw [sum_row, ih (by omega), h n (by omega)]
    have e1 : (if a < n + 1 then (1 : ℚ) else 0)
        = (if a < n then 1 else 0) + (if n = a then 1 else 0) := by
      by_cases h1 : a < n
      · simp [h1, show a < n + 1 by omega, show n ≠ a by omega]
      · by_cases h2 : n = a
        · simp [h2]
        · simp [h1, h2, show ¬ a < n + 1 by omega]
    have e2 : (if b < n + 1 then (1 : ℚ) else 0)
        = (if b < n then 1 else 0) + (if n = b then 1 else 0) := by
      by_cases h1 : b < n
      · simp [h1, show b < n + 1 by omega, show n ≠ b by omega]
      · by_cases h2 : n = b
        · simp [h2]
        · simp [h1, h2, show ¬ b < n + 1 by omega]
    rw [e1, e2]
    ring

theorem counts_cat_car : trained_counts false 2
      [[99, 97, 116, 9, 49, 10], [99, 97, 114, 9, 49, 10]]
    = some (copy_letter_frequencies
        (count_one (count_one (count_one (count_one (count_one (count_one (fun _ => 0) 2) 0) 19)
          2) 0) 17) 26 0
        (count_one (count_one (count_one (count_one (count_one (count_one
          (count_one (count_one (count_one (count_one (count_one (count_one (fun _ => 0)
            28) 104) 71) 730) 806) 2879) 28) 104) 69) 730) 806) 2877)) := rfl

/-- Claim C22: training with `K = 2`, no end-of-word symbol and
within-vocabulary counting on the two lines `cat<TAB>1` and `car<TAB>1`, in
either mode of backoff: `setup_transition_matrices` returns, and the row of
the order-2 matrix for the context `ca` holds the cumulative values 0 in the
columns before `r`, 1/2 in the columns of `r` and `s`, and 1 from the column
of `t` on: probability 1/2 for `r`, 1/2 for `t`, 0 for every other letter. -/
theorem cat_car_context_ca (markov_full_backoff : Bool) :
    calculate_row_index false [99, 97] 0 2 = some 2132 ∧
    col_map false 114 = 17 ∧ col_map false 116 = 19 ∧
    ∃ tm, setup_transition_matrices false markov_full_backoff 2
        [[99, 97, 116, 9, 49, 10], [99, 97, 114, 9, 49, 10]] = some tm ∧
      ∀ j, j < A_alphabet_size false →
        tm (Markov false 2 + 2132 + j) = if j < 17 then 0 else if j < 19 then 1 / 2 else 1 := by
  refine ⟨by decide, by decide, by decide, ?_⟩
  obtain ⟨counts, tm, h1, h2, h3⟩ := setup_transition_matrices_spec false markov_full_backoff 2
    [[99, 97, 116, 9, 49, 10], [99, 97, 114, 9, 49, 10]] (by decide)
    (fun line hl => by
      simp only [List.mem_cons, List.mem_singleton, List.not_mem_nil, or_false] at hl
      rcases hl with rfl | rfl
      · exact ⟨[99, 97, 116], by decide, by decide⟩
      · exact ⟨[99, 97, 114], by decide, by decide⟩)
    (by decide)
    ⟨[99, 97, 116, 9, 49, 10], by decide, [99, 97, 116], by decide, by decide⟩
  rw [counts_cat_car] at h1
  simp only [Option.some.injEq] at h1
  refine ⟨tm, h2, ?_⟩
  have hA : A_alphabet_size false = 26 := rfl
  have hM : Markov false 2 = 728 := rfl
  have hrow : ∀ j, j < 26 →
      counts (2860 + j) = (if j = 17 then 1 else 0) + (if j = 19 then 1 else 0) := by
    intro j hj
    rw [← h1]
    interval_cases j <;>
      simp [copy_letter_frequencies_spec, count_one_apply]
  have hsum := sum_row_two counts 2860 26 17 19 hrow
  obtain ⟨g1, _⟩ := h3 2 82 (le_refl _) (by decide)
  rw [hA, hM, show 728 + 82 * 26 = 2860 from rfl] at g1
  have hS : sum_row counts 2860 26 = 2 := by
    rw [hsum 26 (le_refl _)]; norm_num
  intro j hj
  rw [hA] at hj
  rw [hM, show 728 + 2132 = 2860 from rfl, g1 (by rw [hS]; norm_num) j hj, hS,
    hsum (j + 1) (by omega)]
  by_cases c1 : j < 17
  · rw [if_pos c1, if_neg (by omega), if_neg (by omega)]; norm_num
  · rw [if_neg c1]
    by_cases c2 : j < 19
    · rw [if_pos c2, if_pos (by omega), if_neg (by omega)]; norm_num
    · rw [if_neg c2, if_pos (by omega), if_pos (by omega)]; norm_num

theorem counts_ab : trained_counts false 2 [[97, 98, 9, 49, 10]]
    = some (copy_letter_frequencies (count_one (count_one (fun _ => 0) 0) 1) 26 0
        (count_one (count_one (count_one (count_one (fun _ => 0) 26) 53) 728) 755)) := rfl

/-- Claim C23: with incremental backoff, no end-of-word symbol and `K = 2`,
trained on the one line `ab<TAB>1`: the row 28 of the order-2 matrix, the
context `aa`, has no observations, and `28 mod E` is 1, the row of the context
`a` in the order-1 matrix; the code fills it with a copy of row 2, the row of
the context `b`, because `backoff_power` is `A = 26`, not `E = 27`.  The
first column of the row filled is 1/2, that of the row of the context `a` is 0.
The variable `backoff_power` is not set back to 1 from one order to the next,
and is multiplied by `A`, not by `E`: in the order 3 it is `A^3`, with the
end-of-word symbol too, where `E^2` is needed. -/
theorem incremental_backoff_copies_another_row :
    ∃ counts tm, trained_counts false 2 [[97, 98, 9, 49, 10]] = some counts ∧
      setup_transition_matrices false false 2 [[97, 98, 9, 49, 10]] = some tm ∧
      (∀ j : Fin 26, counts (Markov false 2 + 28 * A_alphabet_size false + j.val) = 0) ∧
      28 % E_alphabet_size ^ (2 - 1) = 1 ∧
      backoff_address false false 2 28 (backoff_power_at false 2)
        = some (Markov false 1 + 2 * A_alphabet_size false) ∧
      (∀ j : Fin 26, tm (Markov false 2 + 28 * A_alphabet_size false + j.val)
        = tm (Markov false 1 + 2 * A_alphabet_size false + j.val)) ∧
      tm (Markov false 2 + 28 * A_alphabet_size false + 0) = 1 / 2 ∧
      tm (Markov false 1 + 1 * A_alphabet_size false + 0) = 0 ∧
      backoff_power_at false 2 = 26 ∧ backoff_power_at true 2 = 27 ∧
      backoff_power_at true 3 = 27 ^ 3 ∧ E_alphabet_size ^ (3 - 1) = 27 ^ 2 := by
  obtain ⟨counts, tm, h1, h2, h3⟩ := setup_transition_matrices_spec false false 2
    [[97, 98, 9, 49, 10]] (by decide)
    (fun line hl => by
      simp only [List.mem_singleton] at hl
      subst hl
      exact ⟨[97, 98], by decide, by decide⟩)
    (by decide)
    ⟨[97, 98, 9, 49, 10], by decide, [97, 98], by decide, by decide⟩
  have hc := h1
  rw [counts_ab] at hc
  simp only [Option.some.injEq] at hc
  have hA : A_alphabet_size false = 26 := rfl
  have hM2 : Markov false 2 = 728 := rfl
  have hM1 : Markov false 1 = 26 := rfl
  have hM0 : Markov false 0 = 0 := rfl
  have hval : ∀ x, counts x
      = if x = 0 ∨ x = 1 ∨ x = 26 ∨ x = 53 ∨ x = 728 ∨ x = 755 then 1 else 0 := by
    intro x
    rw [← hc]
    simp only [copy_letter_frequencies_spec, count_one_apply]
    by_cases c0 : x = 0
    · subst c0; simp
    by_cases c1 : x = 1
    · subst c1; simp
    by_cases c2 : x = 26
    · subst c2; simp
    by_cases c3 : x = 53
    · subst c3; simp
    by_cases c4 : x = 728
    · subst c4; simp
    by_cases c5 : x = 755
    · subst c5; simp
    simp [c0, c1, c2, c3, c4, c5]
  -- the row of the context `aa` in the order-2 matrix
  have hz2 : ∀ j, j < 26 → counts (728 + 28 * 26 + j) = 0 := by
    intro j hj
    rw [hval, if_neg (by omega)]
  obtain ⟨_, g2⟩ := h3 2 28 (le_refl _) (by decide)
  rw [hA, hM2] at g2
  obtain ⟨a, a1, _, a3⟩ := g2 (by omega) hz2
  have haddr : backoff_address false false 2 28 (backoff_power_at false 2)
      = some (Markov false 1 + 2 * A_alphabet_size false) := by decide
  rw [haddr] at a1
  simp only [Option.some.injEq] at a1
  rw [hM1, hA] at a1
  -- the row of the context `b` in the order-1 matrix
  have hz1 : ∀ j, j < 26 → counts (26 + 2 * 26 + j) = 0 := by
    intro j hj
    rw [hval, if_neg (by omega)]
  obtain ⟨_, f2⟩ := h3 1 2 (by decide) (by decide)
  rw [hA, hM1] at f2
  obtain ⟨b, b1, _, b3⟩ := f2 (by omega) hz1
  have hbaddr : backoff_address false false 1 2 (backoff_power_at false 1)
      = some (Markov false 0 + 0 * A_alphabet_size false) := by decide
  rw [hbaddr] at b1
  simp only [Option.some.injEq] at b1
  rw [hM0, hA] at b1
  -- the row of order 0 and the row of the context `a`
  obtain ⟨e0, _⟩ := h3 0 0 (by decide) (by decide)
  rw [hA, hM0] at e0
  have hs0 : ∀ n, n ≤ 24 → sum_row counts 0 (n + 2) = 2 := by
    intro n
    induction n with
    | zero => intro _; simp [sum_row, hval]; norm_num
    | succ n ih =>
      intro hn
      have hne : ¬ (0 + (n + 2) = 0 ∨ 0 + (n + 2) = 1 ∨ 0 + (n + 2) = 26 ∨ 0 + (n + 2) = 53 ∨
          0 + (n + 2) = 728 ∨ 0 + (n + 2) = 755) := by omega
      rw [sum_row, ih (by omega), hval, if_neg hne]
      ring
  obtain ⟨e1, _⟩ := h3 1 1 (by decide) (by decide)
  rw [hA, hM1] at e1
  have hs1 : sum_row counts (26 + 1 * 26) 1 = 0 := by
    simp [sum_row, hval]
  have hs1b : ∀ n, n ≤ 24 → sum_row counts (26 + 1 * 26) (n + 2) = 1 := by
    intro n
    induction n with
    | zero => intro _; simp [sum_row, hval]
    | succ n ih =>
      intro hn
      have hne : ¬ (26 + 1 * 26 + (n + 2) = 0 ∨ 26 + 1 * 26 + (n + 2) = 1 ∨
          26 + 1 * 26 + (n + 2) = 26 ∨ 26 + 1 * 26 + (n + 2) = 53 ∨
          26 + 1 * 26 + (n + 2) = 728 ∨ 26 + 1 * 26 + (n + 2) = 755) := by omega
      rw [sum_row, ih (by omega), hval, if_neg hne]
      ring
  refine ⟨counts, tm, h1, h2, ?_, by decide, haddr, ?_, ?_, ?_, by decide, by decide, by decide,
    by decide⟩
  · intro j
    rw [hA, hM2]
    exact hz2 j.val j.isLt
  · intro j
    rw [hA, hM2, hM1, a3 j.val j.isLt, ← a1]
  · rw [hA, hM2, a3 0 (by omega), ← a1, b3 0 (by omega), ← b1]
    have := e0 (by rw [hs0 24 (le_refl _)]; norm_num) 0 (by omega)
    simp only [Nat.zero_mul, Nat.add_zero, Nat.zero_add] at this ⊢
    rw [this, hs0 24 (le_refl _)]
    have h01 : sum_row counts 0 1 = 1 := by simp [sum_row, hval]
    rw [h01]
  · rw [hA, hM1]
    have := e1 (by rw [hs1b 24 (le_refl _)]) 0 (by omega)
    rw [this, hs1b 24 (le_refl _)]
    simp only [Nat.zero_add]
    rw [hs1]
    norm_num

/-- The decimal digits of `trank`, least significant first, as the loop of
`fill_in_term_repn_table_tnum` stores them. -/
theorem tnum_digits_eq (max_term_len : Nat) : ∀ (fuel len trank : Nat),
    0 < trank → len + (Nat.digits 10 trank).length ≤ max_term_len →
    (Nat.digits 10 trank).length ≤ fuel →
    tnum_digits max_term_len fuel len trank
      = (Nat.digits 10 trank).map (fun d => Char.ofNat (48 + d)) := by
  intro fuel
  induction fuel with
  | zero =>
    intro len trank h0 _ hf
    have : Nat.digits 10 trank ≠ [] := by
      rw [Ne, Nat.digits_eq_nil_iff_eq_zero]; omega
    have := List.length_pos.mpr this
    omega
  | succ f ih =>
    intro len trank h0 hl hf
    have hd : Nat.digits 10 trank = trank % 10 :: Nat.digits 10 (trank / 10) :=
      Nat.digits_def' (by norm_num) h0
    rw [hd] at hl hf ⊢
    simp only [List.length_cons] at hl hf
    have hlen : ¬ len ≥ max_term_len := by omega
    rw [tnum_digits, if_neg hlen]
    by_cases hq : trank / 10 > 0
    · simp only [hq, if_true, List.map_cons]
      rw [ih (len + 1) (trank / 10) hq (by omega) (by omega)]
    · have hz : trank / 10 = 0 := by omega
      simp [hz]

/-- Claim C39: `fill_in_term_repn_table_tnum` stores the decimal digits of the
rank with the least significant digit first.  Slot 12 of a table of 13 words
receives `t21`, not `t12`, and slot 120 of a table of 121 words `t021`; the
ranks below 10 receive `t0` .. `t9`.  For every rank `t ≥ 1` of a table whose
words may have 15 bytes, with `t < 10^14`, the word is the letter `t` followed
by the digits of `t` from the least significant one on (the list of
`Nat.digits 10 t`), and the length byte is the length of the word. -/
theorem tnum_digits_least_significant_first :
    (fill_in_term_repn_table_tnum 13 15).getD 12 ("", 0) = ("t21", 3) ∧
    (fill_in_term_repn_table_tnum 121 15).getD 120 ("", 0) = ("t021", 4) ∧
    fill_in_term_repn_table_tnum 10 15
      = [("t0", 2), ("t1", 2), ("t2", 2), ("t3", 2), ("t4", 2), ("t5", 2), ("t6", 2),
         ("t7", 2), ("t8", 2), ("t9", 2)] ∧
    ∀ vocab_size t : Nat, 1 ≤ t → t < vocab_size → t < 10 ^ 14 →
      (fill_in_term_repn_table_tnum vocab_size 15).getD t ("", 0)
        = (String.mk ('t' :: (Nat.digits 10 t).map (fun d => Char.ofNat (48 + d))),
           1 + (Nat.digits 10 t).length) := by
  refine ⟨by decide, by decide, by decide, ?_⟩
  intro vocab_size t h1 hv ht
  have hlen : (Nat.digits 10 t).length ≤ 14 := by
    have h2 : (Nat.digits 10 t).length ≤ 14 := by
      by_contra hc
      have hge : 10 ^ 14 ≤ t := by
        have := Nat.base_pow_length_digits_le 10 t (by norm_num) (by omega)
        have h3 : 10 ^ 15 ≤ 10 ^ (Nat.digits 10 t).length :=
          Nat.pow_le_pow_right (by norm_num) (by omega)
        omega
      omega
    exact h2
  unfold fill_in_term_repn_table_tnum
  rw [List.getD_eq_getElem?_getD, List.getElem?_map, List.getElem?_range hv]
  simp only [Option.map_some', Option.getD_some]
  rw [tnum_digits_eq 15 16 1 t h1 (by omega) (by omega)]
  simp [Nat.add_comm]

/-- Slot `t` of the table of `fill_in_term_repn_table_bubble_babble`. -/
theorem bubble_babble_slot (vocab_size t : Nat) (h : t < vocab_size) :
    (fill_in_term_repn_table_bubble_babble vocab_size).getD t ("", 0)
      = (String.mk ((bubble_babble t).take MAX_TERM_LEN),
         ((bubble_babble t).take MAX_TERM_LEN).length) := by
  unfold fill_in_term_repn_table_bubble_babble
  rw [List.getD_eq_getElem?_getD, List.getElem?_map, List.getElem?_range h]
  rfl

/-- Claim C40: `bubble_babble` is not injective on the ranks below `2^29`.
The ranks 0 and 68864 (bytes 0, 13, 1, 0) both give `ebabbebabbebu`, so a
vocabulary of 68865 words holds the same word in slots 0 and 68864.  The word
shows the first byte, the high half of the second byte and six bits of the
fourth; the low half of the second byte and the third byte enter only through
the checksum `C[3]`, a number below 36: adding 36 to the third byte of any
rank leaves the word as it is. -/
theorem bubble_babble_repeats_a_word :
    bubble_babble 0 = "ebabbebabbebu".toList ∧
    bubble_babble 68864 = "ebabbebabbebu".toList ∧
    68864 < 2 ^ 29 ∧
    (fill_in_term_repn_table_bubble_babble 68865).getD 0 ("", 0) = ("ebabbebabbebu", 13) ∧
    (fill_in_term_repn_table_bubble_babble 68865).getD 68864 ("", 0) = ("ebabbebabbebu", 13) ∧
    ∀ t d : Nat,
      bubble_babble (t % 65536 + 65536 * (d % 220 + 36))
        = bubble_babble (t % 65536 + 65536 * (d % 220)) := by
  refine ⟨by decide, by decide, by decide, ?_, ?_, ?_⟩
  · rw [bubble_babble_slot 68865 0 (by decide)]; decide
  · rw [bubble_babble_slot 68865 68864 (by decide)]; decide
  · intro t d
    have h1 : (t % 65536 + 65536 * (d % 220 + 36)) % 256 = (t % 65536 + 65536 * (d % 220)) % 256 := by
      omega
    have h2 : (t % 65536 + 65536 * (d % 220 + 36)) / 256 % 256
        = (t % 65536 + 65536 * (d % 220)) / 256 % 256 := by omega
    have h3 : (t % 65536 + 65536 * (d % 220 + 36)) / 65536 % 256
        = (t % 65536 + 65536 * (d % 220)) / 65536 % 256 + 36 := by omega
    have h4 : (t % 65536 + 65536 * (d % 220 + 36)) / 16777216 % 256 = 0 := by omega
    have h5 : (t % 65536 + 65536 * (d % 220)) / 16777216 % 256 = 0 := by omega
    unfold bubble_babble
    simp only [h1, h2, h3, h4, h5]
    have h6 : ∀ a b : Nat, (a * 5 + ((b + 36) * 7 + 0)) % 36 = (a * 5 + (b * 7 + 0)) % 36 := by
      intro a b; omega
    rw [h6]

/-- The positions from `b` on that hold the termid of position `a`, counted
with `List.count` on the rest of the tuple. -/
theorem occurrences_eq_count (termids : List Int) (x : Int) (a : Nat)
    (ha : termids.getD a 0 = x) : ∀ (n b : Nat), b + n = termids.length →
    occurrences termids a b n = (termids.drop b).count x := by
  intro n
  induction n with
  | zero =>
    intro b hb
    have : termids.drop b = [] := List.drop_eq_nil_of_le (by omega)
    simp [occurrences, this]
  | succ n ih =>
    intro b hb
    have hlt : b < termids.length := by omega
    unfold occurrences
    rw [List.range'_succ, List.countP_cons]
    have := ih (b + 1) (by omega)
    unfold occurrences at this
    rw [this, List.drop_eq_getElem_cons hlt, List.count_cons]
    have hg : termids.getD b 0 = termids[b] := by
      rw [List.getD_eq_getElem?_getD, List.getElem?_eq_getElem hlt]; rfl
    rw [hg, ha]
    by_cases h : termids[b] = x
    · simp [h]
    · simp [h]

/-- Claim C33: `count_term_repetitions` counts one too many for every first
occurrence but the one at position 0.  For the bigram of the terms 1 and 2 it
returns 1 and 2, for the trigram 5, 5, 7 it returns 2, 2, 2, where the numbers
of positions holding the term are 1, 1 and 2, 2, 1.  For every tuple and every
position `i` of it, `repetitions[i]` is 1 plus the number of the positions from
1 on that hold `termids[i]`: the inner loop starts at position 1, not behind
position `i`, so for `i ≥ 1` it counts position `i` itself again.  At position
0 the count is the number of positions holding the term; at a position
`i ≥ 1` whose term is not at position 0 it is that number plus 1. -/
theorem repetitions_count_position_again :
    count_term_repetitions 2 [1, 2] = [1, 2] ∧
    count_term_repetitions 3 [5, 5, 7] = [2, 2, 2] ∧
    ([1, 2] : List Int).count 2 = 1 ∧ ([5, 5, 7] : List Int).count 7 = 1 ∧
    (∀ (termids : List Int) (i : Nat), i < termids.length →
      (count_term_repetitions termids.length termids).getD i 0
        = 1 + (termids.drop 1).count (termids.getD i 0)) ∧
    (∀ (termids : List Int), 0 < termids.length →
      (count_term_repetitions termids.length termids).getD 0 0
        = termids.count (termids.getD 0 0)) ∧
    (∀ (termids : List Int) (i : Nat), i < termids.length →
      termids.getD 0 0 ≠ termids.getD i 0 →
      (count_term_repetitions termids.length termids).getD i 0
        = termids.count (termids.getD i 0) + 1) := by
  have key : ∀ (termids : List Int) (i : Nat), i < termids.length →
      (count_term_repetitions termids.length termids).getD i 0
        = 1 + (termids.drop 1).count (termids.getD i 0) := by
    intro termids i hi
    unfold count_term_repetitions
    rw [List.getD_eq_getElem?_getD, List.getElem?_map, List.getElem?_range hi]
    simp only [Option.map_some', Option.getD_some]
    rw [repetition_count_eq, occurrences_eq_count termids _ i rfl (termids.length - 1) 1 (by omega)]
  refine ⟨by decide, by decide, by decide, by decide, key, ?_, ?_⟩
  · intro termids h0
    rw [key termids 0 h0]
    cases termids with
    | nil => simp at h0
    | cons x rest => simp [List.count_cons]; omega
  · intro termids i hi hne
    rw [key termids i hi]
    generalize termids.getD i 0 = y at hne ⊢
    cases termids with
    | nil => simp at hi
    | cons x rest =>
      simp only [List.getD_cons_zero] at hne
      have hxy : ¬ (x == y) = true := by simpa using hne
      simp only [List.drop_succ_cons, List.drop_zero, List.count_cons, hxy]
      simp
      omega

theorem row_map_lt (ch : Nat) : row_map ch < E_alphabet_size := by
  unfold row_map E_alphabet_size
  split <;> omega

theorem sanity_check_row_numbers_eq (k : Nat) (hk : k ≤ MAX_MARKOV_K) :
    sanity_check_row_numbers.getD k 0 = E_alphabet_size ^ k := by
  have h : k ≤ 7 := hk
  interval_cases k <;> decide

/-- The loop of `calculate_row_index` never takes its exit, and reads the
bytes as the digits of a number in base `E`. -/
theorem row_index_loop_eq (buf : List Nat) (p : Nat) : ∀ (n i index : Nat),
    row_index_loop buf p n i index
      = some (index * E_alphabet_size ^ n
          + ∑ j in Finset.range n,
              row_map (buf.getD (p + (i + j)) 0) * E_alphabet_size ^ (n - 1 - j)) := by
  intro n
  induction n with
  | zero => intro i index; simp [row_index_loop]
  | succ n ih =>
    intro i index
    have hlt := row_map_lt (buf.getD (p + i) 0)
    have hnot : ¬ row_map (buf.getD (p + i) 0) ≥ E_alphabet_size := by omega
    rw [row_index_loop, if_neg hnot, ih, Finset.sum_range_succ']
    congr 1
    have hs : ∀ j, row_map (buf.getD (p + (i + (j + 1))) 0) * E_alphabet_size ^ (n + 1 - 1 - (j + 1))
        = row_map (buf.getD (p + (i + 1 + j)) 0) * E_alphabet_size ^ (n - 1 - j) := by
      intro j
      have e1 : i + (j + 1) = i + 1 + j := by omega
      have e2 : n + 1 - 1 - (j + 1) = n - 1 - j := by omega
      rw [e1, e2]
    simp only [hs]
    simp only [Nat.add_zero, Nat.add_sub_cancel, Nat.sub_zero]
    rw [Nat.pow_succ]
    ring

/-- Claim C38: for every context of `k ≤ MAX_MARKOV_K` bytes, in both modes,
`calculate_row_index` returns `A` times the number whose digits in base `E`
are the row digits of the bytes, the first byte the most significant.  Every
row digit is below `E`, so the exit on a digit out of range is never taken
(the function returns), the row number is below `E^k`, and the test for the
message on an erroneous row number, `index > sanity_check_row_numbers[k]`
with `sanity_check_row_numbers[k] = E^k`, fails. -/
theorem calculate_row_index_base_E ( eow : Bool) (buf : List Nat) (p k : Nat)
    (hk : k ≤ MAX_MARKOV_K) :
    calculate_row_index eow buf p k
      = some (A_alphabet_size eow
          * ∑ i in Finset.range k,
              row_map (buf.getD (p + i) 0) * E_alphabet_size ^ (k - 1 - i)) ∧
    (∀ ch, row_map ch < E_alphabet_size) ∧
    (∑ i in Finset.range k, row_map (buf.getD (p + i) 0) * E_alphabet_size ^ (k - 1 - i))
      < E_alphabet_size ^ k ∧
    sanity_check_row_numbers.getD k 0 = E_alphabet_size ^ k ∧
    row_number_message buf p k = false := by
  have hloop := row_index_loop_eq buf p k 0 0
  simp only [Nat.zero_mul, Nat.zero_add] at hloop
  have hlt := row_index_loop_lt buf p k 0 0 _ hloop
  rw [Nat.zero_add, Nat.one_mul] at hlt
  refine ⟨?_, row_map_lt, hlt, sanity_check_row_numbers_eq k hk, ?_⟩
  · unfold calculate_row_index
    by_cases h0 : k = 0
    · subst h0; simp
    · rw [if_neg h0, hloop, Nat.mul_comm]
  · unfold row_number_message
    by_cases h0 : k = 0
    · rw [if_pos h0]
    · rw [if_neg h0, hloop]
      simp only [sanity_check_row_numbers_eq k hk]
      exact decide_eq_false (by omega)

/-- Witness of C38: the context `ca` of order 2 is row `3 * 27 + 1 = 82`. -/
theorem calculate_row_index_base_E_witness :
    2 ≤ MAX_MARKOV_K ∧
    calculate_row_index false [99, 97] 0 2
      = some (A_alphabet_size false
          * ∑ i in Finset.range 2,
              row_map (([99, 97] : List Nat).getD (0 + i) 0) * E_alphabet_size ^ (2 - 1 - i)) ∧
    (∑ i in Finset.range 2,
        row_map (([99, 97] : List Nat).getD (0 + i) 0) * E_alphabet_size ^ (2 - 1 - i)) = 82 :=
  ⟨by decide, (calculate_row_index_base_E false [99, 97] 0 2 (by decide)).1, by decide⟩

/-- With a score limit of at least 1, `pronouncability` returns 0 for the words
without a vowel and for no other word. -/
theorem pronouncability_eq_zero_iff (unicode_isvowel : Nat → Bool)
    (MAX_PRONOUNCABILITY_SCORE : Int) (hM : 1 ≤ MAX_PRONOUNCABILITY_SCORE) (wd : List Nat) :
    pronouncability unicode_isvowel MAX_PRONOUNCABILITY_SCORE wd = 0
      ↔ (count_vowels_consonants unicode_isvowel wd 0 0).1 = 0 := by
  unfold pronouncability
  simp only
  by_cases hv : (count_vowels_consonants unicode_isvowel wd 0 0).1 = 0
  · simp only [hv, ne_eq, not_true_eq_false, if_false, iff_true]
    rw [if_neg (by omega)]
  · simp only [hv, ne_eq, not_false_eq_true, if_true, iff_false]
    split <;> split <;> omega

/-- Claim C37, as the code has it: with `markov_favour_pronouncable` on and a
score limit of at least 1, `strlenp(s)` is `min(strlen(s) + 2, 15)` for a
word without a vowel, and `strlen(s)` for every word with a vowel that has at
most 15 bytes, whatever its numbers of consonants and vowels are; for a word
of fewer than 15 bytes the penalised value is returned exactly when the word
has no vowel. -/
theorem strlenp_penalty (unicode_isvowel : Nat → Bool) (MAX_PRONOUNCABILITY_SCORE : Int)
    (hM : 1 ≤ MAX_PRONOUNCABILITY_SCORE) (s : List Nat) :
    ((count_vowels_consonants unicode_isvowel s 0 0).1 = 0 →
      strlenp true unicode_isvowel MAX_PRONOUNCABILITY_SCORE s = min (strlen s + 2) 15) ∧
    ((count_vowels_consonants unicode_isvowel s 0 0).1 ≠ 0 → strlen s ≤ 15 →
      strlenp true unicode_isvowel MAX_PRONOUNCABILITY_SCORE s = strlen s) ∧
    (strlen s < 15 →
      (strlenp true unicode_isvowel MAX_PRONOUNCABILITY_SCORE s = min (strlen s + 2) 15
        ↔ (count_vowels_consonants unicode_isvowel s 0 0).1 = 0)) := by
  have hp := pronouncability_eq_zero_iff unicode_isvowel MAX_PRONOUNCABILITY_SCORE hM s
  have h1 : (count_vowels_consonants unicode_isvowel s 0 0).1 = 0 →
      strlenp true unicode_isvowel MAX_PRONOUNCABILITY_SCORE s = min (strlen s + 2) 15 := by
    intro hv
    unfold strlenp UNPRONOUNCABLE_PENALTY MAX_TERM_LEN
    simp only [if_true, hp.mpr hv]
    split <;> omega
  have h2 : (count_vowels_consonants unicode_isvowel s 0 0).1 ≠ 0 → strlen s ≤ 15 →
      strlenp true unicode_isvowel MAX_PRONOUNCABILITY_SCORE s = strlen s := by
    intro hv hl
    have hp0 : ¬ pronouncability unicode_isvowel MAX_PRONOUNCABILITY_SCORE s = 0 :=
      fun h => hv (hp.mp h)
    unfold strlenp UNPRONOUNCABLE_PENALTY MAX_TERM_LEN
    simp only [if_true, hp0, if_false]
    rw [if_neg (by omega)]
  refine ⟨h1, h2, ?_⟩
  intro hl
  constructor
  · intro h
    by_contra hv
    rw [h2 hv (by omega)] at h
    omega
  · exact h1

/-- Witness of C37: the word `xyz` has no vowel and counts as 5 bytes. -/
theorem strlenp_penalty_witness :
    (1 : Int) ≤ 2 ∧
    (count_vowels_consonants ascii_vowel [120, 121, 122] 0 0).1 = 0 ∧
    strlenp true ascii_vowel 2 [120, 121, 122] = min (strlen [120, 121, 122] + 2) 15 ∧
    strlen [120, 121, 122] = 3 :=
  ⟨by decide, by decide,
    (strlenp_penalty ascii_vowel 2 (by decide) [120, 121, 122]).1 (by decide), by decide⟩

/-- Counterexample to C37 as stated: the word `strength` has 1 vowel and 7
consonants, which differ by more than 2, and `strlenp` returns its 8 bytes
without the penalty; so it does for `aaaa`, 4 vowels and no consonant.  Both
words have the score 1, not 0. -/
theorem strlenp_penalty_counterexample :
    count_vowels_consonants ascii_vowel ("strength".toList.map Char.toNat) 0 0 = (1, 7) ∧
    pronouncability ascii_vowel 2 ("strength".toList.map Char.toNat) = 1 ∧
    strlen ("strength".toList.map Char.toNat) = 8 ∧
    strlenp true ascii_vowel 2 ("strength".toList.map Char.toNat) = 8 ∧
    min (strlen ("strength".toList.map Char.toNat) + 2) 15 = 10 ∧
    count_vowels_consonants ascii_vowel ("aaaa".toList.map Char.toNat) 0 0 = (4, 0) ∧
    strlenp true ascii_vowel 2 ("aaaa".toList.map Char.toNat) = 4 := by
  decide

/-- The loop of `setup_length_buckets` does not touch the bucket of length 15
while it reads words of fewer than 15 bytes. -/
theorem setup_length_buckets_loop_last (strlenp : List Nat → Nat) :
    ∀ (terms : List (List Nat)) (r prevlen : Int) (rb rb1 : List (Int × Int)),
    (∀ term ∈ terms, strlenp term < 15) → 0 ≤ prevlen →
    setup_length_buckets_loop strlenp terms r prevlen rb = some rb1 →
    rb1.getD 14 (0, 0) = rb.getD 14 (0, 0) := by
  intro terms
  induction terms with
  | nil =>
    intro r prevlen rb rb1 _ _ h
    simp only [setup_length_buckets_loop, Option.some.injEq] at h
    rw [h]
  | cons term rest ih =>
    intro r prevlen rb rb1 hlen hp h
    have hl := hlen term (List.mem_cons_self _ _)
    have hrest : ∀ t ∈ rest, strlenp t < 15 := fun t ht => hlen t (List.mem_cons_of_mem _ ht)
    rw [setup_length_buckets_loop] at h
    simp only at h
    split at h
    · cases h
    · split at h
      · rename_i hgt
        rw [ih _ _ _ _ hrest (by omega) h]
        have hn1 : ¬ ((strlenp term : Int) - 1 < 0) := by omega
        have hset1 : (rb_set_next rb ((strlenp term : Int) - 1) r).getD 14 (0, 0)
            = rb.getD 14 (0, 0) := by
          unfold rb_set_next
          rw [if_neg hn1, List.getD_eq_getElem?_getD, List.getElem?_set_ne (by omega),
            ← List.getD_eq_getElem?_getD]
        split
        · rename_i h1
          have hn2 : ¬ ((strlenp term : Int) - 2 < 0) := by omega
          unfold rb_set_max
          rw [if_neg hn2, List.getD_eq_getElem?_getD, List.getElem?_set_ne (by omega),
            ← List.getD_eq_getElem?_getD, hset1]
        · exact hset1
      · exact ih _ _ _ _ hrest hp h

/-- Claim C35: `setup_length_buckets` leaves the buckets of lengths that do
not occur with the one rank `vocab_size`, and does not close the bucket of a
length whose successor does not occur.  With lengths by `strlen`:
for the table `a`, `b` the bucket of length 1 is `(1, 2)`, and each of the
buckets of the lengths 2 to 15 is `(2, 2)`, holding rank 2 although no word
has that length; for the table `a`, `ccc` the bucket of length 1 is `(1, 2)`,
holding rank 2, the place of the word of length 3.  For every table in which
no word reaches 15 bytes and for which the function returns, the bucket of
length 15 is `(vocab_size, vocab_size)`: it is not full when `vocab_size ≥ 1`. -/
theorem length_buckets_of_absent_lengths_not_full :
    setup_length_buckets strlen [[97], [98]] 2
      = some ((1, 2) :: List.replicate 14 (2, 2) ++ List.replicate NUM_RANK_BUCKETS (0, 0)) ∧
    setup_length_buckets strlen [[97], [99, 99, 99]] 2
      = some ([(1, 2), (2, 1), (2, 2)] ++ List.replicate 12 (2, 2)
          ++ List.replicate NUM_RANK_BUCKETS (0, 0)) ∧
    strlen [97] = 1 ∧ strlen [98] = 1 ∧ strlen [99, 99, 99] = 3 ∧
    ∀ (strlenp : List Nat → Nat) (term_array : List (List Nat)) (vocab_size : Nat)
      (rb : List (Int × Int)),
      (∀ term ∈ term_array, strlenp term < 15) →
      setup_length_buckets strlenp term_array vocab_size = some rb →
      rb.getD 14 (0, 0) = ((vocab_size : Int), (vocab_size : Int)) := by
  refine ⟨by decide, by decide, by decide, by decide, by decide, ?_⟩
  intro strlenp term_array vocab_size rb hlen h
  unfold setup_length_buckets at h
  rw [setup_length_buckets_loop_last strlenp _ _ _ _ _
    (fun t ht => hlen t (List.mem_of_mem_take ht)) (le_refl _) h]
  rfl

/-- Claim C34: a row of arity 2 is processed with the list of subsumed rows
that the last row of higher arity left behind, for every stream of random
numbers.  The table holds the trigram `N(1,2,3):1` in row 0 and the bigrams
`N(1,4):2` and `N(2,3)` in rows 1 and 2; `TOFS` gives every term 10
occurrences and the one document has room for 30 postings.  The search for
the trigram stores row 2, the row of `N(2,3)`, and `subsumed_ngrams = 1`; for
the rows of arity 2 the search is not called and both are left as they are.
With `N(2,3):2` the row `N(1,4)` is emitted once only: its first instance
decrements the stored frequency of row 2 to 0, and its second instance is
refused because that frequency is 0 (2 instances emitted in all, 1 not
emitted, `TOFS[3] = 9`).  With `N(2,3):5`, a table that differs in the
frequency of row 2 only, `N(1,4)` is emitted twice (`TOFS[3] = 8`), and of
the 4 instances of `N(2,3)` left after the trigram only 2 are emitted,
the row `N(1,4)` having taken the other 2 from its stored frequency. -/
theorem bigram_row_uses_stale_subsumptions (rnd : Nat → Nat) :
    load_ngrams_file_and_sort
        (["N(1,2,3):1\n", "N(1,4):2\n", "N(2,3):2\n"].map
          (fun (s : String) => s.toList.map Char.toNat))
      = [[3, 1, 2, 3, 0, 0, 0, 1], [2, 1, 4, 0, 0, 0, 0, 2], [2, 2, 3, 0, 0, 0, 0, 2]] ∧
    line_refs 3 0 none
        [3, 1, 2, 3, 0, 0, 0, 1, 2, 1, 4, 0, 0, 0, 0, 2, 2, 2, 3, 0, 0, 0, 0, 2] [] 0
      = some ([2], 1) ∧
    line_refs 3 1 none
        [3, 1, 2, 3, 0, 0, 0, 1, 2, 1, 4, 0, 0, 0, 0, 2, 2, 2, 3, 0, 0, 0, 0, 1] [2] 1
      = some ([2], 1) ∧
    process_ngrams_file
        (["N(1,2,3):1\n", "N(1,4):2\n", "N(2,3):2\n"].map
          (fun (s : String) => s.toList.map Char.toNat))
        [10, 10, 10, 10] 4 30 rnd
        { doctable := plug_in_dt_pointers [30], nonfulls := 1, toa := List.replicate 30 0,
          written := [], c := 0 } [] 0
      = Except.ok
        { ngrams := [3, 1, 2, 3, 0, 0, 0, 1, 2, 1, 4, 0, 0, 0, 0, 2, 2, 2, 3, 0, 0, 0, 0, 0],
          TOFS := [8, 9, 9, 9],
          place :=
            { doctable := [83886105], nonfulls := 1,
              toa := [1 ||| SON_FLAG, 2 ||| CON_FLAG, 3 ||| CON_FLAG,
                  1 ||| SON_FLAG, 4 ||| CON_FLAG]
                ++ List.replicate 25 0,
              written := [0, 1, 2, 3, 4], c := 0 },
          postings_placed := 5, TOFs_subtracted := 5, ngram_instances_emitted := 2,
          ngram_instances_not_emitted := 1 } ∧
    process_ngrams_file
        (["N(1,2,3):1\n", "N(1,4):2\n", "N(2,3):5\n"].map
          (fun (s : String) => s.toList.map Char.toNat))
        [10, 10, 10, 10] 4 30 rnd
        { doctable := plug_in_dt_pointers [30], nonfulls := 1, toa := List.replicate 30 0,
          written := [], c := 0 } [] 0
      = Except.ok
        { ngrams := [3, 1, 2, 3, 0, 0, 0, 1, 2, 1, 4, 0, 0, 0, 0, 2, 2, 2, 3, 0, 0, 0, 0, 0],
          TOFS := [7, 7, 7, 8],
          place :=
            { doctable := [184549395], nonfulls := 1,
              toa := [1 ||| SON_FLAG, 2 ||| CON_FLAG, 3 ||| CON_FLAG,
                  1 ||| SON_FLAG, 4 ||| CON_FLAG, 1 ||| SON_FLAG, 4 ||| CON_FLAG,
                  2 ||| SON_FLAG, 3 ||| CON_FLAG, 2 ||| SON_FLAG, 3 ||| CON_FLAG]
                ++ List.replicate 19 0,
              written := [0, 1, 2, 3, 4, 5, 6, 7, 8, 9, 10], c := 0 },
          postings_placed := 11, TOFs_subtracted := 11, ngram_instances_emitted := 5,
          ngram_instances_not_emitted := 0 } := by
  refine ⟨by decide, by decide, by decide, rfl, rfl⟩

theorem sum_set_getD : ∀ (l : List Nat) (i v : Nat), i < l.length →
    (l.set i v).sum + l.getD i 0 = l.sum + v := by
  intro l
  induction l with
  | nil => intro i v h; simp at h
  | cons x rest ih =>
    intro i v h
    cases i with
    | zero => simp [List.set]; omega
    | succ i =>
      have := ih i v (by simpa using h)
      simp only [List.set, List.sum_cons, List.getD_cons_succ]
      omega

/-- One store `TOFS[t] -= adjustment` that does not wrap. -/
theorem store_ull_sub (TOFS : List Nat) (t : Nat) (adjustment : Int) (ht : t < TOFS.length)
    (hpos : 0 < adjustment) (hle : adjustment ≤ (TOFS.getD t 0 : Nat))
    (hlt : TOFS.getD t 0 < 2 ^ 64) :
    (((store_ull TOFS t (load_ull TOFS t - adjustment)).sum : Nat) : Int) + adjustment
      = (TOFS.sum : Nat) := by
  have hn : ¬ ((t : Int) < 0) := by omega
  unfold store_ull load_ull
  rw [if_neg hn, if_neg hn, Int.toNat_ofNat]
  have hmod : ((TOFS.getD t 0 : Nat) - adjustment) % 2 ^ 64 = (TOFS.getD t 0 : Nat) - adjustment :=
    Int.emod_eq_of_lt (by omega) (by
      have : ((TOFS.getD t 0 : Nat) : Int) < 2 ^ 64 := by exact_mod_cast hlt
      omega)
  rw [hmod]
  have h := sum_set_getD TOFS t ((TOFS.getD t 0 : Nat) - adjustment).toNat ht
  have h2 : ((((TOFS.getD t 0 : Nat) : Int) - adjustment).toNat : Int)
      = (TOFS.getD t 0 : Nat) - adjustment := Int.toNat_of_nonneg (by omega)
  have h3 : (((TOFS.set t ((TOFS.getD t 0 : Nat) - adjustment).toNat).sum : Nat) : Int)
      + (TOFS.getD t 0 : Nat) = (TOFS.sum : Nat) + (((TOFS.getD t 0 : Nat) : Int) - adjustment) := by
    rw [← h2]; exact_mod_cast h
  omega

theorem store_ull_getD_ne (TOFS : List Nat) (t i : Nat) (v : Int) (h : i ≠ t) :
    (store_ull TOFS t v).getD i 0 = TOFS.getD i 0 := by
  have hn : ¬ ((t : Int) < 0) := by omega
  unfold store_ull
  rw [if_neg hn, Int.toNat_ofNat, List.getD_eq_getElem?_getD, List.getElem?_set_ne (by omega),
    ← List.getD_eq_getElem?_getD]

theorem store_ull_length (TOFS : List Nat) (t : Int) (v : Int) :
    (store_ull TOFS t v).length = TOFS.length := by
  unfold store_ull
  split <;> simp

/-- The redistribution loop: it runs `j ≥ 1` iterations, each of which moves
`adjustment` from `posting` to `tail_postings_needed`, and it stops with
nothing left to adjust; when the `j` entries it alters hold at least
`adjustment` each, their sum goes down by the same amount. -/
theorem adjust_loop_spec (adjustment : Int) (hpos : 0 < adjustment) :
    ∀ (n t : Nat) (TOFS : List Nat) (total_adjustment_required tail_postings_needed
      posting : Int),
    1 ≤ n → total_adjustment_required ≤ n * adjustment →
    ∃ j : Nat, 1 ≤ j ∧ j ≤ n ∧
      (adjust_loop adjustment n t TOFS total_adjustment_required tail_postings_needed
        posting).2.1 = tail_postings_needed + j * adjustment ∧
      (adjust_loop adjustment n t TOFS total_adjustment_required tail_postings_needed
        posting).2.2 = posting - j * adjustment ∧
      total_adjustment_required - j * adjustment ≤ 0 ∧
      ((∀ i, t ≤ i → i < t + j →
          i < TOFS.length ∧ adjustment ≤ (TOFS.getD i 0 : Nat) ∧ TOFS.getD i 0 < 2 ^ 64) →
        (((adjust_loop adjustment n t TOFS total_adjustment_required tail_postings_needed
          posting).1.sum : Nat) : Int) + j * adjustment = (TOFS.sum : Nat)) := by
  intro n
  induction n with
  | zero => intro t TOFS total tpn posting h; omega
  | succ n ih =>
    intro t TOFS total tpn posting _ hn
    rw [adjust_loop]
    by_cases hdone : total - adjustment ≤ 0
    · rw [if_pos hdone]
      refine ⟨1, le_refl _, by omega, by simp, by simp, by simpa using hdone, ?_⟩
      intro H
      obtain ⟨h1, h2, h3⟩ := H t (le_refl _) (by omega)
      have := store_ull_sub TOFS t adjustment h1 hpos h2 h3
      simpa using this
    · rw [if_neg hdone]
      have hn1 : 1 ≤ n := by
        rcases Nat.eq_zero_or_pos n with h0 | h0
        · subst h0
          push_cast at hn
          omega
        · exact h0
      have hle : total - adjustment ≤ n * adjustment := by
        push_cast at hn
        linarith
      obtain ⟨j, hj1, hjn, ha, hb, hc, hd⟩ :=
        ih (t + 1) (store_ull TOFS t (load_ull TOFS t - adjustment)) (total - adjustment)
          (tpn + adjustment) (posting - adjustment) hn1 hle
      refine ⟨j + 1, by omega, by omega, ?_, ?_, ?_, ?_⟩
      · rw [ha]; push_cast; ring
      · rw [hb]; push_cast; ring
      · have e : ((j + 1 : Nat) : Int) * adjustment = j * adjustment + adjustment := by
          push_cast; ring
        rw [e]
        linarith
      · intro H
        obtain ⟨h1, h2, h3⟩ := H t (le_refl _) (by omega)
        have hs := store_ull_sub TOFS t adjustment h1 hpos h2 h3
        have hrest := hd (by
          intro i hi1 hi2
          obtain ⟨g1, g2, g3⟩ := H i (by omega) (by omega)
          rw [store_ull_length, store_ull_getD_ne TOFS t i _ (by omega)]
          exact ⟨g1, g2, g3⟩)
        have e : ((j + 1 : Nat) : Int) * adjustment = j * adjustment + adjustment := by
          push_cast; ring
        rw [e]
        linarith

/-- Claim C32: the redistribution reaches its goal and keeps the running total
in step, but an entry smaller than the adjustment wraps.  For every state in
which `tail_vocab_needed > tail_postings_needed`, the loop over
`terms_to_alter = min(1000, vocab_size / 100 + 1)` terms with
`adjustment = total_adjustment_required / terms_to_alter + 1` runs `j ≥ 1`
iterations, after which `tail_postings_needed ≥ tail_vocab_needed`; the amount
`j * adjustment` added to `tail_postings_needed` is the amount taken from
`posting`, and it is the amount by which the sum of the entries goes down when
each of the `j` entries altered holds at least `adjustment`.  With 3 postings,
20 terms, no head terms and the tail percentage 100 (no rank in the middle
segment) the adjustment is 17 and entry 0 holds 0: the subtraction on the
unsigned entry gives `2^64 - 17`, and the array returned is `2^64 - 17` for
rank 1, 1 for the ranks 2 to 19, 2 for rank 20. -/
theorem tail_redistribution_wraps_small_entry (mid_tf : Nat → Nat → Int) :
    (∀ (vocab_size : Nat) (TOFS : List Nat)
        (tail_vocab_needed tail_postings_needed posting : Int),
      tail_vocab_needed > tail_postings_needed →
      ∃ j : Nat, 1 ≤ j ∧
        (adjust_loop
            ((tail_vocab_needed - tail_postings_needed)
              / ((if 1000 > vocab_size / 100 then vocab_size / 100 + 1 else 1000 : Nat) : Int) + 1)
            (if 1000 > vocab_size / 100 then vocab_size / 100 + 1 else 1000) 0 TOFS
            (tail_vocab_needed - tail_postings_needed) tail_postings_needed posting).2.1
          ≥ tail_vocab_needed ∧
        (adjust_loop
            ((tail_vocab_needed - tail_postings_needed)
              / ((if 1000 > vocab_size / 100 then vocab_size / 100 + 1 else 1000 : Nat) : Int) + 1)
            (if 1000 > vocab_size / 100 then vocab_size / 100 + 1 else 1000) 0 TOFS
            (tail_vocab_needed - tail_postings_needed) tail_postings_needed posting).2.1
          - tail_postings_needed
          = j * ((tail_vocab_needed - tail_postings_needed)
              / ((if 1000 > vocab_size / 100 then vocab_size / 100 + 1 else 1000 : Nat) : Int) + 1) ∧
        posting - (adjust_loop
            ((tail_vocab_needed - tail_postings_needed)
              / ((if 1000 > vocab_size / 100 then vocab_size / 100 + 1 else 1000 : Nat) : Int) + 1)
            (if 1000 > vocab_size / 100 then vocab_size / 100 + 1 else 1000) 0 TOFS
            (tail_vocab_needed - tail_postings_needed) tail_postings_needed posting).2.2
          = j * ((tail_vocab_needed - tail_postings_needed)
              / ((if 1000 > vocab_size / 100 then vocab_size / 100 + 1 else 1000 : Nat) : Int) + 1) ∧
        ((∀ i, i < j → i < TOFS.length ∧
            (tail_vocab_needed - tail_postings_needed)
              / ((if 1000 > vocab_size / 100 then vocab_size / 100 + 1 else 1000 : Nat) : Int) + 1
              ≤ (TOFS.getD i 0 : Nat) ∧ TOFS.getD i 0 < 2 ^ 64) →
          ((TOFS.sum : Nat) : Int) - ((adjust_loop
            ((tail_vocab_needed - tail_postings_needed)
              / ((if 1000 > vocab_size / 100 then vocab_size / 100 + 1 else 1000 : Nat) : Int) + 1)
            (if 1000 > vocab_size / 100 then vocab_size / 100 + 1 else 1000) 0 TOFS
            (tail_vocab_needed - tail_postings_needed) tail_postings_needed posting).1.sum : Nat)
          = j * ((tail_vocab_needed - tail_postings_needed)
              / ((if 1000 > vocab_size / 100 then vocab_size / 100 + 1 else 1000 : Nat) : Int) + 1))) ∧
    adjust_loop 17 1 0 (List.replicate 20 0) 16 3 0
      = ((2 ^ 64 - 17) :: List.replicate 19 0, 20, -17) ∧
    create_and_fill_TOFS_array 3 20 [] [⟨1, 0⟩] mid_tf
      = [2 ^ 64 - 17, 1, 1, 1, 1, 1, 1, 1, 1, 1, 1, 1, 1, 1, 1, 1, 1, 1, 1, 2] := by
  refine ⟨?_, by decide, ?_⟩
  · intro vocab_size TOFS tvn tpn posting hgt
    generalize hterms : (if 1000 > vocab_size / 100 then vocab_size / 100 + 1 else 1000) = terms
    have hterms1 : 1 ≤ terms := by rw [← hterms]; split <;> omega
    have htpos : (0 : Int) < (terms : Int) := by exact_mod_cast hterms1
    generalize hadj : (tvn - tpn) / (terms : Int) + 1 = adjustment
    have hq : 0 ≤ (tvn - tpn) / (terms : Int) := Int.ediv_nonneg (by omega) (by omega)
    have hpos : 0 < adjustment := by omega
    have hle : tvn - tpn ≤ terms * adjustment := by
      have h1 := Int.emod_add_ediv (tvn - tpn) terms
      have h2 := Int.emod_lt_of_pos (tvn - tpn) htpos
      rw [← hadj]
      linarith
    obtain ⟨j, hj1, _, ha, hb, hc, hd⟩ :=
      adjust_loop_spec adjustment hpos terms 0 TOFS (tvn - tpn) tpn posting hterms1 hle
    refine ⟨j, hj1, ?_, ?_, ?_, ?_⟩
    · rw [ha]; linarith
    · rw [ha]; ring
    · rw [hb]; ring
    · intro H
      have := hd (by
        intro i _ hi
        exact H i (by omega))
      linarith
  · have h := tail_loop_unit_steps 3 1 18 0 2
      ((2 ^ 64 - 17) :: List.replicate 19 0) (-17) (by norm_num) (by norm_num) (by norm_num)
    have hfl : ⌊(20 : ℚ) / 19 + ((0 + 18 : Nat) : ℚ) / 19⌋ = 2 := by
      rw [Int.floor_eq_iff]
      constructor <;> norm_num
    have hrun : store_run 1 18 2 ((2 ^ 64 - 17) :: List.replicate 19 0)
        = [2 ^ 64 - 17, 1, 1, 1, 1, 1, 1, 1, 1, 1, 1, 1, 1, 1, 1, 1, 1, 1, 1, 0] := by decide
    simp only [Nat.cast_zero, zero_div, hrun] at h
    simp only [create_and_fill_TOFS_array, head_loop, middle_loop, middle_ranks]
    norm_num [adjust_loop, store_ull, load_ull]
    have hl : (List.replicate 20 0).set 0 (Int.toNat 18446744073709551599)
        = (2 ^ 64 - 17) :: List.replicate 19 0 := by decide
    rw [hl, show (19 : Nat) = 18 + 1 from rfl, h]
    simp only [tail_loop, hfl]
    norm_num [store_ull]
    rfl

theorem take_set_ge : ∀ (TOFS : List Nat) (ht n v : Nat), n ≤ ht →
    (TOFS.set ht v).take n = TOFS.take n := by
  intro TOFS
  induction TOFS with
  | nil => intro ht n v _; simp
  | cons x rest ih =>
    intro ht n v h
    cases n with
    | zero => simp
    | succ n =>
      cases ht with
      | zero => omega
      | succ ht => simp only [List.set_cons_succ, List.take_succ_cons, ih ht n v (by omega)]

theorem take_succ_set_sum : ∀ (TOFS : List Nat) (ht v : Nat), ht < TOFS.length →
    ((TOFS.set ht v).take (ht + 1)).sum = (TOFS.take ht).sum + v := by
  intro TOFS
  induction TOFS with
  | nil => intro ht v h; simp at h
  | cons x rest ih =>
    intro ht v h
    cases ht with
    | zero => simp
    | succ ht =>
      have := ih ht v (by simpa using h)
      simp only [List.set_cons_succ, List.take_succ_cons, List.sum_cons, this]
      omega

theorem take_succ_sum_getD : ∀ (TOFS : List Nat) (n : Nat), n < TOFS.length →
    (TOFS.take (n + 1)).sum = (TOFS.take n).sum + TOFS.getD n 0 := by
  intro TOFS
  induction TOFS with
  | nil => intro n h; simp at h
  | cons x rest ih =>
    intro n h
    cases n with
    | zero => simp
    | succ n =>
      have := ih n (by simpa using h)
      simp only [List.take_succ_cons, List.sum_cons, List.getD_cons_succ, this]
      omega

theorem take_take_eq (a b : List Nat) (m n : Nat) (hmn : m ≤ n) (h : a.take n = b.take n) :
    a.take m = b.take m := by
  have := congrArg (List.take m) h
  rwa [List.take_take, List.take_take, Nat.min_eq_left hmn] at this

/-- The loop over the head terms on limits that increase strictly from above
`posting` and stay within `limit`: no premature end, `posting` ends at the
last limit, and the entries stored make the prefix sums equal to the limits. -/
theorem head_loop_spec (limit : Int) (hlim : limit < 2 ^ 64) :
    ∀ (limits : List Int) (ht : Nat) (TOFS : List Nat) (posting : Int),
    limits.Pairwise (fun a b => a < b) → (∀ l ∈ limits, posting < l ∧ l ≤ limit) →
    ht + limits.length ≤ TOFS.length → posting = ((TOFS.take ht).sum : Nat) →
    ∃ TOFS1 : List Nat,
      head_loop limit limits ht TOFS posting = (TOFS1, limits.getLastD posting, 0) ∧
      TOFS1.length = TOFS.length ∧ TOFS1.take ht = TOFS.take ht ∧
      ∀ h, h < limits.length →
        (((TOFS1.take (ht + h + 1)).sum : Nat) : Int) = limits.getD h 0 ∧
        ((TOFS1.getD (ht + h) 0 : Nat) : Int)
          = limits.getD h 0 - ((TOFS1.take (ht + h)).sum : Nat) := by
  intro limits
  induction limits with
  | nil =>
    intro ht TOFS posting _ _ _ _
    exact ⟨TOFS, rfl, rfl, rfl, fun h hh => by simp at hh⟩
  | cons l rest ih =>
    intro ht TOFS posting hpw hall hlen hsum
    obtain ⟨hp, hl⟩ := hall l (List.mem_cons_self _ _)
    rw [List.pairwise_cons] at hpw
    simp only [List.length_cons] at hlen
    have hnot : ¬ l > limit := by omega
    have htf : ¬ l - posting ≤ 0 := by omega
    have hnn : 0 ≤ posting := by rw [hsum]; exact Int.ofNat_nonneg _
    have hmod : (l - posting) % 2 ^ 64 = l - posting := Int.emod_eq_of_lt (by omega) (by omega)
    have hstore : store_ull TOFS ht (l - posting) = TOFS.set ht (l - posting).toNat := by
      unfold store_ull
      rw [if_neg (by omega), hmod, Int.toNat_ofNat]
    have hcast : (((l - posting).toNat : Nat) : Int) = l - posting :=
      Int.toNat_of_nonneg (by omega)
    have hsum1 : l = (((TOFS.set ht (l - posting).toNat).take (ht + 1)).sum : Nat) := by
      rw [take_succ_set_sum TOFS ht _ (by omega), Nat.cast_add, hcast, ← hsum]
      ring
    obtain ⟨TOFS1, he, hlen1, hframe, hrows⟩ :=
      ih (ht + 1) (TOFS.set ht (l - posting).toNat) l hpw.2
        (fun l1 h1 => ⟨hpw.1 l1 h1, (hall l1 (List.mem_cons_of_mem _ h1)).2⟩)
        (by rw [List.length_set]; omega) hsum1
    rw [List.length_set] at hlen1
    have hframe0 : TOFS1.take ht = TOFS.take ht := by
      rw [take_take_eq _ _ ht (ht + 1) (by omega) hframe, take_set_ge TOFS ht ht _ (le_refl _)]
    refine ⟨TOFS1, ?_, hlen1, hframe0, ?_⟩
    · rw [head_loop]
      simp only [if_neg hnot, if_neg htf, hstore]
      have e : posting + (l - posting) = l := by ring
      rw [e, he]
      cases rest <;> rfl
    · intro h hh
      cases h with
      | zero =>
        have h1 : (((TOFS1.take (ht + 0 + 1)).sum : Nat) : Int) = l := by
          rw [Nat.add_zero, hframe, ← hsum1]
        refine ⟨by simpa using h1, ?_⟩
        have h2 := take_succ_sum_getD TOFS1 ht (by omega)
        rw [Nat.add_zero] at h1
        rw [h2, Nat.cast_add] at h1
        simp only [Nat.add_zero, List.getD_cons_zero]
        linarith
      | succ h =>
        have := hrows h (by simpa using hh)
        have e1 : ht + (h + 1) + 1 = ht + 1 + h + 1 := by omega
        have e2 : ht + (h + 1) = ht + 1 + h := by omega
        rw [e1, e2, List.getD_cons_succ]
        exact this

theorem store_ull_take (TOFS : List Nat) (H : Nat) (index value : Int) (h : (H : Int) ≤ index) :
    (store_ull TOFS index value).take H = TOFS.take H := by
  unfold store_ull
  rw [if_neg (by omega)]
  exact take_set_ge TOFS index.toNat H _ (by omega)

/-- The loop over the ranks of a middle segment that starts behind rank `H`
leaves the first `H` entries as they are. -/
theorem middle_ranks_frame (limit : Int) (tf : Nat → Int) (H : Nat) :
    ∀ (n trank : Nat) (TOFS : List Nat) (posting : Int), H < trank → trank + n < 2 ^ 32 →
    (middle_ranks limit tf n trank TOFS posting).1.take H = TOFS.take H ∧
    (middle_ranks limit tf n trank TOFS posting).2.2 = trank + n := by
  intro n
  induction n with
  | zero => intro trank TOFS posting _ _; exact ⟨rfl, rfl⟩
  | succ n ih =>
    intro trank TOFS posting hH hn
    rw [middle_ranks]
    rw [Nat.mod_eq_of_lt (by omega)]
    obtain ⟨i1, i2⟩ := ih (trank + 1)
      (store_ull TOFS ((trank : Int) - 1)
        (if posting + tf trank > limit then limit - posting else tf trank))
      (posting + (if posting + tf trank > limit then limit - posting else tf trank))
      (by omega) (by omega)
    refine ⟨?_, by rw [i2]; omega⟩
    rw [i1]
    exact store_ull_take TOFS H _ _ (by omega)

/-- The loop over the middle segments, all of which start behind rank `H` and
lie within the first `V` ranks: the first `H` entries are left as they are,
and `trank` ends behind `H` and at most at `V`. -/
theorem middle_loop_frame (limit : Int) (mid_tf : Nat → Nat → Int) (H V : Nat)
    (hV : V < 2 ^ 32 - 1) :
    ∀ (segs : List midseg_ranks) (ms trank : Nat) (TOFS : List Nat) (posting : Int),
    (∀ seg ∈ segs, H < seg.F ∧ seg.F ≤ V ∧ seg.L < V) →
    (segs ≠ [] ∨ (H < trank ∧ trank ≤ V)) →
    (middle_loop limit mid_tf segs ms trank TOFS posting).1.take H = TOFS.take H ∧
    H < (middle_loop limit mid_tf segs ms trank TOFS posting).2.2 ∧
    (middle_loop limit mid_tf segs ms trank TOFS posting).2.2 ≤ V := by
  intro segs
  induction segs with
  | nil =>
    intro ms trank TOFS posting _ h
    rcases h with h | h
    · exact absurd rfl h
    · exact ⟨rfl, h.1, h.2⟩
  | cons seg rest ih =>
    intro ms trank TOFS posting hsegs _
    obtain ⟨hF, hF2, hL⟩ := hsegs seg (List.mem_cons_self _ _)
    have hlt : seg.F + (seg.L + 1 - seg.F) < 2 ^ 32 := by omega
    obtain ⟨m1, m2⟩ := middle_ranks_frame limit (mid_tf ms) H (seg.L + 1 - seg.F) seg.F TOFS
      posting hF hlt
    have hk1 : H < (middle_ranks limit (mid_tf ms) (seg.L + 1 - seg.F) seg.F TOFS posting).2.2 := by
      rw [m2]; omega
    have hk2 : (middle_ranks limit (mid_tf ms) (seg.L + 1 - seg.F) seg.F TOFS posting).2.2
        ≤ V := by
      rw [m2]; omega
    rw [middle_loop]
    obtain ⟨i1, i2, i3⟩ := ih (ms + 1)
      (middle_ranks limit (mid_tf ms) (seg.L + 1 - seg.F) seg.F TOFS posting).2.2
      (middle_ranks limit (mid_tf ms) (seg.L + 1 - seg.F) seg.F TOFS posting).1
      (middle_ranks limit (mid_tf ms) (seg.L + 1 - seg.F) seg.F TOFS posting).2.1
      (fun s hs => hsegs s (List.mem_cons_of_mem _ hs))
      (Or.inr ⟨hk1, hk2⟩)
    exact ⟨by rw [i1, m1], i2, i3⟩

/-- The loop over the tail, started behind rank `H`, leaves the first `H`
entries as they are. -/
theorem tail_loop_frame (limit : Int) (ave_tail_tf : ℚ) (H : Nat) :
    ∀ (n trank : Nat) (carry : ℚ) (TOFS : List Nat) (posting : Int), H < trank →
    trank + n < 2 ^ 32 →
    (tail_loop limit ave_tail_tf n trank carry TOFS posting).1.take H = TOFS.take H ∧
    (tail_loop limit ave_tail_tf n trank carry TOFS posting).2.2 = trank + n := by
  intro n
  induction n with
  | zero => intro trank carry TOFS posting _ _; exact ⟨rfl, rfl⟩
  | succ n ih =>
    intro trank carry TOFS posting hH hn
    rw [tail_loop]
    rw [Nat.mod_eq_of_lt (by omega)]
    obtain ⟨i1, i2⟩ := ih (trank + 1) (ave_tail_tf + carry - ((⌊ave_tail_tf + carry⌋ : Int) : ℚ))
      (store_ull TOFS ((trank : Int) - 1)
        (if posting + ⌊ave_tail_tf + carry⌋ > limit then limit - posting
          else ⌊ave_tail_tf + carry⌋))
      (posting + (if posting + ⌊ave_tail_tf + carry⌋ > limit then limit - posting
          else ⌊ave_tail_tf + carry⌋))
      (by omega) (by omega)
    refine ⟨?_, by rw [i2]; omega⟩
    rw [i1]
    exact store_ull_take TOFS H _ _ (by omega)

/-- The array that `create_and_fill_TOFS_array` returns keeps the first `H`
entries that its head loop has stored, when the head loop has no premature
end, the middle segments lie behind rank `H` and before rank `V`, and the tail
needs no redistribution. -/
theorem create_and_fill_TOFS_array_head_frame (num_postings vocab_size : Nat)
    (head_limits : List Int) (mid_seg_defns : List midseg_ranks) (mid_tf : Nat → Nat → Int)
    (H : Nat) (T1 : List Nat) (p1 : Int)
    (hV : vocab_size < 2 ^ 32 - 1)
    (he : head_loop num_postings head_limits 0 (List.replicate vocab_size 0) 0 = (T1, p1, 0))
    (hne : mid_seg_defns ≠ [])
    (hsegs : ∀ seg ∈ mid_seg_defns, H < seg.F ∧ seg.F ≤ vocab_size ∧ seg.L < vocab_size)
    (hno : ((vocab_size : Int)
          - ((middle_loop num_postings mid_tf mid_seg_defns 0 0 T1 p1).2.2 : Nat)) % 2 ^ 32
        ≤ (num_postings : Int) - (middle_loop num_postings mid_tf mid_seg_defns 0 0 T1 p1).2.1) :
    (create_and_fill_TOFS_array num_postings vocab_size head_limits mid_seg_defns mid_tf).take H
      = T1.take H := by
  obtain ⟨m1, m2, m3⟩ := middle_loop_frame num_postings mid_tf H vocab_size hV mid_seg_defns 0 0
    T1 p1 hsegs (Or.inl hne)
  unfold create_and_fill_TOFS_array
  simp only [he]
  rcases hm : middle_loop num_postings mid_tf mid_seg_defns 0 0 T1 p1 with ⟨T2, p2, trank2⟩
  rw [hm] at m1 m2 m3 hno
  simp only at m1 m2 m3 hno
  simp only [if_neg (not_lt.mpr hno)]
  have hmod : (trank2 + 1) % 2 ^ 32 = trank2 + 1 := Nat.mod_eq_of_lt (by omega)
  rw [hmod]
  obtain ⟨t1, t2⟩ := tail_loop_frame num_postings
    (((num_postings : Int) - p2 : Int) / (((vocab_size : Int) - (trank2 : Int)) % 2 ^ 32 : Int))
    H (vocab_size + 1 - (trank2 + 1)) (trank2 + 1) 0 T2 p2 (by omega) (by omega)
  rcases ht : tail_loop num_postings
    (((num_postings : Int) - p2 : Int) / (((vocab_size : Int) - (trank2 : Int)) % 2 ^ 32 : Int))
    (vocab_size + 1 - (trank2 + 1)) (trank2 + 1) 0 T2 p2 with ⟨T3, p3, trank3⟩
  rw [ht] at t1 t2
  simp only at t1 t2
  simp only [ht]
  split
  · rw [store_ull_take _ H _ _ (by omega), t1, m1]
  · rw [t1, m1]

/-- Claim C31, amended.  `head_limits` lists the limits
`(long long) floor(head_term_cumprobs[h] * dnum_postings)` as the code computes
them, in doubles, for the head terms; cumulative probabilities of at most 1
give limits of at most `num_postings`.  When the limits are at most
`num_postings` and increase strictly from a first limit of at least 1, the
middle segments lie behind the head terms and
before the last rank (`H < F ≤ V`, `L < V`, at least one segment), and after
the middle segments the tail needs no redistribution
(`tail_vocab_needed ≤ tail_postings_needed`), then in the array that
`create_and_fill_TOFS_array` returns every head entry `TOFS[h-1]` is the limit
of `h` minus the sum of the entries before it, and the first `h` entries sum
to the limit of `h`. -/
theorem head_entries_reach_cumulative_limits (num_postings vocab_size : Nat)
    (head_limits : List Int) (mid_seg_defns : List midseg_ranks) (mid_tf : Nat → Nat → Int)
    (hN : num_postings < 2 ^ 63) (hV : vocab_size < 2 ^ 32 - 1)
    (hinc : head_limits.Pairwise (fun a b => a < b))
    (hfirst : ∀ l ∈ head_limits.head?, 1 ≤ l)
    (hle : ∀ l ∈ head_limits, l ≤ (num_postings : Int))
    (hne : mid_seg_defns ≠ [])
    (hsegs : ∀ seg ∈ mid_seg_defns,
      head_limits.length < seg.F ∧ seg.F ≤ vocab_size ∧ seg.L < vocab_size)
    (hno : ((vocab_size : Int)
          - ((middle_loop num_postings mid_tf mid_seg_defns 0 0
              (head_loop num_postings head_limits 0 (List.replicate vocab_size 0) 0).1
              (head_loop num_postings head_limits 0 (List.replicate vocab_size 0) 0).2.1).2.2
              : Nat)) % 2 ^ 32
        ≤ (num_postings : Int)
          - (middle_loop num_postings mid_tf mid_seg_defns 0 0
              (head_loop num_postings head_limits 0 (List.replicate vocab_size 0) 0).1
              (head_loop num_postings head_limits 0 (List.replicate vocab_size 0) 0).2.1).2.1) :
    ∀ h, h < head_limits.length →
      (((create_and_fill_TOFS_array num_postings vocab_size head_limits mid_seg_defns
          mid_tf).getD h 0 : Nat) : Int)
        = head_limits.getD h 0
          - (((create_and_fill_TOFS_array num_postings vocab_size head_limits mid_seg_defns
              mid_tf).take h).sum : Nat) ∧
      ((((create_and_fill_TOFS_array num_postings vocab_size head_limits mid_seg_defns
          mid_tf).take (h + 1)).sum : Nat) : Int)
        = head_limits.getD h 0 := by
  obtain ⟨seg0, hseg0⟩ := List.exists_mem_of_ne_nil _ hne
  have hHV : head_limits.length ≤ vocab_size := by
    have := hsegs seg0 hseg0
    omega
  have hall : ∀ l ∈ head_limits, (0 : Int) < l ∧ l ≤ (num_postings : Int) := by
    intro l hl
    refine ⟨?_, hle l hl⟩
    cases hcs : head_limits with
    | nil => rw [hcs] at hl; simp at hl
    | cons l0 rest =>
      rw [hcs] at hl hinc hfirst
      have h0 := hfirst l0 (by simp)
      rcases List.mem_cons.mp hl with h | h
      · rw [h]; omega
      · rw [List.pairwise_cons] at hinc
        have := hinc.1 _ h
        omega
  obtain ⟨T1, he, hl1, _, hrows⟩ :=
    head_loop_spec num_postings (by
      have : ((num_postings : Nat) : Int) < 2 ^ 63 := by exact_mod_cast hN
      omega)
      head_limits 0 (List.replicate vocab_size 0) 0 hinc hall
      (by simp only [List.length_replicate]; omega) (by simp)
  rw [List.length_replicate] at hl1
  rw [he] at hno
  have hframe := create_and_fill_TOFS_array_head_frame num_postings vocab_size head_limits
    mid_seg_defns mid_tf head_limits.length T1 _ hV he hne hsegs hno
  intro h hh
  obtain ⟨r1, r2⟩ := hrows h hh
  rw [Nat.zero_add] at r1 r2
  have hk1 : (create_and_fill_TOFS_array num_postings vocab_size head_limits mid_seg_defns
      mid_tf).take (h + 1) = T1.take (h + 1) :=
    take_take_eq _ _ (h + 1) head_limits.length (by omega) hframe
  have hk0 : (create_and_fill_TOFS_array num_postings vocab_size head_limits mid_seg_defns
      mid_tf).take h = T1.take h :=
    take_take_eq _ _ h head_limits.length (by omega) hframe
  have hg : (create_and_fill_TOFS_array num_postings vocab_size head_limits mid_seg_defns
      mid_tf).getD h 0 = T1.getD h 0 := by
    have e1 := congrArg (fun l => l.getD h 0) hk1
    simp only at e1
    rw [List.getD_eq_getElem?_getD, List.getD_eq_getElem?_getD, List.getElem?_take,
      List.getElem?_take, if_pos (by omega), if_pos (by omega)] at e1
    rw [List.getD_eq_getElem?_getD, List.getD_eq_getElem?_getD]
    exact e1
  rw [hk1, hk0, hg]
  exact ⟨r2, r1⟩

/-- Witness of C31: 20 postings, 5 terms, the head limits 5 and 10, one middle
segment over the ranks 3 and 4 with 4 postings each; the array returned is
5, 5, 4, 4, 2. -/
theorem head_entries_reach_cumulative_limits_witness :
    create_and_fill_TOFS_array 20 5 [5, 10] [⟨3, 4⟩] (fun _ _ => 4) = [5, 5, 4, 4, 2] ∧
    ((((create_and_fill_TOFS_array 20 5 [5, 10] [⟨3, 4⟩] (fun _ _ => 4)).getD 0 0 : Nat) : Int)
        = ([5, 10] : List Int).getD 0 0
          - (((create_and_fill_TOFS_array 20 5 [5, 10] [⟨3, 4⟩] (fun _ _ => 4)).take 0).sum
              : Nat) ∧
      ((((create_and_fill_TOFS_array 20 5 [5, 10] [⟨3, 4⟩] (fun _ _ => 4)).take (0 + 1)).sum
          : Nat) : Int)
        = ([5, 10] : List Int).getD 0 0) ∧
    ((((create_and_fill_TOFS_array 20 5 [5, 10] [⟨3, 4⟩] (fun _ _ => 4)).getD 1 0 : Nat) : Int)
        = ([5, 10] : List Int).getD 1 0
          - (((create_and_fill_TOFS_array 20 5 [5, 10] [⟨3, 4⟩] (fun _ _ => 4)).take 1).sum
              : Nat) ∧
      ((((create_and_fill_TOFS_array 20 5 [5, 10] [⟨3, 4⟩] (fun _ _ => 4)).take (1 + 1)).sum
          : Nat) : Int)
        = ([5, 10] : List Int).getD 1 0) :=
  have h := head_entries_reach_cumulative_limits 20 5 [5, 10] [⟨3, 4⟩] (fun _ _ => 4)
    (by norm_num) (by norm_num) (by decide) (by decide) (by decide) (by decide) (by decide)
    (by decide)
  ⟨by simp [create_and_fill_TOFS_array, head_loop, middle_loop, middle_ranks, tail_loop,
      store_ull, load_ull, adjust_loop],
    h 0 (by decide), h 1 (by decide)⟩

/-- Counterexample to C31 as stated.  With 50 postings and the head
percentages 1.5 and 1 the limits are 0 and 1 (the products 0.75 and 1.25, in
doubles as in exact arithmetic), which increase strictly: the first head term
ends the head loop prematurely, and the function returns the zeroed array,
whose second entry is 0 and not 1.  With 20 postings, 5 terms, one head term
of limit 10 and a middle segment over rank 2 alone that receives 9 postings,
`trank` is 3 and `posting` 19 after the middle segment, so that 2 terms are
needed from 1 posting: the redistribution takes 2 postings from the first
entry, and the array returned is 8, 9, 0, 1, 2, whose first entry is not the
limit 10. -/
theorem head_entries_reach_cumulative_limits_counterexample :
    head_loop 50 [0, 1] 0 (List.replicate 10 0) 0 = (List.replicate 10 0, 0, 1) ∧
    create_and_fill_TOFS_array 50 10 [0, 1] [⟨3, 9⟩] (fun _ _ => 0) = List.replicate 10 0 ∧
    head_loop 20 [10] 0 (List.replicate 5 0) 0 = ([10, 0, 0, 0, 0], 10, 0) ∧
    middle_loop 20 (fun _ _ => 9) [⟨2, 2⟩] 0 0 [10, 0, 0, 0, 0] 10 = ([10, 9, 0, 0, 0], 19, 3) ∧
    create_and_fill_TOFS_array 20 5 [10] [⟨2, 2⟩] (fun _ _ => 9) = [8, 9, 0, 1, 2] := by
  refine ⟨by decide, ?_, by decide, by decide, ?_⟩
  · simp [create_and_fill_TOFS_array, head_loop]
  · simp [create_and_fill_TOFS_array, head_loop, middle_loop, middle_ranks, tail_loop,
      store_ull, load_ull, adjust_loop, floor_three_halves, floor_three_halves_carry]

theorem sorted_by_length_length (T : List (List Nat × Nat)) : ∀ m,
    (sorted_by_length T m).length = first_slot T m := by
  intro m
  induction m with
  | zero => rfl
  | succ m ih => rw [sorted_by_length, List.length_append, ih, first_slot]

theorem first_slot_succ_le (T : List (List Nat × Nat)) (l : Nat) : ∀ m, l < m →
    first_slot T l + (length_class l T).length ≤ first_slot T m := by
  intro m
  induction m with
  | zero => intro h; omega
  | succ m ih =>
    intro h
    rw [first_slot]
    rcases Nat.lt_succ_iff_lt_or_eq.mp h with h1 | h1
    · have := ih h1; omega
    · subst h1; exact le_refl _

theorem first_slot_mono (T : List (List Nat × Nat)) (l m : Nat) (h : l ≤ m) :
    first_slot T l ≤ first_slot T m := by
  rcases Nat.lt_or_eq_of_le h with h1 | h1
  · have := first_slot_succ_le T l m h1; omega
  · subst h1; exact le_refl _

theorem sorted_by_length_getD (T : List (List Nat × Nat)) (d : List Nat × Nat) (l j : Nat)
    (hj : j < (length_class l T).length) : ∀ m, l < m →
    (sorted_by_length T m).getD (first_slot T l + j) d = (length_class l T).getD j d := by
  intro m
  induction m with
  | zero => intro h; omega
  | succ m ih =>
    intro h
    rw [sorted_by_length]
    rcases Nat.lt_succ_iff_lt_or_eq.mp h with h1 | h1
    · have hlt : first_slot T l + j < (sorted_by_length T m).length := by
        rw [sorted_by_length_length]
        have := first_slot_succ_le T l m h1
        omega
      rw [List.getD_eq_getElem?_getD, List.getElem?_append_left hlt,
        ← List.getD_eq_getElem?_getD, ih h1]
    · subst h1
      have hge : (sorted_by_length T l).length ≤ first_slot T l + j := by
        rw [sorted_by_length_length]; omega
      rw [List.getD_eq_getElem?_getD, List.getElem?_append_right hge, sorted_by_length_length,
        Nat.add_sub_cancel_left, ← List.getD_eq_getElem?_getD]

theorem first_slot_cover (T : List (List Nat × Nat)) : ∀ m i, i < first_slot T m →
    ∃ l, l < m ∧ ∃ j, j < (length_class l T).length ∧ i = first_slot T l + j := by
  intro m
  induction m with
  | zero => intro i h; simp [first_slot] at h
  | succ m ih =>
    intro i h
    rw [first_slot] at h
    by_cases h1 : i < first_slot T m
    · obtain ⟨l, hl, j, hj, e⟩ := ih i h1
      exact ⟨l, by omega, j, hj, e⟩
    · exact ⟨m, by omega, i - first_slot T m, by omega, by omega⟩

theorem length_class_filter (T : List (List Nat × Nat)) (l m : Nat) :
    (length_class m T).filter (fun e => decide (e.2 = l))
      = if l = m then length_class m T else [] := by
  unfold length_class
  rw [List.filter_filter]
  by_cases h : l = m
  · subst h
    rw [if_pos rfl]
    congr 1
    funext e
    simp
  · rw [if_neg h]
    rw [List.filter_eq_nil_iff]
    intro e _
    simp only [Bool.and_eq_true, decide_eq_true_eq, not_and]
    intro h1 h2
    exact h (h1.symm.trans h2)

theorem sorted_by_length_filter (T : List (List Nat × Nat)) (l : Nat) : ∀ m,
    (sorted_by_length T m).filter (fun e => decide (e.2 = l))
      = if l < m then length_class l T else [] := by
  intro m
  induction m with
  | zero => simp [sorted_by_length]
  | succ m ih =>
    rw [sorted_by_length, List.filter_append, ih, length_class_filter]
    by_cases h1 : l < m
    · rw [if_pos h1, if_neg (by omega), if_pos (by omega), List.append_nil]
    · rw [if_neg h1]
      by_cases h2 : l = m
      · subst h2; rw [if_pos rfl, if_pos (by omega), List.nil_append]
      · rw [if_neg h2, if_neg (by omega), List.append_nil]

theorem sorted_by_length_mem (T : List (List Nat × Nat)) : ∀ m e,
    e ∈ sorted_by_length T m → e ∈ T ∧ e.2 < m := by
  intro m
  induction m with
  | zero => intro e h; simp [sorted_by_length] at h
  | succ m ih =>
    intro e h
    rw [sorted_by_length, List.mem_append] at h
    rcases h with h | h
    · have := ih e h
      exact ⟨this.1, by omega⟩
    · unfold length_class at h
      rw [List.mem_filter] at h
      have h2 : e.2 = m := by simpa using h.2
      exact ⟨h.1, by omega⟩

theorem sorted_by_length_pairwise (T : List (List Nat × Nat)) : ∀ m,
    (sorted_by_length T m).Pairwise (fun a b => a.2 ≤ b.2) := by
  intro m
  induction m with
  | zero => simp [sorted_by_length]
  | succ m ih =>
    rw [sorted_by_length, List.pairwise_append]
    refine ⟨ih, ?_, ?_⟩
    · apply List.pairwise_of_forall_mem_list
      intro a ha b hb
      unfold length_class at ha hb
      rw [List.mem_filter] at ha hb
      have h1 : a.2 = m := by simpa using ha.2
      have h2 : b.2 = m := by simpa using hb.2
      omega
    · intro a ha b hb
      have h1 := (sorted_by_length_mem T m a ha).2
      unfold length_class at hb
      rw [List.mem_filter] at hb
      have h2 : b.2 = m := by simpa using hb.2
      omega

theorem sorted_by_length_perm (T : List (List Nat × Nat)) : ∀ m,
    (sorted_by_length T m).Perm (T.filter (fun e => decide (e.2 < m))) := by
  intro m
  induction m with
  | zero => simp [sorted_by_length]
  | succ m ih =>
    rw [sorted_by_length]
    have h := List.filter_append_perm (fun e : List Nat × Nat => decide (e.2 < m))
      (T.filter (fun e => decide (e.2 < m + 1)))
    rw [List.filter_filter, List.filter_filter] at h
    have e1 : T.filter (fun a => (decide (a.2 < m) && decide (a.2 < m + 1)))
        = T.filter (fun e => decide (e.2 < m)) := by
      apply List.filter_congr
      intro x _
      by_cases hx : x.2 < m
      · simp [hx]; omega
      · simp [hx]
    have e2 : T.filter (fun a => ((!decide (a.2 < m)) && decide (a.2 < m + 1)))
        = length_class m T := by
      unfold length_class
      apply List.filter_congr
      intro x _
      by_cases hx : x.2 = m
      · simp [hx]
      · by_cases hx2 : x.2 < m
        · simp [hx, hx2]
        · simp [hx, hx2]; omega
    rw [e1, e2] at h
    exact (List.Perm.append_right _ ih).trans h

theorem sorted_by_length_perm_all (T : List (List Nat × Nat)) (m : Nat)
    (h : ∀ e ∈ T, e.2 < m) : (sorted_by_length T m).Perm T := by
  have := sorted_by_length_perm T m
  rwa [List.filter_eq_self.mpr (fun e he => by simpa using h e he)] at this

theorem getD_set_nat (h : List Nat) (i l v : Nat) (hi : i < h.length) :
    (h.set i v).getD l 0 = if l = i then v else h.getD l 0 := by
  by_cases e : l = i
  · subst e
    rw [if_pos rfl, List.getD_eq_getElem?_getD, List.getElem?_set_self hi]
    rfl
  · rw [if_neg e, List.getD_eq_getElem?_getD, List.getElem?_set_ne (fun h => e h.symm),
      ← List.getD_eq_getElem?_getD]

/-- The first loop of the sort: the entries get their length byte, and the
histogram counts the entries of each length. -/
theorem build_histogram_spec (strlenp : List Nat → Nat) :
    ∀ (terms : List (List Nat × Nat)) (histo : List Nat),
    (∀ e ∈ terms, strlenp e.1 < histo.length) → histo.length ≤ 256 →
    (build_histogram strlenp terms histo).1 = terms.map (fun e => (e.1, strlenp e.1)) ∧
    (build_histogram strlenp terms histo).2.length = histo.length ∧
    ∀ l, (build_histogram strlenp terms histo).2.getD l 0
      = histo.getD l 0 + (length_class l (terms.map (fun e => (e.1, strlenp e.1)))).length := by
  intro terms
  induction terms with
  | nil => intro histo _ _; simp [build_histogram, length_class]
  | cons old rest ih =>
    intro histo hlen h256
    have h0 := hlen old (List.mem_cons_self _ _)
    obtain ⟨i1, i2, i3⟩ := ih (histo.set (strlenp old.1) (histo.getD (strlenp old.1) 0 + 1))
      (by
        intro e he
        rw [List.length_set]
        exact hlen e (List.mem_cons_of_mem _ he))
      (by rw [List.length_set]; exact h256)
    rw [List.length_set] at i2
    have hmod : strlenp old.1 % 256 = strlenp old.1 := Nat.mod_eq_of_lt (by omega)
    rw [build_histogram]
    refine ⟨?_, ?_, ?_⟩
    · simp only [List.map_cons, hmod, i1]
    · exact i2
    · intro l
      show (build_histogram strlenp rest _).2.getD l 0 = _
      rw [i3 l, getD_set_nat histo _ l _ h0]
      simp only [List.map_cons, length_class, List.filter_cons]
      by_cases e : l = strlenp old.1
      · subst e
        simp
        omega
      · have e2 : ¬ strlenp old.1 = l := fun h => e h.symm
        simp [e, e2]

/-- The second loop of the sort: entry `l` becomes the number of entries
counted at the indices below `l`. -/
theorem cumulate_histogram_spec (T : List (List Nat × Nat)) :
    ∀ (n i sum : Nat) (histo : List Nat),
    (∀ l, i ≤ l → histo.getD l 0 = (length_class l T).length) → sum = first_slot T i →
    i + n ≤ histo.length →
    (cumulate_histogram n i sum histo).length = histo.length ∧
    (∀ l, l < i → (cumulate_histogram n i sum histo).getD l 0 = histo.getD l 0) ∧
    ∀ l, i ≤ l → l < i + n → (cumulate_histogram n i sum histo).getD l 0 = first_slot T l := by
  intro n
  induction n with
  | zero =>
    intro i sum histo _ _ _
    exact ⟨rfl, fun _ _ => rfl, fun l h1 h2 => by omega⟩
  | succ n ih =>
    intro i sum histo hc hs hlen
    rw [cumulate_histogram]
    obtain ⟨j1, j2, j3⟩ := ih (i + 1) (sum + histo.getD i 0) (histo.set i sum)
      (by
        intro l hl
        rw [getD_set_nat histo i l sum (by omega), if_neg (by omega)]
        exact hc l (by omega))
      (by rw [first_slot, hs, hc i (le_refl _)])
      (by rw [List.length_set]; omega)
    rw [List.length_set] at j1
    refine ⟨j1, ?_, ?_⟩
    · intro l hl
      rw [j2 l (by omega), getD_set_nat histo i l sum (by omega), if_neg (by omega)]
    · intro l h1 h2
      by_cases e : l = i
      · subst e
        rw [j2 l (by omega), getD_set_nat histo l l sum (by omega), if_pos rfl, hs]
      · exact j3 l (by omega) (by omega)

theorem length_class_append (l : Nat) (P R : List (List Nat × Nat)) :
    length_class l (P ++ R) = length_class l P ++ length_class l R := by
  unfold length_class
  rw [List.filter_append]

theorem length_class_singleton (l : Nat) (e : List Nat × Nat) :
    length_class l [e] = if e.2 = l then [e] else [] := by
  unfold length_class
  by_cases h : e.2 = l
  · simp [h]
  · simp [h]

theorem getD_set_entry (new : List (List Nat × Nat)) (i k : Nat) (v d : List Nat × Nat)
    (hi : i < new.length) :
    (new.set i v).getD k d = if k = i then v else new.getD k d := by
  by_cases e : k = i
  · subst e
    rw [if_pos rfl, List.getD_eq_getElem?_getD, List.getElem?_set_self hi]
    rfl
  · rw [if_neg e, List.getD_eq_getElem?_getD, List.getElem?_set_ne (fun h => e h.symm),
      ← List.getD_eq_getElem?_getD]

/-- The last loop of the sort, from any point of its run: `P` are the entries
copied, `R` those still to copy; every entry of length `l` lands in the slots
from `first_slot l` on, in the order of the table. -/
theorem scatter_terms_spec (T : List (List Nat × Nat)) (d : List Nat × Nat) (M : Nat)
    (hkey : ∀ e ∈ T, e.2 < M) (htotal : first_slot T M = T.length) :
    ∀ (R P : List (List Nat × Nat)) (histo : List Nat) (new_terms : List (List Nat × Nat)),
    P ++ R = T → M ≤ histo.length → new_terms.length = T.length →
    (∀ l, l < M → histo.getD l 0 = first_slot T l + (length_class l P).length) →
    (∀ l, l < M → ∀ j, j < (length_class l P).length →
      new_terms.getD (first_slot T l + j) d = (length_class l T).getD j d) →
    (scatter_terms R histo new_terms).length = T.length ∧
    ∀ l, l < M → ∀ j, j < (length_class l T).length →
      (scatter_terms R histo new_terms).getD (first_slot T l + j) d
        = (length_class l T).getD j d := by
  intro R
  induction R with
  | nil =>
    intro P histo new_terms hPR _ hnew _ hent
    rw [List.append_nil] at hPR
    subst hPR
    exact ⟨hnew, hent⟩
  | cons old rest ih =>
    intro P histo new_terms hPR hM hnew hhist hent
    have hold : old ∈ T := by rw [← hPR]; simp
    have hl0 := hkey old hold
    have hcls : ∀ l, length_class l T
        = length_class l P ++ (if old.2 = l then [old] else []) ++ length_class l rest := by
      intro l
      rw [← hPR, show P ++ old :: rest = P ++ [old] ++ rest by simp, length_class_append,
        length_class_append, length_class_singleton]
    have hslot : histo.getD old.2 0 = first_slot T old.2 + (length_class old.2 P).length :=
      hhist old.2 hl0
    have hcnt : (length_class old.2 P).length < (length_class old.2 T).length := by
      rw [hcls old.2, if_pos rfl]
      simp
    have hle : ∀ l, (length_class l P).length ≤ (length_class l T).length := by
      intro l
      rw [hcls l]
      simp only [List.length_append]
      omega
    have hslot_lt : histo.getD old.2 0 < new_terms.length := by
      have := first_slot_succ_le T old.2 M hl0
      omega
    rw [scatter_terms]
    apply ih (P ++ [old]) (histo.set old.2 (histo.getD old.2 0 + 1))
      (new_terms.set (histo.getD old.2 0) old) (by rw [← hPR]; simp)
      (by rw [List.length_set]; exact hM) (by rw [List.length_set]; exact hnew)
    · intro l hl
      rw [getD_set_nat histo old.2 l _ (by omega), length_class_append, length_class_singleton,
        List.length_append]
      by_cases e : l = old.2
      · subst e
        rw [if_pos rfl, if_pos rfl, hslot]
        simp
        omega
      · rw [if_neg e, if_neg (fun h => e h.symm), hhist l hl]
        simp
    · intro l hl j hj
      rw [length_class_append, length_class_singleton, List.length_append] at hj
      rw [getD_set_entry new_terms _ _ old d hslot_lt]
      by_cases e : l = old.2
      · subst e
        rw [if_pos rfl] at hj
        simp only [List.length_singleton] at hj
        by_cases ej : j = (length_class old.2 P).length
        · rw [if_pos (by omega), hcls old.2, if_pos rfl, ej, List.append_assoc,
            List.getD_eq_getElem?_getD, List.getElem?_append_right (le_refl _)]
          simp
        · rw [if_neg (by omega)]
          exact hent old.2 hl j (by omega)
      · rw [if_neg (fun h => e h.symm)] at hj
        simp only [List.length_nil, Nat.add_zero] at hj
        have hne : first_slot T l + j ≠ histo.getD old.2 0 := by
          rcases Nat.lt_or_gt_of_ne e with h1 | h1
          · have := first_slot_succ_le T l old.2 h1
            have := hle l
            omega
          · have := first_slot_succ_le T old.2 l h1
            omega
        rw [if_neg hne]
        exact hent l hl j hj

/-- The table that `sort_term_array_by_length` returns, from the zeroed
histogram: the entries with their length bytes set, the lengths in increasing
order, the entries of one length in the order of the table. -/
theorem sort_term_array_by_length_eq (strlenp : List Nat → Nat)
    (terms new_terms : List (List Nat × Nat)) (num_terms : Nat)
    (hnum : terms.length = num_terms) (hnew : new_terms.length = num_terms)
    (hlen : ∀ e ∈ terms, strlenp e.1 ≤ MAX_TERM_LEN) :
    sort_term_array_by_length strlenp (List.replicate (MAX_TERM_LEN + 1) 0) new_terms terms
        num_terms
      = sorted_by_length (terms.map (fun e => (e.1, strlenp e.1))) (MAX_TERM_LEN + 1) := by
  have hkey : ∀ e ∈ terms.map (fun e => (e.1, strlenp e.1)), e.2 < MAX_TERM_LEN + 1 := by
    intro e he
    obtain ⟨x, hx, rfl⟩ := List.mem_map.mp he
    have := hlen x hx
    show strlenp x.1 < MAX_TERM_LEN + 1
    omega
  have htotal : first_slot (terms.map (fun e => (e.1, strlenp e.1))) (MAX_TERM_LEN + 1)
      = (terms.map (fun e => (e.1, strlenp e.1))).length := by
    rw [← sorted_by_length_length]
    exact (sorted_by_length_perm_all _ _ hkey).length_eq
  have htake : terms.take num_terms = terms := by
    rw [← hnum]; exact List.take_length terms
  obtain ⟨b1, b2, b3⟩ := build_histogram_spec strlenp terms
    (List.replicate (MAX_TERM_LEN + 1) 0)
    (by
      intro e he
      have := hlen e he
      rw [List.length_replicate]
      omega)
    (by rw [List.length_replicate]; decide)
  rw [List.length_replicate] at b2
  obtain ⟨c1, _, c3⟩ := cumulate_histogram_spec (terms.map (fun e => (e.1, strlenp e.1)))
    (MAX_TERM_LEN + 1) 0 0 (build_histogram strlenp terms (List.replicate (MAX_TERM_LEN + 1) 0)).2
    (by
      intro l _
      rw [b3 l]
      have : (List.replicate (MAX_TERM_LEN + 1) 0).getD l 0 = 0 := by
        rw [List.getD_eq_getElem?_getD]
        by_cases h : l < MAX_TERM_LEN + 1
        · rw [List.getElem?_eq_getElem (by rw [List.length_replicate]; exact h)]
          simp
        · rw [List.getElem?_eq_none (by rw [List.length_replicate]; omega)]
          rfl
      rw [this, Nat.zero_add])
    rfl (by rw [b2]; omega)
  rw [b2] at c1
  obtain ⟨s1, s2⟩ := scatter_terms_spec (terms.map (fun e => (e.1, strlenp e.1))) ([], 0)
    (MAX_TERM_LEN + 1) hkey htotal (terms.map (fun e => (e.1, strlenp e.1))) []
    (cumulate_histogram (MAX_TERM_LEN + 1) 0 0
      (build_histogram strlenp terms (List.replicate (MAX_TERM_LEN + 1) 0)).2) new_terms
    (List.nil_append _) (by rw [c1]) (by rw [List.length_map, hnew, hnum])
    (by
      intro l hl
      rw [c3 l (Nat.zero_le _) (by omega)]
      simp [length_class])
    (by
      intro l _ j hj
      simp [length_class] at hj)
  have hout : sort_term_array_by_length strlenp (List.replicate (MAX_TERM_LEN + 1) 0) new_terms
      terms num_terms
      = scatter_terms (terms.map (fun e => (e.1, strlenp e.1)))
        (cumulate_histogram (MAX_TERM_LEN + 1) 0 0
          (build_histogram strlenp terms (List.replicate (MAX_TERM_LEN + 1) 0)).2) new_terms := by
    unfold sort_term_array_by_length
    rw [htake, ← b1]
  rw [hout]
  apply List.ext_getElem
  · rw [s1, sorted_by_length_length, htotal]
  · intro i h1 h2
    rw [sorted_by_length_length] at h2
    obtain ⟨l, hl, j, hj, e⟩ := first_slot_cover _ _ i h2
    have g1 := s2 l hl j hj
    have g2 := sorted_by_length_getD (terms.map (fun e => (e.1, strlenp e.1))) ([], 0) l j hj
      (MAX_TERM_LEN + 1) hl
    rw [← e] at g1 g2
    rw [List.getD_eq_getElem?_getD, List.getElem?_eq_getElem h1] at g1
    rw [List.getD_eq_getElem?_getD, List.getElem?_eq_getElem
      (by rw [sorted_by_length_length]; exact h2)] at g2
    simp only [Option.getD_some] at g1 g2
    rw [g1, g2]

/-- Claim C36: for every table of `num_terms` entries whose words have a
length `strlenp` of at most `MAX_TERM_LEN`, every contents of the block
allocated for the new table, and the histogram zeroed as at the start of the
program, `sort_term_array_by_length` returns a permutation of the input
entries with the length byte of each set to the `strlenp` of its word, in
nondecreasing order of `strlenp`, in which the entries of each length keep
the order they had in the input. -/
theorem sort_by_length_stable_permutation (strlenp : List Nat → Nat)
    (terms new_terms : List (List Nat × Nat)) (num_terms : Nat)
    (hnum : terms.length = num_terms) (hnew : new_terms.length = num_terms)
    (hlen : ∀ e ∈ terms, strlenp e.1 ≤ MAX_TERM_LEN) :
    (sort_term_array_by_length strlenp (List.replicate (MAX_TERM_LEN + 1) 0) new_terms terms
        num_terms).Perm (terms.map (fun e => (e.1, strlenp e.1))) ∧
    (sort_term_array_by_length strlenp (List.replicate (MAX_TERM_LEN + 1) 0) new_terms terms
        num_terms).Pairwise (fun a b => strlenp a.1 ≤ strlenp b.1) ∧
    (∀ l, (sort_term_array_by_length strlenp (List.replicate (MAX_TERM_LEN + 1) 0) new_terms
          terms num_terms).filter (fun e => decide (strlenp e.1 = l))
        = (terms.map (fun e => (e.1, strlenp e.1))).filter (fun e => decide (strlenp e.1 = l))) ∧
    (∀ e ∈ sort_term_array_by_length strlenp (List.replicate (MAX_TERM_LEN + 1) 0) new_terms
        terms num_terms, e.2 = strlenp e.1) := by
  rw [sort_term_array_by_length_eq strlenp terms new_terms num_terms hnum hnew hlen]
  have hmark : ∀ e ∈ terms.map (fun e => (e.1, strlenp e.1)), e.2 = strlenp e.1 := by
    intro e he
    obtain ⟨x, _, rfl⟩ := List.mem_map.mp he
    rfl
  have hkey : ∀ e ∈ terms.map (fun e => (e.1, strlenp e.1)), e.2 < MAX_TERM_LEN + 1 := by
    intro e he
    obtain ⟨x, hx, rfl⟩ := List.mem_map.mp he
    have := hlen x hx
    show strlenp x.1 < MAX_TERM_LEN + 1
    omega
  have hmem : ∀ e ∈ sorted_by_length (terms.map (fun e => (e.1, strlenp e.1))) (MAX_TERM_LEN + 1),
      e.2 = strlenp e.1 := fun e he => hmark e (sorted_by_length_mem _ _ e he).1
  refine ⟨sorted_by_length_perm_all _ _ hkey, ?_, ?_, hmem⟩
  · refine List.Pairwise.imp_of_mem ?_ (sorted_by_length_pairwise _ _)
    intro a b ha hb hab
    rw [← hmem a ha, ← hmem b hb]
    exact hab
  · intro l
    have e1 : (sorted_by_length (terms.map (fun e => (e.1, strlenp e.1))) (MAX_TERM_LEN + 1)).filter
        (fun e => decide (strlenp e.1 = l))
        = (sorted_by_length (terms.map (fun e => (e.1, strlenp e.1))) (MAX_TERM_LEN + 1)).filter
          (fun e => decide (e.2 = l)) := by
      apply List.filter_congr
      intro e he
      rw [hmem e he]
    have e2 : (terms.map (fun e => (e.1, strlenp e.1))).filter (fun e => decide (strlenp e.1 = l))
        = length_class l (terms.map (fun e => (e.1, strlenp e.1))) := by
      unfold length_class
      apply List.filter_congr
      intro e he
      rw [hmark e he]
    rw [e1, e2, sorted_by_length_filter]
    by_cases h : l < MAX_TERM_LEN + 1
    · rw [if_pos h]
    · rw [if_neg h]
      symm
      unfold length_class
      rw [List.filter_eq_nil_iff]
      intro e he
      have := hkey e he
      simp only [decide_eq_true_eq]
      omega

/-- Witness of C36: the words `bb`, `a`, `cat`, `ab`, `xy` with the penalised
length (`bb` and `xy` have no vowel and count as 4 bytes) are returned in the
order `a`, `ab`, `cat`, `bb`, `xy`. -/
theorem sort_by_length_stable_permutation_witness :
    sort_term_array_by_length (strlenp true ascii_vowel 2) (List.replicate (MAX_TERM_LEN + 1) 0)
        (List.replicate 5 ([], 0))
        [([98, 98], 0), ([97], 0), ([99, 97, 116], 0), ([97, 98], 0), ([120, 121], 0)] 5
      = [([97], 1), ([97, 98], 2), ([99, 97, 116], 3), ([98, 98], 4), ([120, 121], 4)] ∧
    (sort_term_array_by_length (strlenp true ascii_vowel 2) (List.replicate (MAX_TERM_LEN + 1) 0)
        (List.replicate 5 ([], 0))
        [([98, 98], 0), ([97], 0), ([99, 97, 116], 0), ([97, 98], 0), ([120, 121], 0)]
        5).Perm
      ([([98, 98], 0), ([97], 0), ([99, 97, 116], 0), ([97, 98], 0), ([120, 121], 0)].map
        (fun e => (e.1, strlenp true ascii_vowel 2 e.1))) :=
  ⟨by decide,
    (sort_by_length_stable_permutation (strlenp true ascii_vowel 2)
      [([98, 98], 0), ([97], 0), ([99, 97, 116], 0), ([97, 98], 0), ([120, 121], 0)]
      (List.replicate 5 ([], 0)) 5 (by decide) (by decide) (by decide)).1⟩

end SynthaCorpus
